import Mathlib

/-! # libjson: a shallow embedding of the cJSON fork and its specification

The repository ships two variants of the same JSON codec:

* `src/cJSON.c`: every parsed string owns its own heap block
  (namespace `PerValue`);
* `src/allmem_c/cJSON.c`: parsed strings are slices of one scratch arena
  (namespace `Arena`).

Functions that are textually identical in both files are embedded once, at the
top level of `LibJson`.

Conventions of the embedding.

* A C string is the list of its bytes before the terminating NUL; reading at or
  past the terminator yields `0`.
* A node pointer is a natural number, `0` being `NULL`; the store `Mem` maps
  addresses to `cJSON` records and `cJSON_New_Item` hands out fresh addresses.
  Allocation is assumed to succeed.
* Owned strings are held by value inside the record (`none` is `NULL`).
* `char` is the signed 8-bit type of the usual targets and `tolower` is the one
  of the "C" locale.
* Loops that follow `next` pointers take a fuel argument and return `none`
  when it runs out (the C loop would not terminate on a cyclic chain).
* A `double` is an exact decimal `mant * 10 ^ exp10` or a non-finite value;
  rounding is not modelled. The floating conversions of `sprintf` and the
  content of fresh blocks are a parameter `Libc` of the printer.
* The recursive productions of the parser and the printer take a fuel argument;
  the theorems show that fuel proportional to the input gives the result.
-/

namespace LibJson

/-! ## Bytes and C library helpers -/

/-- Content of a NUL-terminated C string. -/
abbrev Bytes := List Nat

/-- Well-formed string content: every byte is a non-NUL 8-bit value. -/
def IsCStr (s : Bytes) : Prop := ∀ b ∈ s, 0 < b ∧ b < 256

/-- The byte a `const char *` points at; the terminator when the content is exhausted. -/
def peek (s : Bytes) : Nat := s.headD 0

/-- The libc `tolower` in the "C" locale, on byte values. -/
def tolower (c : Nat) : Nat := if 65 ≤ c ∧ c ≤ 90 then c + 32 else c

/-- Conversion of a (signed) `char` value to `unsigned int`: sign extension. -/
def char_to_unsigned (c : Nat) : Nat := if c < 128 then c else c + (2 ^ 32 - 256)

/-- The loop of `cJSON_strcasecmp` once both pointers are known to be non-null. -/
def cJSON_strcasecmp_loop : Bytes → Bytes → Int
  | [], s2 =>
    if tolower 0 = tolower (peek s2) then 0
    else (tolower 0 : Int) - (tolower (peek s2) : Int)
  | a :: s1, s2 =>
    if tolower a = tolower (peek s2) then
      (if a = 0 then 0 else cJSON_strcasecmp_loop s1 s2.tail)
    else (tolower a : Int) - (tolower (peek s2) : Int)

/-- Embedding of `cJSON_strcasecmp` (identical in both files). -/
def cJSON_strcasecmp : Option Bytes → Option Bytes → Int
  | none, none => 0
  | none, some _ => 1
  | some _, none => 1
  | some s1, some s2 => cJSON_strcasecmp_loop s1 s2

/-- Two keys are equal up to ASCII letter case. -/
def EqIgnoreCase (a b : Bytes) : Prop := a.map tolower = b.map tolower

instance (a b : Bytes) : Decidable (EqIgnoreCase a b) := by
  unfold EqIgnoreCase; infer_instance

/-! ## Numbers -/

/-- Exact-arithmetic stand-in for a C `double`: the finite value
`mant * 10 ^ exp10`, or one of the non-finite values. Rounding is not modelled. -/
inductive Double where
  | fin (mant : Int) (exp10 : Int)
  | nan
  | inf (neg : Bool)
deriving DecidableEq

/-! ## Nodes and the store -/

def cJSON_False : Nat := 0
def cJSON_True : Nat := 1
def cJSON_NULL : Nat := 2
def cJSON_Number : Nat := 3
def cJSON_String : Nat := 4
def cJSON_Array : Nat := 5
def cJSON_Object : Nat := 6
def cJSON_IsReference : Nat := 256

def Allocate_None : Nat := 0
def Allocate_Key : Nat := 1
def Allocate_Value : Nat := 2

/-- The `cJSON` record, with the fields the two source files use
(`valueint` only in `src/cJSON.c`, `allocate_type` only in the arena variant). -/
structure cJSON where
  next : Nat
  prev : Nat
  type : Nat
  child : Nat
  valuestring : Option Bytes
  valueint : Int
  valuedouble : Double
  string : Option Bytes
  hash_string : Int
  allocate_type : Nat
deriving DecidableEq

/-- Result of `memset(node,0,sizeof(cJSON))`. -/
def cJSON.zeroed : cJSON :=
  { next := 0, prev := 0, type := 0, child := 0, valuestring := none, valueint := 0,
    valuedouble := Double.fin 0 0, string := none, hash_string := 0, allocate_type := 0 }

/-- The node store: contents by address, and the next fresh address. -/
structure Mem where
  node : Nat → cJSON
  brk : Nat

/-- The store before any allocation. -/
def Mem.init : Mem := { node := fun _ => cJSON.zeroed, brk := 1 }

/-- Overwrite the record at address `p`. -/
def Mem.set (m : Mem) (p : Nat) (c : cJSON) : Mem :=
  { node := fun q => if q = p then c else m.node q, brk := m.brk }

/-- Embedding of `cJSON_New_Item`: a zeroed record whose hash is the sentinel `-1`. -/
def cJSON_New_Item (m : Mem) : Mem × Nat :=
  ({ node := fun q => if q = m.brk then { cJSON.zeroed with hash_string := -1 } else m.node q,
     brk := m.brk + 1 }, m.brk)

/-! ## Hashing -/

namespace PerValue

/-- The loop of `BKDRHash` in `src/cJSON.c`: `hash=hash*seed+(*key++)`. -/
def BKDRHash_loop : Bytes → Nat → Nat
  | [], hash => hash
  | c :: key, hash => BKDRHash_loop key ((hash * 131 + char_to_unsigned c) % 2 ^ 32)

/-- Embedding of `BKDRHash` of `src/cJSON.c`. -/
def BKDRHash (key : Bytes) : Int := ((BKDRHash_loop key 0 % 2 ^ 31 : Nat) : Int)

end PerValue

namespace Arena

/-- The loop of `BKDRHash` in `src/allmem_c/cJSON.c`: `hash=hash*seed+tolower(*key++)`. -/
def BKDRHash_loop : Bytes → Nat → Nat
  | [], hash => hash
  | c :: key, hash => BKDRHash_loop key ((hash * 131 + char_to_unsigned (tolower c)) % 2 ^ 32)

/-- Embedding of `BKDRHash` of `src/allmem_c/cJSON.c`. -/
def BKDRHash (key : Bytes) : Int := ((BKDRHash_loop key 0 % 2 ^ 31 : Nat) : Int)

end Arena

/-! ## Lookup and list handling (identical in both files up to the hash) -/

/-- The loop of `cJSON_GetArraySize`. -/
def cJSON_GetArraySize_loop (m : Mem) : Nat → Nat → Int → Option Int
  | 0, _, _ => none
  | fuel + 1, c, i =>
    if c = 0 then some i else cJSON_GetArraySize_loop m fuel (m.node c).next (i + 1)

/-- Embedding of `cJSON_GetArraySize`. -/
def cJSON_GetArraySize (fuel : Nat) (m : Mem) (array : Nat) : Option Int :=
  cJSON_GetArraySize_loop m fuel (m.node array).child 0

/-- The loop `while (c && item>0) item--,c=c->next;`, on the positive part of the counter. -/
def walk_items (m : Mem) : Nat → Nat → Nat
  | 0, c => c
  | k + 1, c => if c = 0 then c else walk_items m k (m.node c).next

/-- Embedding of `cJSON_GetArrayItem`; the counter is a C `int`. -/
def cJSON_GetArrayItem (m : Mem) (array : Nat) (item : Int) : Nat :=
  walk_items m item.toNat (m.node array).child

/-- Outcome of a member lookup: the store (hashes may have been cached), the
node found (`0` when absent) and the position reached. -/
structure Lookup where
  mem : Mem
  found : Nat
  index : Int

/-- The loop of `cJSON_GetObjectItemV2`, for the hash function `hash` of the file.
`BKDRHash(c->string)` on a null key dereferences `NULL`: the embedding is stuck there. -/
def cJSON_GetObjectItemV2_loop (hash : Bytes → Int) (string : Bytes) (hash_code : Int) :
    Nat → Mem → Nat → Int → Option Lookup
  | 0, _, _, _ => none
  | fuel + 1, m, c, i =>
    if c = 0 then some { mem := m, found := 0, index := i }
    else
      let cached : Option Mem :=
        if (m.node c).hash_string = -1 then
          match (m.node c).string with
          | none => none
          | some key => some (m.set c { m.node c with hash_string := hash key })
        else some m
      match cached with
      | none => none
      | some m1 =>
        if (m1.node c).hash_string = hash_code ∧
            cJSON_strcasecmp (m1.node c).string (some string) = 0 then
          some { mem := m1, found := c, index := i }
        else cJSON_GetObjectItemV2_loop hash string hash_code fuel m1 (m1.node c).next (i + 1)

/-- Result of `cJSON_GetObjectItemV2`: the store, the returned pointer, and the
value of `*pos` afterwards (`none` when the caller passed a null `pos`). -/
structure Found where
  mem : Mem
  item : Nat
  pos : Option Int

/-- Body of `cJSON_GetObjectItemV2` for the hash function of the file. -/
def GetObjectItemV2_with (hash : Bytes → Int) (fuel : Nat) (m : Mem) (object : Nat)
    (string : Bytes) (pos : Option Int) : Option Found :=
  match cJSON_GetObjectItemV2_loop hash string (hash string) fuel m (m.node object).child 0 with
  | none => none
  | some r =>
    some { mem := r.mem, item := r.found,
           pos := if r.found = 0 then pos else pos.map (fun _ => r.index) }

/-- Embedding of `suffix_object`. -/
def suffix_object (m : Mem) (prev item : Nat) : Mem :=
  let m1 := m.set prev { m.node prev with next := item }
  m1.set item { m1.node item with prev := prev }

/-- Embedding of `create_reference`: a bitwise copy with the key and the links cleared. -/
def create_reference (m : Mem) (item : Nat) : Mem × Nat :=
  let (m1, ref) := cJSON_New_Item m
  (m1.set ref { m1.node item with
      string := none, type := (m1.node item).type ||| cJSON_IsReference, next := 0, prev := 0 },
   ref)

/-- The loop `while (c && c->next) c=c->next;` of `cJSON_AddItemToArray`. -/
def last_sibling (m : Mem) : Nat → Nat → Option Nat
  | 0, _ => none
  | fuel + 1, c =>
    if c ≠ 0 ∧ (m.node c).next ≠ 0 then last_sibling m fuel (m.node c).next else some c

/-- Embedding of `cJSON_AddItemToArray`. -/
def cJSON_AddItemToArray (fuel : Nat) (m : Mem) (array item : Nat) : Option Mem :=
  let c := (m.node array).child
  if item = 0 then some m
  else if c = 0 then some (m.set array { m.node array with child := item })
  else
    match last_sibling m fuel c with
    | none => none
    | some c1 => some (suffix_object m c1 item)

/-- Embedding of `cJSON_DetachItemFromParent`. -/
def cJSON_DetachItemFromParent (m : Mem) (object c : Nat) : Mem × Nat :=
  let m1 := if (m.node c).prev ≠ 0 then
      m.set (m.node c).prev { m.node (m.node c).prev with next := (m.node c).next } else m
  let m2 := if (m1.node c).next ≠ 0 then
      m1.set (m1.node c).next { m1.node (m1.node c).next with prev := (m1.node c).prev } else m1
  let m3 := if c = (m2.node object).child then
      m2.set object { m2.node object with child := (m2.node c).next } else m2
  (m3.set c { m3.node c with prev := 0, next := 0 }, c)

/-- Embedding of `cJSON_DetachItemFromArray`. -/
def cJSON_DetachItemFromArray (m : Mem) (array : Nat) (which : Int) : Mem × Nat :=
  let c := walk_items m which.toNat (m.node array).child
  if c ≠ 0 then cJSON_DetachItemFromParent m array c else (m, 0)

/-! ## Constructors -/

/-- Allocate a node and set its type: the common shape of the `cJSON_Create*` functions. -/
def create_typed (m : Mem) (ty : Nat) : Mem × Nat :=
  let (m1, item) := cJSON_New_Item m
  (m1.set item { m1.node item with type := ty }, item)

def cJSON_CreateNull (m : Mem) : Mem × Nat := create_typed m cJSON_NULL
def cJSON_CreateTrue (m : Mem) : Mem × Nat := create_typed m cJSON_True
def cJSON_CreateFalse (m : Mem) : Mem × Nat := create_typed m cJSON_False
def cJSON_CreateBool (m : Mem) (b : Int) : Mem × Nat :=
  create_typed m (if b ≠ 0 then cJSON_True else cJSON_False)
def cJSON_CreateArray (m : Mem) : Mem × Nat := create_typed m cJSON_Array
def cJSON_CreateObject (m : Mem) : Mem × Nat := create_typed m cJSON_Object

namespace PerValue

/-- Lookup of `src/cJSON.c`. -/
def cJSON_GetObjectItemV2 (fuel : Nat) (m : Mem) (object : Nat) (string : Bytes)
    (pos : Option Int) : Option Found :=
  GetObjectItemV2_with BKDRHash fuel m object string pos

/-- Embedding of `cJSON_GetObjectItem` of `src/cJSON.c`. -/
def cJSON_GetObjectItem (fuel : Nat) (m : Mem) (object : Nat) (string : Bytes) : Option Found :=
  cJSON_GetObjectItemV2 fuel m object string none

/-- Embedding of `cJSON_AddItemToObject` of `src/cJSON.c`. -/
def cJSON_AddItemToObject (fuel : Nat) (m : Mem) (object : Nat) (string : Bytes) (item : Nat) :
    Option Mem :=
  if item = 0 then some m
  else
    cJSON_AddItemToArray fuel (m.set item { m.node item with string := some string }) object item

end PerValue

namespace Arena

/-- Lookup of `src/allmem_c/cJSON.c`. -/
def cJSON_GetObjectItemV2 (fuel : Nat) (m : Mem) (object : Nat) (string : Bytes)
    (pos : Option Int) : Option Found :=
  GetObjectItemV2_with BKDRHash fuel m object string pos

/-- Embedding of `cJSON_GetObjectItem` of `src/allmem_c/cJSON.c`. -/
def cJSON_GetObjectItem (fuel : Nat) (m : Mem) (object : Nat) (string : Bytes) : Option Found :=
  cJSON_GetObjectItemV2 fuel m object string none

/-- Embedding of `cJSON_AddItemToObject` of `src/allmem_c/cJSON.c`. -/
def cJSON_AddItemToObject (fuel : Nat) (m : Mem) (object : Nat) (string : Bytes) (item : Nat) :
    Option Mem :=
  if item = 0 then some m
  else
    cJSON_AddItemToArray fuel
      (m.set item { m.node item with
        string := some string, allocate_type := (m.node item).allocate_type ||| Allocate_Key })
      object item

/-- Embedding of `cJSON_AddItemReferenceToObject`. -/
def cJSON_AddItemReferenceToObject (fuel : Nat) (m : Mem) (object : Nat) (string : Bytes)
    (item : Nat) : Option Mem :=
  let (m1, ref) := create_reference m item
  cJSON_AddItemToObject fuel m1 object string ref

/-- Embedding of `cJSON_DetachItemFromObject`. -/
def cJSON_DetachItemFromObject (fuel : Nat) (m : Mem) (object : Nat) (string : Bytes) :
    Option (Mem × Nat) :=
  match cJSON_GetObjectItemV2 fuel m object string none with
  | none => none
  | some r => if r.item ≠ 0 then some (cJSON_DetachItemFromParent r.mem object r.item)
              else some (r.mem, 0)

end Arena

/-! ## Child lists as doubly linked segments -/

/-- The record without its three link fields. -/
def cJSON.data (c : cJSON) : cJSON := { c with next := 0, prev := 0, child := 0 }

/-- Doubly linked list segment: the nodes `l`, entered from `pr`, leaving to `nx`. -/
def DLSeg (m : Mem) : Nat → List Nat → Nat → Prop
  | _, [], _ => True
  | pr, c :: l, nx =>
    c ≠ 0 ∧ (m.node c).prev = pr ∧ (m.node c).next = l.headD nx ∧ DLSeg m c l nx

instance DLSeg.dec (m : Mem) : ∀ pr l nx, Decidable (DLSeg m pr l nx)
  | _, [], _ => isTrue trivial
  | pr, c :: l, nx => by
    unfold DLSeg
    have := DLSeg.dec m c l nx
    infer_instance

/-- The container at `p` has exactly the children `l`, in this order. -/
def Children (m : Mem) (p : Nat) (l : List Nat) : Prop :=
  (m.node p).child = l.headD 0 ∧ DLSeg m 0 l 0

instance (m : Mem) (p : Nat) (l : List Nat) : Decidable (Children m p l) := by
  unfold Children; infer_instance


/-- The key of a record, empty when the pointer is null. -/
def cJSON.key (c : cJSON) : Bytes := c.string.getD []

/-- The record with the cached hash masked out. -/
def cJSON.unhashed (c : cJSON) : cJSON := { c with hash_string := 0 }

/-- Every child carries a key, which is a proper C string, and its cached hash is
the sentinel `-1` or the hash of that key. -/
def KeysCached (hash : Bytes → Int) (m : Mem) (l : List Nat) : Prop :=
  ∀ c ∈ l, (m.node c).string.isSome = true ∧ IsCStr (m.node c).key ∧
    ((m.node c).hash_string = -1 ∨ (m.node c).hash_string = hash (m.node c).key)

instance (s : Bytes) : Decidable (IsCStr s) := by
  unfold IsCStr; infer_instance

instance (hash : Bytes → Int) (m : Mem) (l : List Nat) : Decidable (KeysCached hash m l) := by
  unfold KeysCached; infer_instance


/-! ## The C library, as far as the codec uses it -/

/-- What the embedding takes from the C library without modelling it: the content of
freshly allocated blocks and the floating conversions of `sprintf`. -/
structure Libc where
  fresh : Nat → Nat
  sprintf_f0 : Double → Bytes
  sprintf_e : Double → Bytes
  sprintf_f : Double → Bytes

def INT_MAX : Int := 2147483647
def INT_MIN : Int := -2147483648

/-- The value of a `char` as an `int` (signed 8-bit). -/
def char_to_int (c : Nat) : Int := if c < 128 then (c : Int) else (c : Int) - 256

/-- The character class `'0'..'9'`. -/
def is_digit (c : Nat) : Bool := decide (48 ≤ c) && decide (c ≤ 57)

/-- One lower-case hexadecimal digit. -/
def hex_digit (v : Nat) : Nat := if v < 10 then 48 + v else 87 + v

/-- The bytes `sprintf(temp,"u%04x",token)` produces for a byte value. -/
def sprintf_u04x (token : Nat) : Bytes :=
  [117, hex_digit (token / 4096 % 16), hex_digit (token / 256 % 16),
    hex_digit (token / 16 % 16), hex_digit (token % 16)]

/-- Decimal digits of a natural number, most significant first. -/
def dec_digits : Nat → Nat → Bytes → Bytes
  | 0, _, acc => acc
  | fuel + 1, n, acc =>
    if n < 10 then (48 + n) :: acc else dec_digits fuel (n / 10) ((48 + n % 10) :: acc)

/-- The bytes `sprintf(str,"%d",v)` produces. -/
def sprintf_d (v : Int) : Bytes :=
  if v < 0 then 45 :: dec_digits (v.natAbs + 1) v.natAbs []
  else dec_digits (v.natAbs + 1) v.natAbs []

/-- The value of one hexadecimal digit, if the byte is one. -/
def hex_value (c : Nat) : Option Nat :=
  if 48 ≤ c ∧ c ≤ 57 then some (c - 48)
  else if 65 ≤ c ∧ c ≤ 70 then some (c - 55)
  else if 97 ≤ c ∧ c ≤ 102 then some (c - 87)
  else none

/-- The value `sscanf(p,"%4x",&uc)` stores when the input starts with one to four
hexadecimal digits and no `0x` prefix. Inputs that start with white space, a sign or a
`0x` prefix, and inputs on which nothing is converted (`uc` stays uninitialised), are
outside the embedding: `none`. -/
def sscanf_4x (p : Bytes) : Option Nat :=
  if peek p = 48 ∧ (peek p.tail = 120 ∨ peek p.tail = 88) then none
  else
    match hex_value (peek p) with
    | none => none
    | some a =>
      match hex_value (peek p.tail) with
      | none => some a
      | some b =>
        match hex_value (peek p.tail.tail) with
        | none => some (a * 16 + b)
        | some c =>
          match hex_value (peek p.tail.tail.tail) with
          | none => some ((a * 16 + b) * 16 + c)
          | some d => some (((a * 16 + b) * 16 + c) * 16 + d)

/-- The table `firstByteMark`. -/
def firstByteMark (len : Nat) : Nat :=
  match len with
  | 2 => 0xC0
  | 3 => 0xE0
  | 4 => 0xF0
  | 5 => 0xF8
  | 6 => 0xFC
  | _ => 0

/-- The bytes the fall-through `switch (len)` of `parse_string` stores for the code
`uc`: `len` bytes, the last ones first, each truncated to a `char`. -/
def utf8_bytes (uc : Nat) (len : Nat) : Bytes :=
  match len with
  | 1 => [(uc ||| firstByteMark 1) % 256]
  | 2 => [((uc >>> 6) ||| firstByteMark 2) % 256, (uc ||| 0x80) &&& 0xBF]
  | 3 => [((uc >>> 12) ||| firstByteMark 3) % 256, ((uc >>> 6) ||| 0x80) &&& 0xBF,
          (uc ||| 0x80) &&& 0xBF]
  | 4 => [((uc >>> 18) ||| firstByteMark 4) % 256, ((uc >>> 12) ||| 0x80) &&& 0xBF,
          ((uc >>> 6) ||| 0x80) &&& 0xBF, (uc ||| 0x80) &&& 0xBF]
  | _ => []

/-- The C string stored in a block of bytes: the bytes before the first NUL. -/
def as_cstr (s : Bytes) : Bytes := s.takeWhile (fun c => c ≠ 0)

/-- Embedding of `strlen`: the number of bytes before the first NUL. -/
def strlen (s : Bytes) : Nat := (as_cstr s).length

/-- Embedding of `skip`: jump white space and cr/lf. -/
def skip : Bytes → Bytes
  | [] => []
  | c :: s => if c ≠ 0 ∧ c ≤ 32 then skip s else c :: s

/-! ## Exact comparisons on the stand-in for `double` -/

/-- The integer `(int)d`; out of range conversions give `INT_MIN`, as the x86
conversion instruction does (C leaves them undefined). -/
def Double.toInt : Double → Int
  | Double.fin m e =>
    let v := if 0 ≤ e then m * 10 ^ e.toNat else Int.tdiv m (10 ^ (-e).toNat)
    if INT_MIN ≤ v ∧ v ≤ INT_MAX then v else INT_MIN
  | _ => INT_MIN

/-- The test `fabs(((double)i)-d)<=DBL_EPSILON`, with `DBL_EPSILON = 2^-52`. -/
def Double.near_int (d : Double) (i : Int) : Bool :=
  match d with
  | Double.fin m e =>
    if 0 ≤ e then decide (i = m * 10 ^ e.toNat)
    else decide ((i * 10 ^ (-e).toNat - m).natAbs * 2 ^ 52 ≤ 10 ^ (-e).toNat)
  | _ => false

/-- The test `d<=i` for an integer bound. -/
def Double.le_int (d : Double) (i : Int) : Bool :=
  match d with
  | Double.fin m e =>
    if 0 ≤ e then decide (m * 10 ^ e.toNat ≤ i) else decide (m ≤ i * 10 ^ (-e).toNat)
  | Double.nan => false
  | Double.inf neg => neg

/-- The test `d>=i` for an integer bound. -/
def Double.ge_int (d : Double) (i : Int) : Bool :=
  match d with
  | Double.fin m e =>
    if 0 ≤ e then decide (i ≤ m * 10 ^ e.toNat) else decide (i * 10 ^ (-e).toNat ≤ m)
  | Double.nan => false
  | Double.inf neg => !neg

/-- The integer `floor(d)` of a finite value. -/
def Double.floor : Double → Option Int
  | Double.fin m e => some (if 0 ≤ e then m * 10 ^ e.toNat else m / 10 ^ (-e).toNat)
  | _ => none

/-- The test `fabs(floor(d)-d)<=DBL_EPSILON`. -/
def Double.is_integral (d : Double) : Bool :=
  match d.floor with
  | some f => d.near_int f
  | none => false

/-- The test `fabs(d)<1.0e-6 || fabs(d)>1.0e9`. -/
def Double.tiny_or_huge (d : Double) : Bool :=
  match d with
  | Double.fin m e =>
    if 0 ≤ e then decide (m = 0) || decide (10 ^ 9 < m.natAbs * 10 ^ e.toNat)
    else decide (m.natAbs * 10 ^ 6 < 10 ^ (-e).toNat) ||
      decide (10 ^ 9 * 10 ^ (-e).toNat < m.natAbs)
  | Double.nan => false
  | Double.inf _ => true

/-! ## The growable buffer -/

/-- The `cJSON_Buf` record: the bytes of the allocated block by index, the allocated
size `len` and the write cursor `offset`. -/
structure cJSON_Buf where
  buf : Nat → Nat
  len : Int
  offset : Int

/-- Store one byte at index `i` of the block. -/
def cJSON_Buf.poke (b : cJSON_Buf) (i : Int) (v : Nat) : cJSON_Buf :=
  { b with buf := fun j => if (j : Int) = i then v else b.buf j }

/-- Store the bytes `s` from index `i` on. -/
def cJSON_Buf.pokes : Bytes → cJSON_Buf → Int → cJSON_Buf
  | [], b, _ => b
  | c :: s, b, i => cJSON_Buf.pokes s (b.poke i c) (i + 1)

/-- The `n` bytes of the block from index `start` on. -/
def cJSON_Buf.slice (b : cJSON_Buf) (start n : Nat) : Bytes :=
  (List.range n).map (fun i => b.buf (start + i))

/-- The C string that starts at index `start` and lies before the cursor. -/
def cJSON_Buf.text (b : cJSON_Buf) (start : Int) : Bytes :=
  as_cstr (b.slice start.toNat (b.offset - start).toNat)

/-- The doubling loop `while(new_size - buf->offset <= len) new_size*=2;`. -/
def grow_size (offset len : Int) : Nat → Int → Option Int
  | 0, _ => none
  | fuel + 1, new_size =>
    if new_size - offset ≤ len then grow_size offset len fuel (new_size * 2) else some new_size

/-- Embedding of `cJSON_Buf_Check` with explicit fuel for the doubling loop;
`realloc` succeeds and keeps the bytes. -/
def cJSON_Buf_Check_fuel (fuel : Nat) (b : cJSON_Buf) (len : Int) : Option cJSON_Buf :=
  if b.len - b.offset > len then some b
  else
    match grow_size b.offset len fuel (b.len * 2) with
    | none => none
    | some new_size => some { b with len := new_size }

/-- Embedding of `cJSON_Buf_Check` (identical in both files). The fuel suffices
whenever the loop exits at all. -/
def cJSON_Buf_Check (b : cJSON_Buf) (len : Int) : Option cJSON_Buf :=
  cJSON_Buf_Check_fuel ((b.offset + len).toNat + 2) b len

/-- Embedding of `cJSON_Buf_Copy_Str`: `strcpy` also stores the terminating NUL. -/
def cJSON_Buf_Copy_Str (b : cJSON_Buf) (str : Bytes) : Option cJSON_Buf :=
  match cJSON_Buf_Check b str.length with
  | none => none
  | some b1 =>
    some { cJSON_Buf.pokes (str ++ [0]) b1 b1.offset with offset := b1.offset + str.length }

/-- Embedding of `cJSON_Buf_Copy_Char`. -/
def cJSON_Buf_Copy_Char (b : cJSON_Buf) (ch : Nat) : Option cJSON_Buf :=
  match cJSON_Buf_Check b 1 with
  | none => none
  | some b1 => some { b1.poke b1.offset ch with offset := b1.offset + 1 }

/-- Copy one byte when `cond` holds: the shape `if(fmt&&!cJSON_Buf_Copy_Char(..))return 0;`. -/
def copy_char_if (cond : Bool) (b : cJSON_Buf) (ch : Nat) : Option cJSON_Buf :=
  if cond then cJSON_Buf_Copy_Char b ch else some b

/-! ## Printing strings (identical in both files) -/

/-- The loop of `print_string_ptr`. -/
def print_string_loop : Bytes → cJSON_Buf → Option cJSON_Buf
  | [], b => some b
  | c :: ptr, b =>
    if c > 31 ∧ c ≠ 34 ∧ c ≠ 92 then
      (cJSON_Buf_Copy_Char b c).bind (print_string_loop ptr)
    else
      (cJSON_Buf_Copy_Char b 92).bind fun b1 =>
        (if c = 92 then cJSON_Buf_Copy_Char b1 92
         else if c = 34 then cJSON_Buf_Copy_Char b1 34
         else if c = 8 then cJSON_Buf_Copy_Char b1 98
         else if c = 12 then cJSON_Buf_Copy_Char b1 102
         else if c = 10 then cJSON_Buf_Copy_Char b1 110
         else if c = 13 then cJSON_Buf_Copy_Char b1 114
         else if c = 9 then cJSON_Buf_Copy_Char b1 116
         else cJSON_Buf_Copy_Str b1 (sprintf_u04x c)).bind (print_string_loop ptr)

/-- Embedding of `print_string_ptr`; a null `str` is dereferenced, so there is no result. -/
def print_string_ptr (str : Option Bytes) (b : cJSON_Buf) : Option cJSON_Buf :=
  match str with
  | none => none
  | some s =>
    (cJSON_Buf_Copy_Char b 34).bind fun b1 =>
      (print_string_loop s b1).bind fun b2 => cJSON_Buf_Copy_Char b2 34

/-! ## Printing values -/

/-- The loop of `print_array`, given the printer `pv` for one element. -/
def print_array_loop (pv : Nat → cJSON_Buf → Option cJSON_Buf) (m : Mem) (fmt : Bool) :
    Nat → Nat → cJSON_Buf → Option cJSON_Buf
  | 0, _, _ => none
  | fuel + 1, child, b =>
    if child = 0 then some b
    else
      (pv child b).bind fun b1 =>
        (if (m.node child).next ≠ 0 then
          (cJSON_Buf_Copy_Char b1 44).bind fun b2 => copy_char_if fmt b2 32
         else some b1).bind fun b3 =>
          print_array_loop pv m fmt fuel (m.node child).next b3

/-- Embedding of `print_array`, given the printer `pv` for one element. -/
def print_array (pv : Nat → cJSON_Buf → Option cJSON_Buf) (m : Mem) (fmt : Bool)
    (fuel : Nat) (item : Nat) (b : cJSON_Buf) : Option cJSON_Buf :=
  (cJSON_Buf_Copy_Char b 91).bind fun b1 =>
    (print_array_loop pv m fmt fuel (m.node item).child b1).bind fun b2 =>
      cJSON_Buf_Copy_Char b2 93

/-- The loop `for (j=0;fmt&&j<depth;j++)` of `print_object`, which emits the tabs. -/
def print_tabs (fmt : Bool) : Nat → cJSON_Buf → Option cJSON_Buf
  | 0, b => some b
  | j + 1, b => if fmt then (cJSON_Buf_Copy_Char b 9).bind (print_tabs fmt j) else some b

/-- The loop of `print_object`, given the printer `pv` for one member value; `depth`
is the incremented depth. -/
def print_object_loop (pv : Nat → cJSON_Buf → Option cJSON_Buf) (m : Mem) (fmt : Bool)
    (depth : Nat) : Nat → Nat → cJSON_Buf → Option cJSON_Buf
  | 0, _, _ => none
  | fuel + 1, child, b =>
    if child = 0 then some b
    else
      (print_tabs fmt depth b).bind fun b1 =>
        (print_string_ptr (m.node child).string b1).bind fun b2 =>
          (cJSON_Buf_Copy_Char b2 58).bind fun b3 =>
            (copy_char_if fmt b3 9).bind fun b4 =>
              (pv child b4).bind fun b5 =>
                (if (m.node child).next ≠ 0 then cJSON_Buf_Copy_Char b5 44 else some b5).bind
                  fun b6 =>
                    (copy_char_if fmt b6 10).bind fun b7 =>
                      print_object_loop pv m fmt depth fuel (m.node child).next b7

/-- Embedding of `print_object`, given the printer `pv` for one member value. -/
def print_object (pv : Nat → cJSON_Buf → Option cJSON_Buf) (m : Mem) (fmt : Bool)
    (depth : Nat) (fuel : Nat) (item : Nat) (b : cJSON_Buf) : Option cJSON_Buf :=
  (cJSON_Buf_Copy_Char b 123).bind fun b1 =>
    (copy_char_if fmt b1 10).bind fun b2 =>
      (print_object_loop pv m fmt (depth + 1) fuel (m.node item).child b2).bind fun b3 =>
        cJSON_Buf_Copy_Char b3 125

namespace PerValue

/-- Embedding of `cJSON_Buf_Init` of `src/cJSON.c`. -/
def cJSON_Buf_Init (libc : Libc) (size padding : Int) : cJSON_Buf :=
  { buf := libc.fresh, len := size + padding, offset := padding }

/-- Embedding of `print_number` of `src/cJSON.c`. -/
def print_number (libc : Libc) (item : cJSON) (b : cJSON_Buf) : Option cJSON_Buf :=
  let d := item.valuedouble
  if d.near_int item.valueint && d.le_int INT_MAX && d.ge_int INT_MIN then
    cJSON_Buf_Copy_Str b (sprintf_d item.valueint)
  else if d.is_integral then cJSON_Buf_Copy_Str b (libc.sprintf_f0 d)
  else if d.tiny_or_huge then cJSON_Buf_Copy_Str b (libc.sprintf_e d)
  else cJSON_Buf_Copy_Str b (libc.sprintf_f d)

/-- Embedding of `print_value` of `src/cJSON.c`, with `print_array` and `print_object`
called on the printer of one fuel less. An unknown type leaves `out` null. -/
def print_value (libc : Libc) (m : Mem) (fmt : Bool) :
    Nat → Nat → Nat → cJSON_Buf → Option cJSON_Buf
  | 0, _, _, _ => none
  | fuel + 1, item, depth, b =>
    if item = 0 then none
    else
      let ty := (m.node item).type % 256
      if ty = cJSON_NULL then cJSON_Buf_Copy_Str b [110, 117, 108, 108]
      else if ty = cJSON_False then cJSON_Buf_Copy_Str b [102, 97, 108, 115, 101]
      else if ty = cJSON_True then cJSON_Buf_Copy_Str b [116, 114, 117, 101]
      else if ty = cJSON_Number then print_number libc (m.node item) b
      else if ty = cJSON_String then print_string_ptr (m.node item).valuestring b
      else if ty = cJSON_Array then
        print_array (fun c b1 => print_value libc m fmt fuel c (depth + 1) b1) m fmt fuel item b
      else if ty = cJSON_Object then
        print_object (fun c b1 => print_value libc m fmt fuel c (depth + 1) b1) m fmt depth
          fuel item b
      else none

/-- Embedding of `print_json` of `src/cJSON.c`. -/
def print_json (libc : Libc) (fuel : Nat) (m : Mem) (item : Nat) (fmt : Bool)
    (padding estimate : Int) : Option cJSON_Buf :=
  let estimate1 := if estimate < 256 then 256 else estimate
  (print_value libc m fmt fuel item 0 (cJSON_Buf_Init libc estimate1 padding)).bind fun b =>
    cJSON_Buf_Copy_Char b 0

/-- Embedding of `cJSON_Print` of `src/cJSON.c`. -/
def cJSON_Print (libc : Libc) (fuel : Nat) (m : Mem) (item : Nat) (padding estimate : Int) :
    Option cJSON_Buf :=
  print_json libc fuel m item true padding estimate

/-- Embedding of `cJSON_PrintUnformatted` of `src/cJSON.c`. -/
def cJSON_PrintUnformatted (libc : Libc) (fuel : Nat) (m : Mem) (item : Nat)
    (padding estimate : Int) : Option cJSON_Buf :=
  print_json libc fuel m item false padding estimate

end PerValue

/-! ## Parsing -/

/-- Outcome of a production: success with a value, failure (the production returned
`0`; `ep` is the value the global error pointer has then, a position in the input),
or no outcome (the fuel ran out, or the C code read an indeterminate value). -/
inductive PResult (α : Type) where
  | ok (a : α)
  | fail (ep : Option Bytes)
  | stuck

/-- The while loop `while (*num>='0' && *num<='9') n=(n*10.0)+(*num++ -'0');`. -/
def digits_while : Bytes → Int → Bytes × Int
  | [], n => ([], n)
  | c :: num, n =>
    if is_digit c then digits_while num (n * 10 + (char_to_int c - 48)) else (c :: num, n)

/-- The do-while loop of the integer part: the first byte is consumed unconditionally. -/
def digits_do (num : Bytes) (n : Int) : Bytes × Int :=
  digits_while num.tail (n * 10 + (char_to_int (peek num) - 48))

/-- The while part of the fractional loop, which also counts the scale down. -/
def fraction_while : Bytes → Int → Int → Bytes × Int × Int
  | [], n, scale => ([], n, scale)
  | c :: num, n, scale =>
    if is_digit c then fraction_while num (n * 10 + (char_to_int c - 48)) (scale - 1)
    else (c :: num, n, scale)

/-- The do-while loop of the fractional part. -/
def fraction_do (num : Bytes) (n scale : Int) : Bytes × Int × Int :=
  fraction_while num.tail (n * 10 + (char_to_int (peek num) - 48)) (scale - 1)

/-- The result of the scanning part of `parse_number`. -/
structure Scanned where
  rest : Bytes
  sign : Int
  n : Int
  scale : Int
  subscale : Int
  signsubscale : Int

/-- The exponent part of `parse_number`: `if (*num=='e' || *num=='E') {...}`. -/
def scan_exponent (num : Bytes) (sign n scale : Int) : Scanned :=
  if peek num = 101 ∨ peek num = 69 then
    let num1 := num.tail
    let signsubscale : Int := if peek num1 = 43 then 1 else if peek num1 = 45 then -1 else 1
    let num2 := if peek num1 = 43 ∨ peek num1 = 45 then num1.tail else num1
    let r := digits_while num2 0
    { rest := r.1, sign := sign, n := n, scale := scale, subscale := r.2,
      signsubscale := signsubscale }
  else
    { rest := num, sign := sign, n := n, scale := scale, subscale := 0, signsubscale := 1 }

/-- The fractional part of `parse_number`; `check_fraction` tells whether it is entered
only when a digit follows the point (the arena variant) or whenever a point is seen
(`src/cJSON.c`). -/
def scan_fraction (check_fraction : Bool) (num : Bytes) (sign n : Int) : Scanned :=
  if peek num = 46 ∧ (check_fraction = false ∨ is_digit (peek num.tail) = true) then
    let r := fraction_do num.tail n 0
    scan_exponent r.1 sign r.2.1 r.2.2
  else scan_exponent num sign n 0

/-- The integer part of `parse_number`: `if (*num=='0') num++;` and the digit loop. -/
def scan_integer (check_fraction : Bool) (num : Bytes) (sign : Int) : Scanned :=
  let num1 := if peek num = 48 then num.tail else num
  if 49 ≤ peek num1 ∧ peek num1 ≤ 57 then
    let r := digits_do num1 0
    scan_fraction check_fraction r.1 sign r.2
  else scan_fraction check_fraction num1 sign 0

/-- The scanning part of `parse_number`, from the sign on. Arithmetic is exact. -/
def scan_number (check_fraction : Bool) (num : Bytes) : Scanned :=
  if peek num = 45 then scan_integer check_fraction num.tail (-1)
  else scan_integer check_fraction num 1

/-- The value `sign*n*pow(10.0,(scale+subscale*signsubscale))`, in exact arithmetic. -/
def Scanned.value (s : Scanned) : Double :=
  Double.fin (s.sign * s.n) (s.scale + s.subscale * s.signsubscale)

/-- Outcome of the decoding loop of `parse_string`: the bytes stored so far and either
the input position reached, or a failure (with or without `ep` being set), or no
outcome. -/
inductive Decoded where
  | done (out : Bytes) (ptr : Bytes)
  | bad (out : Bytes) (sets_ep : Bool)
  | stuck

namespace PerValue

/-- The decoding loop of `parse_string` in `src/cJSON.c`. -/
def parse_string_loop : Nat → Bytes → Bytes → Decoded
  | 0, _, _ => Decoded.stuck
  | fuel + 1, ptr, out =>
    if peek ptr = 34 ∨ peek ptr = 0 then Decoded.done out ptr
    else if peek ptr ≠ 92 then parse_string_loop fuel ptr.tail (out ++ [peek ptr])
    else
      let c := peek ptr.tail
      if c = 98 then parse_string_loop fuel ptr.tail.tail (out ++ [8])
      else if c = 102 then parse_string_loop fuel ptr.tail.tail (out ++ [12])
      else if c = 110 then parse_string_loop fuel ptr.tail.tail (out ++ [10])
      else if c = 114 then parse_string_loop fuel ptr.tail.tail (out ++ [13])
      else if c = 116 then parse_string_loop fuel ptr.tail.tail (out ++ [9])
      else if c = 117 then
        match sscanf_4x ptr.tail.tail with
        | none => Decoded.stuck
        | some uc =>
          let len := if uc < 0x80 then 1 else if uc < 0x800 then 2 else 3
          parse_string_loop fuel (ptr.tail.tail.drop 4) (out ++ utf8_bytes uc len)
      else parse_string_loop fuel ptr.tail.tail (out ++ [c])

/-- Embedding of `parse_string` of `src/cJSON.c`. The stored block is read back as a C
string, so it ends at the first NUL that was decoded into it. -/
def parse_string (m : Mem) (item : Nat) (str : Bytes) : PResult (Mem × Bytes) :=
  if peek str ≠ 34 then PResult.fail (some str)
  else
    match parse_string_loop (str.length + 1) str.tail [] with
    | Decoded.done out ptr =>
      PResult.ok
        (m.set item { m.node item with valuestring := some (as_cstr out), type := cJSON_String },
         if peek ptr = 34 then ptr.tail else ptr)
    | Decoded.bad _ sets_ep => PResult.fail (if sets_ep then some str else none)
    | Decoded.stuck => PResult.stuck

/-- Embedding of `parse_number` of `src/cJSON.c` (the unused `valueuint` is left out). -/
def parse_number (m : Mem) (item : Nat) (num : Bytes) : Mem × Bytes :=
  let s := scan_number false num
  (m.set item { m.node item with
      valuedouble := s.value, valueint := s.value.toInt, type := cJSON_Number },
   s.rest)

end PerValue

/-- The list `l` starts with the bytes `p`: the test `!strncmp(value,p,n)`. -/
def starts_with (p : Bytes) (value : Bytes) : Bool := decide (value.take p.length = p)

/-- The state a production threads: the node store and, in the arena variant, the
scratch arena. -/
structure PState (σ : Type) where
  mem : Mem
  aux : σ

/-- The loop `while (*value==',')` of `parse_array`, given the production `pv` for one
value. -/
def parse_array_loop {σ : Type} (pv : PState σ → Nat → Bytes → PResult (PState σ × Bytes)) :
    Nat → PState σ → Nat → Bytes → PResult (PState σ × Bytes)
  | 0, _, _, _ => PResult.stuck
  | fuel + 1, s, child, value =>
    if peek value = 44 then
      let (m1, new_item) := cJSON_New_Item s.mem
      let m2 := m1.set child { m1.node child with next := new_item }
      let m3 := m2.set new_item { m2.node new_item with prev := child }
      match pv { s with mem := m3 } new_item (skip value.tail) with
      | PResult.ok (s1, value1) => parse_array_loop pv fuel s1 new_item (skip value1)
      | PResult.fail ep => PResult.fail ep
      | PResult.stuck => PResult.stuck
    else if peek value = 93 then PResult.ok (s, value.tail)
    else PResult.fail (some value)

/-- Embedding of `parse_array` (the same text in both files), given the production `pv`
for one value. -/
def parse_array {σ : Type} (pv : PState σ → Nat → Bytes → PResult (PState σ × Bytes))
    (fuel : Nat) (s : PState σ) (item : Nat) (value : Bytes) : PResult (PState σ × Bytes) :=
  if peek value ≠ 91 then PResult.fail (some value)
  else
    let m1 := s.mem.set item { s.mem.node item with type := cJSON_Array }
    let value1 := skip value.tail
    if peek value1 = 93 then PResult.ok ({ s with mem := m1 }, value1.tail)
    else
      let (m2, child) := cJSON_New_Item m1
      let m3 := m2.set item { m2.node item with child := child }
      match pv { s with mem := m3 } child (skip value1) with
      | PResult.ok (s1, value2) => parse_array_loop pv fuel s1 child (skip value2)
      | PResult.fail ep => PResult.fail ep
      | PResult.stuck => PResult.stuck

/-- One `key : value` pair of `parse_object`, parsed into the fresh node `child`:
the key with `ps`, then the value with `pv`. -/
def parse_member {σ : Type} (ps pv : PState σ → Nat → Bytes → PResult (PState σ × Bytes))
    (s : PState σ) (child : Nat) (value : Bytes) : PResult (PState σ × Bytes) :=
  match ps s child (skip value) with
  | PResult.ok (s1, value1) =>
    let value2 := skip value1
    let m1 := s1.mem.set child { s1.mem.node child with
      string := (s1.mem.node child).valuestring, valuestring := none }
    if peek value2 ≠ 58 then PResult.fail (some value2)
    else
      match pv { s1 with mem := m1 } child (skip value2.tail) with
      | PResult.ok (s2, value3) => PResult.ok (s2, skip value3)
      | PResult.fail ep => PResult.fail ep
      | PResult.stuck => PResult.stuck
  | PResult.fail ep => PResult.fail ep
  | PResult.stuck => PResult.stuck

/-- The loop `while (*value==',')` of `parse_object`. -/
def parse_object_loop {σ : Type}
    (ps pv : PState σ → Nat → Bytes → PResult (PState σ × Bytes)) :
    Nat → PState σ → Nat → Bytes → PResult (PState σ × Bytes)
  | 0, _, _, _ => PResult.stuck
  | fuel + 1, s, child, value =>
    if peek value = 44 then
      let (m1, new_item) := cJSON_New_Item s.mem
      let m2 := m1.set child { m1.node child with next := new_item }
      let m3 := m2.set new_item { m2.node new_item with prev := child }
      match parse_member ps pv { s with mem := m3 } new_item value.tail with
      | PResult.ok (s1, value1) => parse_object_loop ps pv fuel s1 new_item value1
      | PResult.fail ep => PResult.fail ep
      | PResult.stuck => PResult.stuck
    else if peek value = 125 then PResult.ok (s, value.tail)
    else PResult.fail (some value)

/-- Embedding of `parse_object` (the same text in both files), given the productions
`ps` for a string and `pv` for a value. -/
def parse_object {σ : Type} (ps pv : PState σ → Nat → Bytes → PResult (PState σ × Bytes))
    (fuel : Nat) (s : PState σ) (item : Nat) (value : Bytes) : PResult (PState σ × Bytes) :=
  if peek value ≠ 123 then PResult.fail (some value)
  else
    let m1 := s.mem.set item { s.mem.node item with type := cJSON_Object }
    let value1 := skip value.tail
    if peek value1 = 125 then PResult.ok ({ s with mem := m1 }, value1.tail)
    else
      let (m2, child) := cJSON_New_Item m1
      let m3 := m2.set item { m2.node item with child := child }
      match parse_member ps pv { s with mem := m3 } child value1 with
      | PResult.ok (s1, value2) => parse_object_loop ps pv fuel s1 child value2
      | PResult.fail ep => PResult.fail ep
      | PResult.stuck => PResult.stuck

namespace PerValue

/-- `parse_string` of `src/cJSON.c` as a production on the threaded state. -/
def string_production (s : PState Unit) (item : Nat) (str : Bytes) :
    PResult (PState Unit × Bytes) :=
  match parse_string s.mem item str with
  | PResult.ok (m, rest) => PResult.ok ({ s with mem := m }, rest)
  | PResult.fail ep => PResult.fail ep
  | PResult.stuck => PResult.stuck

/-- Embedding of `parse_value` of `src/cJSON.c`; nested values are parsed with one
fuel less. -/
def parse_value : Nat → PState Unit → Nat → Bytes → PResult (PState Unit × Bytes)
  | 0, _, _, _ => PResult.stuck
  | fuel + 1, s, item, value =>
    if peek value = 34 then string_production s item value
    else if peek value = 123 then
      parse_object string_production (parse_value fuel) fuel s item value
    else if peek value = 45 ∨ (48 ≤ peek value ∧ peek value ≤ 57) then
      let r := parse_number s.mem item value
      PResult.ok ({ s with mem := r.1 }, r.2)
    else if peek value = 91 then parse_array (parse_value fuel) fuel s item value
    else if starts_with [110, 117, 108, 108] value then
      PResult.ok ({ s with mem := s.mem.set item { s.mem.node item with type := cJSON_NULL } },
        value.drop 4)
    else if starts_with [102, 97, 108, 115, 101] value then
      PResult.ok ({ s with mem := s.mem.set item { s.mem.node item with type := cJSON_False } },
        value.drop 5)
    else if starts_with [116, 114, 117, 101] value then
      PResult.ok ({ s with mem := s.mem.set item { s.mem.node item with
          type := cJSON_True, valueint := 1 } },
        value.drop 4)
    else PResult.fail (some value)

/-- Embedding of `cJSON_Parse` of `src/cJSON.c` with explicit fuel: the new store and
the root on success. -/
def cJSON_Parse_fuel (fuel : Nat) (m : Mem) (value : Bytes) : PResult (Mem × Nat) :=
  let (m1, c) := cJSON_New_Item m
  match parse_value fuel { mem := m1, aux := () } c (skip value) with
  | PResult.ok (s, _) => PResult.ok (s.mem, c)
  | PResult.fail ep => PResult.fail ep
  | PResult.stuck => PResult.stuck

/-- Embedding of `cJSON_Parse` of `src/cJSON.c`: every nested production consumes a
byte, so the length of the text is enough fuel. -/
def cJSON_Parse (m : Mem) (value : Bytes) : PResult (Mem × Nat) :=
  cJSON_Parse_fuel (value.length + 1) m value

end PerValue

namespace Arena

/-- Embedding of `cJSON_Buf_Init` of the arena variant. -/
def cJSON_Buf_Init (libc : Libc) (size offset : Int) : cJSON_Buf :=
  { buf := libc.fresh, len := size, offset := offset }

/-- The loop of `parse_hex4`: `0x10000` on a byte that is no hexadecimal digit. -/
def parse_hex4_loop : Nat → Bytes → Nat → Nat
  | 0, _, h => h
  | len + 1, str, h =>
    match hex_value (peek str) with
    | none => 0x10000
    | some v => parse_hex4_loop len str.tail ((h * 16 + v) % 2 ^ 32)

/-- Embedding of `parse_hex4`. -/
def parse_hex4 (str : Bytes) : Nat := parse_hex4_loop 4 str 0

/-- The decoding loop of `parse_string` in the arena variant. In the `u` case `ptr`
stands on the `u`, so `ptr+1` is `ptr.tail`. -/
def parse_string_loop : Nat → Bytes → Bytes → Decoded
  | 0, _, _ => Decoded.stuck
  | fuel + 1, ptr, out =>
    if peek ptr = 34 ∨ peek ptr = 0 then Decoded.done out ptr
    else if peek ptr ≠ 92 then parse_string_loop fuel ptr.tail (out ++ [peek ptr])
    else
      let p := ptr.tail
      let c := peek p
      if c = 0 then Decoded.bad out false
      else if c = 98 then parse_string_loop fuel p.tail (out ++ [8])
      else if c = 102 then parse_string_loop fuel p.tail (out ++ [12])
      else if c = 110 then parse_string_loop fuel p.tail (out ++ [10])
      else if c = 114 then parse_string_loop fuel p.tail (out ++ [13])
      else if c = 116 then parse_string_loop fuel p.tail (out ++ [9])
      else if c = 117 then
        let uc := parse_hex4 p.tail
        if (0xDC00 ≤ uc ∧ uc ≤ 0xDFFF) ∨ uc = 0x10000 then Decoded.bad out true
        else
          let p4 := p.drop 4
          if 0xD800 ≤ uc ∧ uc ≤ 0xDBFF then
            if peek p4.tail ≠ 92 ∨ peek p4.tail.tail ≠ 117 then Decoded.bad out true
            else
              let uc2 := parse_hex4 (p4.drop 3)
              if uc2 < 0xDC00 ∨ uc2 > 0xDFFF then Decoded.bad out true
              else
                let cp := 0x10000 + (((uc &&& 0x3FF) <<< 10) ||| (uc2 &&& 0x3FF))
                parse_string_loop fuel (p4.drop 6).tail (out ++ utf8_bytes cp 4)
          else
            let len := if uc = 0 then 0 else if uc < 0x80 then 1 else if uc < 0x800 then 2 else 3
            parse_string_loop fuel p4.tail (out ++ utf8_bytes uc len)
      else parse_string_loop fuel p.tail (out ++ [c])

/-- Embedding of `parse_string` of the arena variant: the decoded bytes and a NUL are
stored in the arena from the cursor on, without a capacity check, and the cursor
moves past them. -/
def parse_string (s : PState cJSON_Buf) (item : Nat) (str : Bytes) :
    PResult (PState cJSON_Buf × Bytes) :=
  if peek str ≠ 34 then PResult.fail (some str)
  else
    match parse_string_loop (str.length + 1) str.tail [] with
    | Decoded.done out ptr =>
      PResult.ok
        ({ mem := s.mem.set item { s.mem.node item with
              valuestring := some (as_cstr out), type := cJSON_String },
           aux := { cJSON_Buf.pokes (out ++ [0]) s.aux s.aux.offset with
              offset := s.aux.offset + out.length + 1 } },
         if peek ptr = 34 then ptr.tail else ptr)
    | Decoded.bad _ sets_ep => PResult.fail (if sets_ep then some str else none)
    | Decoded.stuck => PResult.stuck

/-- Embedding of `parse_number` of the arena variant. -/
def parse_number (m : Mem) (item : Nat) (num : Bytes) : Mem × Bytes :=
  let s := scan_number true num
  (m.set item { m.node item with valuedouble := s.value, type := cJSON_Number }, s.rest)

/-- Embedding of `parse_value` of the arena variant. -/
def parse_value : Nat → PState cJSON_Buf → Nat → Bytes → PResult (PState cJSON_Buf × Bytes)
  | 0, _, _, _ => PResult.stuck
  | fuel + 1, s, item, value =>
    if peek value = 34 then parse_string s item value
    else if peek value = 123 then parse_object parse_string (parse_value fuel) fuel s item value
    else if peek value = 45 ∨ (48 ≤ peek value ∧ peek value ≤ 57) then
      let r := parse_number s.mem item value
      PResult.ok ({ s with mem := r.1 }, r.2)
    else if peek value = 91 then parse_array (parse_value fuel) fuel s item value
    else if starts_with [110, 117, 108, 108] value then
      PResult.ok ({ s with mem := s.mem.set item { s.mem.node item with type := cJSON_NULL } },
        value.drop 4)
    else if starts_with [102, 97, 108, 115, 101] value then
      PResult.ok ({ s with mem := s.mem.set item { s.mem.node item with type := cJSON_False } },
        value.drop 5)
    else if starts_with [116, 114, 117, 101] value then
      PResult.ok ({ s with mem := s.mem.set item { s.mem.node item with type := cJSON_True } },
        value.drop 4)
    else PResult.fail (some value)

/-- Embedding of `parse_root`. -/
def parse_root (fuel : Nat) (s : PState cJSON_Buf) (item : Nat) (value : Bytes) :
    PResult (PState cJSON_Buf × Bytes) :=
  if peek value = 123 then parse_object parse_string (parse_value fuel) fuel s item value
  else if peek value = 91 then parse_array (parse_value fuel) fuel s item value
  else PResult.fail (some value)

/-- Embedding of `cJSON_Parse` of the arena variant with explicit fuel: the new store,
the root and the arena on success (the root's `data` pointer, which owns the arena, is
not part of the record). The arena is sized with `strlen(value)`. -/
def cJSON_Parse_fuel (libc : Libc) (fuel : Nat) (m : Mem) (value : Bytes) :
    PResult (Mem × Nat × cJSON_Buf) :=
  let temp := cJSON_Buf_Init libc (strlen value) 0
  let (m1, c) := cJSON_New_Item m
  match parse_root fuel { mem := m1, aux := temp } c (skip value) with
  | PResult.ok (s, _) => PResult.ok (s.mem, c, s.aux)
  | PResult.fail ep => PResult.fail ep
  | PResult.stuck => PResult.stuck

/-- Embedding of `cJSON_Parse` of the arena variant. -/
def cJSON_Parse (libc : Libc) (m : Mem) (value : Bytes) : PResult (Mem × Nat × cJSON_Buf) :=
  cJSON_Parse_fuel libc (value.length + 1) m value

end Arena

/-- The offset of an error position `ep` in the text `value`. -/
def error_offset (value : Bytes) (ep : Bytes) : Nat := value.length - ep.length
/-! ## Concrete stores used as test inputs -/

/-- The bytes of `"Foo"`, `"bar"`, `"FOO"`, `"a"` and `"b"`. -/
def str_Foo : Bytes := [70, 111, 111]
def str_bar : Bytes := [98, 97, 114]
def str_FOO : Bytes := [70, 79, 79]
def str_a : Bytes := [97]
def str_b : Bytes := [98]

/-- An object (address 1) with the members `Foo` (address 2) and `bar` (address 3),
built with `cJSON_CreateObject`, `cJSON_CreateNull` and the `cJSON_AddItemToObject`
passed as `add`. -/
def foo_bar_object (add : Nat → Mem → Nat → Bytes → Nat → Option Mem) : Mem :=
  let (m0, obj) := cJSON_CreateObject Mem.init
  let (m1, a) := cJSON_CreateNull m0
  let m2 := (add 8 m1 obj str_Foo a).getD m1
  let (m3, b) := cJSON_CreateNull m2
  (add 8 m3 obj str_bar b).getD m3

/-- An array (address 1) with two elements (addresses 2 and 3) and one more
detached node (address 4). -/
def two_element_array : Mem :=
  let (m0, arr) := cJSON_CreateArray Mem.init
  let (m1, a) := cJSON_CreateNull m0
  let m2 := (cJSON_AddItemToArray 8 m1 arr a).getD m1
  let (m3, b) := cJSON_CreateTrue m2
  let m4 := (cJSON_AddItemToArray 8 m3 arr b).getD m3
  (cJSON_CreateFalse m4).1

/-- The store after: create object 1 and item 2, add 2 to 1 under `"a"`, look `"a"` up,
detach it by key, create object 3, add item 2 to object 3 under `"b"`. -/
def rekeyed_item : Mem :=
  let (m0, o1) := cJSON_CreateObject Mem.init
  let (m1, x) := cJSON_CreateNull m0
  let m2 := (Arena.cJSON_AddItemToObject 8 m1 o1 str_a x).getD m1
  let m3 := ((Arena.cJSON_GetObjectItem 8 m2 o1 str_a).map (fun r => r.mem)).getD m2
  let m4 := ((Arena.cJSON_DetachItemFromObject 8 m3 o1 str_a).map (fun r => r.1)).getD m3
  let (m5, o2) := cJSON_CreateObject m4
  (Arena.cJSON_AddItemToObject 8 m5 o2 str_b x).getD m5

/-! ## Number tokens -/

/-- The exponent part of a number token: the mark `e` or `E`, an optional sign
(`true` is `-`) and the digits. -/
structure ExpPart where
  mark : Nat
  sign : Option Bool
  digits : Bytes
deriving DecidableEq

/-- A token of the JSON number grammar: optional `-`, integer part, optional `.` and
digits, optional exponent. -/
structure NumberToken where
  minus : Bool
  int_digits : Bytes
  frac_digits : Option Bytes
  exp : Option ExpPart
deriving DecidableEq

/-- The bytes of an exponent part. -/
def ExpPart.text (e : ExpPart) : Bytes :=
  e.mark :: ((match e.sign with
    | none => []
    | some true => [45]
    | some false => [43]) ++ e.digits)

/-- The bytes of an optional exponent part. -/
def exp_text : Option ExpPart → Bytes
  | none => []
  | some e => e.text

/-- The bytes of an optional fraction: the point and the digits. -/
def frac_text : Option Bytes → Bytes
  | none => []
  | some f => 46 :: f

/-- The bytes of the fraction and exponent of a token. -/
def NumberToken.tail_text (t : NumberToken) : Bytes := frac_text t.frac_digits ++ exp_text t.exp

/-- The bytes of a token. -/
def NumberToken.text (t : NumberToken) : Bytes :=
  (if t.minus then [45] else []) ++ (t.int_digits ++ t.tail_text)

/-- A non-empty run of decimal digits. -/
def IsDigits (ds : Bytes) : Prop := ds ≠ [] ∧ ∀ c ∈ ds, is_digit c = true

instance (ds : Bytes) : Decidable (IsDigits ds) := by
  unfold IsDigits; infer_instance

/-- An exponent part, when present, has the mark `e` or `E` and at least one digit. -/
def exp_valid : Option ExpPart → Prop
  | none => True
  | some e => (e.mark = 101 ∨ e.mark = 69) ∧ IsDigits e.digits

instance (e : Option ExpPart) : Decidable (exp_valid e) := by
  cases e <;> unfold exp_valid <;> infer_instance

/-- A fraction, when present, has at least one digit. -/
def frac_valid : Option Bytes → Prop
  | none => True
  | some f => IsDigits f

instance (f : Option Bytes) : Decidable (frac_valid f) := by
  cases f <;> unfold frac_valid <;> infer_instance

/-- The token matches the grammar: the integer part is a single `0` or starts with one
of `1`..`9`; a fraction and an exponent have at least one digit. -/
def NumberToken.valid (t : NumberToken) : Prop :=
  (t.int_digits = [48] ∨ (IsDigits t.int_digits ∧ 49 ≤ peek t.int_digits)) ∧
  frac_valid t.frac_digits ∧ exp_valid t.exp

instance (t : NumberToken) : Decidable t.valid := by
  unfold NumberToken.valid; infer_instance

/-- The value of a run of decimal digits read after the value `a`. -/
def digits_value : Bytes → Int → Int
  | [], a => a
  | c :: s, a => digits_value s (a * 10 + ((c : Int) - 48))

/-- The sign of a token. -/
def NumberToken.sign (t : NumberToken) : Int := if t.minus then -1 else 1

/-- The integer formed by the integer and the fractional digits. -/
def NumberToken.mantissa (t : NumberToken) : Int :=
  digits_value (t.int_digits ++ t.frac_digits.getD []) 0

/-- Minus the number of fractional digits. -/
def NumberToken.scale (t : NumberToken) : Int := -((t.frac_digits.getD []).length : Int)

/-- The number the digits of an exponent part denote, zero without one. -/
def exp_value : Option ExpPart → Int
  | none => 0
  | some e => digits_value e.digits 0

/-- The sign of an exponent part. -/
def exp_sign : Option ExpPart → Int
  | some e => if e.sign = some true then -1 else 1
  | none => 1

/-- The exponent of a token. -/
def NumberToken.exponent (t : NumberToken) : Int := exp_value t.exp

/-- The sign of the exponent of a token. -/
def NumberToken.exponent_sign (t : NumberToken) : Int := exp_sign t.exp

/-- The value of a token in exact arithmetic:
`sign * mantissa * 10 ^ (scale + exponent * exponent_sign)`. -/
def NumberToken.value (t : NumberToken) : Double :=
  Double.fin (t.sign * t.mantissa) (t.scale + t.exponent * t.exponent_sign)

/-! ## Buffers, JSON values and what it means to represent them -/

/-- All bytes of the block before the cursor. -/
def cJSON_Buf.written (b : cJSON_Buf) : Bytes := b.slice 0 b.offset.toNat

/-- The block is allocated and the cursor is not negative. -/
def BufOK (b : cJSON_Buf) : Prop := 1 ≤ b.len ∧ 0 ≤ b.offset

/-- The buffer `b1` is `b` after the bytes `s` were appended. -/
def Emits (b : cJSON_Buf) (s : Bytes) (b1 : cJSON_Buf) : Prop :=
  BufOK b1 ∧ b1.written = b.written ++ s

/-! ## JSON values and their compact text -/

/-- The kind of a node together with its scalar payload. A number is either an
integer `n`, held by both `valuedouble` and `valueint` (`number`), or any number record
with the fields `valuedouble = d` and `valueint = i`, together with the token of the
number grammar that stands for it in the text (`decimal`). -/
inductive JKind where
  | null
  | jfalse
  | jtrue
  | number (n : Int)
  | decimal (tok : NumberToken) (valid : tok.valid) (d : Double) (i : Int)
  | string (s : Bytes)
  | array
  | object
deriving DecidableEq

/-- The value a node pointer denotes, in first-child/next-sibling form: `nil` is the
null pointer; a node has an optional key, a kind, the chain of its children and the
chain of its later siblings. -/
inductive JTree where
  | nil : JTree
  | node (key : Option Bytes) (kind : JKind) (child next : JTree) : JTree
deriving DecidableEq

/-- Number of nodes of a chain, descendants included. -/
def JTree.size : JTree → Nat
  | JTree.nil => 0
  | JTree.node _ _ child next => child.size + next.size + 1

/-- The escaped form of one byte, as `print_string_ptr` emits it. -/
def escape_byte (c : Nat) : Bytes :=
  if c > 31 ∧ c ≠ 34 ∧ c ≠ 92 then [c]
  else if c = 92 then [92, 92]
  else if c = 34 then [92, 34]
  else if c = 8 then [92, 98]
  else if c = 12 then [92, 102]
  else if c = 10 then [92, 110]
  else if c = 13 then [92, 114]
  else if c = 9 then [92, 116]
  else 92 :: sprintf_u04x c

/-- The escaped form of a string, without the quotes. -/
def escape : Bytes → Bytes
  | [] => []
  | c :: s => escape_byte c ++ escape s

/-- A string literal: the escaped bytes between two quotes. -/
def quote (s : Bytes) : Bytes := 34 :: (escape s ++ [34])

/-- The compact text of a value, given the texts of its children read as array
elements and as object members. -/
def JKind.text (k : JKind) (elems members : Bytes) : Bytes :=
  match k with
  | JKind.null => [110, 117, 108, 108]
  | JKind.jfalse => [102, 97, 108, 115, 101]
  | JKind.jtrue => [116, 114, 117, 101]
  | JKind.number n => sprintf_d n
  | JKind.decimal tok _ _ _ => tok.text
  | JKind.string s => quote s
  | JKind.array => 91 :: (elems ++ [93])
  | JKind.object => 123 :: (members ++ [125])

/-- The separator before the rest of a chain: nothing at its end, a comma otherwise. -/
def sep_text (next : JTree) (rest : Bytes) : Bytes :=
  match next with
  | JTree.nil => []
  | JTree.node _ _ _ _ => 44 :: rest

/-- The compact text of a chain, read as object members (`obj = true`: each value
preceded by its quoted key and a colon) or as array elements. -/
def JTree.chain_text (obj : Bool) : JTree → Bytes
  | JTree.nil => []
  | JTree.node key kind child next =>
    (if obj then quote (key.getD []) ++ [58] else []) ++
      (kind.text (JTree.chain_text false child) (JTree.chain_text true child) ++
        sep_text next (JTree.chain_text obj next))

/-- The compact text of the value of a node of kind `kind` with children `child`. -/
def value_text (kind : JKind) (child : JTree) : Bytes :=
  kind.text (child.chain_text false) (child.chain_text true)

/-- The payload of a scalar is printable and parses back: strings are C strings, a
number `number n` is an integer of the `int` range, and the fields of a number
`decimal` are the ones `parse_number` stores when it reads the token. -/
def JKind.payload_ok : JKind → Prop
  | JKind.number n => INT_MIN ≤ n ∧ n ≤ INT_MAX
  | JKind.decimal tok _ d i => d = tok.value ∧ i = tok.value.toInt
  | JKind.string s => IsCStr s
  | _ => True

instance (k : JKind) : Decidable k.payload_ok := by
  cases k <;> unfold JKind.payload_ok <;> infer_instance

/-- A chain of the data model: members of an object carry a key, which is a C string;
elements of an array carry none; scalars have no children and a good payload. -/
def JTree.wf (obj : Bool) : JTree → Prop
  | JTree.nil => True
  | JTree.node key kind child next =>
    (if obj then key.isSome = true ∧ IsCStr (key.getD []) else key = none) ∧
    kind.payload_ok ∧
    (match kind with
      | JKind.array => JTree.wf false child
      | JKind.object => JTree.wf true child
      | _ => child = JTree.nil) ∧
    JTree.wf obj next

/-- A root value of the data model: no key, no sibling. -/
def value_wf (kind : JKind) (child : JTree) : Prop :=
  (JTree.node none kind child JTree.nil).wf false

/-- The fields of a record that carry a scalar of kind `k`; `valueint` is looked at
only for the variant that has it. -/
def KindRep (with_valueint : Bool) (c : cJSON) : JKind → Prop
  | JKind.null => c.type = cJSON_NULL
  | JKind.jfalse => c.type = cJSON_False
  | JKind.jtrue => c.type = cJSON_True
  | JKind.number n =>
    c.type = cJSON_Number ∧ c.valuedouble = Double.fin n 0 ∧
      (with_valueint = true → c.valueint = n)
  | JKind.decimal _ _ d i =>
    c.type = cJSON_Number ∧ c.valuedouble = d ∧ (with_valueint = true → c.valueint = i)
  | JKind.string s => c.type = cJSON_String ∧ c.valuestring = some s
  | JKind.array => c.type = cJSON_Array
  | JKind.object => c.type = cJSON_Object

/-- The chain that starts at pointer `p` in the store `m` is the chain `t`: same
variants, keys, strings, integers and child order. -/
def Rep (vi : Bool) (m : Mem) : Nat → JTree → Prop
  | p, JTree.nil => p = 0
  | p, JTree.node key kind child next =>
    p ≠ 0 ∧ (m.node p).string = key ∧ KindRep vi (m.node p) kind ∧
      Rep vi m (m.node p).child child ∧ Rep vi m (m.node p).next next

/-- The node at `p` carries the value of kind `kind` with children `child`; its own
key and sibling links are not looked at. -/
def RepValue (vi : Bool) (m : Mem) (p : Nat) (kind : JKind) (child : JTree) : Prop :=
  p ≠ 0 ∧ KindRep vi (m.node p) kind ∧ Rep vi m (m.node p).child child

/-- `Rep` for a chain built by the parser: moreover every node lies in the address
range `[lo, hi)`, has the back link `pr` (its predecessor) and has no cached hash. -/
def RepIn (vi : Bool) (m : Mem) (lo hi : Nat) : Nat → Nat → JTree → Prop
  | _, p, JTree.nil => p = 0
  | pr, p, JTree.node key kind child next =>
    p ≠ 0 ∧ lo ≤ p ∧ p < hi ∧ (m.node p).prev = pr ∧ (m.node p).hash_string = -1 ∧
      (m.node p).string = key ∧ KindRep vi (m.node p) kind ∧
      RepIn vi m lo hi 0 (m.node p).child child ∧ RepIn vi m lo hi p (m.node p).next next

/-- What the printer sees of a record of kind `k`: the type modulo the reference flag
and, for a number, either an integer of the `int` range held by both `valuedouble` and
`valueint`, which takes the `%d` path of `print_number`, or the two fields as they
are. -/
def ShowsKind (c : cJSON) : JKind → Prop
  | JKind.null => c.type % 256 = cJSON_NULL
  | JKind.jfalse => c.type % 256 = cJSON_False
  | JKind.jtrue => c.type % 256 = cJSON_True
  | JKind.number n =>
    c.type % 256 = cJSON_Number ∧ c.valuedouble = Double.fin n 0 ∧ c.valueint = n ∧
      INT_MIN ≤ n ∧ n ≤ INT_MAX
  | JKind.decimal _ _ d i => c.type % 256 = cJSON_Number ∧ c.valuedouble = d ∧ c.valueint = i
  | JKind.string s => c.type % 256 = cJSON_String ∧ c.valuestring = some s
  | JKind.array => c.type % 256 = cJSON_Array
  | JKind.object => c.type % 256 = cJSON_Object

/-- The printer's view of the chain at `p`: members of an object have a key; the keys
of array elements and the children of scalars, which the printer never reads, are not
looked at (the chain `t` has none there). -/
def Shows (m : Mem) (obj : Bool) : Nat → JTree → Prop
  | p, JTree.nil => p = 0
  | p, JTree.node key kind child next =>
    p ≠ 0 ∧ (if obj then (m.node p).string = key ∧ key.isSome = true else key = none) ∧
      ShowsKind (m.node p) kind ∧
      (match kind with
        | JKind.array => Shows m false (m.node p).child child
        | JKind.object => Shows m true (m.node p).child child
        | _ => child = JTree.nil) ∧
      Shows m obj (m.node p).next next

/-- The printer's view of the value of the node at `p`. -/
def ShowsValue (m : Mem) (p : Nat) (kind : JKind) (child : JTree) : Prop :=
  p ≠ 0 ∧ ShowsKind (m.node p) kind ∧
    (match kind with
      | JKind.array => Shows m false (m.node p).child child
      | JKind.object => Shows m true (m.node p).child child
      | _ => child = JTree.nil)

namespace PerValue

/-- The text `str` that `print_number` of `src/cJSON.c` formats, before it copies it to
the buffer, for a record with `valuedouble = d` and `valueint = i`. -/
def number_text (libc : Libc) (d : Double) (i : Int) : Bytes :=
  if d.near_int i && d.le_int INT_MAX && d.ge_int INT_MIN then sprintf_d i
  else if d.is_integral then libc.sprintf_f0 d
  else if d.tiny_or_huge then libc.sprintf_e d
  else libc.sprintf_f d

end PerValue

/-- The C library writes the number the way the value says: for a number `decimal`,
`print_number` of `src/cJSON.c` formats the token, and the token fits, with its NUL,
the 64 bytes of the array `str`. -/
def JKind.prints_with (libc : Libc) : JKind → Prop
  | JKind.decimal tok _ d i => PerValue.number_text libc d i = tok.text ∧ tok.text.length < 64
  | _ => True

/-- The C library writes every number of the chain the way the chain says. -/
def JTree.prints_with (libc : Libc) : JTree → Prop
  | JTree.nil => True
  | JTree.node _ kind child next =>
    kind.prints_with libc ∧ JTree.prints_with libc child ∧ JTree.prints_with libc next

/-- The value as `parse_number` reads it from its text: the fields of a number
`decimal` are replaced by the number the token denotes and its conversion to `int`. -/
def JKind.reread : JKind → JKind
  | JKind.decimal tok valid _ _ => JKind.decimal tok valid tok.value tok.value.toInt
  | k => k

/-- The chain as the parser reads it from its text. -/
def JTree.reread : JTree → JTree
  | JTree.nil => JTree.nil
  | JTree.node key kind child next =>
    JTree.node key kind.reread (JTree.reread child) (JTree.reread next)

/-- Two values of the stand-in for `double` are the same number. -/
def Double.same : Double → Double → Prop
  | Double.fin m1 e1, Double.fin m2 e2 =>
    m1 * 10 ^ (e1 - min e1 e2).toNat = m2 * 10 ^ (e2 - min e1 e2).toNat
  | a, b => a = b

/-- Two values are equal, numbers `decimal` up to the way their `valuedouble` is
written in the stand-in for `double`. -/
def JKind.same : JKind → JKind → Prop
  | JKind.decimal t1 _ d1 i1, JKind.decimal t2 _ d2 i2 => t1 = t2 ∧ d1.same d2 ∧ i1 = i2
  | a, b => a = b

/-- Two chains are equal: same variants, keys, strings, integers and child order, and
the same numbers. -/
def JTree.same : JTree → JTree → Prop
  | JTree.nil, JTree.nil => True
  | JTree.node k1 kind1 c1 n1, JTree.node k2 kind2 c2 n2 =>
    k1 = k2 ∧ kind1.same kind2 ∧ JTree.same c1 c2 ∧ JTree.same n1 n2
  | _, _ => False

/-- The token of a number `decimal` denotes the number of the record, and the
conversion of that number to `int` is its `valueint`. -/
def JKind.comes_back : JKind → Prop
  | JKind.decimal tok _ d i => tok.value.same d ∧ tok.value.toInt = i
  | _ => True

/-- Every number of the chain is denoted by its token. -/
def JTree.comes_back : JTree → Prop
  | JTree.nil => True
  | JTree.node _ kind child next =>
    kind.comes_back ∧ JTree.comes_back child ∧ JTree.comes_back next

/-- Compact printing of the chain `t` by the loops of `print_array` and
`print_object` of `src/cJSON.c`, with enough fuel. -/
def PrintsChain (libc : Libc) (m : Mem) (t : JTree) : Prop :=
  (∀ (p F lf depth : Nat) (b : cJSON_Buf), Shows m false p t → BufOK b →
    t.size + 1 ≤ F → t.size + 1 ≤ lf →
    ∃ b1, print_array_loop (fun c b0 => PerValue.print_value libc m false F c (depth + 1) b0)
        m false lf p b = some b1 ∧ Emits b (t.chain_text false) b1) ∧
  (∀ (p F lf depth : Nat) (b : cJSON_Buf), Shows m true p t → BufOK b →
    t.size + 1 ≤ F → t.size + 1 ≤ lf →
    ∃ b1, print_object_loop (fun c b0 => PerValue.print_value libc m false F c (depth + 1) b0)
        m false (depth + 1) lf p b = some b1 ∧ Emits b (t.chain_text true) b1)

/-- A number token ends before `rest`: no digit, point or exponent mark follows. -/
def NumStop (rest : Bytes) : Prop :=
  is_digit (peek rest) = false ∧ peek rest ≠ 46 ∧ peek rest ≠ 101 ∧ peek rest ≠ 69

/-- What a value production may change: it allocates above the old break, leaves every
older node other than its target alone, and keeps the links, the key and the cached
hash of the target. -/
structure Frame (m m1 : Mem) (item : Nat) : Prop where
  brk_le : m.brk ≤ m1.brk
  old : ∀ q, q < m.brk → q ≠ item → m1.node q = m.node q
  next_eq : (m1.node item).next = (m.node item).next
  prev_eq : (m1.node item).prev = (m.node item).prev
  string_eq : (m1.node item).string = (m.node item).string
  hash_eq : (m1.node item).hash_string = (m.node item).hash_string

/-- What the sibling loop of a container may change: it allocates above the old break,
leaves every older node other than the current last sibling alone, and changes only
the `next` link of that sibling. -/
structure FrameLink (m m1 : Mem) (cur : Nat) : Prop where
  brk_le : m.brk ≤ m1.brk
  old : ∀ q, q < m.brk → q ≠ cur → m1.node q = m.node q
  cur_eq : m1.node cur = { m.node cur with next := (m1.node cur).next }

/-- The production `pv` parses the compact text of the value `(kind, child)` into a
fresh target. -/
def ParsesValue {σ : Type} (vi : Bool)
    (pv : PState σ → Nat → Bytes → PResult (PState σ × Bytes)) (kind : JKind) (child : JTree) :
    Prop :=
  ∀ (s : PState σ) (item : Nat) (rest : Bytes), NumStop rest → 0 < item → item < s.mem.brk →
    (s.mem.node item).child = 0 →
    ∃ s1, pv s item (value_text kind child ++ rest) = PResult.ok (s1, rest) ∧
      Frame s.mem s1.mem item ∧ KindRep vi (s1.mem.node item) kind ∧
      RepIn vi s1.mem s.mem.brk s1.mem.brk 0 (s1.mem.node item).child child

/-- The production `pv` parses the value of every node of the chain `t`. -/
def ParsesHeads {σ : Type} (vi : Bool)
    (pv : PState σ → Nat → Bytes → PResult (PState σ × Bytes)) : JTree → Prop
  | JTree.nil => True
  | JTree.node _ kind child next => ParsesValue vi pv kind child ∧ ParsesHeads vi pv next

/-- The string production `ps` reads a printed key into its target. -/
def ParsesKeys {σ : Type} (ps : PState σ → Nat → Bytes → PResult (PState σ × Bytes)) : Prop :=
  ∀ (s : PState σ) (item : Nat) (k rest : Bytes), IsCStr k →
    ∃ aux, ps s item (quote k ++ rest) =
      PResult.ok ({ mem := s.mem.set item { s.mem.node item with
                      valuestring := some k, type := cJSON_String }, aux := aux }, rest)

/-- The store after the loop of a container has allocated the next sibling of `cur`
and linked the two: `child->next=new_item;new_item->prev=child;`. -/
def link_fresh (m : Mem) (cur : Nat) : Mem :=
  let m1 := (cJSON_New_Item m).1
  let m2 := m1.set cur { m1.node cur with next := m.brk }
  m2.set m.brk { m2.node m.brk with prev := cur }

/-- The loop of `parse_array` parses the rest of the chain `t` after the sibling `cur`. -/
def ParsesElems {σ : Type} (vi : Bool)
    (pv : PState σ → Nat → Bytes → PResult (PState σ × Bytes)) (t : JTree) : Prop :=
  ∀ (lf : Nat) (s : PState σ) (cur : Nat) (rest : Bytes), t.size + 1 ≤ lf → 0 < cur →
    cur < s.mem.brk → (s.mem.node cur).next = 0 →
    ∃ s1, parse_array_loop pv lf s cur (sep_text t (t.chain_text false) ++ 93 :: rest) =
        PResult.ok (s1, rest) ∧
      FrameLink s.mem s1.mem cur ∧
      RepIn vi s1.mem s.mem.brk s1.mem.brk cur (s1.mem.node cur).next t

/-- The loop of `parse_object` parses the rest of the chain `t` after the sibling `cur`. -/
def ParsesMembers {σ : Type} (vi : Bool)
    (ps pv : PState σ → Nat → Bytes → PResult (PState σ × Bytes)) (t : JTree) : Prop :=
  ∀ (lf : Nat) (s : PState σ) (cur : Nat) (rest : Bytes), t.size + 1 ≤ lf → 0 < cur →
    cur < s.mem.brk → (s.mem.node cur).next = 0 →
    ∃ s1, parse_object_loop ps pv lf s cur (sep_text t (t.chain_text true) ++ 125 :: rest) =
        PResult.ok (s1, rest) ∧
      FrameLink s.mem s1.mem cur ∧
      RepIn vi s1.mem s.mem.brk s1.mem.brk cur (s1.mem.node cur).next t

/-- What the generic container lemmas need to know of a variant: its string production
`ps` and its value production `pvF` at each fuel. -/
structure ParserLaws {σ : Type} (vi : Bool)
    (ps : PState σ → Nat → Bytes → PResult (PState σ × Bytes))
    (pvF : Nat → PState σ → Nat → Bytes → PResult (PState σ × Bytes)) : Prop where
  keys : ParsesKeys ps
  array : ∀ (F : Nat) (s : PState σ) (item : Nat) (value : Bytes), peek value = 91 →
    pvF (F + 1) s item value = parse_array (pvF F) F s item value
  object : ∀ (F : Nat) (s : PState σ) (item : Nat) (value : Bytes), peek value = 123 →
    pvF (F + 1) s item value = parse_object ps (pvF F) F s item value
  scalar : ∀ (F : Nat) (kind : JKind), kind ≠ JKind.array → kind ≠ JKind.object →
    kind.payload_ok → ParsesValue vi (pvF (F + 1)) kind JTree.nil

/-- The keys along a chain, in order. -/
def JTree.keys : JTree → List (Option Bytes)
  | JTree.nil => []
  | JTree.node key _ _ next => key :: next.keys

/-- Whether a production succeeded. -/
def PResult.is_ok {α : Type} : PResult α → Bool
  | PResult.ok _ => true
  | _ => false

/-- The error position a failed production leaves in `ep`. -/
def PResult.error {α : Type} : PResult α → Option Bytes
  | PResult.fail ep => ep
  | _ => none

/-- The value of a successful production. -/
def PResult.value {α : Type} : PResult α → Option α
  | PResult.ok a => some a
  | _ => none

namespace PerValue

/-- Embedding of `cJSON_CreateNumber` of `src/cJSON.c`. -/
def cJSON_CreateNumber (m : Mem) (num : Double) : Mem × Nat :=
  let (m1, item) := cJSON_New_Item m
  (m1.set item { m1.node item with
      type := cJSON_Number, valuedouble := num, valueint := num.toInt }, item)

/-- Embedding of `cJSON_CreateString` of `src/cJSON.c`. -/
def cJSON_CreateString (m : Mem) (string : Bytes) : Mem × Nat :=
  let (m1, item) := cJSON_New_Item m
  (m1.set item { m1.node item with type := cJSON_String, valuestring := some string }, item)

end PerValue

namespace Arena

/-- Embedding of `cJSON_CreateNumber` of the arena variant. -/
def cJSON_CreateNumber (m : Mem) (num : Double) : Mem × Nat :=
  let (m1, item) := cJSON_New_Item m
  (m1.set item { m1.node item with type := cJSON_Number, valuedouble := num }, item)

/-- Embedding of `cJSON_CreateString` of the arena variant. -/
def cJSON_CreateString (m : Mem) (string : Bytes) : Mem × Nat :=
  let (m1, item) := cJSON_New_Item m
  (m1.set item { m1.node item with
      type := cJSON_String, valuestring := some string, allocate_type := Allocate_Value }, item)

end Arena

/-- Nearest natural number to `num / den`, ties to even. -/
def round_half_even (num den : Nat) : Nat :=
  let q := num / den
  let r := num % den
  if 2 * r < den then q else if den < 2 * r then q + 1 else if q % 2 = 0 then q else q + 1

/-- Decimal digits of `n`, padded with zeros on the left to at least `width`. -/
def pad_digits (width n : Nat) : Bytes :=
  let ds := dec_digits (n + 1) n []
  List.replicate (width - ds.length) 48 ++ ds

/-- The text of a non-finite value in the `f` and `e` conversions of C99. -/
def nonfinite_text : Double → Bytes
  | Double.inf true => [45, 105, 110, 102]
  | Double.inf false => [105, 110, 102]
  | _ => [110, 97, 110]

/-- The C99 conversion `%.<prec>f` on the decimal stand-in: sign, integer part, and
`prec` decimals of the value rounded to that many places. -/
def sprintf_fixed (prec : Nat) : Double → Bytes
  | Double.fin m e =>
    let q := if 0 ≤ e then m.natAbs * 10 ^ e.toNat * 10 ^ prec
      else round_half_even (m.natAbs * 10 ^ prec) (10 ^ (-e).toNat)
    (if m < 0 then [45] else []) ++ pad_digits 1 (q / 10 ^ prec) ++
      (if prec = 0 then [] else 46 :: pad_digits prec (q % 10 ^ prec))
  | d => nonfinite_text d

/-- The C99 conversion `%e` on the decimal stand-in: one digit, six decimals, and an
exponent of at least two digits. -/
def sprintf_exp : Double → Bytes
  | Double.fin m e =>
    let a := m.natAbs
    let k := (dec_digits (a + 1) a []).length
    let q := if k ≤ 7 then a * 10 ^ (7 - k) else round_half_even a (10 ^ (k - 7))
    let carry := decide (q = 10 ^ 7)
    let q1 := if carry then 10 ^ 6 else q
    let x : Int := if a = 0 then 0 else (k : Int) - 1 + e + (if carry then 1 else 0)
    (if m < 0 then [45] else []) ++ pad_digits 1 (q1 / 10 ^ 6) ++
      46 :: pad_digits 6 (q1 % 10 ^ 6) ++
      101 :: (if x < 0 then 45 else 43) :: pad_digits 2 x.natAbs
  | d => nonfinite_text d

/-- A C library for the concrete runs: fresh blocks are zero filled, and the floating
conversions of `sprintf` are the C99 ones on the decimal stand-in. -/
def libc_c99 : Libc :=
  { fresh := fun _ => 0, sprintf_f0 := sprintf_fixed 0, sprintf_e := sprintf_exp,
    sprintf_f := sprintf_fixed 6 }

instance (vi : Bool) (c : cJSON) (k : JKind) : Decidable (KindRep vi c k) := by
  cases k <;> unfold KindRep <;> infer_instance

instance (libc : Libc) (k : JKind) : Decidable (k.prints_with libc) := by
  cases k <;> unfold JKind.prints_with <;> infer_instance

instance JTree.prints_with_dec (libc : Libc) : ∀ t : JTree, Decidable (t.prints_with libc)
  | JTree.nil => isTrue trivial
  | JTree.node key kind child next => by
    unfold JTree.prints_with
    have := JTree.prints_with_dec libc child
    have := JTree.prints_with_dec libc next
    infer_instance

instance (a b : Double) : Decidable (a.same b) := by
  cases a <;> cases b <;> simp only [Double.same] <;> infer_instance

instance (k : JKind) : Decidable k.comes_back := by
  cases k <;> unfold JKind.comes_back <;> infer_instance

instance JTree.comes_back_dec : ∀ t : JTree, Decidable t.comes_back
  | JTree.nil => isTrue trivial
  | JTree.node key kind child next => by
    unfold JTree.comes_back
    have := JTree.comes_back_dec child
    have := JTree.comes_back_dec next
    infer_instance

instance (c : cJSON) (k : JKind) : Decidable (ShowsKind c k) := by
  cases k <;> unfold ShowsKind <;> infer_instance

instance JTree.wf_dec : ∀ (t : JTree) (obj : Bool), Decidable (t.wf obj)
  | JTree.nil, _ => isTrue trivial
  | JTree.node key kind child next, obj => by
    unfold JTree.wf
    have := JTree.wf_dec next obj
    have := JTree.wf_dec child false
    have := JTree.wf_dec child true
    cases kind <;> infer_instance

instance (kind : JKind) (child : JTree) : Decidable (value_wf kind child) := by
  unfold value_wf; infer_instance

instance Rep.dec (vi : Bool) (m : Mem) : ∀ (t : JTree) (p : Nat), Decidable (Rep vi m p t)
  | JTree.nil, p => by unfold Rep; infer_instance
  | JTree.node key kind child next, p => by
    unfold Rep
    have := Rep.dec vi m child (m.node p).child
    have := Rep.dec vi m next (m.node p).next
    infer_instance

instance Shows.dec (m : Mem) : ∀ (t : JTree) (obj : Bool) (p : Nat), Decidable (Shows m obj p t)
  | JTree.nil, _, p => by unfold Shows; infer_instance
  | JTree.node key kind child next, obj, p => by
    unfold Shows
    have := Shows.dec m child false (m.node p).child
    have := Shows.dec m child true (m.node p).child
    have := Shows.dec m next obj (m.node p).next
    cases kind <;> infer_instance

instance (m : Mem) (p : Nat) (kind : JKind) (child : JTree) :
    Decidable (ShowsValue m p kind child) := by
  unfold ShowsValue
  have := Shows.dec m child false (m.node p).child
  have := Shows.dec m child true (m.node p).child
  cases kind <;> infer_instance

/-- The bytes of `"k"`, `"x"`, `[null]` and `nan`. -/
def str_k : Bytes := [107]
def str_x : Bytes := [120]
def text_array_null : Bytes := [91, 110, 117, 108, 108, 93]
def text_nan : Bytes := [110, 97, 110]

/-- An array (address 1) whose only element (address 2, a null) was attached with
`cJSON_AddItemToObject` of `src/cJSON.c` under the key `k`. -/
def keyed_element_array : Mem :=
  let (m0, arr) := cJSON_CreateArray Mem.init
  let (m1, x) := cJSON_CreateNull m0
  (PerValue.cJSON_AddItemToObject 8 m1 arr str_k x).getD m1

/-- The store with the single node `cJSON_CreateNumber(NAN)` of `src/cJSON.c`. -/
def nan_number : Mem := (PerValue.cJSON_CreateNumber Mem.init Double.nan).1

/-- The store with the single node `cJSON_CreateNumber(1.0000001)` of `src/cJSON.c`. -/
def rounded_number : Mem :=
  (PerValue.cJSON_CreateNumber Mem.init (Double.fin 10000001 (-7))).1

/-- The bytes of `1.000000` and of `1`. -/
def text_1_000000 : Bytes := [49, 46, 48, 48, 48, 48, 48, 48]
def text_1 : Bytes := [49]

/-- The object `{"a":[1,"x"]}` built with the constructors of `src/cJSON.c`: object 1,
array 2, number 3, string 4. -/
def sample_object : Mem :=
  let (m0, obj) := cJSON_CreateObject Mem.init
  let (m1, arr) := cJSON_CreateArray m0
  let m2 := (PerValue.cJSON_AddItemToObject 8 m1 obj str_a arr).getD m1
  let (m3, num) := PerValue.cJSON_CreateNumber m2 (Double.fin 1 0)
  let m4 := (cJSON_AddItemToArray 8 m3 arr num).getD m3
  let (m5, str) := PerValue.cJSON_CreateString m4 str_x
  (cJSON_AddItemToArray 8 m5 arr str).getD m5

/-- The members of `{"a":[1,"x"]}`. -/
def sample_members : JTree :=
  JTree.node (some str_a) JKind.array
    (JTree.node none (JKind.number 1) JTree.nil
      (JTree.node none (JKind.string str_x) JTree.nil JTree.nil))
    JTree.nil

/-- The tokens `0.500000` and `3000000000`. -/
def token_half : NumberToken :=
  { minus := false, int_digits := [48], frac_digits := some [53, 48, 48, 48, 48, 48],
    exp := none }
def token_3e9 : NumberToken :=
  { minus := false, int_digits := [51, 48, 48, 48, 48, 48, 48, 48, 48, 48],
    frac_digits := none, exp := none }

/-- The array `[0.5,3000000000]` built with the constructors of `src/cJSON.c`: array 1,
numbers 2 and 3. -/
def fraction_array : Mem :=
  let (m0, arr) := cJSON_CreateArray Mem.init
  let (m1, a) := PerValue.cJSON_CreateNumber m0 (Double.fin 5 (-1))
  let m2 := (cJSON_AddItemToArray 8 m1 arr a).getD m1
  let (m3, b) := PerValue.cJSON_CreateNumber m2 (Double.fin 3000000000 0)
  (cJSON_AddItemToArray 8 m3 arr b).getD m3

/-- The elements of `[0.5,3000000000]`: the number 0.5, whose `valueint` is 0, written
`0.500000`, and the number 3000000000, whose `valueint` is the out-of-range conversion
`INT_MIN`, written `3000000000`. -/
def fraction_elems : JTree :=
  JTree.node none (JKind.decimal token_half (by decide) (Double.fin 5 (-1)) 0) JTree.nil
    (JTree.node none (JKind.decimal token_3e9 (by decide) (Double.fin 3000000000 0) INT_MIN)
      JTree.nil JTree.nil)

/-- The bytes of `[0.500000,3000000000]`. -/
def text_fraction_array : Bytes :=
  [91, 48, 46, 53, 48, 48, 48, 48, 48, 44, 51, 48, 48, 48, 48, 48, 48, 48, 48, 48, 93]

/-- The members `"a":1,"a":2`. -/
def dup_members : JTree :=
  JTree.node (some str_a) (JKind.number 1) JTree.nil
    (JTree.node (some str_a) (JKind.number 2) JTree.nil JTree.nil)

/-- The bytes of `{"a":1,"a":2}`. -/
def text_dup : Bytes := [123, 34, 97, 34, 58, 49, 44, 34, 97, 34, 58, 50, 125]

/-! ## Replacing a child -/

/-- Embedding of `cJSON_ReplaceItemInArray` (the same text in both files): the new
store and the node that is handed to `cJSON_Delete` at the end (`0` when the index is
out of range and nothing happens). The release of that node is not modelled. The
result is `none` where the C code dereferences a null pointer. -/
def cJSON_ReplaceItemInArray (m : Mem) (array : Nat) (which : Int) (newitem : Nat) :
    Option (Mem × Nat) :=
  let c := walk_items m which.toNat (m.node array).child
  if c = 0 then some (m, 0)
  else if newitem = 0 then none
  else
    let m1 := m.set newitem { m.node newitem with next := (m.node c).next }
    let m2 := m1.set newitem { m1.node newitem with prev := (m1.node c).prev }
    let n := (m2.node newitem).next
    let m3 := if n ≠ 0 then m2.set n { m2.node n with prev := newitem } else m2
    if c = (m3.node array).child then
      let m4 := m3.set array { m3.node array with child := newitem }
      some (m4.set c { m4.node c with prev := 0, next := 0 }, c)
    else
      let p := (m3.node newitem).prev
      if p = 0 then none
      else
        let m4 := m3.set p { m3.node p with next := newitem }
        some (m4.set c { m4.node c with prev := 0, next := 0 }, c)

/-! ## Unicode escapes: the UTF-8 encoding to compare with -/

/-- The UTF-8 encoding of a code point below `0x110000`, as RFC 3629 defines it: one
byte below `0x80`, two below `0x800`, three below `0x10000`, four otherwise. -/
def utf8_encode (cp : Nat) : Bytes :=
  if cp < 0x80 then [cp]
  else if cp < 0x800 then [0xC0 + cp / 64, 0x80 + cp % 64]
  else if cp < 0x10000 then [0xE0 + cp / 4096, 0x80 + cp / 64 % 64, 0x80 + cp % 64]
  else [0xF0 + cp / 262144, 0x80 + cp / 4096 % 64, 0x80 + cp / 64 % 64, 0x80 + cp % 64]

/-- The number four hexadecimal digits (of either case) denote, if `hs` is four such
digits. -/
def hex4_value (hs : Bytes) : Option Nat :=
  match hs with
  | [a, b, c, d] =>
    match hex_value a, hex_value b, hex_value c, hex_value d with
    | some x, some y, some z, some w => some (((x * 16 + y) * 16 + z) * 16 + w)
    | _, _, _, _ => none
  | _ => none

/-- The code point a surrogate pair denotes. -/
def surrogate_code_point (high low : Nat) : Nat :=
  0x10000 + (high - 0xD800) * 1024 + (low - 0xDC00)

/-- The state after `parse_string` of the arena variant has stored the decoded bytes
`out` for the node `item`. -/
def Arena.stored (s : PState cJSON_Buf) (item : Nat) (out : Bytes) : PState cJSON_Buf :=
  { mem := s.mem.set item { s.mem.node item with valuestring := some out, type := cJSON_String },
    aux := { cJSON_Buf.pokes (out ++ [0]) s.aux s.aux.offset with
      offset := s.aux.offset + out.length + 1 } }

/-! ## What the scan of a number accepts -/

/-- What the exponent scan of `parse_number` accepts before `rest`: as `exp_valid`,
except that the digits may be missing; without digits and sign, `rest` must not start
with a sign. -/
def exp_scans : Option ExpPart → Bytes → Prop
  | none, rest => NumStop rest
  | some e, rest => (e.mark = 101 ∨ e.mark = 69) ∧ (∀ c ∈ e.digits, is_digit c = true) ∧
      is_digit (peek rest) = false ∧
      (e.digits = [] → e.sign = none → peek rest ≠ 43 ∧ peek rest ≠ 45)

instance (rest : Bytes) : Decidable (NumStop rest) := by
  unfold NumStop; infer_instance

instance (e : Option ExpPart) (rest : Bytes) : Decidable (exp_scans e rest) := by
  cases e <;> unfold exp_scans <;> infer_instance

/-- A token that `parse_number` scans up to `rest`: the grammar, with the digits of the
exponent optional. -/
def NumberToken.scans (t : NumberToken) (rest : Bytes) : Prop :=
  (t.int_digits = [48] ∨ (IsDigits t.int_digits ∧ 49 ≤ peek t.int_digits)) ∧
  frac_valid t.frac_digits ∧ exp_scans t.exp rest

instance (t : NumberToken) (rest : Bytes) : Decidable (t.scans rest) := by
  unfold NumberToken.scans; infer_instance

/-- The bytes of a token with a `0` put before its integer part. -/
def NumberToken.zero_led_text (t : NumberToken) : Bytes :=
  (if t.minus then [45] else []) ++ 48 :: (t.int_digits ++ t.tail_text)

/-- The node at `root` is an array whose only child is a number node with the value `v`. -/
def SingleNumberArray (m : Mem) (root : Nat) (v : Double) : Prop :=
  (m.node root).type = cJSON_Array ∧ (m.node root).child ≠ 0 ∧
  (m.node (m.node root).child).type = cJSON_Number ∧
  (m.node (m.node root).child).valuedouble = v ∧
  (m.node (m.node root).child).next = 0 ∧ (m.node (m.node root).child).prev = 0

instance (m : Mem) (root : Nat) (v : Double) : Decidable (SingleNumberArray m root v) := by
  unfold SingleNumberArray; infer_instance

/-- The store after a container production has set the type of `item`, allocated the
first child and hooked it: `item->type=ty; item->child=child=cJSON_New_Item();`. -/
def hook_first (m : Mem) (item ty : Nat) : Mem :=
  let m1 := m.set item { m.node item with type := ty }
  let m2 := (cJSON_New_Item m1).1
  m2.set item { m2.node item with child := m.brk }

/-! ## Positions inside nested containers -/

/-- A run of bytes that `skip` jumps: every byte is in `0x01..0x20`. -/
def IsSpace (ws : Bytes) : Prop := ∀ c ∈ ws, 0 < c ∧ c ≤ 32

instance (ws : Bytes) : Decidable (IsSpace ws) := by
  unfold IsSpace; infer_instance

/-- The compact text of the elements or members before a position, with the comma that
follows them; nothing when there are none. -/
def before_text (obj : Bool) (t : JTree) : Bytes :=
  match t with
  | JTree.nil => []
  | JTree.node _ _ _ _ => t.chain_text obj ++ [44]

/-- One container that encloses a position where a value is expected: an array with
the elements before the position, or an object with the members before it and the key
of the member whose value is expected. -/
inductive Enclosing where
  | in_array (before : JTree)
  | in_object (before : JTree) (key : Bytes)
deriving DecidableEq

/-- The elements and members before the position are of the data model and the key is
a C string. -/
def Enclosing.wf : Enclosing → Prop
  | Enclosing.in_array t => t.wf false
  | Enclosing.in_object t k => t.wf true ∧ IsCStr k

/-- The text of a container up to the position: after `[`, after the `,` of an array,
or after the `:` of an object. -/
def Enclosing.text : Enclosing → Bytes
  | Enclosing.in_array t => 91 :: before_text false t
  | Enclosing.in_object t k => 123 :: (before_text true t ++ (quote k ++ [58]))

/-- Number of nodes before the position. -/
def Enclosing.size : Enclosing → Nat
  | Enclosing.in_array t => t.size
  | Enclosing.in_object t _ => t.size

/-- The parser expects a value at the text `X` in this container: always after a comma
or a colon, and after `[` unless a `]` closes the array at once. -/
def Enclosing.awaits : Enclosing → Bytes → Prop
  | Enclosing.in_array JTree.nil, X => peek X ≠ 93
  | _, _ => True

/-- The text of nested containers, the outermost first, up to a position in the
innermost. -/
def path_text : List Enclosing → Bytes
  | [] => []
  | f :: p => f.text ++ path_text p

/-- Number of nodes before the position, the containers included. -/
def path_size : List Enclosing → Nat
  | [] => 0
  | f :: p => f.size + 1 + path_size p

/-- The parser expects a value at `X` inside the innermost container of the path. -/
def awaits_value : List Enclosing → Bytes → Prop
  | [], _ => False
  | [f], X => f.awaits X
  | _ :: g :: p, X => awaits_value (g :: p) X

/-- No value begins at `X`: its first byte is not white space and is none of `"`, `{`,
`[`, `-` or a digit, and `X` does not start with `null`, `false` or `true`. The end of
the input is such a position. -/
def BeginsNoValue (X : Bytes) : Prop :=
  ¬ (peek X ≠ 0 ∧ peek X ≤ 32) ∧ peek X ≠ 34 ∧ peek X ≠ 123 ∧ peek X ≠ 91 ∧ peek X ≠ 45 ∧
  ¬ (48 ≤ peek X ∧ peek X ≤ 57) ∧ starts_with [110, 117, 108, 108] X = false ∧
  starts_with [102, 97, 108, 115, 101] X = false ∧ starts_with [116, 114, 117, 101] X = false

/-- From the fuel `F0` on, the value production fails at the text `Y` with the error
position `r`, whatever the store and the fresh target. -/
def FailsAt {σ : Type} (pvF : Nat → PState σ → Nat → Bytes → PResult (PState σ × Bytes))
    (F0 : Nat) (Y : Bytes) (r : Option Bytes) : Prop :=
  ∀ F, F0 ≤ F → ∀ (s : PState σ) (item : Nat), 0 < item → item < s.mem.brk →
    (s.mem.node item).child = 0 → pvF F s item Y = PResult.fail r

instance (f : Enclosing) : Decidable f.wf := by
  cases f <;> unfold Enclosing.wf <;> infer_instance

instance (f : Enclosing) (X : Bytes) : Decidable (f.awaits X) := by
  cases f with
  | in_array t =>
    cases t with
    | nil => unfold Enclosing.awaits; infer_instance
    | node _ _ _ _ => exact isTrue trivial
  | in_object t k => exact isTrue trivial

instance awaits_value_dec : ∀ (path : List Enclosing) (X : Bytes), Decidable (awaits_value path X)
  | [], _ => isFalse (by simp [awaits_value])
  | [f], X => by unfold awaits_value; infer_instance
  | _ :: g :: p, X => by
    unfold awaits_value
    exact awaits_value_dec (g :: p) X

instance (X : Bytes) : Decidable (BeginsNoValue X) := by
  unfold BeginsNoValue; infer_instance

/-! ## Concrete texts used as test inputs -/

/-- The bytes of `{"a":}` and of `[1,2,`. -/
def text_member_without_value : Bytes := [123, 34, 97, 34, 58, 125]
def text_array_cut_off : Bytes := [91, 49, 44, 50, 44]

/-- The position after `[1,2,` as a path: an array with the elements 1 and 2 before it. -/
def after_two_elements : List Enclosing :=
  [Enclosing.in_array (JTree.node none (JKind.number 1) JTree.nil
    (JTree.node none (JKind.number 2) JTree.nil JTree.nil))]

/-- The position after `{"a":` as a path. -/
def after_key_a : List Enclosing := [Enclosing.in_object JTree.nil [97]]

/-- The bytes of `["\` (an array, an open string literal, a backslash, end of input). -/
def text_backslash_at_end : Bytes := [91, 34, 92]

/-- The hexadecimal digits `D83D`, `DE00` and `D800`, and the text `["\uD800"]`. -/
def hex_D83D : Bytes := [68, 56, 51, 68]
def hex_DE00 : Bytes := [68, 69, 48, 48]
def hex_D800 : Bytes := [68, 56, 48, 48]
def text_lone_high_surrogate : Bytes := [91, 34, 92, 117, 68, 56, 48, 48, 34, 93]

/-- The bytes of `["\q"]`, of `"abc` and of `["abc`. -/
def text_escape_q : Bytes := [91, 34, 92, 113, 34, 93]
def text_open_abc : Bytes := [34, 97, 98, 99]
def text_array_open_abc : Bytes := [91, 34, 97, 98, 99]
def str_abc : Bytes := [97, 98, 99]

/-- The bytes of `[-]`, `[01]`, `[1e]` and `[00]`. -/
def text_array_minus : Bytes := [91, 45, 93]
def text_array_01 : Bytes := [91, 48, 49, 93]
def text_array_1e : Bytes := [91, 49, 101, 93]
def text_array_00 : Bytes := [91, 48, 48, 93]

/-- The token `1` and the same with an exponent mark without digits, `1e`. -/
def token_1 : NumberToken := { minus := false, int_digits := [49], frac_digits := none, exp := none }
def token_1e : NumberToken :=
  { minus := false, int_digits := [49], frac_digits := none,
    exp := some { mark := 101, sign := none, digits := [] } }

/-- The token `-12.5e+3`. -/
def token_sample : NumberToken :=
  { minus := true, int_digits := [49, 50], frac_digits := some [53],
    exp := some { mark := 101, sign := some false, digits := [51] } }

/-- A state of the arena variant for the concrete runs of `parse_string`: one node
allocated, an arena of 32 bytes. -/
def arena_start : PState cJSON_Buf :=
  { mem := (cJSON_New_Item Mem.init).1, aux := Arena.cJSON_Buf_Init libc_c99 32 0 }

/-- The test `d*0!=0`, which holds for NaN and the infinities only. -/
def Double.mul_zero_ne_zero : Double → Bool
  | Double.fin _ _ => false
  | _ => true

/-- The test `fabs(d)<1.0e60`. -/
def Double.abs_lt_1e60 : Double → Bool
  | Double.fin m e =>
    if 0 ≤ e then decide (m.natAbs * 10 ^ e.toNat < 10 ^ 60)
    else decide (m.natAbs < 10 ^ 60 * 10 ^ (-e).toNat)
  | _ => false

/-- The content of the array `str` after `sprintf(str,...)` produced `text`: the old
content is overwritten from the start and the new text is terminated. -/
def sprintf_into (_str : Bytes) (text : Bytes) : Bytes := text

namespace Arena

/-- Embedding of `print_number` of the arena variant. The first `if` has no `else`
branch, so the conversions below it always run. -/
def print_number (libc : Libc) (item : cJSON) (b : cJSON_Buf) : Option cJSON_Buf :=
  let d := item.valuedouble
  let str0 : Bytes := []
  let str1 := if d.mul_zero_ne_zero then sprintf_into str0 [110, 117, 108, 108] else str0
  let str2 :=
    if d.is_integral && d.abs_lt_1e60 then sprintf_into str1 (libc.sprintf_f0 d)
    else if d.tiny_or_huge then sprintf_into str1 (libc.sprintf_e d)
    else sprintf_into str1 (libc.sprintf_f d)
  cJSON_Buf_Copy_Str b str2

/-- Embedding of `print_value` of the arena variant, with `print_array` and
`print_object` called on the printer of one fuel less. An unknown type leaves `out` null. -/
def print_value (libc : Libc) (m : Mem) (fmt : Bool) :
    Nat → Nat → Nat → cJSON_Buf → Option cJSON_Buf
  | 0, _, _, _ => none
  | fuel + 1, item, depth, b =>
    if item = 0 then none
    else
      let ty := (m.node item).type % 256
      if ty = cJSON_NULL then cJSON_Buf_Copy_Str b [110, 117, 108, 108]
      else if ty = cJSON_False then cJSON_Buf_Copy_Str b [102, 97, 108, 115, 101]
      else if ty = cJSON_True then cJSON_Buf_Copy_Str b [116, 114, 117, 101]
      else if ty = cJSON_Number then print_number libc (m.node item) b
      else if ty = cJSON_String then print_string_ptr (m.node item).valuestring b
      else if ty = cJSON_Array then
        print_array (fun c b1 => print_value libc m fmt fuel c (depth + 1) b1) m fmt fuel item b
      else if ty = cJSON_Object then
        print_object (fun c b1 => print_value libc m fmt fuel c (depth + 1) b1) m fmt depth
          fuel item b
      else none

/-- Embedding of `print_json` of the arena variant; without a buffer of the caller it
prints into a fresh one of 16 KiB. -/
def print_json (libc : Libc) (fuel : Nat) (m : Mem) (item : Nat) (fmt : Bool)
    (buf : Option cJSON_Buf) : Option cJSON_Buf :=
  let b0 := match buf with
    | some b => b
    | none => cJSON_Buf_Init libc (16 * 1024) 0
  (print_value libc m fmt fuel item 0 b0).bind fun b => cJSON_Buf_Copy_Char b 0

/-- Embedding of `cJSON_Print` of the arena variant. -/
def cJSON_Print (libc : Libc) (fuel : Nat) (m : Mem) (item : Nat) : Option cJSON_Buf :=
  print_json libc fuel m item true none

/-- Embedding of `cJSON_PrintUnformatted` of the arena variant. -/
def cJSON_PrintUnformatted (libc : Libc) (fuel : Nat) (m : Mem) (item : Nat) :
    Option cJSON_Buf :=
  print_json libc fuel m item false none

end Arena

/-- The bytes of `inf` and `-inf`. -/
def text_inf : Bytes := [105, 110, 102]
def text_minus_inf : Bytes := [45, 105, 110, 102]

/-- One append to the growable buffer: `cJSON_Buf_Copy_Str` or `cJSON_Buf_Copy_Char`. -/
inductive BufOp where
  | copy_str (str : Bytes)
  | copy_char (ch : Nat)

/-- Run one append. -/
def BufOp.apply : BufOp → cJSON_Buf → Option cJSON_Buf
  | BufOp.copy_str str, b => cJSON_Buf_Copy_Str b str
  | BufOp.copy_char ch, b => cJSON_Buf_Copy_Char b ch

/-- Run a sequence of appends. -/
def run_appends : List BufOp → cJSON_Buf → Option cJSON_Buf
  | [], b => some b
  | op :: ops, b => (op.apply b).bind (run_appends ops)

/-- The highest index an append stores to when it starts at the cursor of `b`: the
index of the terminating NUL for `strcpy`, the cursor itself for one byte. -/
def BufOp.last_index : BufOp → cJSON_Buf → Int
  | BufOp.copy_str str, b => b.offset + str.length
  | BufOp.copy_char _, b => b.offset

/-- Total length of a list of strings. -/
def total_length (strs : List Bytes) : Nat := (strs.map List.length).sum

/-- A buffer of capacity 4 with the cursor at 1, and three strings of total length 9. -/
def small_buf : cJSON_Buf := PerValue.cJSON_Buf_Init libc_c99 3 1
def three_strings : List Bytes := [[97, 98, 99], [100, 101, 102, 103], [104, 105]]

/-- The escaped form of one byte in the words of the specification: `"` and `\` and
the control bytes `\b \f \n \r \t` as two-character escapes, every other byte below
`0x20` as `\u00XX` with four lower-case hexadecimal digits, every other byte unchanged. -/
def escape_as_specified (c : Nat) : Bytes :=
  if c = 34 then [92, 34]
  else if c = 92 then [92, 92]
  else if c = 8 then [92, 98]
  else if c = 12 then [92, 102]
  else if c = 10 then [92, 110]
  else if c = 13 then [92, 114]
  else if c = 9 then [92, 116]
  else if c < 32 then [92, 117, 48, 48, hex_digit (c / 16), hex_digit (c % 16)]
  else [c]

/-- Every point of the text is followed by a digit. -/
def PointsBeforeDigits (num : Bytes) : Prop :=
  ∀ pre post : Bytes, num = pre ++ 46 :: post → is_digit (peek post) = true

/-- The bytes of `1.]`, of ` true` and of a string with a quote, a tab, the byte `0x01`
and a byte above `0x7f`. -/
def text_1_point_bracket : Bytes := [49, 46, 93]
def text_space_true : Bytes := [32, 116, 114, 117, 101]
def str_mixed : Bytes := [97, 34, 9, 1, 200]

/-- The nodes of the sibling chain that starts at `p`: `next` is followed up to the
null pointer. -/
def Siblings (m : Mem) : Nat → List Nat → Prop
  | p, [] => p = 0
  | p, c :: l => p = c ∧ c ≠ 0 ∧ Siblings m (m.node c).next l

instance Siblings.dec (m : Mem) : ∀ (l : List Nat) (p : Nat), Decidable (Siblings m p l)
  | [], p => by unfold Siblings; infer_instance
  | c :: l, p => by
    unfold Siblings
    have := Siblings.dec m l (m.node c).next
    infer_instance

/-- The line of one object member as the printer lays it out: in pretty mode the tabs,
the quoted key, a colon and a tab, the value, a comma unless it is the last member, and
a newline; in compact mode the quoted key, a colon, the value and the comma. -/
def member_layout (fmt : Bool) (tabs : Nat) (key value : Bytes) (last : Bool) : Bytes :=
  (if fmt then List.replicate tabs 9 else []) ++ (quote key ++ (58 :: ((if fmt then [9] else []) ++
    (value ++ ((if last then [] else [44]) ++ (if fmt then [10] else []))))))

/-- The lines of the members of an object, given the key and the text of each. -/
def members_layout (fmt : Bool) (tabs : Nat) : List (Bytes × Bytes) → Bytes
  | [] => []
  | kv :: rest =>
    member_layout fmt tabs kv.1 kv.2 rest.isEmpty ++ members_layout fmt tabs rest

/-- The text of an object at nesting depth `depth`: the opening brace, a newline in
pretty mode, the members with `depth + 1` tabs each, and the closing brace. -/
def object_layout (fmt : Bool) (depth : Nat) (members : List (Bytes × Bytes)) : Bytes :=
  123 :: ((if fmt then [10] else []) ++ (members_layout fmt (depth + 1) members ++ [125]))

/-- The elements of an array, separated by `, ` in pretty mode and `,` in compact mode. -/
def elements_layout (fmt : Bool) : List Bytes → Bytes
  | [] => []
  | v :: rest =>
    v ++ (if rest.isEmpty then [] else 44 :: ((if fmt then [32] else []) ++
      elements_layout fmt rest))

/-- The text of an array. -/
def array_layout (fmt : Bool) (elements : List Bytes) : Bytes :=
  91 :: (elements_layout fmt elements ++ [93])

/-- The line of one object member in the words of the specification: the tabs, the
quoted key, a colon and one space, the value, a comma unless it is the last member,
and a newline. -/
def member_as_specified (depth : Nat) (key value : Bytes) (last : Bool) : Bytes :=
  List.replicate (depth + 1) 9 ++ (quote key ++ (58 :: 32 :: (value ++
    ((if last then [] else [44]) ++ [10]))))

/-- The object `{"a":1}` built with the constructors of the arena variant: object 1,
number 2. -/
def arena_object_a1 : Mem :=
  let (m0, obj) := cJSON_CreateObject Mem.init
  let (m1, num) := Arena.cJSON_CreateNumber m0 (Double.fin 1 0)
  (Arena.cJSON_AddItemToObject 8 m1 obj str_a num).getD m1

/-- The bytes of the pretty text of `{"a":1}`: brace, newline, tab, `"a"`, colon, tab,
`1`, newline, brace. -/
def pretty_object_a1 : Bytes := [123, 10, 9, 34, 97, 34, 58, 9, 49, 10, 125]

/-- A token of a JSON text: a structural character, a string literal (given by the
string it denotes; its text is the printer's escaped form between quotes), a number,
or one of the three literals. -/
inductive Token where
  | punct (c : Nat)
  | string (s : Bytes)
  | number (t : NumberToken)
  | lit_null
  | lit_false
  | lit_true

/-- The bytes of a token. -/
def Token.text : Token → Bytes
  | Token.punct c => [c]
  | Token.string s => quote s
  | Token.number t => t.text
  | Token.lit_null => [110, 117, 108, 108]
  | Token.lit_false => [102, 97, 108, 115, 101]
  | Token.lit_true => [116, 114, 117, 101]

/-- The token is well formed and ends before `rest`: a structural character is one of
`[ ] { } , :`, a string is a C string, and a number has the shape of the grammar and
is followed by no byte that its scan would take. -/
def Token.fits : Token → Bytes → Prop
  | Token.punct c, _ => c = 91 ∨ c = 93 ∨ c = 123 ∨ c = 125 ∨ c = 44 ∨ c = 58
  | Token.string s, _ => IsCStr s
  | Token.number t, rest => t.valid ∧ NumStop rest
  | _, _ => True

instance (tok : Token) (rest : Bytes) : Decidable (tok.fits rest) := by
  cases tok <;> unfold Token.fits <;> infer_instance

/-- A token with the white space that stands before it in the first and in the second
of two texts. -/
structure Spaced where
  first : Bytes
  second : Bytes
  token : Token

/-- The white space before the token in the first (`side = true`) or second text. -/
def Spaced.before (x : Spaced) (side : Bool) : Bytes := if side then x.first else x.second

/-- The text of a sequence of tokens, each preceded by its white space. -/
def spaced_text (side : Bool) : List Spaced → Bytes
  | [] => []
  | x :: l => x.before side ++ (x.token.text ++ spaced_text side l)

/-- The text of a sequence of tokens from its first token on. -/
def aligned_text (side : Bool) : List Spaced → Bytes
  | [] => []
  | x :: l => x.token.text ++ spaced_text side l

/-- Every run of white space consists of bytes in `0x01..0x20`, and every token is well
formed and ends where the text after it begins. -/
def spaced_wf (side : Bool) : List Spaced → Prop
  | [] => True
  | x :: l => IsSpace (x.before side) ∧ x.token.fits (spaced_text side l) ∧ spaced_wf side l

instance spaced_wf.dec (side : Bool) : ∀ l : List Spaced, Decidable (spaced_wf side l)
  | [] => isTrue trivial
  | x :: l => by
    unfold spaced_wf
    have := spaced_wf.dec side l
    infer_instance

/-- Two states of the arena parser hold the same tree: the same node store, and the
same bytes and cursor in the arena (the capacity of the arena, which is the length of
the text, is not compared). -/
def SameState (s1 s2 : PState cJSON_Buf) : Prop :=
  s1.mem = s2.mem ∧ s1.aux.buf = s2.aux.buf ∧ s1.aux.offset = s2.aux.offset

/-- Two runs of a production on the two texts of the tokens `L` end alike: both
succeed, with the same tree, at the same token (`unskipped` tells whether the white
space before that token is still to be skipped), or both fail with the error position
at the same token. -/
def SameOutcome (unskipped : Bool) (L : List Spaced)
    (r1 r2 : PResult (PState cJSON_Buf × Bytes)) : Prop :=
  (∃ s1 s2 l, l <:+ L ∧ l.length < L.length ∧ SameState s1 s2 ∧
    r1 = PResult.ok (s1, if unskipped then spaced_text true l else aligned_text true l) ∧
    r2 = PResult.ok (s2, if unskipped then spaced_text false l else aligned_text false l)) ∨
  (∃ l, l <:+ L ∧ r1 = PResult.fail (some (aligned_text true l)) ∧
    r2 = PResult.fail (some (aligned_text false l)))

/-- The state after the value production of the arena variant has read a token that is
a scalar into the node `item`. -/
def Token.effect (tok : Token) (s : PState cJSON_Buf) (item : Nat) : PState cJSON_Buf :=
  match tok with
  | Token.punct _ => s
  | Token.string str => Arena.stored s item str
  | Token.number t =>
    { s with mem := s.mem.set item { s.mem.node item with
        valuedouble := t.value, type := cJSON_Number } }
  | Token.lit_null => { s with mem := s.mem.set item { s.mem.node item with type := cJSON_NULL } }
  | Token.lit_false =>
    { s with mem := s.mem.set item { s.mem.node item with type := cJSON_False } }
  | Token.lit_true => { s with mem := s.mem.set item { s.mem.node item with type := cJSON_True } }

/-- The token is a structural character. -/
def Token.is_punct : Token → Bool
  | Token.punct _ => true
  | _ => false

/-- The two productions `pv1` and `pv2` end alike on the two texts of every sequence of
at most `n` tokens. -/
def SimValue (n : Nat)
    (pv1 pv2 : PState cJSON_Buf → Nat → Bytes → PResult (PState cJSON_Buf × Bytes)) : Prop :=
  ∀ (L : List Spaced), L.length ≤ n → spaced_wf true L → spaced_wf false L →
    ∀ (s1 s2 : PState cJSON_Buf) (item : Nat), SameState s1 s2 →
      SameOutcome true L (pv1 s1 item (aligned_text true L)) (pv2 s2 item (aligned_text false L))

/-- The tokens of `{"a":[1,true]}`, with no white space in the first text and with
blanks, a newline and a tab in the second, `{ "a" : [ 1 ,` newline tab `true ] }`. -/
def spaced_sample : List Spaced :=
  [{ first := [], second := [], token := Token.punct 123 },
   { first := [], second := [32], token := Token.string str_a },
   { first := [], second := [32], token := Token.punct 58 },
   { first := [], second := [32], token := Token.punct 91 },
   { first := [], second := [32], token := Token.number token_1 },
   { first := [], second := [32], token := Token.punct 44 },
   { first := [], second := [10, 9], token := Token.lit_true },
   { first := [], second := [32], token := Token.punct 93 },
   { first := [], second := [32], token := Token.punct 125 }]

/-- The tokens of `[1 1]` and of `[1` tab `1]`, which is no JSON text. -/
def spaced_malformed : List Spaced :=
  [{ first := [], second := [], token := Token.punct 91 },
   { first := [], second := [], token := Token.number token_1 },
   { first := [32], second := [9], token := Token.number token_1 },
   { first := [], second := [], token := Token.punct 93 }]

namespace Alloc

/-- The `cJSON` record with its pointer fields as addresses of blocks (`0` is the null
pointer): `valuestring`, `string` and `data` are the addresses of the blocks they
point to, so that two records can share a block. -/
structure Node where
  next : Nat
  prev : Nat
  type : Nat
  child : Nat
  valuestring : Nat
  valueint : Int
  valuedouble : Double
  string : Nat
  hash_string : Int
  allocate_type : Nat
  data : Nat
deriving DecidableEq

/-- Result of `memset(node,0,sizeof(cJSON))`. -/
def Node.zeroed : Node :=
  { next := 0, prev := 0, type := 0, child := 0, valuestring := 0, valueint := 0,
    valuedouble := Double.fin 0 0, string := 0, hash_string := 0, allocate_type := 0, data := 0 }

/-- The heap: the content of the blocks by address, read as a record (`node`) or as a C
string (`text`), which blocks were released (`freed`), and the next fresh address.
`malloc` hands out fresh addresses only. -/
structure Store where
  node : Nat → Node
  text : Nat → Bytes
  freed : Nat → Bool
  brk : Nat

/-- The heap before any allocation. -/
def Store.init : Store :=
  { node := fun _ => Node.zeroed, text := fun _ => [], freed := fun _ => false, brk := 1 }

/-- The block at `p` is allocated and not released. -/
def Store.live (h : Store) (p : Nat) : Bool :=
  decide (0 < p) && (decide (p < h.brk) && !h.freed p)

/-- Overwrite the record at address `p`. -/
def Store.set (h : Store) (p : Nat) (n : Node) : Store :=
  { h with node := fun q => if q = p then n else h.node q }

/-- Allocation of a block (`malloc` succeeds). -/
def malloc (h : Store) : Store × Nat :=
  ({ h with brk := h.brk + 1, freed := fun q => if q = h.brk then false else h.freed q }, h.brk)

/-- Release of a block; releasing a block that is not live has no defined outcome. -/
def free (h : Store) (p : Nat) : Option Store :=
  if h.live p then some { h with freed := fun q => if q = p then true else h.freed q } else none

/-- Embedding of `cJSON_New_Item`. -/
def cJSON_New_Item (h : Store) : Store × Nat :=
  let (h1, p) := malloc h
  (h1.set p { Node.zeroed with hash_string := -1 }, p)

/-- Embedding of `cJSON_strdup`. -/
def cJSON_strdup (h : Store) (str : Bytes) : Store × Nat :=
  let (h1, p) := malloc h
  ({ h1 with text := fun q => if q = p then str else h1.text q }, p)

/-- Embedding of `create_reference` (the same text in both files); copying from a block
that is not live has no defined outcome. -/
def create_reference (h : Store) (item : Nat) : Option (Store × Nat) :=
  if h.live item then
    let (h1, ref) := cJSON_New_Item h
    some (h1.set ref { h1.node item with
      string := 0, type := (h1.node item).type ||| cJSON_IsReference, next := 0, prev := 0 }, ref)
  else none

/-- Embedding of `suffix_object`. -/
def suffix_object (h : Store) (prev item : Nat) : Store :=
  let h1 := h.set prev { h.node prev with next := item }
  h1.set item { h1.node item with prev := prev }

/-- The loop `while (c && c->next) c=c->next;` of `cJSON_AddItemToArray`. -/
def last_sibling (h : Store) : Nat → Nat → Option Nat
  | 0, _ => none
  | fuel + 1, c =>
    if c ≠ 0 ∧ (h.node c).next ≠ 0 then last_sibling h fuel (h.node c).next else some c

/-- Embedding of `cJSON_AddItemToArray` (the nodes it walks are taken to be live). -/
def cJSON_AddItemToArray (fuel : Nat) (h : Store) (array item : Nat) : Option Store :=
  let c := (h.node array).child
  if item = 0 then some h
  else if c = 0 then some (h.set array { h.node array with child := item })
  else
    match last_sibling h fuel c with
    | none => none
    | some c1 => some (suffix_object h c1 item)

/-- Which parts of a record `cJSON_Delete` releases besides the record itself: the
conditions of its four `if` statements on the type and on `allocate_type`; the tests
for a null pointer are in `cJSON_Delete_with`. -/
structure Releases where
  children : Nat → Bool
  valuestring : Nat → Nat → Bool
  string : Nat → Bool
  data : Nat → Bool

/-- Body of `cJSON_Delete` for the conditions `r` of the file. Visiting a record that
is not live has no defined outcome, and neither has a release that `free` refuses. -/
def cJSON_Delete_with (r : Releases) : Nat → Store → Nat → Option Store
  | 0, _, _ => none
  | fuel + 1, h, c =>
    if c = 0 then some h
    else if h.live c = false then none
    else
      let n := h.node c
      (if r.children n.type ∧ n.child ≠ 0 then cJSON_Delete_with r fuel h n.child
        else some h).bind fun h1 =>
      (if r.valuestring n.type n.allocate_type ∧ n.valuestring ≠ 0 then free h1 n.valuestring
        else some h1).bind fun h2 =>
      (if r.string n.allocate_type ∧ n.string ≠ 0 then free h2 n.string else some h2).bind
        fun h3 =>
      (if r.data n.type ∧ n.data ≠ 0 then free h3 n.data else some h3).bind fun h4 =>
      (free h4 c).bind fun h5 => cJSON_Delete_with r fuel h5 n.next

/-- Embedding of `cJSON_CreateObject`. -/
def cJSON_CreateObject (h : Store) : Store × Nat :=
  let (h1, item) := cJSON_New_Item h
  (h1.set item { h1.node item with type := cJSON_Object }, item)

namespace PerValue

/-- The conditions of `cJSON_Delete` in `src/cJSON.c`: children and `valuestring` of
every record that is no reference, and every key; there is no `data`. -/
def releases : Releases :=
  { children := fun ty => decide (ty &&& cJSON_IsReference = 0),
    valuestring := fun ty _ => decide (ty &&& cJSON_IsReference = 0),
    string := fun _ => true,
    data := fun _ => false }

/-- Embedding of `cJSON_Delete` of `src/cJSON.c`. -/
def cJSON_Delete (fuel : Nat) (h : Store) (c : Nat) : Option Store :=
  cJSON_Delete_with releases fuel h c

/-- Embedding of `cJSON_AddItemToObject` of `src/cJSON.c`. -/
def cJSON_AddItemToObject (fuel : Nat) (h : Store) (object : Nat) (string : Bytes)
    (item : Nat) : Option Store :=
  if item = 0 then some h
  else
    (if (h.node item).string ≠ 0 then free h (h.node item).string else some h).bind fun h1 =>
      let (h2, copy) := cJSON_strdup h1 string
      cJSON_AddItemToArray fuel (h2.set item { h2.node item with string := copy }) object item

/-- Embedding of `cJSON_AddItemReferenceToObject` of `src/cJSON.c`. -/
def cJSON_AddItemReferenceToObject (fuel : Nat) (h : Store) (object : Nat) (string : Bytes)
    (item : Nat) : Option Store :=
  (create_reference h item).bind fun r => cJSON_AddItemToObject fuel r.1 object string r.2

/-- Embedding of `cJSON_CreateString` of `src/cJSON.c`. -/
def cJSON_CreateString (h : Store) (string : Bytes) : Store × Nat :=
  let (h1, item) := cJSON_New_Item h
  let (h2, copy) := cJSON_strdup h1 string
  (h2.set item { h2.node item with type := cJSON_String, valuestring := copy }, item)

end PerValue

namespace Arena

/-- The conditions of `cJSON_Delete` in the arena variant: the children of a record
whose type is exactly array or object, the `valuestring` of a record whose type is
exactly string and that owns it, a key that the record owns, and the `data` of a record
that is no reference. -/
def releases : Releases :=
  { children := fun ty => decide (ty = cJSON_Array) || decide (ty = cJSON_Object),
    valuestring := fun ty at_ => decide (ty = cJSON_String) && decide (at_ &&& Allocate_Value ≠ 0),
    string := fun at_ => decide (at_ &&& Allocate_Key ≠ 0),
    data := fun ty => decide (ty &&& cJSON_IsReference = 0) }

/-- Embedding of `cJSON_Delete` of the arena variant. -/
def cJSON_Delete (fuel : Nat) (h : Store) (c : Nat) : Option Store :=
  cJSON_Delete_with releases fuel h c

/-- Embedding of `cJSON_AddItemToObject` of the arena variant. -/
def cJSON_AddItemToObject (fuel : Nat) (h : Store) (object : Nat) (string : Bytes)
    (item : Nat) : Option Store :=
  if item = 0 then some h
  else
    (if (h.node item).allocate_type &&& Allocate_Key ≠ 0 ∧ (h.node item).string ≠ 0 then
        free h (h.node item).string
      else some h).bind fun h1 =>
      let (h2, copy) := cJSON_strdup h1 string
      cJSON_AddItemToArray fuel
        (h2.set item { h2.node item with
          string := copy, allocate_type := (h2.node item).allocate_type ||| Allocate_Key })
        object item

/-- Embedding of `cJSON_AddItemReferenceToObject` of the arena variant. -/
def cJSON_AddItemReferenceToObject (fuel : Nat) (h : Store) (object : Nat) (string : Bytes)
    (item : Nat) : Option Store :=
  (create_reference h item).bind fun r => cJSON_AddItemToObject fuel r.1 object string r.2

/-- Embedding of `cJSON_CreateString` of the arena variant. -/
def cJSON_CreateString (h : Store) (string : Bytes) : Store × Nat :=
  let (h1, item) := cJSON_New_Item h
  let (h2, copy) := cJSON_strdup h1 string
  (h2.set item { h2.node item with
    type := cJSON_String, valuestring := copy, allocate_type := Allocate_Value }, item)

end Arena

/-- Release the blocks of a list one after the other. -/
def free_all : List Nat → Store → Option Store
  | [], h => some h
  | p :: l, h => (free h p).bind (free_all l)

/-- The heap with the blocks of `l` marked as released. -/
def Store.release (h : Store) (l : List Nat) : Store :=
  { h with freed := fun q => h.freed q || decide (q ∈ l) }

/-- The blocks of one record that `cJSON_Delete` releases, in order: the value, the key
and the data where the conditions hold, and the record itself at `c`. -/
def Releases.own (r : Releases) (n : Node) (c : Nat) : List Nat :=
  (if r.valuestring n.type n.allocate_type ∧ n.valuestring ≠ 0 then [n.valuestring] else []) ++
    ((if r.string n.allocate_type ∧ n.string ≠ 0 then [n.string] else []) ++
      ((if r.data n.type ∧ n.data ≠ 0 then [n.data] else []) ++ [c]))

/-- The blocks that `cJSON_Delete` releases, in the order in which it releases them,
read off the records alone. -/
def delete_list (r : Releases) (node : Nat → Node) : Nat → Nat → Option (List Nat)
  | 0, _ => none
  | fuel + 1, c =>
    if c = 0 then some []
    else
      (if r.children (node c).type ∧ (node c).child ≠ 0 then
          delete_list r node fuel (node c).child else some []).bind fun l1 =>
        (delete_list r node fuel (node c).next).bind fun l2 =>
          some (l1 ++ (r.own (node c) c ++ l2))

/-- The record of a reference that was added to an object under the key at `key`: it
has no sibling, `cJSON_Delete` releases neither children nor value nor data for it,
and it releases its key. -/
def IsReferenceMember (r : Releases) (n : Node) (key : Nat) : Prop :=
  n.next = 0 ∧ r.children n.type = false ∧ r.valuestring n.type n.allocate_type = false ∧
    r.data n.type = false ∧ r.string n.allocate_type = true ∧ n.string = key ∧ key ≠ 0

/-- Embedding of `cJSON_AddItemReferenceToArray` (the same text in both files). -/
def cJSON_AddItemReferenceToArray (fuel : Nat) (h : Store) (array item : Nat) : Option Store :=
  (create_reference h item).bind fun r => cJSON_AddItemToArray fuel r.1 array r.2

/-- Reading a C string through a pointer; reading a block that is not live has no
defined content. -/
def Store.string_at (h : Store) (p : Nat) : Option Bytes :=
  if h.live p then some (h.text p) else none

/-- The record at `p` with its strings read by value, as the printers read it. -/
def Store.record (h : Store) (p : Nat) : cJSON :=
  { next := (h.node p).next, prev := (h.node p).prev, type := (h.node p).type,
    child := (h.node p).child, valuestring := h.string_at (h.node p).valuestring,
    valueint := (h.node p).valueint, valuedouble := (h.node p).valuedouble,
    string := h.string_at (h.node p).string, hash_string := (h.node p).hash_string,
    allocate_type := (h.node p).allocate_type }

/-- The heap as the printers read it. -/
def Store.view (h : Store) : Mem := { node := h.record, brk := h.brk }

/-- The set `S` of records holds with every record its children and its siblings. -/
def ClosedUnder (h : Store) (S : Nat → Prop) : Prop :=
  ∀ p, S p → p ≠ 0 →
    ((h.node p).child ≠ 0 → S (h.node p).child) ∧ ((h.node p).next ≠ 0 → S (h.node p).next)

/-- The record at `p` of the heap `h` and the strings it points to are live in `hd`. -/
def Survives (h hd : Store) (p : Nat) : Prop :=
  hd.live p = true ∧
    ((h.node p).valuestring = 0 ∨ hd.live (h.node p).valuestring = true) ∧
    ((h.node p).string = 0 ∨ hd.live (h.node p).string = true)

instance Survives.dec (h hd : Store) (p : Nat) : Decidable (Survives h hd p) := by
  unfold Survives; infer_instance

/-- The heap `gd` compared with the heap `hd`, both made from `h`: of the blocks of `h`
the same ones are live, and the blocks that are live in `hd` have in `gd` the content
they had in `h`. -/
def Unharmed (h hd gd : Store) : Prop :=
  (∀ a, a < h.brk → gd.live a = hd.live a) ∧
    ∀ a, hd.live a = true → gd.node a = h.node a ∧ gd.text a = h.text a

/-- A heap with two trees: the object `{"k":"v"}` at address 1 (its member at 2, the
value of the member at 3 and its key at 4) and the empty object at address 5, made with
the functions of the arena variant. -/
def two_trees : Store :=
  let (s1, b) := cJSON_CreateObject Store.init
  let (s2, v) := Arena.cJSON_CreateString s1 [118]
  let s3 := (Arena.cJSON_AddItemToObject 2 s2 b [107] v).getD s2
  (cJSON_CreateObject s3).1

/-- The heap `two_trees` after the deletion of the empty object at address 5. -/
def two_trees_deleted : Store :=
  { two_trees with freed := fun q => if q = 5 then true else two_trees.freed q }

/-- The records of the first tree of `two_trees`. -/
def first_tree (p : Nat) : Prop := p = 1 ∨ p = 2

instance first_tree.dec (p : Nat) : Decidable (first_tree p) := by
  unfold first_tree; infer_instance

end Alloc

/-- The text `{"k":"v"}` with its terminator. -/
def text_object_k_v : Bytes := [123, 34, 107, 34, 58, 34, 118, 34, 125, 0]

/-- The position `rest` is reached from the position `text` by moving over bytes none
of which is the NUL: `text` is `rest` with such bytes in front. -/
def Passes (text rest : Bytes) : Prop := ∃ c : Bytes, (∀ b ∈ c, b ≠ 0) ∧ text = c ++ rest

/-- The position `rest` lies strictly behind the position `text` and is reached from it
by moving over bytes none of which is the NUL. -/
def Progress (text rest : Bytes) : Prop :=
  ∃ c : Bytes, c ≠ [] ∧ (∀ b ∈ c, b ≠ 0) ∧ text = c ++ rest

/-- The result of a scan with more text behind the position it stopped at. -/
def Scanned.more (sc : Scanned) (v : Bytes) : Scanned := { sc with rest := sc.rest ++ v }

/-- What a production of the arena parser does to the position and to the arena when it
succeeds: the position moves over bytes none of which is the NUL, the capacity of the
arena stays, and the cursor moves forward by at most as many bytes as the position. -/
def Advances (s : PState cJSON_Buf) (text : Bytes) (s1 : PState cJSON_Buf) (rest : Bytes) :
    Prop :=
  Passes text rest ∧ s1.aux.len = s.aux.len ∧ s.aux.offset ≤ s1.aux.offset ∧
    s1.aux.offset + rest.length ≤ s.aux.offset + text.length

/-- The arena has room for the text that is still to be read: the cursor is not
negative, and the cursor and the length of the text as a C string together do not
exceed the capacity. -/
def Fits (s : PState cJSON_Buf) (text : Bytes) : Prop :=
  0 ≤ s.aux.offset ∧ s.aux.offset + strlen text ≤ s.aux.len

namespace Arena

/-- The number of bytes that a call of `parse_string` of the arena variant stores in the
arena, from the cursor on: the bytes decoded until the loop ends or fails and, when the
loop ends, the terminating NUL; nothing when the text does not start with a quote. -/
def string_writes (str : Bytes) : Nat :=
  if peek str ≠ 34 then 0
  else
    match parse_string_loop (str.length + 1) str.tail [] with
    | Decoded.done out _ => out.length + 1
    | Decoded.bad out _ => out.length
    | Decoded.stuck => 0

/-- The function `parse_string` of the arena variant with a bounds check that the source
does not have: when a byte that the call stores would lie outside the arena (below index
0 or at or above the capacity `len`), there is no outcome. -/
def parse_string_checked (s : PState cJSON_Buf) (item : Nat) (str : Bytes) :
    PResult (PState cJSON_Buf × Bytes) :=
  if 0 ≤ s.aux.offset ∧ s.aux.offset + string_writes str ≤ s.aux.len then parse_string s item str
  else PResult.stuck

/-- Embedding of `parse_value` of the arena variant with the string production `ps` in
the place of `parse_string`. -/
def parse_value_with (ps : PState cJSON_Buf → Nat → Bytes → PResult (PState cJSON_Buf × Bytes)) :
    Nat → PState cJSON_Buf → Nat → Bytes → PResult (PState cJSON_Buf × Bytes)
  | 0, _, _, _ => PResult.stuck
  | fuel + 1, s, item, value =>
    if peek value = 34 then ps s item value
    else if peek value = 123 then parse_object ps (parse_value_with ps fuel) fuel s item value
    else if peek value = 45 ∨ (48 ≤ peek value ∧ peek value ≤ 57) then
      let r := parse_number s.mem item value
      PResult.ok ({ s with mem := r.1 }, r.2)
    else if peek value = 91 then parse_array (parse_value_with ps fuel) fuel s item value
    else if starts_with [110, 117, 108, 108] value then
      PResult.ok ({ s with mem := s.mem.set item { s.mem.node item with type := cJSON_NULL } },
        value.drop 4)
    else if starts_with [102, 97, 108, 115, 101] value then
      PResult.ok ({ s with mem := s.mem.set item { s.mem.node item with type := cJSON_False } },
        value.drop 5)
    else if starts_with [116, 114, 117, 101] value then
      PResult.ok ({ s with mem := s.mem.set item { s.mem.node item with type := cJSON_True } },
        value.drop 4)
    else PResult.fail (some value)

/-- Embedding of `parse_root` with the string production `ps`. -/
def parse_root_with (ps : PState cJSON_Buf → Nat → Bytes → PResult (PState cJSON_Buf × Bytes))
    (fuel : Nat) (s : PState cJSON_Buf) (item : Nat) (value : Bytes) :
    PResult (PState cJSON_Buf × Bytes) :=
  if peek value = 123 then parse_object ps (parse_value_with ps fuel) fuel s item value
  else if peek value = 91 then parse_array (parse_value_with ps fuel) fuel s item value
  else PResult.fail (some value)

/-- Embedding of `cJSON_Parse` of the arena variant with the string production `ps`. -/
def cJSON_Parse_with (ps : PState cJSON_Buf → Nat → Bytes → PResult (PState cJSON_Buf × Bytes))
    (libc : Libc) (fuel : Nat) (m : Mem) (value : Bytes) : PResult (Mem × Nat × cJSON_Buf) :=
  let temp := cJSON_Buf_Init libc (strlen value) 0
  let (m1, c) := cJSON_New_Item m
  match parse_root_with ps fuel { mem := m1, aux := temp } c (skip value) with
  | PResult.ok (s, _) => PResult.ok (s.mem, c, s.aux)
  | PResult.fail ep => PResult.fail ep
  | PResult.stuck => PResult.stuck

/-- The function `cJSON_Parse` of the arena variant with the bounds check of
`parse_string_checked` at every call of `parse_string`. -/
def cJSON_Parse_checked (libc : Libc) (m : Mem) (value : Bytes) :
    PResult (Mem × Nat × cJSON_Buf) :=
  cJSON_Parse_with parse_string_checked libc (value.length + 1) m value

end Arena

/-- The production `pv2` repeats on a longer text what `pv` does on the text: whenever
`pv` succeeds on `u` and stops before the end of `u`, at a byte other than the full
stop, `pv2` succeeds on `u ++ v` from a state with the same tree, stops at the same
place and leaves the same tree. -/
def Stable (pv pv2 : PState cJSON_Buf → Nat → Bytes → PResult (PState cJSON_Buf × Bytes))
    (v : Bytes) : Prop :=
  ∀ (s s2 : PState cJSON_Buf) (i : Nat) (u : Bytes) (s1 : PState cJSON_Buf) (r : Bytes),
    pv s i u = PResult.ok (s1, r) → r ≠ [] → peek r ≠ 46 → SameState s s2 →
    ∃ s3, pv2 s2 i (u ++ v) = PResult.ok (s3, r ++ v) ∧ SameState s1 s3

/-- The production `pv` succeeds on no empty text. -/
def Consumes (pv : PState cJSON_Buf → Nat → Bytes → PResult (PState cJSON_Buf × Bytes)) :
    Prop :=
  ∀ (s : PState cJSON_Buf) (i : Nat) (u : Bytes) (s1 : PState cJSON_Buf) (r : Bytes),
    pv s i u = PResult.ok (s1, r) → u ≠ []

/-- The text `{"a":[1]}`. -/
def text_object_a1 : Bytes := [123, 34, 97, 34, 58, 91, 49, 93, 125]

/-- Trailing text that begins like a continuation of a number: `.5e3]` followed by a
NUL and one more byte. -/
def text_trailing : Bytes := [46, 53, 101, 51, 93, 0, 120]

/-- The text `["\q"]` followed by a NUL, a quote and one more byte: as a C string it
ends after the closing bracket. -/
def text_escape_q_nul : Bytes := [91, 34, 92, 113, 34, 93, 0, 34, 120]

/-! ## Facts about the store and child lists -/

@[simp] theorem Mem.set_node (m : Mem) (p q : Nat) (c : cJSON) :
    (m.set p c).node q = if q = p then c else m.node q := rfl

@[simp] theorem Mem.set_brk (m : Mem) (p : Nat) (c : cJSON) : (m.set p c).brk = m.brk := rfl

theorem DLSeg.ne_zero {m : Mem} : ∀ {l : List Nat} {pr nx : Nat}, DLSeg m pr l nx → ∀ c ∈ l, c ≠ 0
  | [], _, _, _, c, hc => by simp at hc
  | a :: l, pr, nx, h, c, hc => by
    rcases List.mem_cons.1 hc with rfl | hc
    · exact h.1
    · exact DLSeg.ne_zero h.2.2.2 c hc

theorem DLSeg.append {m : Mem} : ∀ (l1 l2 : List Nat) (pr nx : Nat),
    DLSeg m pr (l1 ++ l2) nx ↔ DLSeg m pr l1 (l2.headD nx) ∧ DLSeg m (l1.getLastD pr) l2 nx
  | [], l2, pr, nx => by simp [DLSeg]
  | a :: l1, l2, pr, nx => by
    have ih := @DLSeg.append m l1 l2 a nx
    cases l1 with
    | nil => simp [DLSeg, and_assoc]
    | cons b l1 =>
      simp only [List.cons_append, DLSeg, List.headD_cons, List.getLastD_cons] at ih ⊢
      rw [ih]
      tauto

theorem DLSeg.congr {m m' : Mem} : ∀ {l : List Nat} {pr nx : Nat},
    (∀ c ∈ l, (m'.node c).next = (m.node c).next ∧ (m'.node c).prev = (m.node c).prev) →
    DLSeg m pr l nx → DLSeg m' pr l nx
  | [], _, _, _, _ => trivial
  | a :: l, pr, nx, hc, h => by
    have ha := hc a (List.mem_cons_self _ _)
    refine ⟨h.1, ?_, ?_, DLSeg.congr (fun c hcl => hc c (List.mem_cons_of_mem _ hcl)) h.2.2.2⟩
    · rw [ha.2]; exact h.2.1
    · rw [ha.1]; exact h.2.2.1

theorem DLSeg.unique {m : Mem} : ∀ {l l' : List Nat} {pr pr' : Nat},
    DLSeg m pr l 0 → DLSeg m pr' l' 0 → l.headD 0 = l'.headD 0 → l = l'
  | [], [], _, _, _, _, _ => rfl
  | [], b :: l', _, _, _, h', e => by
    simp at e; exact absurd e.symm h'.1
  | a :: l, [], _, _, h, _, e => by
    simp at e; exact absurd e h.1
  | a :: l, b :: l', _, _, h, h', e => by
    simp at e; subst e
    have := DLSeg.unique h.2.2.2 h'.2.2.2 (by rw [← h.2.2.1, ← h'.2.2.1])
    rw [this]

theorem DLSeg.nodup {m : Mem} : ∀ {l : List Nat} {pr : Nat}, DLSeg m pr l 0 → l.Nodup
  | [], _, _ => List.nodup_nil
  | a :: l, pr, h => by
    refine List.nodup_cons.2 ⟨?_, DLSeg.nodup h.2.2.2⟩
    intro hmem
    obtain ⟨l1, l2, rfl⟩ := List.append_of_mem hmem
    have h2 := ((DLSeg.append l1 (a :: l2) a 0).1 h.2.2.2).2
    have := DLSeg.unique h h2 rfl
    have hlen := congrArg List.length this
    simp at hlen
    omega


theorem walk_items_spec {m : Mem} : ∀ (k : Nat) {l : List Nat} {pr : Nat},
    DLSeg m pr l 0 → walk_items m k (l.headD 0) = l.getD k 0
  | 0, l, _, _ => by cases l <;> simp [walk_items]
  | k + 1, [], _, _ => by simp [walk_items]
  | k + 1, a :: l, _, h => by
    have ih := walk_items_spec k h.2.2.2
    simp only [walk_items, List.headD_cons, if_neg h.1, h.2.2.1, ih, List.getD_cons_succ]

theorem GetArraySize_loop_spec {m : Mem} : ∀ (fuel : Nat) {l : List Nat} {pr : Nat} (i : Int),
    DLSeg m pr l 0 → l.length < fuel →
    cJSON_GetArraySize_loop m fuel (l.headD 0) i = some (i + l.length)
  | 0, _, _, _, _, hf => by omega
  | fuel + 1, [], _, i, _, _ => by simp [cJSON_GetArraySize_loop]
  | fuel + 1, a :: l, _, i, h, hf => by
    have ih := GetArraySize_loop_spec fuel (i + 1) h.2.2.2 (by simpa using hf)
    simp only [cJSON_GetArraySize_loop, List.headD_cons, if_neg h.1, h.2.2.1, ih,
      List.length_cons]
    congr 1; push_cast; ring

theorem last_sibling_spec {m : Mem} : ∀ (fuel : Nat) {l : List Nat} {pr : Nat} (z : Nat),
    DLSeg m pr (l ++ [z]) 0 → l.length < fuel →
    last_sibling m fuel ((l ++ [z]).headD 0) = some z
  | 0, _, _, _, _, hf => by omega
  | fuel + 1, [], _, z, h, _ => by
    have hn : (m.node z).next = 0 := h.2.2.1
    simp [last_sibling, hn]
  | fuel + 1, a :: l, _, z, h, hf => by
    have ih := last_sibling_spec fuel z h.2.2.2 (by simpa using hf)
    have hn : (m.node a).next = (l ++ [z]).headD 0 := h.2.2.1
    have hz : (l ++ [z]).headD 0 ≠ 0 := by
      cases l with
      | nil => simpa using DLSeg.ne_zero h z (by simp)
      | cons b l => simpa using DLSeg.ne_zero h b (by simp)
    have hlast : last_sibling m (fuel + 1) a = last_sibling m fuel (m.node a).next := by
      simp only [last_sibling]
      rw [if_pos ⟨h.1, by rw [hn]; exact hz⟩]
    simpa [hlast, hn] using ih


theorem suffix_object_fields (m : Mem) (z x : Nat) (hzx : z ≠ x) (q : Nat) :
    ((suffix_object m z x).node q).next = (if q = z then x else (m.node q).next) ∧
    ((suffix_object m z x).node q).prev = (if q = x then z else (m.node q).prev) ∧
    ((suffix_object m z x).node q).child = (m.node q).child ∧
    ((suffix_object m z x).node q).data = (m.node q).data := by
  have hxz : ¬ x = z := fun h => hzx h.symm
  by_cases h1 : q = x <;> by_cases h2 : q = z <;>
    simp [suffix_object, cJSON.data, h1, h2, hzx, hxz]

theorem detach_fields (m : Mem) (object c : Nat)
    (hp : (m.node c).prev ≠ c) (hn : (m.node c).next ≠ c) (q : Nat) :
    (cJSON_DetachItemFromParent m object c).2 = c ∧
    ((cJSON_DetachItemFromParent m object c).1.node q).next =
      (if q = c then 0 else if q = (m.node c).prev ∧ (m.node c).prev ≠ 0 then (m.node c).next
        else (m.node q).next) ∧
    ((cJSON_DetachItemFromParent m object c).1.node q).prev =
      (if q = c then 0 else if q = (m.node c).next ∧ (m.node c).next ≠ 0 then (m.node c).prev
        else (m.node q).prev) ∧
    ((cJSON_DetachItemFromParent m object c).1.node q).child =
      (if q = object ∧ c = (m.node object).child then (m.node c).next else (m.node q).child) ∧
    ((cJSON_DetachItemFromParent m object c).1.node q).data = (m.node q).data := by
  have hp' : ¬ c = (m.node c).prev := fun h => hp h.symm
  have hn' : ¬ c = (m.node c).next := fun h => hn h.symm
  generalize hpd : (m.node c).prev = p at hp hp' ⊢
  generalize hnd : (m.node c).next = n at hn hn' ⊢
  let m1 := if p ≠ 0 then m.set p { m.node p with next := n } else m
  have h1n : ∀ q, (m1.node q).next = if q = p ∧ p ≠ 0 then n else (m.node q).next := by
    intro q; by_cases hp0 : p = 0 <;> by_cases hq : q = p <;> simp [m1, hp0, hq]
  have h1p : ∀ q, (m1.node q).prev = (m.node q).prev := by
    intro q; by_cases hp0 : p = 0 <;> by_cases hq : q = p <;> simp [m1, hp0, hq]
  have h1c : ∀ q, (m1.node q).child = (m.node q).child := by
    intro q; by_cases hp0 : p = 0 <;> by_cases hq : q = p <;> simp [m1, hp0, hq]
  have h1d : ∀ q, (m1.node q).data = (m.node q).data := by
    intro q; by_cases hp0 : p = 0 <;> by_cases hq : q = p <;> simp [m1, hp0, hq, cJSON.data]
  have e1n : (m1.node c).next = n := by rw [h1n, hnd]; simp [hp']
  have e1p : (m1.node c).prev = p := by rw [h1p, hpd]
  let m2 := if n ≠ 0 then m1.set n { m1.node n with prev := p } else m1
  have h2n : ∀ q, (m2.node q).next = (m1.node q).next := by
    intro q; by_cases hn0 : n = 0 <;> by_cases hq : q = n <;> simp [m2, hn0, hq]
  have h2p : ∀ q, (m2.node q).prev = if q = n ∧ n ≠ 0 then p else (m1.node q).prev := by
    intro q; by_cases hn0 : n = 0 <;> by_cases hq : q = n <;> simp [m2, hn0, hq]
  have h2c : ∀ q, (m2.node q).child = (m1.node q).child := by
    intro q; by_cases hn0 : n = 0 <;> by_cases hq : q = n <;> simp [m2, hn0, hq]
  have h2d : ∀ q, (m2.node q).data = (m1.node q).data := by
    intro q; by_cases hn0 : n = 0 <;> by_cases hq : q = n <;> simp [m2, hn0, hq, cJSON.data]
  let m3 := if c = (m.node object).child then m2.set object { m2.node object with child := n }
    else m2
  have h3n : ∀ q, (m3.node q).next = (m2.node q).next := by
    intro q; by_cases hc : c = (m.node object).child <;> by_cases hq : q = object <;>
      simp [m3, hc, hq]
  have h3p : ∀ q, (m3.node q).prev = (m2.node q).prev := by
    intro q; by_cases hc : c = (m.node object).child <;> by_cases hq : q = object <;>
      simp [m3, hc, hq]
  have h3c : ∀ q, (m3.node q).child =
      if q = object ∧ c = (m.node object).child then n else (m2.node q).child := by
    intro q; by_cases hc : c = (m.node object).child <;> by_cases hq : q = object <;>
      simp [m3, hc, hq]
  have h3d : ∀ q, (m3.node q).data = (m2.node q).data := by
    intro q; by_cases hc : c = (m.node object).child <;> by_cases hq : q = object <;>
      simp [m3, hc, hq, cJSON.data]
  have hdef : cJSON_DetachItemFromParent m object c =
      (m3.set c { m3.node c with prev := 0, next := 0 }, c) := by
    have e2n : (m2.node c).next = n := by rw [h2n, e1n]
    have e2c : (m2.node object).child = (m.node object).child := by rw [h2c, h1c]
    simp only [cJSON_DetachItemFromParent, hpd, hnd, m3, m2, m1] at e1n e1p e2n e2c ⊢
    simp only [e1n, e1p, e2n, e2c]
  rw [hdef]
  refine ⟨rfl, ?_, ?_, ?_, ?_⟩
  · by_cases hq : q = c
    · simp [hq]
    · simp only [Mem.set_node, if_neg hq, h3n, h2n, h1n]
  · by_cases hq : q = c
    · simp [hq]
    · simp only [Mem.set_node, if_neg hq, h3p, h2p, h1p]
  · by_cases hq : q = c
    · subst hq
      simp only [Mem.set_node, if_true, h3c, h2c, h1c]
    · simp only [Mem.set_node, if_neg hq, h3c, h2c, h1c]
  · by_cases hq : q = c
    · subst hq
      have e : ((m3.set q { m3.node q with prev := 0, next := 0 }).node q).data =
          (m3.node q).data := by simp [cJSON.data]
      rw [e, h3d, h2d, h1d]
    · simp only [Mem.set_node, if_neg hq, h3d, h2d, h1d]


theorem DLSeg.set_last {m m' : Mem} {l : List Nat} {pr p nx nx' : Nat}
    (h : DLSeg m pr (l ++ [p]) nx)
    (hl : ∀ c ∈ l, (m'.node c).next = (m.node c).next ∧ (m'.node c).prev = (m.node c).prev)
    (hp : (m'.node p).prev = (m.node p).prev) (hn : (m'.node p).next = nx') :
    DLSeg m' pr (l ++ [p]) nx' := by
  have h1 := (DLSeg.append l [p] pr nx).1 h
  refine (DLSeg.append l [p] pr nx').2 ⟨DLSeg.congr hl h1.1, ?_⟩
  have h2 := h1.2
  exact ⟨h2.1, by rw [hp]; exact h2.2.1, by simpa using hn, trivial⟩

theorem DLSeg.set_first {m m' : Mem} {l : List Nat} {pr pr' n nx : Nat}
    (h : DLSeg m pr (n :: l) nx)
    (hl : ∀ c ∈ l, (m'.node c).next = (m.node c).next ∧ (m'.node c).prev = (m.node c).prev)
    (hp : (m'.node n).prev = pr') (hn : (m'.node n).next = (m.node n).next) :
    DLSeg m' pr' (n :: l) nx :=
  ⟨h.1, hp, by rw [hn]; exact h.2.2.1, DLSeg.congr hl h.2.2.2⟩

theorem Children.getArrayItem {m : Mem} {array : Nat} {l : List Nat} (h : Children m array l)
    (k : Nat) : cJSON_GetArrayItem m array k = l.getD k 0 := by
  unfold cJSON_GetArrayItem
  rw [h.1, Int.toNat_natCast]
  exact walk_items_spec k h.2

theorem Children.getArraySize {m : Mem} {array : Nat} {l : List Nat} (h : Children m array l)
    (fuel : Nat) (hf : l.length < fuel) : cJSON_GetArraySize fuel m array = some l.length := by
  unfold cJSON_GetArraySize
  rw [h.1, GetArraySize_loop_spec fuel 0 h.2 hf]
  simp

theorem add_child_appends_aux (m : Mem) (array x : Nat) (l : List Nat) (fuel : Nat)
    (hl : Children m array l) (hfuel : l.length ≤ fuel)
    (hx : x ≠ 0) (hxl : x ∉ l) (hnext : (m.node x).next = 0) (hprev : (m.node x).prev = 0) :
    ∃ m', cJSON_AddItemToArray fuel m array x = some m' ∧ Children m' array (l ++ [x]) ∧
      (∀ q, (m'.node q).data = (m.node q).data) ∧
      (∀ q, q ≠ array → (m'.node q).child = (m.node q).child) := by
  rcases List.eq_nil_or_concat l with rfl | ⟨l0, z, hlz⟩
  case inr.intro.intro =>
    rw [List.concat_eq_append] at hlz
    subst hlz
    have hzx : z ≠ x := by rintro rfl; exact hxl (by simp)
    have hc0 : (m.node array).child ≠ 0 := by
      rw [hl.1]
      cases l0 with
      | nil => simpa using DLSeg.ne_zero hl.2 z (by simp)
      | cons b l0 => simpa using DLSeg.ne_zero hl.2 b (by simp)
    have hlast : last_sibling m fuel (m.node array).child = some z := by
      rw [hl.1]
      exact last_sibling_spec fuel z hl.2 (by simpa using hfuel)
    have hnd := DLSeg.nodup hl.2
    refine ⟨suffix_object m z x, ?_, ⟨?_, ?_⟩, ?_, ?_⟩
    · simp [cJSON_AddItemToArray, hx, hc0, hlast]
    · rw [(suffix_object_fields m z x hzx array).2.2.1, hl.1]
      cases l0 <;> simp
    · refine (DLSeg.append (l0 ++ [z]) [x] 0 0).2 ⟨?_, ?_⟩
      · refine @DLSeg.set_last m _ l0 0 z 0 x hl.2 ?_ ?_ ?_
        · intro c hc
          have hcz : c ≠ z := by
            rintro rfl
            have := List.nodup_append.1 hnd
            exact this.2.2 hc (by simp)
          have hcx : c ≠ x := by
            rintro rfl; exact hxl (by simp [hc])
          have := suffix_object_fields m z x hzx c
          simp [this.1, this.2.1, hcz, hcx]
        · have := suffix_object_fields m z x hzx z
          simp [this.2.1, hzx]
        · have := suffix_object_fields m z x hzx z
          simp [this.1]
      · have := suffix_object_fields m z x hzx x
        refine ⟨hx, ?_, ?_, trivial⟩
        · simp [this.2.1]
        · simp [this.1, hnext, Ne.symm hzx]
    · intro q; exact (suffix_object_fields m z x hzx q).2.2.2
    · intro q _; exact (suffix_object_fields m z x hzx q).2.2.1
  · have hc : (m.node array).child = 0 := hl.1
    refine ⟨m.set array { m.node array with child := x }, ?_, ⟨?_, ?_, ?_, ?_, trivial⟩, ?_, ?_⟩
    · simp [cJSON_AddItemToArray, hx, hc]
    · simp
    · exact hx
    · by_cases h : x = array <;> simp [h, hprev]; (subst h; exact hprev)
    · by_cases h : x = array <;> simp [h, hnext]; (subst h; exact hnext)
    · intro q; by_cases h : q = array <;> simp [h, cJSON.data]
    · intro q hq; simp [hq]


theorem exists_split_at {α : Type} : ∀ (l : List α) (i : Nat), i < l.length →
    ∃ l1 c l2, l = l1 ++ c :: l2 ∧ l1.length = i
  | [], i, h => by simp at h
  | a :: l, 0, _ => ⟨[], a, l, rfl, rfl⟩
  | a :: l, i + 1, h => by
    obtain ⟨l1, c, l2, e, hlen⟩ := exists_split_at l i (by simpa using h)
    exact ⟨a :: l1, c, l2, by rw [e]; rfl, by simp [hlen]⟩

theorem getD_split {α : Type} (l1 : List α) (c : α) (l2 : List α) (d : α) :
    (l1 ++ c :: l2).getD l1.length d = c := by
  induction l1 with
  | nil => rfl
  | cons a l1 ih => simpa using ih

theorem eraseIdx_split {α : Type} (l1 : List α) (c : α) (l2 : List α) :
    (l1 ++ c :: l2).eraseIdx l1.length = l1 ++ l2 := by
  induction l1 with
  | nil => rfl
  | cons a l1 ih => simpa using ih

theorem detach_parent_spec (m : Mem) (array c : Nat) (l1 l2 : List Nat)
    (hl : Children m array (l1 ++ c :: l2)) :
    (cJSON_DetachItemFromParent m array c).2 = c ∧
    ((cJSON_DetachItemFromParent m array c).1.node c).next = 0 ∧
    ((cJSON_DetachItemFromParent m array c).1.node c).prev = 0 ∧
    Children (cJSON_DetachItemFromParent m array c).1 array (l1 ++ l2) ∧
    (∀ q, ((cJSON_DetachItemFromParent m array c).1.node q).data = (m.node q).data) ∧
    (∀ q, q ≠ array →
      ((cJSON_DetachItemFromParent m array c).1.node q).child = (m.node q).child) := by
  have hnd := DLSeg.nodup hl.2
  have hne := DLSeg.ne_zero hl.2
  have hseg := (DLSeg.append l1 (c :: l2) 0 0).1 hl.2
  obtain ⟨hA, hc0, hcp, hcn, hB⟩ := hseg
  have hnd' := List.nodup_append.1 hnd
  have hc1 : c ∉ l1 := fun h => hnd'.2.2 h (by simp)
  have hc2 : c ∉ l2 := (List.nodup_cons.1 hnd'.2.1).1
  have h12 : ∀ a ∈ l1, a ∉ l2 := fun a h1 h2 => hnd'.2.2 h1 (by simp [h2])
  have hpm : (m.node c).prev = 0 ∨ (m.node c).prev ∈ l1 := by
    rw [hcp]
    rcases List.eq_nil_or_concat l1 with e | ⟨l0, z, e⟩
    · left; rw [e]; rfl
    · right; rw [e, List.concat_eq_append]; simp
  have hnm : (m.node c).next = 0 ∨ (m.node c).next ∈ l2 := by
    rw [hcn]
    cases l2 with
    | nil => left; rfl
    | cons b l2 => right; simp
  have hpc : (m.node c).prev ≠ c := by
    rcases hpm with h | h
    · rw [h]; exact Ne.symm hc0
    · intro e; rw [e] at h; exact hc1 h
  have hnc : (m.node c).next ≠ c := by
    rcases hnm with h | h
    · rw [h]; exact Ne.symm hc0
    · intro e; rw [e] at h; exact hc2 h
  have k1 : ∀ q ∈ l1, q ≠ c ∧ ¬ (q = (m.node c).next ∧ (m.node c).next ≠ 0) := by
    intro q hq
    refine ⟨fun e => hc1 (e ▸ hq), fun e => ?_⟩
    rcases hnm with h | h
    · exact e.2 h
    · exact h12 q hq (e.1 ▸ h)
  have k2 : ∀ q ∈ l2, q ≠ c ∧ ¬ (q = (m.node c).prev ∧ (m.node c).prev ≠ 0) := by
    intro q hq
    refine ⟨fun e => hc2 (e ▸ hq), fun e => ?_⟩
    rcases hpm with h | h
    · exact e.2 h
    · exact h12 _ h (e.1 ▸ hq)
  have F := detach_fields m array c hpc hnc
  generalize cJSON_DetachItemFromParent m array c = r at F ⊢
  refine ⟨(F 0).1, by simp [(F c).2.1], by simp [(F c).2.2.1], ⟨?_, ?_⟩,
    fun q => (F q).2.2.2.2, fun q hq => by simp [(F q).2.2.2.1, hq]⟩
  · rw [(F array).2.2.2.1, hl.1, hcn]
    rcases l1 with _ | ⟨a, l1⟩
    · simp
    · have : c ≠ a := by rintro rfl; exact hc1 (by simp)
      simp [this]
  · refine (DLSeg.append l1 l2 0 0).2 ⟨?_, ?_⟩
    · rcases List.eq_nil_or_concat l1 with e | ⟨l0, z, e⟩
      · rw [e]; trivial
      · rw [List.concat_eq_append] at e
        have hzl : z ∈ l1 := by rw [e]; simp
        have hz : (m.node c).prev = z := by rw [hcp, e]; simp
        have hz0 : z ≠ 0 := hne z (by simp [hzl])
        have hnd0 := List.nodup_append.1 (e ▸ hnd'.1)
        rw [e] at hA ⊢
        refine @DLSeg.set_last m r.1 l0 0 z c (l2.headD 0) hA ?_ ?_ ?_
        · intro q hq
          have hql : q ∈ l1 := by rw [e]; simp [hq]
          have hqz : q ≠ z := by rintro rfl; exact hnd0.2.2 hq (by simp)
          rw [(F q).2.1, (F q).2.2.1, hz, if_neg (k1 q hql).1, if_neg (k1 q hql).1,
            if_neg (k1 q hql).2, if_neg (fun h => hqz h.1)]
          exact ⟨rfl, rfl⟩
        · rw [(F z).2.2.1, if_neg (k1 z hzl).1, if_neg (k1 z hzl).2]
        · rw [(F z).2.1, if_neg (k1 z hzl).1, hz, if_pos ⟨rfl, hz0⟩, hcn]
    · cases l2 with
      | nil => trivial
      | cons n l2 =>
        have hnl : n ∈ n :: l2 := by simp
        have hn : (m.node c).next = n := by simpa using hcn
        have hn0 : n ≠ 0 := hB.1
        have hnd2 := List.nodup_cons.1 (List.nodup_cons.1 hnd'.2.1).2
        refine @DLSeg.set_first m r.1 l2 c (l1.getLastD 0) n 0 hB ?_ ?_ ?_
        · intro q hq
          have hql : q ∈ n :: l2 := by simp [hq]
          have hqn : q ≠ n := by rintro rfl; exact hnd2.1 hq
          rw [(F q).2.1, (F q).2.2.1, hn, if_neg (k2 q hql).1, if_neg (k2 q hql).1,
            if_neg (k2 q hql).2, if_neg (fun h => hqn h.1)]
          exact ⟨rfl, rfl⟩
        · rw [(F n).2.2.1, if_neg (k2 n hnl).1, hn, if_pos ⟨rfl, hn0⟩, hcp]
        · rw [(F n).2.1, if_neg (k2 n hnl).1, if_neg (k2 n hnl).2]

/-! ## Facts about member lookup -/

theorem tolower_eq_zero {c : Nat} : tolower c = 0 ↔ c = 0 := by
  unfold tolower
  split_ifs with h
  · simp; omega
  · rfl

theorem strcasecmp_loop_zero_iff : ∀ (a b : Bytes), IsCStr a → IsCStr b →
    (cJSON_strcasecmp_loop a b = 0 ↔ EqIgnoreCase a b)
  | [], [], _, _ => by simp [cJSON_strcasecmp_loop, EqIgnoreCase, peek]
  | [], y :: b, _, hb => by
    have hy : y ≠ 0 := by have := (hb y (by simp)).1; omega
    have : tolower y ≠ 0 := fun h => hy (tolower_eq_zero.1 h)
    have h0 : tolower 0 = 0 := rfl
    simp [cJSON_strcasecmp_loop, EqIgnoreCase, peek, h0, Ne.symm this, this]
  | x :: a, [], ha, _ => by
    have hx : x ≠ 0 := by have := (ha x (by simp)).1; omega
    have : tolower x ≠ 0 := fun h => hx (tolower_eq_zero.1 h)
    have h0 : tolower 0 = 0 := rfl
    simp [cJSON_strcasecmp_loop, EqIgnoreCase, peek, h0, this]
  | x :: a, y :: b, ha, hb => by
    have hx : x ≠ 0 := by have := (ha x (by simp)).1; omega
    have ih := strcasecmp_loop_zero_iff a b (fun c hc => ha c (by simp [hc]))
      (fun c hc => hb c (by simp [hc]))
    by_cases h : tolower x = tolower y
    · simp [cJSON_strcasecmp_loop, EqIgnoreCase, peek, h, hx] at ih ⊢
      exact ih
    · have : (tolower x : Int) - (tolower y : Int) ≠ 0 := by omega
      simp [cJSON_strcasecmp_loop, EqIgnoreCase, peek, h, this]

theorem Arena.BKDRHash_loop_congr : ∀ (a b : Bytes) (h : Nat), a.map tolower = b.map tolower →
    Arena.BKDRHash_loop a h = Arena.BKDRHash_loop b h
  | [], [], _, _ => rfl
  | [], _ :: _, _, e => by simp at e
  | _ :: _, [], _, e => by simp at e
  | x :: a, y :: b, h, e => by
    simp only [List.map_cons, List.cons.injEq] at e
    simp only [Arena.BKDRHash_loop, e.1]
    exact Arena.BKDRHash_loop_congr a b _ e.2

theorem Arena.BKDRHash_congr {a b : Bytes} (e : EqIgnoreCase a b) :
    Arena.BKDRHash a = Arena.BKDRHash b := by
  unfold Arena.BKDRHash
  rw [Arena.BKDRHash_loop_congr a b 0 e]

theorem lookup_loop_spec (hash : Bytes → Int)
    (hcongr : ∀ a b, EqIgnoreCase a b → hash a = hash b)
    (name : Bytes) (hname : IsCStr name) :
    ∀ (l : List Nat) (fuel : Nat) (m : Mem) (pr : Nat) (i : Int),
      DLSeg m pr l 0 → KeysCached hash m l → l.length < fuel →
      ∃ r, cJSON_GetObjectItemV2_loop hash name (hash name) fuel m (l.headD 0) i = some r ∧
        (∀ q, (r.mem.node q).unhashed = (m.node q).unhashed) ∧
        (∀ q, (r.mem.node q).hash_string = (m.node q).hash_string ∨
          (q ∈ l ∧ (m.node q).hash_string = -1 ∧
            (r.mem.node q).hash_string = hash (m.node q).key)) ∧
        (∀ j : Nat, j < l.length → EqIgnoreCase (m.node (l.getD j 0)).key name →
          (∀ j' : Nat, j' < j → ¬ EqIgnoreCase (m.node (l.getD j' 0)).key name) →
          r.found = l.getD j 0 ∧ r.index = i + j) ∧
        ((∀ c ∈ l, ¬ EqIgnoreCase (m.node c).key name) → r.found = 0) ∧
        (r.found = 0 → ∀ c ∈ l, ¬ EqIgnoreCase (m.node c).key name)
  | [], 0, _, _, _, _, _, hf => by simp at hf
  | [], fuel + 1, m, _, i, _, _, _ => by
    refine ⟨{ mem := m, found := 0, index := i }, by simp [cJSON_GetObjectItemV2_loop], ?_⟩
    simp
  | c :: l, 0, _, _, _, _, _, hf => by simp at hf
  | c :: l, fuel + 1, m, pr, i, hseg, hk, hf => by
    obtain ⟨hsome, hkc, hkh⟩ := hk c (by simp)
    obtain ⟨k, hks⟩ := Option.isSome_iff_exists.1 hsome
    have hmk : (m.node c).key = k := by simp [cJSON.key, hks]
    rw [hmk] at hkc hkh
    simp only [List.headD_cons]
    have hc0 : c ≠ 0 := hseg.1
    -- the store after the hash of `c` has been cached
    let m1 : Mem := if (m.node c).hash_string = -1 then
      m.set c { m.node c with hash_string := hash k } else m
    have h1u : ∀ q, (m1.node q).unhashed = (m.node q).unhashed := by
      intro q
      by_cases h : (m.node c).hash_string = -1 <;> by_cases hq : q = c <;>
        simp [m1, h, hq, cJSON.unhashed]
    have h1h : (m1.node c).hash_string = hash k := by
      by_cases h : (m.node c).hash_string = -1
      · simp [m1, h]
      · simp only [m1, if_neg h]
        rcases hkh with h' | h'
        · exact absurd h' h
        · exact h'
    have h1o : ∀ q, q ≠ c → m1.node q = m.node q := by
      intro q hq
      by_cases h : (m.node c).hash_string = -1 <;> simp [m1, h, hq]
    have fld : ∀ q, (m1.node q).string = (m.node q).string ∧ (m1.node q).next = (m.node q).next ∧
        (m1.node q).prev = (m.node q).prev := by
      intro q
      have := h1u q
      simp only [cJSON.unhashed, cJSON.mk.injEq] at this
      exact ⟨this.2.2.2.2.2.2.2.1, this.1, this.2.1⟩
    have hkey : ∀ q, (m1.node q).key = (m.node q).key := by
      intro q; simp [cJSON.key, (fld q).1]
    have hcmp : cJSON_strcasecmp (m1.node c).string (some name) = 0 ↔ EqIgnoreCase k name := by
      rw [(fld c).1, hks]
      exact strcasecmp_loop_zero_iff k name hkc hname
    have hstep : cJSON_GetObjectItemV2_loop hash name (hash name) (fuel + 1) m c i =
        if (m1.node c).hash_string = hash name ∧
            cJSON_strcasecmp (m1.node c).string (some name) = 0 then
          some { mem := m1, found := c, index := i }
        else cJSON_GetObjectItemV2_loop hash name (hash name) fuel m1 (m1.node c).next (i + 1) := by
      by_cases h : (m.node c).hash_string = -1
      · simp [cJSON_GetObjectItemV2_loop, hc0, h, hks, m1]
      · simp [cJSON_GetObjectItemV2_loop, hc0, h, m1]
    have hchg : ∀ q, (m1.node q).hash_string = (m.node q).hash_string ∨
          (q ∈ c :: l ∧ (m.node q).hash_string = -1 ∧
            (m1.node q).hash_string = hash (m.node q).key) := by
      intro q
      by_cases hq : q = c
      · by_cases h : (m.node c).hash_string = -1
        · right; subst hq; exact ⟨by simp, h, by rw [h1h, hmk]⟩
        · left; simp [m1, h]
      · left; rw [h1o q hq]
    by_cases hmatch : EqIgnoreCase k name
    · -- found at the head
      have hcond : (m1.node c).hash_string = hash name ∧
          cJSON_strcasecmp (m1.node c).string (some name) = 0 :=
        ⟨by rw [h1h]; exact hcongr _ _ hmatch, hcmp.2 hmatch⟩
      refine ⟨{ mem := m1, found := c, index := i }, by rw [hstep, if_pos hcond], h1u, hchg,
        ?_, ?_, ?_⟩
      · intro j _ _ hleast
        cases j with
        | zero => simp
        | succ j => exact absurd (by simpa [hmk] using hmatch) (hleast 0 (by omega))
      · intro hno; exact absurd (by simpa [hmk] using hmatch) (hno c (by simp))
      · intro h0; exact absurd h0 hc0
    · -- continue with the tail
      have hcond : ¬ ((m1.node c).hash_string = hash name ∧
          cJSON_strcasecmp (m1.node c).string (some name) = 0) := fun h => hmatch (hcmp.1 h.2)
      have hseg1 : DLSeg m1 c l 0 :=
        DLSeg.congr (fun q _ => ⟨(fld q).2.1, (fld q).2.2⟩) hseg.2.2.2
      have hnd := List.nodup_cons.1 (DLSeg.nodup hseg)
      have hk1 : KeysCached hash m1 l := by
        intro q hq
        have hqc : q ≠ c := by rintro rfl; exact hnd.1 hq
        rw [h1o q hqc]
        exact hk q (by simp [hq])
      obtain ⟨r, hr, hu, hh, hA, hB, hC⟩ :=
        lookup_loop_spec hash hcongr name hname l fuel m1 c (i + 1) hseg1 hk1
          (by simpa using hf)
      have hnext : (m1.node c).next = l.headD 0 := by rw [(fld c).2.1]; exact hseg.2.2.1
      refine ⟨r, by rw [hstep, if_neg hcond, hnext]; exact hr, ?_, ?_, ?_, ?_, ?_⟩
      · intro q; rw [hu q, h1u q]
      · intro q
        rcases hh q with h | ⟨hql, h1, h2⟩
        · rcases hchg q with h' | ⟨hq', h1', h2'⟩
          · left; rw [h, h']
          · right; exact ⟨hq', h1', by rw [h, h2']⟩
        · have hqc : q ≠ c := by rintro rfl; exact hnd.1 hql
          right
          rw [h1o q hqc] at h1
          exact ⟨by simp [hql], h1, by rw [h2, hkey]⟩
      · intro j hj hm hleast
        cases j with
        | zero => exact absurd (by simpa [hmk] using hm) hmatch
        | succ j =>
          have := hA j (by simpa using hj) (by simpa [hkey] using hm)
            (fun j' hj' => by
              have := hleast (j' + 1) (by omega)
              simpa [hkey] using this)
          refine ⟨by simpa using this.1, ?_⟩
          rw [this.2]; push_cast; ring
      · intro hno
        exact hB (fun q hq => by rw [hkey]; exact hno q (by simp [hq]))
      · intro h0 q hq
        rcases List.mem_cons.1 hq with rfl | hq
        · rw [hmk]; exact hmatch
        · have := hC h0 q hq
          rwa [hkey] at this

/-! ## The printer -/

theorem slice_succ (b : cJSON_Buf) (start n : Nat) :
    b.slice start (n + 1) = b.slice start n ++ [b.buf (start + n)] := by
  simp [cJSON_Buf.slice, List.range_succ]

theorem slice_congr (b b1 : cJSON_Buf) (start n : Nat)
    (h : ∀ i, i < n → b1.buf (start + i) = b.buf (start + i)) :
    b1.slice start n = b.slice start n := by
  simp only [cJSON_Buf.slice]
  apply List.map_congr_left
  intro i hi
  exact h i (List.mem_range.1 hi)

theorem slice_add (b : cJSON_Buf) (start n k : Nat) :
    b.slice start (n + k) = b.slice start n ++ b.slice (start + n) k := by
  induction k with
  | zero => simp [cJSON_Buf.slice]
  | succ k ih => rw [← Nat.add_assoc, slice_succ, ih, slice_succ, List.append_assoc, Nat.add_assoc]

theorem pokes_buf_lt : ∀ (s : Bytes) (b : cJSON_Buf) (i : Int) (j : Nat), (j : Int) < i →
    (cJSON_Buf.pokes s b i).buf j = b.buf j
  | [], _, _, _, _ => rfl
  | c :: s, b, i, j, h => by
    rw [cJSON_Buf.pokes, pokes_buf_lt s _ (i + 1) j (by omega)]
    simp only [cJSON_Buf.poke]
    rw [if_neg (by omega)]

theorem pokes_slice : ∀ (s : Bytes) (b : cJSON_Buf) (i : Nat),
    (cJSON_Buf.pokes s b (i : Int)).slice i s.length = s
  | [], _, _ => rfl
  | c :: s, b, i => by
    have ih := pokes_slice s (b.poke i c) (i + 1)
    have h0 : (cJSON_Buf.pokes s (b.poke (i : Int) c) ((i : Int) + 1)).buf i = c := by
      rw [pokes_buf_lt s _ _ i (by omega)]
      simp [cJSON_Buf.poke]
    rw [cJSON_Buf.pokes, List.length_cons, Nat.add_comm, slice_add]
    have e1 : (cJSON_Buf.pokes s (b.poke (i : Int) c) ((i : Int) + 1)).slice i 1 = [c] := by
      simp only [cJSON_Buf.slice]
      rw [show List.range 1 = [0] from rfl]
      simp only [List.map_cons, List.map_nil, Nat.add_zero, h0]
    rw [e1]
    push_cast at ih
    rw [ih]
    rfl

theorem pokes_len (s : Bytes) (b : cJSON_Buf) (i : Int) :
    (cJSON_Buf.pokes s b i).len = b.len ∧ (cJSON_Buf.pokes s b i).offset = b.offset := by
  induction s generalizing b i with
  | nil => exact ⟨rfl, rfl⟩
  | cons c s ih =>
    rw [cJSON_Buf.pokes]
    exact ih (b.poke i c) (i + 1)

theorem grow_size_exits (offset len : Int) : ∀ (fuel : Nat) (ns : Int), 1 ≤ ns →
    offset + len < ns * 2 ^ fuel → ∃ r, grow_size offset len (fuel + 1) ns = some r ∧ 1 ≤ r
  | 0, ns, h1, h => by
    refine ⟨ns, ?_, h1⟩
    simp only [grow_size]
    rw [if_neg (by simpa using (by omega : ¬ ns - offset ≤ len))]
  | fuel + 1, ns, h1, h => by
    by_cases hc : ns - offset ≤ len
    · obtain ⟨r, hr, hr1⟩ := grow_size_exits offset len fuel (ns * 2) (by omega)
        (by rw [pow_succ] at h; linarith)
      exact ⟨r, by rw [grow_size, if_pos hc]; exact hr, hr1⟩
    · exact ⟨ns, by rw [grow_size, if_neg hc], h1⟩

theorem Buf_Check_ok (b : cJSON_Buf) (n : Int) (hb : BufOK b) (hn : 0 ≤ n) :
    ∃ b1, cJSON_Buf_Check b n = some b1 ∧ b1.buf = b.buf ∧ b1.offset = b.offset ∧ 1 ≤ b1.len := by
  unfold cJSON_Buf_Check cJSON_Buf_Check_fuel
  by_cases h : b.len - b.offset > n
  · exact ⟨b, by rw [if_pos h], rfl, rfl, hb.1⟩
  · rw [if_neg h]
    have hpow : ((b.offset + n).toNat : Int) < 2 ^ ((b.offset + n).toNat + 1) := by
      exact_mod_cast Nat.lt_of_lt_of_le (Nat.lt_two_pow _) (Nat.pow_le_pow_right (by decide) (Nat.le_succ _))
    obtain ⟨r, hr, hr1⟩ := grow_size_exits b.offset n ((b.offset + n).toNat + 1) (b.len * 2)
      (by have := hb.1; omega)
      (by
        have h0 : b.offset + n = ((b.offset + n).toNat : Int) := by
          have := hb.2; omega
        have h2 : (2 : Int) ^ ((b.offset + n).toNat + 1) ≤ b.len * 2 * 2 ^ ((b.offset + n).toNat + 1) := by
          have : (0 : Int) < 2 ^ ((b.offset + n).toNat + 1) := by positivity
          have := hb.1
          nlinarith
        omega)
    exact ⟨{ b with len := r }, by rw [hr], rfl, rfl, hr1⟩

theorem Copy_Char_ok (b : cJSON_Buf) (ch : Nat) (hb : BufOK b) :
    ∃ b1, cJSON_Buf_Copy_Char b ch = some b1 ∧ Emits b [ch] b1 := by
  obtain ⟨b1, h1, hbuf, hoff, hlen⟩ := Buf_Check_ok b 1 hb (by decide)
  refine ⟨{ b1.poke b1.offset ch with offset := b1.offset + 1 }, ?_, ⟨?_, ?_⟩, ?_⟩
  · simp only [cJSON_Buf_Copy_Char, h1]
  · exact hlen
  · show 0 ≤ b1.offset + 1
    have := hb.2; omega
  · have ho := hb.2
    have e : (b1.offset + 1).toNat = b.offset.toNat + 1 := by omega
    show cJSON_Buf.slice _ 0 (b1.offset + 1).toNat = _
    rw [e, slice_succ]
    congr 1
    · apply slice_congr
      intro i hi
      show (if ((0 + i : Nat) : Int) = b1.offset then ch else b1.buf (0 + i)) = _
      rw [if_neg (by omega), hbuf]
    · show [if ((0 + b.offset.toNat : Nat) : Int) = b1.offset then ch else _] = _
      rw [if_pos (by omega)]

theorem Copy_Str_ok (b : cJSON_Buf) (s : Bytes) (hb : BufOK b) :
    ∃ b1, cJSON_Buf_Copy_Str b s = some b1 ∧ Emits b s b1 := by
  obtain ⟨b1, h1, hbuf, hoff, hlen⟩ := Buf_Check_ok b s.length hb (by omega)
  have ho := hb.2
  refine ⟨{ cJSON_Buf.pokes (s ++ [0]) b1 b1.offset with offset := b1.offset + s.length },
    ?_, ⟨?_, ?_⟩, ?_⟩
  · simp only [cJSON_Buf_Copy_Str, h1]
  · show 1 ≤ (cJSON_Buf.pokes (s ++ [0]) b1 b1.offset).len
    rw [(pokes_len _ _ _).1]; exact hlen
  · show 0 ≤ b1.offset + s.length
    omega
  · have e : (b1.offset + s.length).toNat = b.offset.toNat + s.length := by omega
    show cJSON_Buf.slice _ 0 (b1.offset + (s.length : Int)).toNat = _
    rw [e, slice_add]
    congr 1
    · apply slice_congr
      intro i hi
      show (cJSON_Buf.pokes (s ++ [0]) b1 b1.offset).buf (0 + i) = _
      rw [pokes_buf_lt _ _ _ _ (by omega), hbuf]
    · have hoff' : b1.offset = ((b.offset.toNat : Nat) : Int) := by omega
      have hs := pokes_slice (s ++ [0]) b1 b.offset.toNat
      rw [List.length_append, slice_add] at hs
      have := List.append_inj_left hs (by simp [cJSON_Buf.slice])
      rw [Nat.zero_add]
      rw [← hoff'] at this
      exact this

theorem Emits.refl (b : cJSON_Buf) (hb : BufOK b) : Emits b [] b := ⟨hb, by simp⟩

theorem Emits.trans {b b1 b2 : cJSON_Buf} {s t : Bytes} (h1 : Emits b s b1) (h2 : Emits b1 t b2) :
    Emits b (s ++ t) b2 := ⟨h2.1, by rw [h2.2, h1.2, List.append_assoc]⟩

theorem print_string_loop_spec : ∀ (s : Bytes) (b : cJSON_Buf), BufOK b →
    ∃ b1, print_string_loop s b = some b1 ∧ Emits b (escape s) b1
  | [], b, hb => ⟨b, rfl, Emits.refl b hb⟩
  | c :: s, b, hb => by
    by_cases h : c > 31 ∧ c ≠ 34 ∧ c ≠ 92
    · obtain ⟨b1, h1, e1⟩ := Copy_Char_ok b c hb
      obtain ⟨b2, h2, e2⟩ := print_string_loop_spec s b1 e1.1
      refine ⟨b2, ?_, ?_⟩
      · simp only [print_string_loop, if_pos h, h1, Option.some_bind, h2]
      · have := e1.trans e2
        simpa [escape, escape_byte, h] using this
    · obtain ⟨b1, h1, e1⟩ := Copy_Char_ok b 92 hb
      have key : ∃ b2, (if c = 92 then cJSON_Buf_Copy_Char b1 92
         else if c = 34 then cJSON_Buf_Copy_Char b1 34
         else if c = 8 then cJSON_Buf_Copy_Char b1 98
         else if c = 12 then cJSON_Buf_Copy_Char b1 102
         else if c = 10 then cJSON_Buf_Copy_Char b1 110
         else if c = 13 then cJSON_Buf_Copy_Char b1 114
         else if c = 9 then cJSON_Buf_Copy_Char b1 116
         else cJSON_Buf_Copy_Str b1 (sprintf_u04x c)) = some b2 ∧
         Emits b (escape_byte c) b2 := by
        unfold escape_byte
        rw [if_neg h]
        split_ifs
        · obtain ⟨b2, h2, e2⟩ := Copy_Char_ok b1 92 e1.1; exact ⟨b2, h2, e1.trans e2⟩
        · obtain ⟨b2, h2, e2⟩ := Copy_Char_ok b1 34 e1.1; exact ⟨b2, h2, e1.trans e2⟩
        · obtain ⟨b2, h2, e2⟩ := Copy_Char_ok b1 98 e1.1; exact ⟨b2, h2, e1.trans e2⟩
        · obtain ⟨b2, h2, e2⟩ := Copy_Char_ok b1 102 e1.1; exact ⟨b2, h2, e1.trans e2⟩
        · obtain ⟨b2, h2, e2⟩ := Copy_Char_ok b1 110 e1.1; exact ⟨b2, h2, e1.trans e2⟩
        · obtain ⟨b2, h2, e2⟩ := Copy_Char_ok b1 114 e1.1; exact ⟨b2, h2, e1.trans e2⟩
        · obtain ⟨b2, h2, e2⟩ := Copy_Char_ok b1 116 e1.1; exact ⟨b2, h2, e1.trans e2⟩
        · obtain ⟨b2, h2, e2⟩ := Copy_Str_ok b1 (sprintf_u04x c) e1.1
          exact ⟨b2, h2, e1.trans e2⟩
      obtain ⟨b2, h2, e2⟩ := key
      obtain ⟨b3, h3, e3⟩ := print_string_loop_spec s b2 e2.1
      refine ⟨b3, ?_, ?_⟩
      · simp only [print_string_loop, if_neg h, h1, Option.some_bind, h2, h3]
      · exact e2.trans e3

theorem print_string_ptr_spec (s : Bytes) (b : cJSON_Buf) (hb : BufOK b) :
    ∃ b1, print_string_ptr (some s) b = some b1 ∧ Emits b (quote s) b1 := by
  obtain ⟨b1, h1, e1⟩ := Copy_Char_ok b 34 hb
  obtain ⟨b2, h2, e2⟩ := print_string_loop_spec s b1 e1.1
  obtain ⟨b3, h3, e3⟩ := Copy_Char_ok b2 34 e2.1
  refine ⟨b3, by simp only [print_string_ptr, h1, Option.some_bind, h2, h3], ?_⟩
  have := (e1.trans e2).trans e3
  simpa [quote] using this

theorem print_number_spec (libc : Libc) (c : cJSON) (n : Int) (b : cJSON_Buf) (hb : BufOK b)
    (hd : c.valuedouble = Double.fin n 0) (hi : c.valueint = n)
    (h1 : INT_MIN ≤ n) (h2 : n ≤ INT_MAX) :
    ∃ b1, PerValue.print_number libc c b = some b1 ∧ Emits b (sprintf_d n) b1 := by
  obtain ⟨b1, hb1, e1⟩ := Copy_Str_ok b (sprintf_d n) hb
  refine ⟨b1, ?_, e1⟩
  simp [PerValue.print_number, hd, hi, Double.near_int, Double.le_int, Double.ge_int, h1, h2, hb1]

/-- The function `print_number` of `src/cJSON.c` copies the text `number_text` to the
buffer. -/
theorem PerValue.print_number_text (libc : Libc) (c : cJSON) (b : cJSON_Buf) :
    PerValue.print_number libc c b =
      cJSON_Buf_Copy_Str b (PerValue.number_text libc c.valuedouble c.valueint) := by
  unfold PerValue.print_number PerValue.number_text
  simp only []
  split_ifs <;> rfl

theorem print_value_spec (libc : Libc) (m : Mem) (kind : JKind) (child : JTree)
    (hc : PrintsChain libc m child) (p F depth : Nat) (b : cJSON_Buf)
    (hs : ShowsValue m p kind child) (hn : kind.prints_with libc) (hb : BufOK b)
    (hF : child.size + 2 ≤ F) :
    ∃ b1, PerValue.print_value libc m false F p depth b = some b1 ∧
      Emits b (value_text kind child) b1 := by
  obtain ⟨F, rfl⟩ : ∃ F', F = F' + 1 := ⟨F - 1, by omega⟩
  obtain ⟨hp, hk, hch⟩ := hs
  cases kind with
  | null =>
    obtain ⟨b1, h1, e1⟩ := Copy_Str_ok b [110, 117, 108, 108] hb
    exact ⟨b1, by simp [PerValue.print_value, hp, show (m.node p).type % 256 = cJSON_NULL from hk, h1], e1⟩
  | jfalse =>
    obtain ⟨b1, h1, e1⟩ := Copy_Str_ok b [102, 97, 108, 115, 101] hb
    refine ⟨b1, ?_, e1⟩
    have hk' : (m.node p).type % 256 = cJSON_False := hk
    simp [PerValue.print_value, hp, hk', h1, cJSON_NULL, cJSON_False]
  | jtrue =>
    obtain ⟨b1, h1, e1⟩ := Copy_Str_ok b [116, 114, 117, 101] hb
    refine ⟨b1, ?_, e1⟩
    have hk' : (m.node p).type % 256 = cJSON_True := hk
    simp [PerValue.print_value, hp, hk', h1, cJSON_NULL, cJSON_False, cJSON_True]
  | number n =>
    obtain ⟨hty, hd, hi, h1, h2⟩ := hk
    obtain ⟨b1, hb1, e1⟩ := print_number_spec libc (m.node p) n b hb hd hi h1 h2
    refine ⟨b1, ?_, e1⟩
    simp [PerValue.print_value, hp, hty, hb1, cJSON_NULL, cJSON_False, cJSON_True, cJSON_Number]
  | decimal tok valid d i =>
    obtain ⟨hty, hd, hi⟩ := hk
    obtain ⟨b1, hb1, e1⟩ := Copy_Str_ok b tok.text hb
    have hnum : PerValue.print_number libc (m.node p) b = some b1 := by
      rw [PerValue.print_number_text, hd, hi, hn.1]; exact hb1
    refine ⟨b1, ?_, e1⟩
    simp [PerValue.print_value, hp, hty, hnum, cJSON_NULL, cJSON_False, cJSON_True,
      cJSON_Number]
  | string s =>
    obtain ⟨hty, hv⟩ := hk
    obtain ⟨b1, hb1, e1⟩ := print_string_ptr_spec s b hb
    refine ⟨b1, ?_, e1⟩
    simp [PerValue.print_value, hp, hty, hv, hb1, cJSON_NULL, cJSON_False, cJSON_True,
      cJSON_Number, cJSON_String]
  | array =>
    have hty : (m.node p).type % 256 = cJSON_Array := hk
    obtain ⟨b1, h1, e1⟩ := Copy_Char_ok b 91 hb
    obtain ⟨b2, h2, e2⟩ := hc.1 (m.node p).child F F depth b1 hch e1.1 (by omega) (by omega)
    obtain ⟨b3, h3, e3⟩ := Copy_Char_ok b2 93 e2.1
    refine ⟨b3, ?_, ?_⟩
    · simp [PerValue.print_value, hp, hty, print_array, h1, h2, h3, cJSON_NULL, cJSON_False,
        cJSON_True, cJSON_Number, cJSON_String, cJSON_Array]
    · have := (e1.trans e2).trans e3
      simpa [value_text, JKind.text] using this
  | object =>
    have hty : (m.node p).type % 256 = cJSON_Object := hk
    obtain ⟨b1, h1, e1⟩ := Copy_Char_ok b 123 hb
    obtain ⟨b2, h2, e2⟩ := hc.2 (m.node p).child F F depth b1 hch e1.1 (by omega) (by omega)
    obtain ⟨b3, h3, e3⟩ := Copy_Char_ok b2 125 e2.1
    refine ⟨b3, ?_, ?_⟩
    · simp [PerValue.print_value, hp, hty, print_object, copy_char_if, h1, h2, h3, cJSON_NULL,
        cJSON_False, cJSON_True, cJSON_Number, cJSON_String, cJSON_Array, cJSON_Object]
    · have := (e1.trans e2).trans e3
      simpa [value_text, JKind.text] using this

theorem Shows.next_zero_iff {m : Mem} {obj : Bool} {p : Nat} {t : JTree} (h : Shows m obj p t) :
    p = 0 ↔ t = JTree.nil := by
  cases t with
  | nil => simpa [Shows] using h
  | node key kind child next => simpa [Shows] using h.1

theorem print_tabs_false : ∀ (d : Nat) (b : cJSON_Buf), print_tabs false d b = some b
  | 0, _ => rfl
  | _ + 1, _ => by simp [print_tabs]

theorem print_chain (libc : Libc) (m : Mem) :
    ∀ t : JTree, t.prints_with libc → PrintsChain libc m t
  | JTree.nil, _ => by
    constructor
    · intro p F lf depth b hs hb _ hlf
      obtain ⟨lf, rfl⟩ : ∃ k, lf = k + 1 := ⟨lf - 1, by omega⟩
      have hp : p = 0 := hs
      exact ⟨b, by simp [print_array_loop, hp], Emits.refl b hb⟩
    · intro p F lf depth b hs hb _ hlf
      obtain ⟨lf, rfl⟩ : ∃ k, lf = k + 1 := ⟨lf - 1, by omega⟩
      have hp : p = 0 := hs
      exact ⟨b, by simp [print_object_loop, hp], Emits.refl b hb⟩
  | JTree.node key kind child next, hn => by
    have ihc := print_chain libc m child hn.2.1
    have ihn := print_chain libc m next hn.2.2
    have hnk : kind.prints_with libc := hn.1
    constructor
    · intro p F lf depth b hs hb hF hlf
      obtain ⟨lf, rfl⟩ : ∃ k, lf = k + 1 := ⟨lf - 1, by omega⟩
      simp only [JTree.size] at hF hlf
      obtain ⟨hp, hkey, hk, hch, hnext⟩ := hs
      obtain ⟨b1, h1, e1⟩ := print_value_spec libc m kind child ihc p F (depth + 1) b
        ⟨hp, hk, hch⟩ hnk hb (by omega)
      have hnz := hnext.next_zero_iff
      cases next with
      | nil =>
        have hn0 : (m.node p).next = 0 := hnz.2 rfl
        obtain ⟨b3, h3, e3⟩ := ihn.1 (m.node p).next F lf depth b1 hnext e1.1 (by omega)
          (by omega)
        refine ⟨b3, ?_, ?_⟩
        · rw [hn0] at h3
          simp [print_array_loop, hp, h1, hn0, h3]
        · have := e1.trans e3
          simpa [JTree.chain_text, sep_text, value_text] using this
      | node k2 kind2 c2 n2 =>
        have hn0 : (m.node p).next ≠ 0 := fun h => by simpa using hnz.1 h
        obtain ⟨b2, h2, e2⟩ := Copy_Char_ok b1 44 e1.1
        obtain ⟨b3, h3, e3⟩ := ihn.1 (m.node p).next F lf depth b2 hnext e2.1 (by omega)
          (by omega)
        refine ⟨b3, ?_, ?_⟩
        · simp [print_array_loop, hp, h1, hn0, h2, copy_char_if, h3]
        · have := (e1.trans e2).trans e3
          simpa [JTree.chain_text, sep_text, value_text] using this
    · intro p F lf depth b hs hb hF hlf
      obtain ⟨lf, rfl⟩ : ∃ k, lf = k + 1 := ⟨lf - 1, by omega⟩
      simp only [JTree.size] at hF hlf
      obtain ⟨hp, hkey, hk, hch, hnext⟩ := hs
      have hkey' : (m.node p).string = key ∧ key.isSome = true := by simpa using hkey
      obtain ⟨k, hk0⟩ := Option.isSome_iff_exists.1 hkey'.2
      subst hk0
      obtain ⟨b1, h1, e1⟩ := print_string_ptr_spec k b hb
      obtain ⟨b2, h2, e2⟩ := Copy_Char_ok b1 58 e1.1
      obtain ⟨b3, h3, e3⟩ := print_value_spec libc m kind child ihc p F (depth + 1) b2
        ⟨hp, hk, hch⟩ hnk e2.1 (by omega)
      have hnz := hnext.next_zero_iff
      cases next with
      | nil =>
        have hn0 : (m.node p).next = 0 := hnz.2 rfl
        obtain ⟨b4, h4, e4⟩ := ihn.2 (m.node p).next F lf depth b3 hnext e3.1 (by omega)
          (by omega)
        refine ⟨b4, ?_, ?_⟩
        · rw [hn0] at h4
          simp [print_object_loop, hp, print_tabs_false, hkey'.1, h1, h2, copy_char_if, h3, hn0,
            h4]
        · have := ((e1.trans e2).trans e3).trans e4
          simpa [JTree.chain_text, sep_text, value_text] using this
      | node k2 kind2 c2 n2 =>
        have hn0 : (m.node p).next ≠ 0 := fun h => by simpa using hnz.1 h
        obtain ⟨b4, h4, e4⟩ := Copy_Char_ok b3 44 e3.1
        obtain ⟨b5, h5, e5⟩ := ihn.2 (m.node p).next F lf depth b4 hnext e4.1 (by omega)
          (by omega)
        refine ⟨b5, ?_, ?_⟩
        · simp [print_object_loop, hp, print_tabs_false, hkey'.1, h1, h2, copy_char_if, h3, hn0,
            h4, h5]
        · have := (((e1.trans e2).trans e3).trans e4).trans e5
          simpa [JTree.chain_text, sep_text, value_text] using this

/-! ## The parsers -/

theorem is_digit_iff (c : Nat) : is_digit c = true ↔ 48 ≤ c ∧ c ≤ 57 := by
  simp [is_digit]

theorem char_to_int_digit {c : Nat} (h : is_digit c = true) : char_to_int c = (c : Int) := by
  have := (is_digit_iff c).1 h
  unfold char_to_int
  rw [if_pos (by omega)]

theorem digits_while_append : ∀ (ds rest : Bytes) (a : Int), (∀ c ∈ ds, is_digit c = true) →
    is_digit (peek rest) = false → digits_while (ds ++ rest) a = (rest, digits_value ds a)
  | [], rest, a, _, hr => by
    cases rest with
    | nil => rfl
    | cons c rest =>
      have : is_digit c = false := hr
      simp [digits_while, digits_value, this]
  | d :: ds, rest, a, hd, hr => by
    have h1 : is_digit d = true := hd d (by simp)
    have ih := digits_while_append ds rest (a * 10 + ((d : Int) - 48))
      (fun c hc => hd c (by simp [hc])) hr
    simp only [List.cons_append, digits_while, h1, if_true, char_to_int_digit h1, digits_value]
    exact ih

theorem dec_digits_spec : ∀ (fuel n : Nat) (acc : Bytes), n < fuel →
    (∃ ds, dec_digits fuel n acc = ds ++ acc ∧ (∀ c ∈ ds, is_digit c = true) ∧
      (∀ a : Int, digits_value ds a = a * 10 ^ ds.length + n) ∧
      (if n = 0 then ds = [48] else 49 ≤ peek ds ∧ peek ds ≤ 57))
  | 0, _, _, h => by omega
  | fuel + 1, n, acc, h => by
    by_cases hn : n < 10
    · refine ⟨[48 + n], by simp [dec_digits, hn], ?_, ?_, ?_⟩
      · intro c hc
        simp at hc; subst hc
        simp [is_digit]; omega
      · intro a; simp [digits_value]
      · by_cases h0 : n = 0
        · simp [h0]
        · simp [h0, peek]; omega
    · obtain ⟨ds, h1, h2, h3, h4⟩ := dec_digits_spec fuel (n / 10) ((48 + n % 10) :: acc)
        (by omega)
      refine ⟨ds ++ [48 + n % 10], by simp [dec_digits, hn, h1], ?_, ?_, ?_⟩
      · intro c hc
        rcases List.mem_append.1 hc with hc | hc
        · exact h2 c hc
        · simp at hc; subst hc
          simp [is_digit]; omega
      · intro a
        have e : ∀ (xs : Bytes) (y : Nat) (a : Int),
            digits_value (xs ++ [y]) a = digits_value xs a * 10 + ((y : Int) - 48) := by
          intro xs
          induction xs with
          | nil => intro y a; rfl
          | cons x xs ih => intro y a; simp [digits_value, ih]
        rw [e, h3 a]
        simp only [List.length_append, List.length_singleton, pow_succ]
        push_cast
        have := Nat.div_add_mod n 10
        have hh : (n : Int) = 10 * ((n / 10 : Nat) : Int) + ((n % 10 : Nat) : Int) := by
          exact_mod_cast this.symm
        push_cast at hh
        linarith
      · have hn0 : n ≠ 0 := by omega
        have hq : n / 10 ≠ 0 := by omega
        simp only [hn0, hq, if_false] at h4 ⊢
        cases ds with
        | nil => simp [peek] at h4
        | cons d ds => simpa [peek] using h4

/-- The decimal digits `sprintf_d` emits for a natural number. -/
theorem sprintf_d_nat (n : Nat) :
    ∃ ds, dec_digits (n + 1) n [] = ds ∧ (∀ c ∈ ds, is_digit c = true) ∧
      digits_value ds 0 = n ∧ (if n = 0 then ds = [48] else 49 ≤ peek ds ∧ peek ds ≤ 57) := by
  obtain ⟨ds, h1, h2, h3, h4⟩ := dec_digits_spec (n + 1) n [] (by omega)
  exact ⟨ds, by simpa using h1, h2, by simpa using h3 0, h4⟩

theorem scan_exponent_stop (rest : Bytes) (sign n scale : Int) (hr : NumStop rest) :
    scan_exponent rest sign n scale =
      { rest := rest, sign := sign, n := n, scale := scale, subscale := 0, signsubscale := 1 } := by
  unfold scan_exponent
  rw [if_neg (by intro h; rcases h with h | h; exact hr.2.2.1 h; exact hr.2.2.2 h)]

theorem scan_fraction_stop (cf : Bool) (rest : Bytes) (sign n : Int) (hr : NumStop rest) :
    scan_fraction cf rest sign n =
      { rest := rest, sign := sign, n := n, scale := 0, subscale := 0, signsubscale := 1 } := by
  unfold scan_fraction
  rw [if_neg (fun h => hr.2.1 h.1)]
  exact scan_exponent_stop rest sign n 0 hr

theorem NumStop.not_digit {rest : Bytes} (hr : NumStop rest) :
    ¬ (49 ≤ peek rest ∧ peek rest ≤ 57) := by
  intro h
  have : is_digit (peek rest) = true := (is_digit_iff _).2 ⟨by omega, h.2⟩
  rw [hr.1] at this
  exact absurd this (by decide)

theorem scan_integer_digits (cf : Bool) (ds rest : Bytes) (n : Nat) (sign : Int)
    (hds : ∀ c ∈ ds, is_digit c = true) (hv : digits_value ds 0 = n)
    (hh : if n = 0 then ds = [48] else 49 ≤ peek ds ∧ peek ds ≤ 57) (hr : NumStop rest) :
    scan_integer cf (ds ++ rest) sign =
      { rest := rest, sign := sign, n := n, scale := 0, subscale := 0, signsubscale := 1 } := by
  by_cases h0 : n = 0
  · subst h0
    simp only [if_true] at hh
    subst hh
    have e1 : peek ([48] ++ rest) = 48 := rfl
    have e2 : ([48] ++ rest).tail = rest := rfl
    unfold scan_integer
    simp only [e1, e2, if_true]
    rw [if_neg hr.not_digit]
    exact scan_fraction_stop cf rest sign 0 hr
  · simp only [h0, if_false] at hh
    cases ds with
    | nil => simp [peek] at hh
    | cons d ds =>
      have hd : peek (d :: ds ++ rest) = d := rfl
      have hd' : d = peek (d :: ds) := rfl
      have h48 : d ≠ 48 := by rw [hd']; omega
      have hdd : 49 ≤ d ∧ d ≤ 57 := by rw [hd']; exact hh
      have hdig : is_digit d = true := hds d (by simp)
      have hw := digits_while_append ds rest (0 * 10 + ((d : Int) - 48))
        (fun c hc => hds c (by simp [hc])) hr.1
      have hv' : digits_value ds (0 * 10 + ((d : Int) - 48)) = n := hv
      have hdo : digits_do (d :: ds ++ rest) 0 = (rest, (n : Int)) := by
        unfold digits_do
        rw [hd, char_to_int_digit hdig]
        show digits_while (ds ++ rest) _ = _
        rw [hw, hv']
      unfold scan_integer
      simp only [hd, if_neg h48, if_pos hdd, hdo]
      exact scan_fraction_stop cf rest sign n hr

theorem scan_sprintf_d (cf : Bool) (v : Int) (rest : Bytes) (hr : NumStop rest) :
    (scan_number cf (sprintf_d v ++ rest)).rest = rest ∧
    (scan_number cf (sprintf_d v ++ rest)).value = Double.fin v 0 := by
  obtain ⟨ds, h1, h2, h3, h4⟩ := sprintf_d_nat v.natAbs
  by_cases hneg : v < 0
  · have hs : sprintf_d v = 45 :: ds := by simp [sprintf_d, hneg, h1]
    have e : scan_number cf (45 :: (ds ++ rest)) = scan_integer cf (ds ++ rest) (-1) := by
      unfold scan_number
      rw [if_pos (show peek (45 :: (ds ++ rest)) = 45 from rfl)]; rfl
    rw [hs, List.cons_append, e, scan_integer_digits cf ds rest v.natAbs (-1) h2 h3 h4 hr]
    refine ⟨rfl, ?_⟩
    simp only [Scanned.value]
    congr 1
    · omega
  · have hs : sprintf_d v = ds := by simp [sprintf_d, hneg, h1]
    have hp : peek (ds ++ rest) ≠ 45 := by
      intro h
      by_cases h0 : v.natAbs = 0
      · simp only [h0, if_true] at h4; subst h4; simp [peek] at h
      · simp only [h0, if_false] at h4
        cases ds with
        | nil => simp [peek] at h4
        | cons d ds => simp [peek] at h h4; omega
    have e : scan_number cf (ds ++ rest) = scan_integer cf (ds ++ rest) 1 := by
      unfold scan_number
      rw [if_neg hp]
    rw [hs, e, scan_integer_digits cf ds rest v.natAbs 1 h2 h3 h4 hr]
    refine ⟨rfl, ?_⟩
    simp only [Scanned.value]
    congr 1
    · omega

theorem sprintf_d_head (v : Int) (rest : Bytes) :
    peek (sprintf_d v ++ rest) = 45 ∨ (48 ≤ peek (sprintf_d v ++ rest) ∧
      peek (sprintf_d v ++ rest) ≤ 57) := by
  obtain ⟨ds, h1, h2, h3, h4⟩ := sprintf_d_nat v.natAbs
  by_cases hneg : v < 0
  · left; simp [sprintf_d, hneg, peek]
  · right
    have hs : sprintf_d v = ds := by simp [sprintf_d, hneg, h1]
    rw [hs]
    by_cases h0 : v.natAbs = 0
    · simp only [h0, if_true] at h4; subst h4; simp [peek]
    · simp only [h0, if_false] at h4
      cases ds with
      | nil => simp [peek] at h4
      | cons d ds => simp [peek] at h4 ⊢; omega

theorem toInt_fin_zero (v : Int) (h1 : INT_MIN ≤ v) (h2 : v ≤ INT_MAX) :
    (Double.fin v 0).toInt = v := by
  simp [Double.toInt, h1, h2]

theorem PerValue.parse_string_loop_step (c : Nat) (X : Bytes) (fuel : Nat) (out : Bytes)
    (h0 : 0 < c) :
    PerValue.parse_string_loop (fuel + 1) (escape_byte c ++ X) out =
      PerValue.parse_string_loop fuel X (out ++ [c]) := by
  by_cases h : c > 31
  · by_cases h34 : c = 34
    · subst h34
      simp [escape_byte, PerValue.parse_string_loop, peek]
    · by_cases h92 : c = 92
      · subst h92
        simp [escape_byte, PerValue.parse_string_loop, peek]
      · have hc : c > 31 ∧ c ≠ 34 ∧ c ≠ 92 := ⟨h, h34, h92⟩
        have hz : c ≠ 0 := by omega
        simp [escape_byte, hc, PerValue.parse_string_loop, peek, h34, h92, hz]
  · have h1 : c ≤ 31 := by omega
    interval_cases c <;>
      simp [escape_byte, sprintf_u04x, hex_digit, PerValue.parse_string_loop, peek, sscanf_4x,
        hex_value, utf8_bytes, firstByteMark]

theorem Arena.arena_string_loop_step (c : Nat) (X : Bytes) (fuel : Nat) (out : Bytes)
    (h0 : 0 < c) :
    Arena.parse_string_loop (fuel + 1) (escape_byte c ++ X) out =
      Arena.parse_string_loop fuel X (out ++ [c]) := by
  by_cases h : c > 31
  · by_cases h34 : c = 34
    · subst h34
      simp [escape_byte, Arena.parse_string_loop, peek]
    · by_cases h92 : c = 92
      · subst h92
        simp [escape_byte, Arena.parse_string_loop, peek]
      · have hc : c > 31 ∧ c ≠ 34 ∧ c ≠ 92 := ⟨h, h34, h92⟩
        have hz : c ≠ 0 := by omega
        simp [escape_byte, hc, Arena.parse_string_loop, peek, h34, h92, hz]
  · have h1 : c ≤ 31 := by omega
    interval_cases c <;>
      simp [escape_byte, sprintf_u04x, hex_digit, Arena.parse_string_loop, peek, Arena.parse_hex4,
        Arena.parse_hex4_loop, hex_value, utf8_bytes, firstByteMark]

theorem escape_byte_length_pos (c : Nat) : 0 < (escape_byte c).length := by
  unfold escape_byte; split_ifs <;> simp [sprintf_u04x]

theorem PerValue.parse_string_loop_escape : ∀ (s rest : Bytes) (fuel : Nat) (out : Bytes),
    IsCStr s → (escape s).length < fuel →
    PerValue.parse_string_loop fuel (escape s ++ 34 :: rest) out =
      Decoded.done (out ++ s) (34 :: rest)
  | [], rest, fuel, out, _, hf => by
    obtain ⟨fuel, rfl⟩ : ∃ k, fuel = k + 1 := ⟨fuel - 1, by simp [escape] at hf; omega⟩
    simp [escape, PerValue.parse_string_loop, peek]
  | c :: s, rest, fuel, out, hs, hf => by
    obtain ⟨fuel, rfl⟩ : ∃ k, fuel = k + 1 := ⟨fuel - 1, by omega⟩
    have hc := (hs c (by simp)).1
    have hlen := escape_byte_length_pos c
    simp only [escape, List.length_append] at hf
    rw [escape, List.append_assoc, PerValue.parse_string_loop_step c _ fuel out hc,
      PerValue.parse_string_loop_escape s rest fuel (out ++ [c]) (fun b hb => hs b (by simp [hb]))
        (by omega)]
    simp

theorem Arena.arena_string_loop_escape : ∀ (s rest : Bytes) (fuel : Nat) (out : Bytes),
    IsCStr s → (escape s).length < fuel →
    Arena.parse_string_loop fuel (escape s ++ 34 :: rest) out =
      Decoded.done (out ++ s) (34 :: rest)
  | [], rest, fuel, out, _, hf => by
    obtain ⟨fuel, rfl⟩ : ∃ k, fuel = k + 1 := ⟨fuel - 1, by simp [escape] at hf; omega⟩
    simp [escape, Arena.parse_string_loop, peek]
  | c :: s, rest, fuel, out, hs, hf => by
    obtain ⟨fuel, rfl⟩ : ∃ k, fuel = k + 1 := ⟨fuel - 1, by omega⟩
    have hc := (hs c (by simp)).1
    have hlen := escape_byte_length_pos c
    simp only [escape, List.length_append] at hf
    rw [escape, List.append_assoc, Arena.arena_string_loop_step c _ fuel out hc,
      Arena.arena_string_loop_escape s rest fuel (out ++ [c]) (fun b hb => hs b (by simp [hb]))
        (by omega)]
    simp

theorem as_cstr_of_IsCStr (s : Bytes) (h : IsCStr s) : as_cstr s = s := by
  unfold as_cstr
  rw [List.takeWhile_eq_self_iff]
  intro c hc
  have := (h c hc).1
  simpa using (by omega : c ≠ 0)

/-- `parse_string` of `src/cJSON.c` reads back a printed string literal. -/
theorem PerValue.parse_string_quote (m : Mem) (item : Nat) (s rest : Bytes) (hs : IsCStr s) :
    PerValue.parse_string m item (quote s ++ rest) =
      PResult.ok (m.set item { m.node item with valuestring := some s, type := cJSON_String },
        rest) := by
  have hq : quote s ++ rest = 34 :: (escape s ++ 34 :: rest) := by simp [quote]
  have hl := PerValue.parse_string_loop_escape s rest ((quote s ++ rest).length + 1) [] hs
    (by simp [quote]; omega)
  rw [hq] at hl ⊢
  simp only [PerValue.parse_string, peek, List.headD_cons, List.tail_cons, ne_eq,
    not_true_eq_false, if_false, hl, List.nil_append, as_cstr_of_IsCStr s hs, if_true]

/-- `parse_string` of the arena variant reads back a printed string literal and stores
its bytes and a NUL in the arena. -/
theorem Arena.arena_string_quote (st : PState cJSON_Buf) (item : Nat) (s rest : Bytes)
    (hs : IsCStr s) :
    Arena.parse_string st item (quote s ++ rest) =
      PResult.ok ({ mem := st.mem.set item { st.mem.node item with
                      valuestring := some s, type := cJSON_String },
                    aux := { cJSON_Buf.pokes (s ++ [0]) st.aux st.aux.offset with
                      offset := st.aux.offset + s.length + 1 } }, rest) := by
  have hq : quote s ++ rest = 34 :: (escape s ++ 34 :: rest) := by simp [quote]
  have hl := Arena.arena_string_loop_escape s rest ((quote s ++ rest).length + 1) [] hs
    (by simp [quote]; omega)
  rw [hq] at hl ⊢
  simp only [Arena.parse_string, peek, List.headD_cons, List.tail_cons, ne_eq,
    not_true_eq_false, if_false, hl, List.nil_append, as_cstr_of_IsCStr s hs, if_true]

theorem skip_of_gt {s : Bytes} (h : 32 < peek s) : skip s = s := by
  cases s with
  | nil => rfl
  | cons c s =>
    have : ¬ (c ≠ 0 ∧ c ≤ 32) := by simp [peek] at h; omega
    simp [skip, this]

theorem KindRep.of_fields {vi : Bool} {c c1 : cJSON} {k : JKind} (h : KindRep vi c k)
    (h1 : c1.type = c.type) (h2 : c1.valuestring = c.valuestring)
    (h3 : c1.valuedouble = c.valuedouble) (h4 : c1.valueint = c.valueint) : KindRep vi c1 k := by
  cases k <;> simp only [KindRep, h1, h2, h3, h4] at h ⊢ <;> exact h

theorem RepIn.frame {vi : Bool} {m m1 : Mem} {lo hi : Nat} :
    ∀ {t : JTree} {pr p : Nat}, RepIn vi m lo hi pr p t →
      (∀ q, lo ≤ q → q < hi → m1.node q = m.node q) → RepIn vi m1 lo hi pr p t
  | JTree.nil, _, _, h, _ => h
  | JTree.node key kind child next, pr, p, h, hf => by
    obtain ⟨h1, h2, h3, h4, h5, h6, h7, h8, h9⟩ := h
    have e := hf p h2 h3
    refine ⟨h1, h2, h3, ?_, ?_, ?_, ?_, ?_, ?_⟩
    · rw [e]; exact h4
    · rw [e]; exact h5
    · rw [e]; exact h6
    · rw [e]; exact h7
    · rw [e]; exact RepIn.frame h8 hf
    · rw [e]; exact RepIn.frame h9 hf

theorem RepIn.widen {vi : Bool} {m : Mem} {lo hi lo1 hi1 : Nat} (hlo : lo1 ≤ lo) (hhi : hi ≤ hi1) :
    ∀ {t : JTree} {pr p : Nat}, RepIn vi m lo hi pr p t → RepIn vi m lo1 hi1 pr p t
  | JTree.nil, _, _, h => h
  | JTree.node key kind child next, pr, p, h => by
    obtain ⟨h1, h2, h3, h4, h5, h6, h7, h8, h9⟩ := h
    exact ⟨h1, by omega, by omega, h4, h5, h6, h7, RepIn.widen hlo hhi h8,
      RepIn.widen hlo hhi h9⟩

theorem RepIn.rep {vi : Bool} {m : Mem} {lo hi : Nat} :
    ∀ {t : JTree} {pr p : Nat}, RepIn vi m lo hi pr p t → Rep vi m p t
  | JTree.nil, _, _, h => h
  | JTree.node key kind child next, pr, p, h => by
    obtain ⟨h1, h2, h3, h4, h5, h6, h7, h8, h9⟩ := h
    exact ⟨h1, h6, h7, RepIn.rep h8, RepIn.rep h9⟩

/-- The text of a token of the number grammar starts with `-` or a digit. -/
theorem valid_text_head (t : NumberToken) (ht : t.valid) (rest : Bytes) :
    ∃ c tl, t.text ++ rest = c :: tl ∧ (c = 45 ∨ (48 ≤ c ∧ c ≤ 57)) := by
  unfold NumberToken.text
  cases hm : t.minus with
  | true => exact ⟨45, _, rfl, Or.inl rfl⟩
  | false =>
    rcases ht.1 with h | ⟨hd, _⟩
    · rw [h]
      exact ⟨48, _, rfl, Or.inr ⟨by decide, by decide⟩⟩
    · cases hi : t.int_digits with
      | nil => exact absurd hi hd.1
      | cons a l =>
        have ha : is_digit a = true := hd.2 a (by rw [hi]; simp)
        exact ⟨a, _, rfl, Or.inr ((is_digit_iff a).1 ha)⟩

/-- The first byte of the text of a value is none of the bytes `skip` jumps, and it
selects the production of that kind. -/
theorem value_text_head (kind : JKind) (child : JTree) (rest : Bytes) :
    ∃ c tl, value_text kind child ++ rest = c :: tl ∧ 32 < c ∧
      (match kind with
        | JKind.null => c = 110
        | JKind.jfalse => c = 102
        | JKind.jtrue => c = 116
        | JKind.number _ => c = 45 ∨ (48 ≤ c ∧ c ≤ 57)
        | JKind.decimal _ _ _ _ => c = 45 ∨ (48 ≤ c ∧ c ≤ 57)
        | JKind.string _ => c = 34
        | JKind.array => c = 91
        | JKind.object => c = 123) := by
  cases kind with
  | number n =>
    have h := sprintf_d_head n rest
    cases hs : sprintf_d n ++ rest with
    | nil => rw [hs] at h; simp [peek] at h
    | cons c tl =>
      rw [hs] at h
      simp only [peek, List.headD_cons] at h
      refine ⟨c, tl, by simpa [value_text, JKind.text] using hs, ?_, h⟩
      omega
  | decimal tok valid d i =>
    obtain ⟨c, tl, e, hc⟩ := valid_text_head tok valid rest
    refine ⟨c, tl, e, ?_, hc⟩
    omega
  | null => exact ⟨110, _, rfl, by decide, rfl⟩
  | jfalse => exact ⟨102, _, rfl, by decide, rfl⟩
  | jtrue => exact ⟨116, _, rfl, by decide, rfl⟩
  | string s => exact ⟨34, _, rfl, by decide, rfl⟩
  | array => exact ⟨91, _, rfl, by decide, rfl⟩
  | object => exact ⟨123, _, rfl, by decide, rfl⟩

theorem skip_value_text (kind : JKind) (child : JTree) (rest : Bytes) :
    skip (value_text kind child ++ rest) = value_text kind child ++ rest := by
  obtain ⟨c, tl, e, hc, _⟩ := value_text_head kind child rest
  rw [e]
  exact skip_of_gt (by simpa [peek] using hc)

/-- What follows an element of a chain: a comma and the next element, or the closing
byte of the container; a number token stops there and `skip` jumps nothing. -/
theorem sep_text_stop (obj : Bool) (t : JTree) (close : Nat) (rest : Bytes)
    (hc : close = 93 ∨ close = 125) :
    NumStop (sep_text t (t.chain_text obj) ++ close :: rest) ∧
    skip (sep_text t (t.chain_text obj) ++ close :: rest) =
      sep_text t (t.chain_text obj) ++ close :: rest := by
  cases t with
  | nil =>
    rcases hc with rfl | rfl
    · exact ⟨by simp [sep_text, NumStop, peek, is_digit], by simp [sep_text, skip]⟩
    · exact ⟨by simp [sep_text, NumStop, peek, is_digit], by simp [sep_text, skip]⟩
  | node k kind c n =>
    exact ⟨by simp [sep_text, NumStop, peek, is_digit], by simp [sep_text, skip]⟩

theorem link_fresh_spec (m : Mem) (cur : Nat) (hc : cur < m.brk) :
    (link_fresh m cur).brk = m.brk + 1 ∧
    (link_fresh m cur).node m.brk = { cJSON.zeroed with hash_string := -1, prev := cur } ∧
    (link_fresh m cur).node cur = { m.node cur with next := m.brk } ∧
    (∀ q, q ≠ m.brk → q ≠ cur → (link_fresh m cur).node q = m.node q) := by
  have h1 : cur ≠ m.brk := by omega
  have h2 : m.brk ≠ cur := by omega
  refine ⟨rfl, ?_, ?_, ?_⟩
  · simp [link_fresh, cJSON_New_Item, Mem.set, h2]
  · simp [link_fresh, cJSON_New_Item, Mem.set, h1]
  · intro q hq1 hq2
    simp [link_fresh, cJSON_New_Item, Mem.set, hq1, hq2]

theorem parse_array_loop_spec {σ : Type} (vi : Bool)
    (pv : PState σ → Nat → Bytes → PResult (PState σ × Bytes)) :
    ∀ t : JTree, t.wf false → ParsesHeads vi pv t → ParsesElems vi pv t
  | JTree.nil, _, _ => by
    intro lf s cur rest hlf hc0 hcb hnext
    obtain ⟨lf, rfl⟩ : ∃ k, lf = k + 1 := ⟨lf - 1, by omega⟩
    refine ⟨s, by simp [parse_array_loop, sep_text, peek], ⟨le_refl _, fun _ _ _ => rfl, ?_⟩, ?_⟩
    · rw [hnext]
      cases h : s.mem.node cur
      simp [h] at hnext
      simp [hnext]
    · exact hnext
  | JTree.node key kind child next, hwf, hh => by
    intro lf s cur rest hlf hc0 hcb hnext
    obtain ⟨lf, rfl⟩ : ∃ k, lf = k + 1 := ⟨lf - 1, by omega⟩
    obtain ⟨hkey, _, _, hwfn⟩ := hwf
    have hkey' : key = none := by simpa using hkey
    obtain ⟨hv, hhn⟩ := hh
    simp only [JTree.size] at hlf
    have ih := parse_array_loop_spec vi pv next hwfn hhn
    obtain ⟨L1, L2, L3, L4⟩ := link_fresh_spec s.mem cur hcb
    -- the text seen by this iteration
    have hstop := sep_text_stop false next 93 rest (Or.inl rfl)
    have htxt : sep_text (JTree.node key kind child next)
          ((JTree.node key kind child next).chain_text false) ++ 93 :: rest =
        44 :: (value_text kind child ++
          (sep_text next (next.chain_text false) ++ 93 :: rest)) := by
      simp [sep_text, JTree.chain_text, value_text]
    obtain ⟨s1, hp1, hF1, hK1, hR1⟩ := hv { s with mem := link_fresh s.mem cur } s.mem.brk
      (sep_text next (next.chain_text false) ++ 93 :: rest) hstop.1 (by omega)
      (by show s.mem.brk < (link_fresh s.mem cur).brk; omega)
      (by show ((link_fresh s.mem cur).node s.mem.brk).child = 0; rw [L2]; rfl)
    have hF1brk : s.mem.brk + 1 ≤ s1.mem.brk := by
      have := hF1.brk_le
      simpa [L1] using this
    obtain ⟨s2, hp2, hF2, hR2⟩ := ih lf s1 s.mem.brk rest (by omega) (by omega) (by omega)
      (by rw [hF1.next_eq]; show ((link_fresh s.mem cur).node s.mem.brk).next = 0; rw [L2]; rfl)
    have hstep : parse_array_loop pv (lf + 1) s cur
        (44 :: (value_text kind child ++ (sep_text next (next.chain_text false) ++ 93 :: rest))) =
        PResult.ok (s2, rest) := by
      have e : (cJSON_New_Item s.mem) = ((cJSON_New_Item s.mem).1, s.mem.brk) := rfl
      simp only [parse_array_loop, peek, List.headD_cons, if_true, List.tail_cons,
        skip_value_text]
      rw [e]
      simp only []
      have := hp1
      simp only [link_fresh] at this
      rw [this]
      simp only [hstop.2]
      exact hp2
    have hcur_ne : cur ≠ s.mem.brk := by omega
    -- nodes of the final store
    have hcur2 : s2.mem.node cur = { s.mem.node cur with next := s.mem.brk } := by
      rw [hF2.old cur (by omega) hcur_ne, hF1.old cur (by show cur < (link_fresh s.mem cur).brk; omega)
        hcur_ne]
      exact L3
    have hB1 : (s1.mem.node s.mem.brk).prev = cur ∧ (s1.mem.node s.mem.brk).hash_string = -1 ∧
        (s1.mem.node s.mem.brk).string = none := by
      refine ⟨?_, ?_, ?_⟩
      · rw [hF1.prev_eq]; show ((link_fresh s.mem cur).node s.mem.brk).prev = cur; rw [L2]
      · rw [hF1.hash_eq]; show ((link_fresh s.mem cur).node s.mem.brk).hash_string = -1; rw [L2]
      · rw [hF1.string_eq]; show ((link_fresh s.mem cur).node s.mem.brk).string = none; rw [L2]; rfl
    have hB2 := hF2.cur_eq
    refine ⟨s2, by rw [htxt]; exact hstep, ⟨?_, ?_, ?_⟩, ?_⟩
    · have := hF2.brk_le; omega
    · intro q hq hqc
      rw [hF2.old q (by omega) (by omega), hF1.old q (by show q < (link_fresh s.mem cur).brk; omega)
        (by omega)]
      exact L4 q (by omega) hqc
    · rw [hcur2]
    · rw [hcur2]
      show RepIn vi s2.mem s.mem.brk s2.mem.brk cur s.mem.brk _
      refine ⟨by omega, le_refl _, by have := hF2.brk_le; omega, ?_, ?_, ?_, ?_, ?_, ?_⟩
      · rw [hB2]; exact hB1.1
      · rw [hB2]; exact hB1.2.1
      · rw [hB2, hkey']; exact hB1.2.2
      · rw [hB2]; exact hK1.of_fields rfl rfl rfl rfl
      · rw [hB2]
        show RepIn vi s2.mem s.mem.brk s2.mem.brk 0 (s1.mem.node s.mem.brk).child child
        have hR1' : RepIn vi s1.mem (s.mem.brk + 1) s1.mem.brk 0 (s1.mem.node s.mem.brk).child
            child := by simpa [L1] using hR1
        refine RepIn.widen (by omega) hF2.brk_le (RepIn.frame hR1' ?_)
        intro q hq1 hq2
        exact hF2.old q hq2 (by omega)
      · exact RepIn.widen (by omega) (le_refl _) hR2

theorem set_type_frame (m : Mem) (item ty : Nat) :
    Frame m (m.set item { m.node item with type := ty }) item :=
  ⟨le_refl _, fun q _ hq => by simp [Mem.set, hq], by simp [Mem.set], by simp [Mem.set],
    by simp [Mem.set], by simp [Mem.set]⟩

/-- `parse_array` parses the text of an array whose elements `pv` parses. -/
theorem parse_array_spec {σ : Type} (vi : Bool)
    (pv : PState σ → Nat → Bytes → PResult (PState σ × Bytes)) (child : JTree) (lf : Nat)
    (hwf : child.wf false) (hh : ParsesHeads vi pv child) (hlf : child.size + 1 ≤ lf) :
    ParsesValue vi (parse_array pv lf) JKind.array child := by
  intro s item rest _ hi0 hib hchild
  cases child with
  | nil =>
    refine ⟨{ s with mem := s.mem.set item { s.mem.node item with type := cJSON_Array } }, ?_,
      set_type_frame s.mem item cJSON_Array, ?_, ?_⟩
    · simp [parse_array, value_text, JKind.text, JTree.chain_text, peek, skip]
    · simp [KindRep, Mem.set]
    · show ((s.mem.set item _).node item).child = 0
      simpa [Mem.set] using hchild
  | node key kind c next =>
    obtain ⟨hkey, _, _, hwfn⟩ := hwf
    have hkey' : key = none := by simpa using hkey
    obtain ⟨hv, hhn⟩ := hh
    simp only [JTree.size] at hlf
    -- the store with the type set, the first child allocated and hooked to the item
    let m1 := s.mem.set item { s.mem.node item with type := cJSON_Array }
    let m2 := (cJSON_New_Item m1).1
    let m3 := m2.set item { m2.node item with child := s.mem.brk }
    have hne : item ≠ s.mem.brk := by omega
    have hne' : s.mem.brk ≠ item := by omega
    have hm3brk : m3.brk = s.mem.brk + 1 := rfl
    have hm3B : m3.node s.mem.brk = { cJSON.zeroed with hash_string := -1 } := by
      simp [m3, m2, m1, cJSON_New_Item, Mem.set, hne']
    have hm3i : m3.node item = { s.mem.node item with type := cJSON_Array, child := s.mem.brk } := by
      simp [m3, m2, m1, cJSON_New_Item, Mem.set, hne]
    have hm3o : ∀ q, q ≠ s.mem.brk → q ≠ item → m3.node q = s.mem.node q := by
      intro q h1 h2
      simp [m3, m2, m1, cJSON_New_Item, Mem.set, h1, h2]
    have hstop := sep_text_stop false next 93 rest (Or.inl rfl)
    obtain ⟨s1, hp1, hF1, hK1, hR1⟩ := hv { s with mem := m3 } s.mem.brk
      (sep_text next (next.chain_text false) ++ 93 :: rest) hstop.1 (by omega)
      (by show s.mem.brk < m3.brk; omega)
      (by show (m3.node s.mem.brk).child = 0; rw [hm3B]; rfl)
    have hF1brk : s.mem.brk + 1 ≤ s1.mem.brk := hF1.brk_le
    obtain ⟨s2, hp2, hF2, hR2⟩ := parse_array_loop_spec vi pv next hwfn hhn lf s1 s.mem.brk rest
      (by omega) (by omega) (by omega)
      (by rw [hF1.next_eq]; show (m3.node s.mem.brk).next = 0; rw [hm3B]; rfl)
    have htxt : value_text JKind.array (JTree.node key kind c next) ++ rest =
        91 :: (value_text kind c ++ (sep_text next (next.chain_text false) ++ 93 :: rest)) := by
      simp [value_text, JKind.text, JTree.chain_text]
    have hhead : peek (value_text kind c ++
        (sep_text next (next.chain_text false) ++ 93 :: rest)) ≠ 93 := by
      obtain ⟨ch, tl, e, _, hk⟩ := value_text_head kind c
        (sep_text next (next.chain_text false) ++ 93 :: rest)
      rw [e]
      cases kind <;> simp [peek] at hk ⊢ <;> omega
    have hitem2 : s2.mem.node item = m3.node item := by
      rw [hF2.old item (by omega) hne, hF1.old item (by show item < m3.brk; omega) hne]
    refine ⟨s2, ?_, ⟨?_, ?_, ?_, ?_, ?_, ?_⟩, ?_, ?_⟩
    · rw [htxt]
      have e : (cJSON_New_Item m1) = (m2, s.mem.brk) := rfl
      simp only [parse_array, peek, List.headD_cons, ne_eq, not_true_eq_false, if_false,
        List.tail_cons, skip_value_text]
      rw [if_neg (by simpa [peek] using hhead)]
      show (match pv { s with mem := m3 } s.mem.brk _ with
        | PResult.ok (s1, value2) => parse_array_loop pv lf s1 s.mem.brk (skip value2)
        | PResult.fail ep => PResult.fail ep
        | PResult.stuck => PResult.stuck) = _
      rw [hp1]
      simp only [hstop.2]
      exact hp2
    · have := hF2.brk_le; omega
    · intro q hq hqi
      rw [hF2.old q (by omega) (by omega), hF1.old q (by show q < m3.brk; omega) (by omega)]
      exact hm3o q (by omega) hqi
    · rw [hitem2, hm3i]
    · rw [hitem2, hm3i]
    · rw [hitem2, hm3i]
    · rw [hitem2, hm3i]
    · rw [hitem2, hm3i]; rfl
    · rw [hitem2, hm3i]
      show RepIn vi s2.mem s.mem.brk s2.mem.brk 0 s.mem.brk _
      have hB2 := hF2.cur_eq
      refine ⟨by omega, le_refl _, by have := hF2.brk_le; omega, ?_, ?_, ?_, ?_, ?_, ?_⟩
      · rw [hB2, hF1.prev_eq]; show (m3.node s.mem.brk).prev = 0; rw [hm3B]; rfl
      · rw [hB2, hF1.hash_eq]; show (m3.node s.mem.brk).hash_string = -1; rw [hm3B]
      · rw [hB2, hF1.string_eq, hkey']; show (m3.node s.mem.brk).string = none; rw [hm3B]; rfl
      · rw [hB2]; exact hK1.of_fields rfl rfl rfl rfl
      · rw [hB2]
        show RepIn vi s2.mem s.mem.brk s2.mem.brk 0 (s1.mem.node s.mem.brk).child c
        have hR1' : RepIn vi s1.mem (s.mem.brk + 1) s1.mem.brk 0 (s1.mem.node s.mem.brk).child
            c := hR1
        refine RepIn.widen (by omega) hF2.brk_le (RepIn.frame hR1' ?_)
        intro q hq1 hq2
        exact hF2.old q hq2 (by omega)
      · exact RepIn.widen (by omega) (le_refl _) hR2

theorem skip_quote (k rest : Bytes) : skip (quote k ++ rest) = quote k ++ rest := by
  simp [quote, skip]

/-- One member `"key":value` is parsed by `parse_member` into a fresh target, which
receives the key. -/
theorem parse_member_spec {σ : Type} (vi : Bool)
    (ps pv : PState σ → Nat → Bytes → PResult (PState σ × Bytes)) (hps : ParsesKeys ps)
    (kind : JKind) (c : JTree) (hv : ParsesValue vi pv kind c) (k : Bytes) (hk : IsCStr k)
    (s : PState σ) (item : Nat) (rest : Bytes) (hstop : NumStop rest) (hskip : skip rest = rest)
    (hi0 : 0 < item) (hib : item < s.mem.brk) (hchild : (s.mem.node item).child = 0) :
    ∃ s1, parse_member ps pv s item (quote k ++ 58 :: (value_text kind c ++ rest)) =
        PResult.ok (s1, rest) ∧
      s.mem.brk ≤ s1.mem.brk ∧
      (∀ q, q < s.mem.brk → q ≠ item → s1.mem.node q = s.mem.node q) ∧
      (s1.mem.node item).next = (s.mem.node item).next ∧
      (s1.mem.node item).prev = (s.mem.node item).prev ∧
      (s1.mem.node item).hash_string = (s.mem.node item).hash_string ∧
      (s1.mem.node item).string = some k ∧
      KindRep vi (s1.mem.node item) kind ∧
      RepIn vi s1.mem s.mem.brk s1.mem.brk 0 (s1.mem.node item).child c := by
  obtain ⟨aux, hp⟩ := hps s item k (58 :: (value_text kind c ++ rest)) hk
  let ma := s.mem.set item { s.mem.node item with valuestring := some k, type := cJSON_String }
  let m1 := ma.set item
    { ma.node item with string := (ma.node item).valuestring, valuestring := none }
  have hm1i : m1.node item = { s.mem.node item with
      string := some k, valuestring := none, type := cJSON_String } := by
    simp [m1, ma, Mem.set]
  have hm1o : ∀ q, q ≠ item → m1.node q = s.mem.node q := by
    intro q hq; simp [m1, ma, Mem.set, hq]
  obtain ⟨s2, hp2, hF2, hK2, hR2⟩ := hv { mem := m1, aux := aux } item rest hstop hi0
    (by show item < m1.brk; exact hib) (by rw [hm1i]; exact hchild)
  refine ⟨s2, ?_, hF2.brk_le, ?_, ?_, ?_, ?_, ?_, hK2, hR2⟩
  · simp only [parse_member, skip_quote]
    have hp' : ps s item (quote k ++ 58 :: (value_text kind c ++ rest)) = _ := hp
    rw [hp']
    have hs58 : skip (58 :: (value_text kind c ++ rest)) = 58 :: (value_text kind c ++ rest) := by
      simp [skip]
    simp only [hs58, peek, List.headD_cons, ne_eq, not_true_eq_false, if_false, List.tail_cons,
      skip_value_text]
    have hp2' : pv { mem := m1, aux := aux } item (value_text kind c ++ rest) = _ := hp2
    rw [hp2']
    simp only [hskip]
  · intro q hq hqi
    rw [hF2.old q hq hqi]; exact hm1o q hqi
  · rw [hF2.next_eq, hm1i]
  · rw [hF2.prev_eq, hm1i]
  · rw [hF2.hash_eq, hm1i]
  · rw [hF2.string_eq, hm1i]

theorem parse_object_loop_spec {σ : Type} (vi : Bool)
    (ps pv : PState σ → Nat → Bytes → PResult (PState σ × Bytes)) (hps : ParsesKeys ps) :
    ∀ t : JTree, t.wf true → ParsesHeads vi pv t → ParsesMembers vi ps pv t
  | JTree.nil, _, _ => by
    intro lf s cur rest hlf hc0 hcb hnext
    obtain ⟨lf, rfl⟩ : ∃ k, lf = k + 1 := ⟨lf - 1, by omega⟩
    refine ⟨s, by simp [parse_object_loop, sep_text, peek], ⟨le_refl _, fun _ _ _ => rfl, ?_⟩, ?_⟩
    · rw [hnext]
      cases h : s.mem.node cur
      simp [h] at hnext
      simp [hnext]
    · exact hnext
  | JTree.node key kind child next, hwf, hh => by
    intro lf s cur rest hlf hc0 hcb hnext
    obtain ⟨lf, rfl⟩ : ∃ k, lf = k + 1 := ⟨lf - 1, by omega⟩
    obtain ⟨hkey, _, _, hwfn⟩ := hwf
    have hkey' : key.isSome = true ∧ IsCStr (key.getD []) := by simpa using hkey
    obtain ⟨k, hk0⟩ := Option.isSome_iff_exists.1 hkey'.1
    subst hk0
    have hkc : IsCStr k := by simpa using hkey'.2
    obtain ⟨hv, hhn⟩ := hh
    simp only [JTree.size] at hlf
    have ih := parse_object_loop_spec vi ps pv hps next hwfn hhn
    obtain ⟨L1, L2, L3, L4⟩ := link_fresh_spec s.mem cur hcb
    have hstop := sep_text_stop true next 125 rest (Or.inr rfl)
    have htxt : sep_text (JTree.node (some k) kind child next)
          ((JTree.node (some k) kind child next).chain_text true) ++ 125 :: rest =
        44 :: (quote k ++ 58 :: (value_text kind child ++
          (sep_text next (next.chain_text true) ++ 125 :: rest))) := by
      simp [sep_text, JTree.chain_text, value_text]
    obtain ⟨s1, hp1, hb1, ho1, hn1, hpr1, hh1, hs1, hK1, hR1⟩ :=
      parse_member_spec vi ps pv hps kind child hv k hkc { s with mem := link_fresh s.mem cur }
        s.mem.brk (sep_text next (next.chain_text true) ++ 125 :: rest) hstop.1 hstop.2
        (by omega) (by show s.mem.brk < (link_fresh s.mem cur).brk; omega)
        (by show ((link_fresh s.mem cur).node s.mem.brk).child = 0; rw [L2]; rfl)
    have hF1brk : s.mem.brk + 1 ≤ s1.mem.brk := by simpa [L1] using hb1
    obtain ⟨s2, hp2, hF2, hR2⟩ := ih lf s1 s.mem.brk rest (by omega) (by omega) (by omega)
      (by rw [hn1]; show ((link_fresh s.mem cur).node s.mem.brk).next = 0; rw [L2]; rfl)
    have hstep : parse_object_loop ps pv (lf + 1) s cur
        (44 :: (quote k ++ 58 :: (value_text kind child ++
          (sep_text next (next.chain_text true) ++ 125 :: rest)))) = PResult.ok (s2, rest) := by
      have e : (cJSON_New_Item s.mem) = ((cJSON_New_Item s.mem).1, s.mem.brk) := rfl
      simp only [parse_object_loop, peek, List.headD_cons, if_true, List.tail_cons]
      rw [e]
      simp only []
      have := hp1
      simp only [link_fresh] at this
      rw [this]
      exact hp2
    have hcur_ne : cur ≠ s.mem.brk := by omega
    have hcur2 : s2.mem.node cur = { s.mem.node cur with next := s.mem.brk } := by
      rw [hF2.old cur (by omega) hcur_ne, ho1 cur (by show cur < (link_fresh s.mem cur).brk; omega)
        hcur_ne]
      exact L3
    have hB2 := hF2.cur_eq
    refine ⟨s2, by rw [htxt]; exact hstep, ⟨?_, ?_, ?_⟩, ?_⟩
    · have := hF2.brk_le; omega
    · intro q hq hqc
      rw [hF2.old q (by omega) (by omega), ho1 q (by show q < (link_fresh s.mem cur).brk; omega)
        (by omega)]
      exact L4 q (by omega) hqc
    · rw [hcur2]
    · rw [hcur2]
      show RepIn vi s2.mem s.mem.brk s2.mem.brk cur s.mem.brk _
      refine ⟨by omega, le_refl _, by have := hF2.brk_le; omega, ?_, ?_, ?_, ?_, ?_, ?_⟩
      · rw [hB2, hpr1]; show ((link_fresh s.mem cur).node s.mem.brk).prev = cur; rw [L2]
      · rw [hB2, hh1]; show ((link_fresh s.mem cur).node s.mem.brk).hash_string = -1; rw [L2]
      · rw [hB2]; exact hs1
      · rw [hB2]; exact hK1.of_fields rfl rfl rfl rfl
      · rw [hB2]
        show RepIn vi s2.mem s.mem.brk s2.mem.brk 0 (s1.mem.node s.mem.brk).child child
        have hR1' : RepIn vi s1.mem (s.mem.brk + 1) s1.mem.brk 0 (s1.mem.node s.mem.brk).child
            child := by simpa [L1] using hR1
        refine RepIn.widen (by omega) hF2.brk_le (RepIn.frame hR1' ?_)
        intro q hq1 hq2
        exact hF2.old q hq2 (by omega)
      · exact RepIn.widen (by omega) (le_refl _) hR2

/-- `parse_object` parses the text of an object whose member values `pv` parses. -/
theorem parse_object_spec {σ : Type} (vi : Bool)
    (ps pv : PState σ → Nat → Bytes → PResult (PState σ × Bytes)) (hps : ParsesKeys ps)
    (child : JTree) (lf : Nat)
    (hwf : child.wf true) (hh : ParsesHeads vi pv child) (hlf : child.size + 1 ≤ lf) :
    ParsesValue vi (parse_object ps pv lf) JKind.object child := by
  intro s item rest _ hi0 hib hchild
  cases child with
  | nil =>
    refine ⟨{ s with mem := s.mem.set item { s.mem.node item with type := cJSON_Object } }, ?_,
      set_type_frame s.mem item cJSON_Object, ?_, ?_⟩
    · simp [parse_object, value_text, JKind.text, JTree.chain_text, peek, skip]
    · simp [KindRep, Mem.set]
    · show ((s.mem.set item _).node item).child = 0
      simpa [Mem.set] using hchild
  | node key kind c next =>
    obtain ⟨hkey, _, _, hwfn⟩ := hwf
    have hkey' : key.isSome = true ∧ IsCStr (key.getD []) := by simpa using hkey
    obtain ⟨k, hk0⟩ := Option.isSome_iff_exists.1 hkey'.1
    subst hk0
    have hkc : IsCStr k := by simpa using hkey'.2
    obtain ⟨hv, hhn⟩ := hh
    simp only [JTree.size] at hlf
    let m1 := s.mem.set item { s.mem.node item with type := cJSON_Object }
    let m2 := (cJSON_New_Item m1).1
    let m3 := m2.set item { m2.node item with child := s.mem.brk }
    have hne : item ≠ s.mem.brk := by omega
    have hne' : s.mem.brk ≠ item := by omega
    have hm3brk : m3.brk = s.mem.brk + 1 := rfl
    have hm3B : m3.node s.mem.brk = { cJSON.zeroed with hash_string := -1 } := by
      simp [m3, m2, m1, cJSON_New_Item, Mem.set, hne']
    have hm3i : m3.node item =
        { s.mem.node item with type := cJSON_Object, child := s.mem.brk } := by
      simp [m3, m2, m1, cJSON_New_Item, Mem.set, hne]
    have hm3o : ∀ q, q ≠ s.mem.brk → q ≠ item → m3.node q = s.mem.node q := by
      intro q h1 h2
      simp [m3, m2, m1, cJSON_New_Item, Mem.set, h1, h2]
    have hstop := sep_text_stop true next 125 rest (Or.inr rfl)
    obtain ⟨s1, hp1, hb1, ho1, hn1, hpr1, hh1, hs1, hK1, hR1⟩ :=
      parse_member_spec vi ps pv hps kind c hv k hkc { s with mem := m3 }
        s.mem.brk (sep_text next (next.chain_text true) ++ 125 :: rest) hstop.1 hstop.2
        (by omega) (by show s.mem.brk < m3.brk; omega)
        (by show (m3.node s.mem.brk).child = 0; rw [hm3B]; rfl)
    have hF1brk : s.mem.brk + 1 ≤ s1.mem.brk := hb1
    obtain ⟨s2, hp2, hF2, hR2⟩ := parse_object_loop_spec vi ps pv hps next hwfn hhn lf s1
      s.mem.brk rest (by omega) (by omega) (by omega)
      (by rw [hn1]; show (m3.node s.mem.brk).next = 0; rw [hm3B]; rfl)
    have htxt : value_text JKind.object (JTree.node (some k) kind c next) ++ rest =
        123 :: (quote k ++ 58 :: (value_text kind c ++
          (sep_text next (next.chain_text true) ++ 125 :: rest))) := by
      simp [value_text, JKind.text, JTree.chain_text]
    have hitem2 : s2.mem.node item = m3.node item := by
      rw [hF2.old item (by omega) hne, ho1 item (by show item < m3.brk; omega) hne]
    refine ⟨s2, ?_, ⟨?_, ?_, ?_, ?_, ?_, ?_⟩, ?_, ?_⟩
    · rw [htxt]
      simp only [parse_object, peek, List.headD_cons, ne_eq, not_true_eq_false, if_false,
        List.tail_cons, skip_quote]
      rw [if_neg (by simp [quote, peek])]
      show (match parse_member ps pv { s with mem := m3 } s.mem.brk _ with
        | PResult.ok (s1, value2) => parse_object_loop ps pv lf s1 s.mem.brk value2
        | PResult.fail ep => PResult.fail ep
        | PResult.stuck => PResult.stuck) = _
      rw [hp1]
      exact hp2
    · have := hF2.brk_le; omega
    · intro q hq hqi
      rw [hF2.old q (by omega) (by omega), ho1 q (by show q < m3.brk; omega) (by omega)]
      exact hm3o q (by omega) hqi
    · rw [hitem2, hm3i]
    · rw [hitem2, hm3i]
    · rw [hitem2, hm3i]
    · rw [hitem2, hm3i]
    · rw [hitem2, hm3i]; rfl
    · rw [hitem2, hm3i]
      show RepIn vi s2.mem s.mem.brk s2.mem.brk 0 s.mem.brk _
      have hB2 := hF2.cur_eq
      refine ⟨by omega, le_refl _, by have := hF2.brk_le; omega, ?_, ?_, ?_, ?_, ?_, ?_⟩
      · rw [hB2, hpr1]; show (m3.node s.mem.brk).prev = 0; rw [hm3B]; rfl
      · rw [hB2, hh1]; show (m3.node s.mem.brk).hash_string = -1; rw [hm3B]
      · rw [hB2]; exact hs1
      · rw [hB2]; exact hK1.of_fields rfl rfl rfl rfl
      · rw [hB2]
        show RepIn vi s2.mem s.mem.brk s2.mem.brk 0 (s1.mem.node s.mem.brk).child c
        have hR1' : RepIn vi s1.mem (s.mem.brk + 1) s1.mem.brk 0 (s1.mem.node s.mem.brk).child
            c := hR1
        refine RepIn.widen (by omega) hF2.brk_le (RepIn.frame hR1' ?_)
        intro q hq1 hq2
        exact hF2.old q hq2 (by omega)
      · exact RepIn.widen (by omega) (le_refl _) hR2

theorem parses_heads {σ : Type} {vi : Bool}
    {ps : PState σ → Nat → Bytes → PResult (PState σ × Bytes)}
    {pvF : Nat → PState σ → Nat → Bytes → PResult (PState σ × Bytes)}
    (L : ParserLaws vi ps pvF) :
    ∀ (t : JTree) (obj : Bool) (F : Nat), t.wf obj → t.size + 1 ≤ F → ParsesHeads vi (pvF F) t
  | JTree.nil, _, _, _, _ => trivial
  | JTree.node key kind child next, obj, F, hwf, hF => by
    obtain ⟨_, hpay, hchild, hwfn⟩ := hwf
    simp only [JTree.size] at hF
    obtain ⟨F, rfl⟩ : ∃ k, F = k + 1 := ⟨F - 1, by omega⟩
    refine ⟨?_, parses_heads L next obj (F + 1) hwfn (by omega)⟩
    cases kind with
    | array =>
      have hc : child.wf false := hchild
      have hh := parses_heads L child false F hc (by omega)
      have hv := parse_array_spec vi (pvF F) child F hc hh (by omega)
      intro s item rest h1 h2 h3 h4
      rw [L.array F s item _ (by simp [value_text, JKind.text, peek])]
      exact hv s item rest h1 h2 h3 h4
    | object =>
      have hc : child.wf true := hchild
      have hh := parses_heads L child true F hc (by omega)
      have hv := parse_object_spec vi ps (pvF F) L.keys child F hc hh (by omega)
      intro s item rest h1 h2 h3 h4
      rw [L.object F s item _ (by simp [value_text, JKind.text, peek])]
      exact hv s item rest h1 h2 h3 h4
    | null =>
      have hc : child = JTree.nil := hchild
      subst hc
      exact L.scalar F _ (by simp) (by simp) hpay
    | jfalse =>
      have hc : child = JTree.nil := hchild
      subst hc
      exact L.scalar F _ (by simp) (by simp) hpay
    | jtrue =>
      have hc : child = JTree.nil := hchild
      subst hc
      exact L.scalar F _ (by simp) (by simp) hpay
    | number n =>
      have hc : child = JTree.nil := hchild
      subst hc
      exact L.scalar F _ (by simp) (by simp) hpay
    | decimal tok valid d i =>
      have hc : child = JTree.nil := hchild
      subst hc
      exact L.scalar F _ (by simp) (by simp) hpay
    | string str =>
      have hc : child = JTree.nil := hchild
      subst hc
      exact L.scalar F _ (by simp) (by simp) hpay

/-- With enough fuel the value production of a variant parses the compact text of
every value of the data model. -/
theorem parses_value {σ : Type} {vi : Bool}
    {ps : PState σ → Nat → Bytes → PResult (PState σ × Bytes)}
    {pvF : Nat → PState σ → Nat → Bytes → PResult (PState σ × Bytes)}
    (L : ParserLaws vi ps pvF) (kind : JKind) (child : JTree) (hwf : value_wf kind child)
    (F : Nat) (hF : child.size + 2 ≤ F) : ParsesValue vi (pvF F) kind child :=
  (parses_heads L (JTree.node none kind child JTree.nil) false F hwf
    (by simp only [JTree.size]; omega)).1

/-! ## Facts about replacing a child -/

/-- The store after the splice of `cJSON_ReplaceItemInArray`, field by field. -/
theorem replace_fields (m : Mem) (array c x : Nat) (which : Int)
    (hw : walk_items m which.toNat (m.node array).child = c)
    (hc0 : c ≠ 0) (hx0 : x ≠ 0) (hxc : x ≠ c)
    (hxn : (m.node c).next ≠ x) (hxp : (m.node c).prev ≠ x)
    (hfirst : c ≠ (m.node array).child → (m.node c).prev ≠ 0) :
    ∃ m', cJSON_ReplaceItemInArray m array which x = some (m', c) ∧
      ∀ q,
        (m'.node q).next =
          (if q = c then 0 else if q = x then (m.node c).next
            else if q = (m.node c).prev ∧ c ≠ (m.node array).child then x
            else (m.node q).next) ∧
        (m'.node q).prev =
          (if q = c then 0 else if q = x then (m.node c).prev
            else if q = (m.node c).next ∧ (m.node c).next ≠ 0 then x else (m.node q).prev) ∧
        (m'.node q).child =
          (if q = array ∧ c = (m.node array).child then x else (m.node q).child) ∧
        (m'.node q).data = (m.node q).data := by
  have hcx : ¬ c = x := fun h => hxc h.symm
  generalize hpd : (m.node c).prev = p at hxp hfirst ⊢
  generalize hnd : (m.node c).next = n at hxn ⊢
  have hxn' : ¬ x = n := fun h => hxn h.symm
  have hxp' : ¬ x = p := fun h => hxp h.symm
  let m1 := m.set x { m.node x with next := n }
  let m2 := m1.set x { m1.node x with prev := p }
  have h2n : ∀ q, (m2.node q).next = if q = x then n else (m.node q).next := by
    intro q; by_cases hq : q = x <;> simp [m2, m1, hq]
  have h2p : ∀ q, (m2.node q).prev = if q = x then p else (m.node q).prev := by
    intro q; by_cases hq : q = x <;> simp [m2, m1, hq]
  have h2c : ∀ q, (m2.node q).child = (m.node q).child := by
    intro q; by_cases hq : q = x <;> simp [m2, m1, hq]
  have h2d : ∀ q, (m2.node q).data = (m.node q).data := by
    intro q; by_cases hq : q = x <;> simp [m2, m1, hq, cJSON.data]
  let m3 := if n ≠ 0 then m2.set n { m2.node n with prev := x } else m2
  have h3n : ∀ q, (m3.node q).next = (m2.node q).next := by
    intro q; by_cases hn0 : n = 0 <;> by_cases hq : q = n <;> simp [m3, hn0, hq]
  have h3p : ∀ q, (m3.node q).prev = if q = n ∧ n ≠ 0 then x else (m2.node q).prev := by
    intro q; by_cases hn0 : n = 0 <;> by_cases hq : q = n <;> simp [m3, hn0, hq]
  have h3c : ∀ q, (m3.node q).child = (m2.node q).child := by
    intro q; by_cases hn0 : n = 0 <;> by_cases hq : q = n <;> simp [m3, hn0, hq]
  have h3d : ∀ q, (m3.node q).data = (m2.node q).data := by
    intro q; by_cases hn0 : n = 0 <;> by_cases hq : q = n <;> simp [m3, hn0, hq, cJSON.data]
  have e1 : (m1.node c).prev = p := by simp [m1, hcx, hpd]
  have e2 : (m2.node x).next = n := by rw [h2n]; simp
  have e3 : (m3.node array).child = (m.node array).child := by rw [h3c, h2c]
  have e4 : (m3.node x).prev = p := by rw [h3p, h2p]; simp [hxn']
  by_cases hf : c = (m.node array).child
  · let m4 := m3.set array { m3.node array with child := x }
    have h4n : ∀ q, (m4.node q).next = (m3.node q).next := by
      intro q; by_cases hq : q = array <;> simp [m4, hq]
    have h4p : ∀ q, (m4.node q).prev = (m3.node q).prev := by
      intro q; by_cases hq : q = array <;> simp [m4, hq]
    have h4c : ∀ q, (m4.node q).child = if q = array then x else (m3.node q).child := by
      intro q; by_cases hq : q = array <;> simp [m4, hq]
    have h4d : ∀ q, (m4.node q).data = (m3.node q).data := by
      intro q; by_cases hq : q = array <;> simp [m4, hq, cJSON.data]
    refine ⟨m4.set c { m4.node c with prev := 0, next := 0 }, ?_, ?_⟩
    · simp only [cJSON_ReplaceItemInArray, hw, if_neg hc0, if_neg hx0, hnd, m4, m3, m2, m1] at e1 e2 e3 ⊢
      simp only [e1, e2, e3, if_pos hf]
    · intro q
      refine ⟨?_, ?_, ?_, ?_⟩
      · by_cases hq : q = c
        · simp [hq]
        · simp only [Mem.set_node, if_neg hq, h4n, h3n, h2n]
          by_cases hqx : q = x
          · simp [hqx]
          · simp [hqx, hf]
      · by_cases hq : q = c
        · simp [hq]
        · simp only [Mem.set_node, if_neg hq, h4p, h3p, h2p]
          by_cases hqx : q = x
          · simp [hqx, hxn']
          · simp [hqx]
      · by_cases hq : q = c
        · subst hq
          simp only [Mem.set_node, if_true, h4c, h3c, h2c]
          simp [hf]
        · simp only [Mem.set_node, if_neg hq, h4c, h3c, h2c]
          simp [hf]
      · by_cases hq : q = c
        · subst hq
          have e : ((m4.set q { m4.node q with prev := 0, next := 0 }).node q).data =
              (m4.node q).data := by simp [cJSON.data]
          rw [e, h4d, h3d, h2d]
        · simp only [Mem.set_node, if_neg hq, h4d, h3d, h2d]
  · have hp0 : p ≠ 0 := hfirst hf
    let m4 := m3.set p { m3.node p with next := x }
    have h4n : ∀ q, (m4.node q).next = if q = p then x else (m3.node q).next := by
      intro q; by_cases hq : q = p <;> simp [m4, hq]
    have h4p : ∀ q, (m4.node q).prev = (m3.node q).prev := by
      intro q; by_cases hq : q = p <;> simp [m4, hq]
    have h4c : ∀ q, (m4.node q).child = (m3.node q).child := by
      intro q; by_cases hq : q = p <;> simp [m4, hq]
    have h4d : ∀ q, (m4.node q).data = (m3.node q).data := by
      intro q; by_cases hq : q = p <;> simp [m4, hq, cJSON.data]
    refine ⟨m4.set c { m4.node c with prev := 0, next := 0 }, ?_, ?_⟩
    · simp only [cJSON_ReplaceItemInArray, hw, if_neg hc0, if_neg hx0, hnd, m4, m3, m2, m1]
        at e1 e2 e3 e4 ⊢
      simp only [e1, e2, e3, e4, if_neg hf, if_neg hp0]
    · intro q
      refine ⟨?_, ?_, ?_, ?_⟩
      · by_cases hq : q = c
        · simp [hq]
        · simp only [Mem.set_node, if_neg hq, h4n, h3n, h2n]
          by_cases hqx : q = x
          · simp [hqx, hxp']
          · simp [hqx, hf]
      · by_cases hq : q = c
        · simp [hq]
        · simp only [Mem.set_node, if_neg hq, h4p, h3p, h2p]
          by_cases hqx : q = x
          · simp [hqx, hxn']
          · simp [hqx]
      · by_cases hq : q = c
        · subst hq
          simp only [Mem.set_node, if_true, h4c, h3c, h2c]
          simp [hf]
        · simp only [Mem.set_node, if_neg hq, h4c, h3c, h2c]
          simp [hf]
      · by_cases hq : q = c
        · subst hq
          have e : ((m4.set q { m4.node q with prev := 0, next := 0 }).node q).data =
              (m4.node q).data := by simp [cJSON.data]
          rw [e, h4d, h3d, h2d]
        · simp only [Mem.set_node, if_neg hq, h4d, h3d, h2d]

theorem set_split {α : Type} (l1 : List α) (c x : α) (l2 : List α) :
    (l1 ++ c :: l2).set l1.length x = l1 ++ x :: l2 := by
  induction l1 with
  | nil => rfl
  | cons a l1 ih => simp [ih]

theorem replace_spec (m : Mem) (array c x : Nat) (l1 l2 : List Nat)
    (hl : Children m array (l1 ++ c :: l2)) (hx0 : x ≠ 0) (hx : x ∉ l1 ++ c :: l2) :
    ∃ m', cJSON_ReplaceItemInArray m array (l1.length : Int) x = some (m', c) ∧
      Children m' array (l1 ++ x :: l2) ∧
      (m'.node c).next = 0 ∧ (m'.node c).prev = 0 ∧
      (∀ q, (m'.node q).data = (m.node q).data) ∧
      (∀ q, q ≠ array → (m'.node q).child = (m.node q).child) := by
  have hnd := DLSeg.nodup hl.2
  have hne := DLSeg.ne_zero hl.2
  have hseg := (DLSeg.append l1 (c :: l2) 0 0).1 hl.2
  obtain ⟨hA, hc0, hcp, hcn, hB⟩ := hseg
  have hnd' := List.nodup_append.1 hnd
  have hc1 : c ∉ l1 := fun h => hnd'.2.2 h (by simp)
  have hc2 : c ∉ l2 := (List.nodup_cons.1 hnd'.2.1).1
  have hx1 : x ∉ l1 := fun h => hx (by simp [h])
  have hx2 : x ∉ l2 := fun h => hx (by simp [h])
  have hxc : x ≠ c := fun h => hx (by simp [h])
  have h12 : ∀ a ∈ l1, a ∉ l2 := fun a h1 h2 => hnd'.2.2 h1 (by simp [h2])
  have hpm : (m.node c).prev = 0 ∨ (m.node c).prev ∈ l1 := by
    rw [hcp]
    rcases List.eq_nil_or_concat l1 with e | ⟨l0, z, e⟩
    · left; rw [e]; rfl
    · right; rw [e, List.concat_eq_append]; simp
  have hnm : (m.node c).next = 0 ∨ (m.node c).next ∈ l2 := by
    rw [hcn]
    cases l2 with
    | nil => left; rfl
    | cons b l2 => right; simp
  have hxn : (m.node c).next ≠ x := by
    rcases hnm with h | h
    · rw [h]; exact Ne.symm hx0
    · intro e; rw [e] at h; exact hx2 h
  have hxp : (m.node c).prev ≠ x := by
    rcases hpm with h | h
    · rw [h]; exact Ne.symm hx0
    · intro e; rw [e] at h; exact hx1 h
  have hw : walk_items m ((l1.length : Int)).toNat (m.node array).child = c := by
    rw [Int.toNat_natCast, hl.1, walk_items_spec l1.length hl.2, getD_split]
  have hfirst_iff : c = (m.node array).child ↔ l1 = [] := by
    rw [hl.1]
    cases l1 with
    | nil => simp
    | cons a l1 =>
      simp only [List.cons_append, List.headD_cons]
      constructor
      · rintro rfl; exact absurd (by simp) hc1
      · intro h; simp at h
  have hfirst : c ≠ (m.node array).child → (m.node c).prev ≠ 0 := by
    intro h
    have hl1 : l1 ≠ [] := fun e => h (hfirst_iff.2 e)
    rw [hcp]
    rcases List.eq_nil_or_concat l1 with e | ⟨l0, z, e⟩
    · exact absurd e hl1
    · rw [e, List.concat_eq_append]
      simpa using hne z (by rw [e, List.concat_eq_append]; simp)
  obtain ⟨m', hm', F⟩ := replace_fields m array c x _ hw hc0 hx0 hxc hxn hxp hfirst
  have k1 : ∀ q ∈ l1, q ≠ c ∧ q ≠ x ∧ ¬ (q = (m.node c).next ∧ (m.node c).next ≠ 0) := by
    intro q hq
    refine ⟨fun e => hc1 (e ▸ hq), fun e => hx1 (e ▸ hq), fun e => ?_⟩
    rcases hnm with h | h
    · exact e.2 h
    · exact h12 q hq (e.1 ▸ h)
  have k2 : ∀ q ∈ l2, q ≠ c ∧ q ≠ x ∧ ¬ (q = (m.node c).prev ∧ c ≠ (m.node array).child) := by
    intro q hq
    refine ⟨fun e => hc2 (e ▸ hq), fun e => hx2 (e ▸ hq), fun e => ?_⟩
    rcases hpm with h | h
    · exact hfirst e.2 h
    · exact h12 _ h (e.1 ▸ hq)
  refine ⟨m', hm', ⟨?_, ?_⟩, by simp [(F c).1], by simp [(F c).2.1],
    fun q => (F q).2.2.2, fun q hq => by simp [(F q).2.2.1, hq]⟩
  · rw [(F array).2.2.1, hl.1]
    rcases l1 with _ | ⟨a, l1⟩
    · simp [hfirst_iff]
    · have : ¬ (c = a) := by rintro rfl; exact hc1 (by simp)
      simp [this]
  · refine (DLSeg.append l1 (x :: l2) 0 0).2 ⟨?_, ?_⟩
    · rcases List.eq_nil_or_concat l1 with e | ⟨l0, z, e⟩
      · rw [e]; trivial
      · rw [List.concat_eq_append] at e
        have hzl : z ∈ l1 := by rw [e]; simp
        have hz : (m.node c).prev = z := by rw [hcp, e]; simp
        have hnf : c ≠ (m.node array).child := by
          rw [Ne, hfirst_iff, e]; simp
        have hnd0 := List.nodup_append.1 (e ▸ hnd'.1)
        rw [e] at hA
        simp only [List.headD_cons]
        rw [e]
        refine @DLSeg.set_last m m' l0 0 z c x hA ?_ ?_ ?_
        · intro q hq
          have hql : q ∈ l1 := by rw [e]; simp [hq]
          have hqz : q ≠ z := by rintro rfl; exact hnd0.2.2 hq (by simp)
          obtain ⟨a1, a2, a3⟩ := k1 q hql
          rw [(F q).1, (F q).2.1, hz, if_neg a1, if_neg a2, if_neg a1, if_neg a2,
            if_neg a3, if_neg (fun h => hqz h.1)]
          exact ⟨rfl, rfl⟩
        · obtain ⟨a1, a2, a3⟩ := k1 z hzl
          rw [(F z).2.1, if_neg a1, if_neg a2, if_neg a3]
        · obtain ⟨a1, a2, a3⟩ := k1 z hzl
          rw [(F z).1, if_neg a1, if_neg a2, hz, if_pos ⟨rfl, hnf⟩]
    · refine ⟨hx0, ?_, ?_, ?_⟩
      · rw [(F x).2.1, if_neg hxc, if_pos rfl, hcp]
      · rw [(F x).1, if_neg hxc, if_pos rfl, hcn]
      · cases l2 with
        | nil => trivial
        | cons n l2 =>
          have hnl : n ∈ n :: l2 := by simp
          have hn : (m.node c).next = n := by simpa using hcn
          have hn0 : n ≠ 0 := hB.1
          have hnd2 := List.nodup_cons.1 (List.nodup_cons.1 hnd'.2.1).2
          refine @DLSeg.set_first m m' l2 c x n 0 hB ?_ ?_ ?_
          · intro q hq
            have hql : q ∈ n :: l2 := by simp [hq]
            have hqn : q ≠ n := by rintro rfl; exact hnd2.1 hq
            obtain ⟨a1, a2, a3⟩ := k2 q hql
            rw [(F q).1, (F q).2.1, hn, if_neg a1, if_neg a2, if_neg a1, if_neg a2,
              if_neg a3, if_neg (fun h => hqn h.1)]
            exact ⟨rfl, rfl⟩
          · obtain ⟨a1, a2, a3⟩ := k2 n hnl
            rw [(F n).2.1, if_neg a1, if_neg a2, hn, if_pos ⟨rfl, hn0⟩]
          · obtain ⟨a1, a2, a3⟩ := k2 n hnl
            rw [(F n).1, if_neg a1, if_neg a2, if_neg a3]

/-! ## The string production on escapes -/

theorem cont_byte (x : Nat) : (x ||| 0x80) &&& 0xBF = 0x80 + x % 64 := by
  have h1 : (x ||| 0x80) &&& 0xBF = ((x ||| 0x80) &&& 0xFF) &&& 0xBF := by
    rw [Nat.and_assoc]; rfl
  have h2 : (x ||| 0x80) &&& 0xFF = (x % 256 ||| 0x80) := by
    rw [Nat.and_distrib_right]
    have := Nat.and_pow_two_sub_one_eq_mod x 8
    simp only [Nat.reducePow, Nat.add_one_sub_one] at this
    rw [show (0xFF : Nat) = 256 - 1 from rfl, this]
    rfl
  rw [h1, h2]
  have h3 : x % 64 = x % 256 % 64 := by omega
  rw [h3]
  have hr : x % 256 < 256 := Nat.mod_lt _ (by decide)
  generalize x % 256 = r at hr
  interval_cases r <;> rfl

theorem lead_byte2 (x : Nat) (hx : x < 32) : (x ||| 0xC0) % 256 = 0xC0 + x := by
  interval_cases x <;> rfl

theorem lead_byte3 (x : Nat) (hx : x < 16) : (x ||| 0xE0) % 256 = 0xE0 + x := by
  interval_cases x <;> rfl

theorem lead_byte4 (x : Nat) (hx : x < 8) : (x ||| 0xF0) % 256 = 0xF0 + x := by
  interval_cases x <;> rfl

theorem utf8_bytes_encode (cp : Nat) (h : cp < 0x110000) :
    utf8_bytes cp (if cp < 0x80 then 1 else if cp < 0x800 then 2 else if cp < 0x10000 then 3
      else 4) = utf8_encode cp := by
  unfold utf8_encode
  by_cases h1 : cp < 0x80
  · simp only [if_pos h1, utf8_bytes, firstByteMark, Nat.or_zero]
    rw [Nat.mod_eq_of_lt (by omega)]
  · by_cases h2 : cp < 0x800
    · simp only [if_neg h1, if_pos h2, utf8_bytes, firstByteMark, cont_byte,
        Nat.shiftRight_eq_div_pow]
      rw [lead_byte2 _ (by omega)]
    · by_cases h3 : cp < 0x10000
      · simp only [if_neg h1, if_neg h2, if_pos h3, utf8_bytes, firstByteMark, cont_byte,
          Nat.shiftRight_eq_div_pow]
        rw [lead_byte3 _ (by omega)]
      · simp only [if_neg h1, if_neg h2, if_neg h3, utf8_bytes, firstByteMark, cont_byte,
          Nat.shiftRight_eq_div_pow]
        rw [lead_byte4 _ (by omega)]

theorem utf8_encode_cstr (cp : Nat) (h0 : cp ≠ 0) (h : cp < 0x110000) :
    IsCStr (utf8_encode cp) := by
  unfold utf8_encode
  intro b hb
  split_ifs at hb <;> simp at hb <;> omega

theorem hex_value_lt {c v : Nat} (h : hex_value c = some v) : v < 16 := by
  unfold hex_value at h
  split_ifs at h <;> simp at h <;> omega

theorem hex4_value_some {hs : Bytes} {u : Nat} (h : hex4_value hs = some u) :
    ∃ a b c d x y z w, hs = [a, b, c, d] ∧ hex_value a = some x ∧ hex_value b = some y ∧
      hex_value c = some z ∧ hex_value d = some w ∧ u = ((x * 16 + y) * 16 + z) * 16 + w := by
  match hs, h with
  | [a, b, c, d], h =>
    simp only [hex4_value] at h
    cases ha : hex_value a <;> cases hb : hex_value b <;> cases hc : hex_value c <;>
      cases hd : hex_value d <;> simp [ha, hb, hc, hd] at h
    exact ⟨a, b, c, d, _, _, _, _, rfl, ha, hb, hc, hd, h.symm⟩

theorem parse_hex4_of_value {hs : Bytes} {u : Nat} (h : hex4_value hs = some u) (X : Bytes) :
    Arena.parse_hex4 (hs ++ X) = u ∧ u < 0x10000 := by
  obtain ⟨a, b, c, d, x, y, z, w, rfl, ha, hb, hc, hd, rfl⟩ := hex4_value_some h
  have := hex_value_lt ha
  have := hex_value_lt hb
  have := hex_value_lt hc
  have := hex_value_lt hd
  simp only [Arena.parse_hex4, Arena.parse_hex4_loop, List.cons_append, List.nil_append, peek,
    List.headD_cons, List.tail_cons, ha, hb, hc, hd]
  constructor <;> omega

theorem escape_length_ge : ∀ s : Bytes, s.length ≤ (escape s).length
  | [] => by simp [escape]
  | c :: s => by
    have := escape_length_ge s
    have := escape_byte_length_pos c
    simp only [escape, List.length_append, List.length_cons]
    omega

theorem Arena.loop_escape_prefix : ∀ (s X : Bytes) (fuel : Nat) (out : Bytes), IsCStr s →
    Arena.parse_string_loop (s.length + fuel) (escape s ++ X) out =
      Arena.parse_string_loop fuel X (out ++ s)
  | [], X, fuel, out, _ => by simp [escape]
  | c :: s, X, fuel, out, hs => by
    have hc := (hs c (by simp)).1
    have e : (c :: s).length + fuel = (s.length + fuel) + 1 := by simp; omega
    rw [e, escape, List.append_assoc, Arena.arena_string_loop_step c _ _ out hc,
      Arena.loop_escape_prefix s X fuel (out ++ [c]) (fun b hb => hs b (by simp [hb]))]
    simp

theorem PerValue.heap_loop_escape_prefix : ∀ (s X : Bytes) (fuel : Nat) (out : Bytes),
    IsCStr s →
    PerValue.parse_string_loop (s.length + fuel) (escape s ++ X) out =
      PerValue.parse_string_loop fuel X (out ++ s)
  | [], X, fuel, out, _ => by simp [escape]
  | c :: s, X, fuel, out, hs => by
    have hc := (hs c (by simp)).1
    have e : (c :: s).length + fuel = (s.length + fuel) + 1 := by simp; omega
    rw [e, escape, List.append_assoc, PerValue.parse_string_loop_step c _ _ out hc,
      PerValue.heap_loop_escape_prefix s X fuel (out ++ [c]) (fun b hb => hs b (by simp [hb]))]
    simp

/-- A `\uXXXX` escape outside the surrogate range decodes to the UTF-8 bytes of its
code unit, and to nothing when the code unit is zero. -/
theorem Arena.loop_unicode (hi : Bytes) (u : Nat) (hu : hex4_value hi = some u)
    (hns : u < 0xD800 ∨ 0xDFFF < u) (X : Bytes) (fuel : Nat) (out : Bytes) :
    Arena.parse_string_loop (fuel + 1) (92 :: 117 :: (hi ++ X)) out =
      Arena.parse_string_loop fuel X (out ++ if u = 0 then [] else utf8_encode u) := by
  obtain ⟨hp, hlt⟩ := parse_hex4_of_value hu X
  obtain ⟨a, b, c, d, x, y, z, w, rfl, -, -, -, -, -⟩ := hex4_value_some hu
  have h1 : ¬ ((0xDC00 ≤ u ∧ u ≤ 0xDFFF) ∨ u = 0x10000) := by omega
  have h2 : ¬ (0xD800 ≤ u ∧ u ≤ 0xDBFF) := by omega
  have henc := utf8_bytes_encode u (by omega)
  have h3 : ¬ (0x10000 ≤ u) := by omega
  rw [Arena.parse_string_loop]
  simp only [peek, List.headD_cons, List.tail_cons]
  simp only [show ¬ ((92 : Nat) = 34 ∨ (92 : Nat) = 0) by decide, if_false, ne_eq,
    not_true_eq_false, show ¬ ((117 : Nat) = 0) by decide, show ¬ ((117 : Nat) = 98) by decide,
    show ¬ ((117 : Nat) = 102) by decide, show ¬ ((117 : Nat) = 110) by decide,
    show ¬ ((117 : Nat) = 114) by decide, show ¬ ((117 : Nat) = 116) by decide, if_true, hp,
    if_neg h1, if_neg h2]
  by_cases h0 : u = 0
  · simp [h0, utf8_bytes]
  · have e : (if u = 0 then 0 else if u < 0x80 then 1 else if u < 0x800 then 2 else 3) =
        (if u < 0x80 then 1 else if u < 0x800 then 2 else if u < 0x10000 then 3 else 4) := by
      simp only [if_neg h0]
      split_ifs <;> rfl
    rw [e, henc]
    simp [h0]

theorem surrogate_bits (u v : Nat) (hu : 0xD800 ≤ u ∧ u ≤ 0xDBFF) (hv : 0xDC00 ≤ v ∧ v ≤ 0xDFFF) :
    0x10000 + (((u &&& 0x3FF) <<< 10) ||| (v &&& 0x3FF)) = surrogate_code_point u v := by
  have e1 : u &&& 0x3FF = u % 1024 := by
    have := Nat.and_pow_two_sub_one_eq_mod u 10
    simpa using this
  have e2 : v &&& 0x3FF = v % 1024 := by
    have := Nat.and_pow_two_sub_one_eq_mod v 10
    simpa using this
  have e3 : ((u % 1024) <<< 10) ||| (v % 1024) = 2 ^ 10 * (u % 1024) + v % 1024 := by
    rw [Nat.mul_add_lt_is_or (Nat.mod_lt _ (by decide)), Nat.shiftLeft_eq, Nat.mul_comm]
  rw [e1, e2, e3]
  unfold surrogate_code_point
  omega

/-- A surrogate pair decodes to the four UTF-8 bytes of the code point it denotes. -/
theorem Arena.loop_surrogate_pair (hi lo : Bytes) (u v : Nat) (hu : hex4_value hi = some u)
    (hv : hex4_value lo = some v) (hur : 0xD800 ≤ u ∧ u ≤ 0xDBFF)
    (hvr : 0xDC00 ≤ v ∧ v ≤ 0xDFFF) (X : Bytes) (fuel : Nat) (out : Bytes) :
    Arena.parse_string_loop (fuel + 1) (92 :: 117 :: (hi ++ 92 :: 117 :: (lo ++ X))) out =
      Arena.parse_string_loop fuel X (out ++ utf8_encode (surrogate_code_point u v)) := by
  obtain ⟨hp, hlt⟩ := parse_hex4_of_value hu (92 :: 117 :: (lo ++ X))
  obtain ⟨hp2, hlt2⟩ := parse_hex4_of_value hv X
  obtain ⟨a, b, c, d, x, y, z, w, rfl, -, -, -, -, -⟩ := hex4_value_some hu
  obtain ⟨a2, b2, c2, d2, x2, y2, z2, w2, rfl, -, -, -, -, -⟩ := hex4_value_some hv
  have h1 : ¬ ((0xDC00 ≤ u ∧ u ≤ 0xDFFF) ∨ u = 0x10000) := by omega
  have h3 : ¬ (v < 0xDC00 ∨ v > 0xDFFF) := by omega
  have hcp : surrogate_code_point u v < 0x110000 ∧ 0x10000 ≤ surrogate_code_point u v := by
    unfold surrogate_code_point; omega
  have henc := utf8_bytes_encode (surrogate_code_point u v) hcp.1
  have e4 : (if surrogate_code_point u v < 0x80 then 1
      else if surrogate_code_point u v < 0x800 then 2
      else if surrogate_code_point u v < 0x10000 then 3 else 4) = 4 := by
    split_ifs <;> first | rfl | omega
  rw [e4] at henc
  rw [Arena.parse_string_loop]
  simp only [peek, List.headD_cons, List.tail_cons, List.cons_append, List.nil_append,
    List.drop_succ_cons, List.drop_zero] at hp hp2 ⊢
  simp only [show ¬ ((92 : Nat) = 34 ∨ (92 : Nat) = 0) by decide, if_false, ne_eq,
    not_true_eq_false, show ¬ ((117 : Nat) = 0) by decide, show ¬ ((117 : Nat) = 98) by decide,
    show ¬ ((117 : Nat) = 102) by decide, show ¬ ((117 : Nat) = 110) by decide,
    show ¬ ((117 : Nat) = 114) by decide, show ¬ ((117 : Nat) = 116) by decide, if_true, hp,
    if_neg h1, if_pos hur, or_self, hp2, if_neg h3, surrogate_bits u v hur hvr, henc]

/-- A lone low surrogate makes the loop fail with `ep` set. -/
theorem Arena.loop_low_surrogate (hi : Bytes) (u : Nat) (hu : hex4_value hi = some u)
    (hur : 0xDC00 ≤ u ∧ u ≤ 0xDFFF) (X : Bytes) (fuel : Nat) (out : Bytes) :
    Arena.parse_string_loop (fuel + 1) (92 :: 117 :: (hi ++ X)) out = Decoded.bad out true := by
  obtain ⟨hp, hlt⟩ := parse_hex4_of_value hu X
  obtain ⟨a, b, c, d, x, y, z, w, rfl, -, -, -, -, -⟩ := hex4_value_some hu
  rw [Arena.parse_string_loop]
  simp only [peek, List.headD_cons, List.tail_cons]
  simp only [show ¬ ((92 : Nat) = 34 ∨ (92 : Nat) = 0) by decide, if_false, ne_eq,
    not_true_eq_false, show ¬ ((117 : Nat) = 0) by decide, show ¬ ((117 : Nat) = 98) by decide,
    show ¬ ((117 : Nat) = 102) by decide, show ¬ ((117 : Nat) = 110) by decide,
    show ¬ ((117 : Nat) = 114) by decide, show ¬ ((117 : Nat) = 116) by decide, if_true, hp,
    if_pos (Or.inl hur)]

theorem parse_hex4_inv (X : Bytes) (h : Arena.parse_hex4 X ≠ 0x10000) :
    ∃ lo rest, X = lo ++ rest ∧ hex4_value lo = some (Arena.parse_hex4 X) := by
  unfold Arena.parse_hex4 at h ⊢
  simp only [Arena.parse_hex4_loop] at h ⊢
  cases ha : hex_value (peek X) with
  | none => simp [ha] at h
  | some x =>
    cases hb : hex_value (peek X.tail) with
    | none => simp [ha, hb] at h
    | some y =>
      cases hc : hex_value (peek X.tail.tail) with
      | none => simp [ha, hb, hc] at h
      | some z =>
        cases hd : hex_value (peek X.tail.tail.tail) with
        | none => simp [ha, hb, hc, hd] at h
        | some w =>
          have hz : hex_value 0 = none := by decide
          match X, ha, hb, hc, hd with
          | [], ha, _, _, _ => simp [peek, hz] at ha
          | [_], _, hb, _, _ => simp [peek, hz] at hb
          | [_, _], _, _, hc, _ => simp [peek, hz] at hc
          | [_, _, _], _, _, _, hd => simp [peek, hz] at hd
          | a :: b :: c :: d :: rest, ha, hb, hc, hd =>
            simp only [peek, List.headD_cons, List.tail_cons] at ha hb hc hd ⊢
            refine ⟨[a, b, c, d], rest, rfl, ?_⟩
            have := hex_value_lt ha
            have := hex_value_lt hb
            have := hex_value_lt hc
            have := hex_value_lt hd
            simp only [hex4_value, ha, hb, hc, hd, Option.some.injEq]
            omega

/-- A high surrogate that is not followed by a `\u` escape of a low surrogate makes the
loop fail with `ep` set. -/
theorem Arena.loop_high_surrogate (hi : Bytes) (u : Nat) (hu : hex4_value hi = some u)
    (hur : 0xD800 ≤ u ∧ u ≤ 0xDBFF) (X : Bytes)
    (hno : ∀ lo v rest, hex4_value lo = some v → 0xDC00 ≤ v ∧ v ≤ 0xDFFF →
      X ≠ 92 :: 117 :: (lo ++ rest))
    (fuel : Nat) (out : Bytes) :
    Arena.parse_string_loop (fuel + 1) (92 :: 117 :: (hi ++ X)) out = Decoded.bad out true := by
  obtain ⟨hp, hlt⟩ := parse_hex4_of_value hu X
  obtain ⟨a, b, c, d, x, y, z, w, rfl, -, -, -, -, -⟩ := hex4_value_some hu
  have h1 : ¬ ((0xDC00 ≤ u ∧ u ≤ 0xDFFF) ∨ u = 0x10000) := by omega
  rw [Arena.parse_string_loop]
  simp only [peek, List.headD_cons, List.tail_cons, List.cons_append, List.nil_append,
    List.drop_succ_cons, List.drop_zero] at hp ⊢
  simp only [show ¬ ((92 : Nat) = 34 ∨ (92 : Nat) = 0) by decide, if_false, ne_eq,
    not_true_eq_false, show ¬ ((117 : Nat) = 0) by decide, show ¬ ((117 : Nat) = 98) by decide,
    show ¬ ((117 : Nat) = 102) by decide, show ¬ ((117 : Nat) = 110) by decide,
    show ¬ ((117 : Nat) = 114) by decide, show ¬ ((117 : Nat) = 116) by decide, if_true, hp,
    if_neg h1, if_pos hur]
  by_cases hX : X.headD 0 = 92 ∧ X.tail.headD 0 = 117
  · have hX' : ¬ (¬ X.headD 0 = 92 ∨ ¬ X.tail.headD 0 = 117) := by
      rw [not_or, not_not, not_not]; exact hX
    rw [if_neg hX']
    by_cases hv : Arena.parse_hex4 (List.drop 2 X) < 0xDC00 ∨
        Arena.parse_hex4 (List.drop 2 X) > 0xDFFF
    · rw [if_pos hv]
    · exfalso
      obtain ⟨lo, rest, e, hlo⟩ := parse_hex4_inv (List.drop 2 X) (by omega)
      refine hno lo _ rest hlo (by omega) ?_
      match X, hX, e with
      | [], hX, _ => simp at hX
      | [_], hX, _ => simp at hX
      | p :: q :: Y, hX, e =>
        simp only [List.headD_cons, List.tail_cons] at hX
        simp only [List.drop_succ_cons, List.drop_zero] at e
        rw [hX.1, hX.2, e]
  · rw [if_pos (by rw [← not_and_or]; exact hX)]

/-- A backslash before a byte that is neither `NUL` nor one of `b f n r t u` decodes to
that byte. -/
theorem Arena.loop_other_escape (c : Nat) (hc : c ≠ 0 ∧ c ≠ 98 ∧ c ≠ 102 ∧ c ≠ 110 ∧ c ≠ 114 ∧
    c ≠ 116 ∧ c ≠ 117) (X : Bytes) (fuel : Nat) (out : Bytes) :
    Arena.parse_string_loop (fuel + 1) (92 :: c :: X) out =
      Arena.parse_string_loop fuel X (out ++ [c]) := by
  obtain ⟨h0, h1, h2, h3, h4, h5, h6⟩ := hc
  rw [Arena.parse_string_loop]
  simp only [peek, List.headD_cons, List.tail_cons]
  simp only [show ¬ ((92 : Nat) = 34 ∨ (92 : Nat) = 0) by decide, if_false, ne_eq,
    not_true_eq_false, if_neg h0, if_neg h1, if_neg h2, if_neg h3, if_neg h4, if_neg h5,
    if_neg h6]

/-- A backslash at the end of the input makes the loop fail without setting `ep`. -/
theorem Arena.loop_backslash_end (fuel : Nat) (out : Bytes) :
    Arena.parse_string_loop (fuel + 1) [92] out = Decoded.bad out false := by
  rw [Arena.parse_string_loop]
  simp [peek]

theorem IsCStr.concat_cstr {a b : Bytes} (ha : IsCStr a) (hb : IsCStr b) : IsCStr (a ++ b) := by
  intro c hc
  rcases List.mem_append.1 hc with h | h
  · exact ha c h
  · exact hb c h

/-- A string literal whose content is an escaped string, one more piece that the loop
decodes to `D`, and an escaped string again, is stored as the concatenation. -/
theorem Arena.parse_string_piece (st : PState cJSON_Buf) (item : Nat) (s1 s2 rest E D : Bytes)
    (hs1 : IsCStr s1) (hs2 : IsCStr s2) (hD : IsCStr D)
    (hE : ∀ (X : Bytes) (fuel : Nat) (out : Bytes),
      Arena.parse_string_loop (fuel + 1) (E ++ X) out =
        Arena.parse_string_loop fuel X (out ++ D)) :
    Arena.parse_string st item (34 :: (escape s1 ++ (E ++ (escape s2 ++ 34 :: rest)))) =
      PResult.ok (Arena.stored st item (s1 ++ D ++ s2), rest) := by
  have h1 := escape_length_ge s1
  have h2 := escape_length_ge s2
  obtain ⟨k, hk⟩ : ∃ k, (34 :: (escape s1 ++ (E ++ (escape s2 ++ 34 :: rest)))).length + 1 =
      s1.length + ((s2.length + (k + 1)) + 1) :=
    ⟨(escape s1).length - s1.length + E.length + ((escape s2).length - s2.length) + rest.length + 1,
      by simp only [List.length_cons, List.length_append]; omega⟩
  have hl : Arena.parse_string_loop
      ((34 :: (escape s1 ++ (E ++ (escape s2 ++ 34 :: rest)))).length + 1)
      (escape s1 ++ (E ++ (escape s2 ++ 34 :: rest))) [] =
      Decoded.done (s1 ++ D ++ s2) (34 :: rest) := by
    rw [hk, Arena.loop_escape_prefix s1 _ _ [] hs1, hE, Arena.loop_escape_prefix s2 _ _ _ hs2,
      Arena.parse_string_loop]
    simp [peek]
  have hc : IsCStr (s1 ++ D ++ s2) := (hs1.concat_cstr hD).concat_cstr hs2
  simp only [Arena.parse_string, peek, List.headD_cons, List.tail_cons, ne_eq,
    not_true_eq_false, if_false, hl, as_cstr_of_IsCStr _ hc, if_true, Arena.stored]

/-- A string literal whose content is an escaped string and then a piece on which the
loop fails, fails; `ep` is the start of the literal when the loop sets it. -/
theorem Arena.parse_string_bad (st : PState cJSON_Buf) (item : Nat) (s1 E : Bytes)
    (sets : Bool) (hs1 : IsCStr s1)
    (hE : ∀ (fuel : Nat) (out : Bytes),
      Arena.parse_string_loop (fuel + 1) E out = Decoded.bad out sets) :
    Arena.parse_string st item (34 :: (escape s1 ++ E)) =
      PResult.fail (if sets then some (34 :: (escape s1 ++ E)) else none) := by
  have h1 := escape_length_ge s1
  obtain ⟨k, hk⟩ : ∃ k, (34 :: (escape s1 ++ E)).length + 1 = s1.length + (k + 1) :=
    ⟨(escape s1).length - s1.length + E.length + 1,
      by simp only [List.length_cons, List.length_append]; omega⟩
  have hl : Arena.parse_string_loop ((34 :: (escape s1 ++ E)).length + 1) (escape s1 ++ E) [] =
      Decoded.bad ([] ++ s1) sets := by
    rw [hk, Arena.loop_escape_prefix s1 _ _ [] hs1, hE]
  simp only [Arena.parse_string, peek, List.headD_cons, List.tail_cons, ne_eq,
    not_true_eq_false, if_false, hl]

/-- In `src/cJSON.c` a string literal that the input ends in is stored like a closed one. -/
theorem PerValue.heap_string_open (m : Mem) (item : Nat) (s : Bytes) (hs : IsCStr s) :
    PerValue.parse_string m item (34 :: escape s) =
      PResult.ok (m.set item { m.node item with valuestring := some s, type := cJSON_String },
        []) := by
  have h1 := escape_length_ge s
  obtain ⟨k, hk⟩ : ∃ k, (34 :: escape s).length + 1 = s.length + (k + 1) :=
    ⟨(escape s).length - s.length + 1, by simp only [List.length_cons]; omega⟩
  have hl : PerValue.parse_string_loop ((34 :: escape s).length + 1) (escape s ++ []) [] =
      Decoded.done ([] ++ s) [] := by
    rw [hk, PerValue.heap_loop_escape_prefix s _ _ [] hs, PerValue.parse_string_loop]
    simp [peek]
  rw [List.append_nil] at hl
  simp only [PerValue.parse_string, peek, List.headD_cons, List.tail_cons, ne_eq,
    not_true_eq_false, if_false, hl, List.nil_append, as_cstr_of_IsCStr s hs, List.headD_nil]
  simp

/-- The same in the arena variant. -/
theorem Arena.arena_string_open (st : PState cJSON_Buf) (item : Nat) (s : Bytes)
    (hs : IsCStr s) :
    Arena.parse_string st item (34 :: escape s) = PResult.ok (Arena.stored st item s, []) := by
  have h1 := escape_length_ge s
  obtain ⟨k, hk⟩ : ∃ k, (34 :: escape s).length + 1 = s.length + (k + 1) :=
    ⟨(escape s).length - s.length + 1, by simp only [List.length_cons]; omega⟩
  have hl : Arena.parse_string_loop ((34 :: escape s).length + 1) (escape s ++ []) [] =
      Decoded.done ([] ++ s) [] := by
    rw [hk, Arena.loop_escape_prefix s _ _ [] hs, Arena.parse_string_loop]
    simp [peek]
  rw [List.append_nil] at hl
  simp only [Arena.parse_string, peek, List.headD_cons, List.tail_cons, ne_eq,
    not_true_eq_false, if_false, hl, List.nil_append, as_cstr_of_IsCStr s hs, List.headD_nil,
    Arena.stored]
  simp

/-! ## The number scan on tokens -/

theorem digits_value_append : ∀ (a b : Bytes) (n : Int),
    digits_value (a ++ b) n = digits_value b (digits_value a n)
  | [], _, _ => rfl
  | c :: a, b, n => by
    simp only [List.cons_append, digits_value]
    exact digits_value_append a b _

theorem fraction_while_append : ∀ (ds rest : Bytes) (n scale : Int),
    (∀ c ∈ ds, is_digit c = true) → is_digit (peek rest) = false →
    fraction_while (ds ++ rest) n scale = (rest, digits_value ds n, scale - ds.length)
  | [], rest, n, scale, _, hr => by
    cases rest with
    | nil => simp [fraction_while, digits_value]
    | cons c rest =>
      have : is_digit c = false := hr
      simp [fraction_while, digits_value, this]
  | d :: ds, rest, n, scale, hd, hr => by
    have h1 : is_digit d = true := hd d (by simp)
    have ih := fraction_while_append ds rest (n * 10 + ((d : Int) - 48)) (scale - 1)
      (fun c hc => hd c (by simp [hc])) hr
    simp only [List.cons_append, fraction_while, h1, if_true, char_to_int_digit h1, digits_value]
    refine ih.trans ?_
    simp only [List.length_cons, Nat.cast_add, Nat.cast_one]
    congr 2
    ring

theorem IsDigits.peek_append {ds : Bytes} (h : IsDigits ds) (rest : Bytes) :
    peek (ds ++ rest) = peek ds ∧ is_digit (peek ds) = true := by
  obtain ⟨h1, h2⟩ := h
  cases ds with
  | nil => exact absurd rfl h1
  | cons d ds => exact ⟨rfl, h2 d (by simp)⟩

theorem scan_exponent_token (e : Option ExpPart) (rest : Bytes) (he : exp_scans e rest)
    (sign n scale : Int) :
    scan_exponent (exp_text e ++ rest) sign n scale =
      { rest := rest, sign := sign, n := n, scale := scale,
        subscale := exp_value e, signsubscale := exp_sign e } := by
  cases e with
  | none => simpa [exp_text, exp_value, exp_sign] using scan_exponent_stop rest sign n scale he
  | some e =>
    obtain ⟨hm, hd, hr, hs⟩ := he
    obtain ⟨mark, sg, digits⟩ := e
    simp only at hm hd hs
    have hdw := digits_while_append digits rest 0 hd hr
    unfold scan_exponent
    rw [if_pos (by simpa [exp_text, ExpPart.text, peek] using hm)]
    cases sg with
    | none =>
      have h4 : peek (digits ++ rest) ≠ 43 ∧ peek (digits ++ rest) ≠ 45 := by
        cases digits with
        | nil => simpa using hs rfl rfl
        | cons d ds =>
          have := (is_digit_iff d).1 (hd d (by simp))
          simp only [List.cons_append, peek, List.headD_cons]
          omega
      simp [exp_text, exp_value, exp_sign, ExpPart.text, h4.1, h4.2, hdw]
    | some b =>
      cases b with
      | true => simp [exp_text, exp_value, exp_sign, ExpPart.text, peek, hdw]
      | false => simp [exp_text, exp_value, exp_sign, ExpPart.text, peek, hdw]

theorem NumberToken.valid.scans {t : NumberToken} (ht : t.valid) {rest : Bytes}
    (hr : NumStop rest) : t.scans rest := by
  refine ⟨ht.1, ht.2.1, ?_⟩
  have he := ht.2.2
  cases h : t.exp with
  | none => exact hr
  | some e =>
    rw [h] at he
    exact ⟨he.1, he.2.2, hr.1, fun h0 => absurd h0 he.2.1⟩

theorem exp_text_head (e : Option ExpPart) (rest : Bytes) (he : exp_scans e rest) :
    is_digit (peek (exp_text e ++ rest)) = false ∧ peek (exp_text e ++ rest) ≠ 46 := by
  cases e with
  | none => exact ⟨he.1, he.2.1⟩
  | some e =>
    rcases he.1 with h | h <;> simp [exp_text, ExpPart.text, peek, h, is_digit]

theorem scan_fraction_token (cf : Bool) (t : NumberToken) (rest : Bytes)
    (ht : t.scans rest) (sign n : Int) :
    scan_fraction cf (t.tail_text ++ rest) sign n =
      { rest := rest, sign := sign, n := digits_value (t.frac_digits.getD []) n,
        scale := t.scale, subscale := t.exponent, signsubscale := t.exponent_sign } := by
  obtain ⟨_, hf, he⟩ := ht
  have hE := scan_exponent_token t.exp rest he
  have hH := exp_text_head t.exp rest he
  unfold NumberToken.tail_text NumberToken.scale NumberToken.exponent NumberToken.exponent_sign
  cases hfd : t.frac_digits with
  | none =>
    simp only [frac_text, List.nil_append, Option.getD_none, digits_value, List.length_nil,
      Nat.cast_zero, neg_zero]
    unfold scan_fraction
    rw [if_neg (fun h => hH.2 h.1)]
    exact hE sign n 0
  | some f =>
    rw [hfd] at hf
    have hf' : IsDigits f := hf
    obtain ⟨f0, fs, rfl⟩ : ∃ f0 fs, f = f0 :: fs := by
      cases f with
      | nil => exact absurd rfl hf'.1
      | cons a b => exact ⟨a, b, rfl⟩
    have h0 : is_digit f0 = true := hf'.2 f0 (by simp)
    have hfw := fraction_while_append fs (exp_text t.exp ++ rest) (n * 10 + ((f0 : Int) - 48))
      (0 - 1) (fun c hc => hf'.2 c (by simp [hc])) hH.1
    simp only [frac_text, List.cons_append, List.append_assoc, Option.getD_some, digits_value,
      List.length_cons]
    unfold scan_fraction
    rw [if_pos ⟨rfl, Or.inr (by simpa [peek] using h0)⟩]
    simp only [fraction_do, List.tail_cons, peek, List.headD_cons, char_to_int_digit h0]
    rw [hfw]
    simp only
    rw [hE]
    congr 1
    push_cast
    ring

theorem tail_text_head (t : NumberToken) (rest : Bytes) (ht : t.scans rest) :
    is_digit (peek (t.tail_text ++ rest)) = false := by
  obtain ⟨_, hf, he⟩ := ht
  have hH := exp_text_head t.exp rest he
  unfold NumberToken.tail_text
  cases hfd : t.frac_digits with
  | none => simpa [frac_text] using hH.1
  | some f => simp [frac_text, peek, is_digit]

theorem scan_integer_token (cf : Bool) (t : NumberToken) (rest : Bytes)
    (ht : t.scans rest) (sign : Int) :
    scan_integer cf (t.int_digits ++ (t.tail_text ++ rest)) sign =
      { rest := rest, sign := sign, n := t.mantissa,
        scale := t.scale, subscale := t.exponent, signsubscale := t.exponent_sign } := by
  have hF := scan_fraction_token cf t rest ht sign
  have hH := tail_text_head t rest ht
  have hHr := (is_digit_iff (peek (t.tail_text ++ rest)))
  rw [hH] at hHr
  have hnd : ¬ (49 ≤ peek (t.tail_text ++ rest) ∧ peek (t.tail_text ++ rest) ≤ 57) := by
    intro h; exact absurd (hHr.2 ⟨by omega, h.2⟩) (by simp)
  unfold NumberToken.mantissa
  rw [digits_value_append]
  rcases ht.1 with h | ⟨hd, h49⟩
  · rw [h]
    unfold scan_integer
    simp only [List.cons_append, List.nil_append, peek, List.headD_cons, if_true, List.tail_cons]
    rw [if_neg (by simpa [peek] using hnd), hF]
    simp [digits_value]
  · obtain ⟨d, ds, hds⟩ : ∃ d ds, t.int_digits = d :: ds := by
      cases hi : t.int_digits with
      | nil => exact absurd hi hd.1
      | cons a b => exact ⟨a, b, rfl⟩
    rw [hds] at hd h49 ⊢
    have h0 : is_digit d = true := hd.2 d (by simp)
    have hr0 := (is_digit_iff d).1 h0
    have h49' : 49 ≤ d := by simpa [peek] using h49
    have hdw := digits_while_append ds (t.tail_text ++ rest) (0 * 10 + ((d : Int) - 48))
      (fun c hc => hd.2 c (by simp [hc])) hH
    have e48 : ¬ d = 48 := by omega
    unfold scan_integer
    simp only [List.cons_append, peek, List.headD_cons, if_neg e48, h49', hr0.2, and_self,
      if_true, digits_do, List.tail_cons, char_to_int_digit h0]
    rw [hdw]
    simp only
    rw [hF]
    simp [digits_value]

/-- The scanning part of `parse_number`, in both variants, consumes exactly a token of
the number grammar and finds its sign, mantissa, scale and exponent. -/
theorem scan_number_token (cf : Bool) (t : NumberToken) (rest : Bytes)
    (ht : t.scans rest) :
    scan_number cf (t.text ++ rest) =
      { rest := rest, sign := t.sign, n := t.mantissa,
        scale := t.scale, subscale := t.exponent, signsubscale := t.exponent_sign } := by
  have hI := scan_integer_token cf t rest ht
  unfold NumberToken.text NumberToken.sign
  cases hm : t.minus with
  | true =>
    unfold scan_number
    simp only [if_true, List.cons_append, List.nil_append, peek, List.headD_cons, List.tail_cons,
      List.append_assoc]
    exact hI (-1)
  | false =>
    have hp : peek (t.int_digits ++ (t.tail_text ++ rest)) ≠ 45 := by
      rcases ht.1 with h | ⟨hd, _⟩
      · rw [h]; simp [peek]
      · obtain ⟨hp, hdig⟩ := hd.peek_append (t.tail_text ++ rest)
        have := (is_digit_iff _).1 hdig
        rw [hp]; omega
    unfold scan_number
    simp only [Bool.false_eq_true, if_false, List.nil_append, List.append_assoc]
    rw [if_neg hp]
    exact hI 1

theorem scan_number_zero_led (cf : Bool) (t : NumberToken) (rest : Bytes) (ht : t.scans rest)
    (h49 : 49 ≤ peek t.int_digits) :
    scan_number cf (t.zero_led_text ++ rest) =
      { rest := rest, sign := t.sign, n := t.mantissa,
        scale := t.scale, subscale := t.exponent, signsubscale := t.exponent_sign } := by
  have hI := scan_integer_token cf t rest ht
  have hd : IsDigits t.int_digits := by
    rcases ht.1 with h | h
    · rw [h] at h49; simp [peek] at h49
    · exact h.1
  obtain ⟨hp, hdig⟩ := hd.peek_append (t.tail_text ++ rest)
  have hr := (is_digit_iff _).1 hdig
  have hz : ∀ sign, scan_integer cf (48 :: (t.int_digits ++ (t.tail_text ++ rest))) sign =
      scan_integer cf (t.int_digits ++ (t.tail_text ++ rest)) sign := by
    intro sign
    have e48 : peek (t.int_digits ++ (t.tail_text ++ rest)) ≠ 48 := by rw [hp]; omega
    unfold scan_integer
    simp only [show peek (48 :: (t.int_digits ++ (t.tail_text ++ rest))) = 48 from rfl, if_true,
      List.tail_cons, if_neg e48]
  unfold NumberToken.zero_led_text NumberToken.sign
  cases hm : t.minus with
  | true =>
    unfold scan_number
    simp only [if_true, List.cons_append, List.nil_append, peek, List.headD_cons, List.tail_cons,
      List.append_assoc]
    rw [hz]; exact hI (-1)
  | false =>
    unfold scan_number
    simp only [Bool.false_eq_true, if_false, List.nil_append, List.cons_append,
      List.append_assoc, peek, List.headD_cons]
    rw [if_neg (by decide), hz]
    exact hI 1

theorem scan_number_minus_only (cf : Bool) (rest : Bytes) (hr : NumStop rest) :
    scan_number cf (45 :: rest) =
      { rest := rest, sign := -1, n := 0, scale := 0, subscale := 0, signsubscale := 1 } := by
  have h48 : peek rest ≠ 48 := by
    intro h; have := hr.1; rw [h] at this; simp [is_digit] at this
  unfold scan_number scan_integer
  simp only [show peek (45 :: rest) = 45 from rfl, if_true, List.tail_cons, if_neg h48,
    if_neg hr.not_digit]
  exact scan_fraction_stop cf rest (-1) 0 hr

theorem skip_not_space {Y : Bytes} (h : ¬ (peek Y ≠ 0 ∧ peek Y ≤ 32)) : skip Y = Y := by
  cases Y with
  | nil => rfl
  | cons c Y => simp only [skip, if_neg (show ¬ (c ≠ 0 ∧ c ≤ 32) from h)]

theorem skip_skip : ∀ W : Bytes, skip (skip W) = skip W
  | [] => rfl
  | c :: W => by
    by_cases h : c ≠ 0 ∧ c ≤ 32
    · simp only [skip, if_pos h]; exact skip_skip W
    · simp only [skip, if_neg h]

theorem skip_head (W : Bytes) : ¬ (peek (skip W) ≠ 0 ∧ peek (skip W) ≤ 32) := by
  induction W with
  | nil => simp [skip, peek]
  | cons c W ih =>
    by_cases h : c ≠ 0 ∧ c ≤ 32
    · simp only [skip, if_pos h]; exact ih
    · simp only [skip, if_neg h]; exact h

/-- `parse_array` on an array whose first element `pv` parses up to the closing
bracket. -/
theorem parse_array_single {σ : Type}
    (pv : PState σ → Nat → Bytes → PResult (PState σ × Bytes)) (lf : Nat) (s : PState σ)
    (item : Nat) (W : Bytes) (s1 : PState σ) (R rest : Bytes)
    (h93 : peek (skip W) ≠ 93)
    (hpv : pv { s with mem := hook_first s.mem item cJSON_Array } s.mem.brk (skip W) =
      PResult.ok (s1, R))
    (hR : skip R = 93 :: rest) :
    parse_array pv (lf + 1) s item (91 :: W) = PResult.ok (s1, rest) := by
  have e : cJSON_New_Item (s.mem.set item { s.mem.node item with type := cJSON_Array }) =
      ((cJSON_New_Item (s.mem.set item { s.mem.node item with type := cJSON_Array })).1,
        s.mem.brk) := rfl
  simp only [parse_array, peek, List.headD_cons, ne_eq, not_true_eq_false, if_false,
    List.tail_cons]
  rw [if_neg (by simpa [peek] using h93), e]
  simp only [skip_skip]
  have := hpv
  simp only [hook_first] at this
  rw [this]
  simp only [hR, parse_array_loop, peek, List.headD_cons, List.tail_cons,
    show ¬ ((93 : Nat) = 44) by decide, if_false, if_true]

/-- The arena variant on an array text whose first element `parse_value` parses up to
the closing bracket. -/
theorem Arena.parse_array_root (libc : Libc) (m : Mem) (W : Bytes) (s1 : PState cJSON_Buf)
    (R rest : Bytes) (h93 : peek (skip W) ≠ 93)
    (hpv : Arena.parse_value (W.length + 2)
      { mem := hook_first (cJSON_New_Item m).1 m.brk cJSON_Array,
        aux := Arena.cJSON_Buf_Init libc (strlen (91 :: W)) 0 } (m.brk + 1) (skip W) =
      PResult.ok (s1, R))
    (hR : skip R = 93 :: rest) :
    Arena.cJSON_Parse libc m (91 :: W) = PResult.ok (s1.mem, m.brk, s1.aux) := by
  have hs : skip (91 :: W) = 91 :: W := skip_not_space (by simp [peek])
  have key := parse_array_single (Arena.parse_value (W.length + 2)) (W.length + 1)
    { mem := (cJSON_New_Item m).1,
      aux := Arena.cJSON_Buf_Init libc (strlen (91 :: W)) 0 } m.brk W s1 R rest h93
    hpv hR
  unfold Arena.cJSON_Parse Arena.cJSON_Parse_fuel
  rw [hs]
  show (match Arena.parse_root (W.length + 2)
      { mem := (cJSON_New_Item m).1,
        aux := Arena.cJSON_Buf_Init libc (strlen (91 :: W)) 0 } m.brk (91 :: W) with
    | PResult.ok (s, _) => PResult.ok (s.mem, m.brk, s.aux)
    | PResult.fail ep => PResult.fail ep
    | PResult.stuck => PResult.stuck) = _
  have hroot : Arena.parse_root (W.length + 2)
      { mem := (cJSON_New_Item m).1,
        aux := Arena.cJSON_Buf_Init libc (strlen (91 :: W)) 0 } m.brk (91 :: W) =
      PResult.ok (s1, rest) := by
    unfold Arena.parse_root
    rw [if_neg (by simp [peek]), if_pos (by simp [peek])]
    exact key
  rw [hroot]

theorem Arena.parse_value_number (F : Nat) (st : PState cJSON_Buf) (item : Nat) (X : Bytes)
    (hX : peek X = 45 ∨ (48 ≤ peek X ∧ peek X ≤ 57)) :
    Arena.parse_value (F + 1) st item X =
      PResult.ok ({ st with mem := (Arena.parse_number st.mem item X).1 },
        (Arena.parse_number st.mem item X).2) := by
  have h34 : peek X ≠ 34 := by omega
  have h123 : peek X ≠ 123 := by omega
  rw [Arena.parse_value]
  rw [if_neg h34, if_neg h123, if_pos hX]

/-- An array text with one element on which the scan of `parse_number` stops at the
closing bracket parses, in the arena variant, to an array that holds the scanned value. -/
theorem Arena.parse_number_element (libc : Libc) (m : Mem) (X : Bytes) (sc : Scanned)
    (_hb : 0 < m.brk) (hX : peek X = 45 ∨ (48 ≤ peek X ∧ peek X ≤ 57))
    (hs : scan_number true (X ++ [93]) = sc) (hr : sc.rest = [93]) :
    ∃ m1 buf, Arena.cJSON_Parse libc m (91 :: (X ++ [93])) = PResult.ok (m1, m.brk, buf) ∧
      SingleNumberArray m1 m.brk sc.value := by
  have hX' : peek (X ++ [93]) = 45 ∨ (48 ≤ peek (X ++ [93]) ∧ peek (X ++ [93]) ≤ 57) := by
    cases X with
    | nil => simp [peek] at hX
    | cons c tl => simpa [peek] using hX
  have hsk : skip (X ++ [93]) = X ++ [93] := skip_not_space (by omega)
  have h93 : peek (skip (X ++ [93])) ≠ 93 := by rw [hsk]; omega
  have hpv := Arena.parse_value_number ((X ++ [93]).length + 1)
    { mem := hook_first (cJSON_New_Item m).1 m.brk cJSON_Array,
      aux := Arena.cJSON_Buf_Init libc (strlen (91 :: (X ++ [93]))) 0 } (m.brk + 1)
    (X ++ [93]) hX'
  simp only [Arena.parse_number, hs, hr] at hpv
  have hroot := Arena.parse_array_root libc m (X ++ [93]) _ [93] [] h93
    (by rw [hsk]; exact hpv) (skip_not_space (by simp [peek]))
  refine ⟨_, _, hroot, ?_⟩
  have hbrk : m.brk ≠ m.brk + 1 := by omega
  have hbrk' : m.brk + 1 ≠ m.brk := by omega
  simp [SingleNumberArray, hook_first, cJSON_New_Item, hbrk, hbrk', cJSON.zeroed, cJSON_Number,
    cJSON_Array]

theorem set_frame_scalar (m : Mem) (item : Nat) (c : cJSON) (h1 : c.next = (m.node item).next)
    (h2 : c.prev = (m.node item).prev) (h3 : c.string = (m.node item).string)
    (h4 : c.hash_string = (m.node item).hash_string) : Frame m (m.set item c) item :=
  ⟨le_refl _, fun q _ hq => by simp [Mem.set, hq], by simpa [Mem.set] using h1,
    by simpa [Mem.set] using h2, by simpa [Mem.set] using h3, by simpa [Mem.set] using h4⟩

theorem PerValue.heap_laws : ParserLaws true PerValue.string_production PerValue.parse_value where
  keys := by
    intro s item k rest hk
    exact ⟨s.aux, by simp only [PerValue.string_production, PerValue.parse_string_quote _ _ _ _ hk]⟩
  array := by
    intro F s item value h
    simp [PerValue.parse_value, h]
  object := by
    intro F s item value h
    simp [PerValue.parse_value, h]
  scalar := by
    intro F kind h1 h2 hpay s item rest hstop hi0 hib hchild
    cases kind with
    | array => exact absurd rfl h1
    | object => exact absurd rfl h2
    | null =>
      refine ⟨{ s with mem := s.mem.set item { s.mem.node item with type := cJSON_NULL } }, ?_,
        set_frame_scalar _ _ _ rfl rfl rfl rfl, by simp [KindRep, Mem.set],
        by show ((s.mem.set item _).node item).child = 0; simpa [Mem.set] using hchild⟩
      simp [PerValue.parse_value, value_text, JKind.text, peek, starts_with]
    | jfalse =>
      refine ⟨{ s with mem := s.mem.set item { s.mem.node item with type := cJSON_False } }, ?_,
        set_frame_scalar _ _ _ rfl rfl rfl rfl, by simp [KindRep, Mem.set],
        by show ((s.mem.set item _).node item).child = 0; simpa [Mem.set] using hchild⟩
      simp [PerValue.parse_value, value_text, JKind.text, peek, starts_with]
    | jtrue =>
      refine ⟨{ s with mem := s.mem.set item { s.mem.node item with
          type := cJSON_True, valueint := 1 } }, ?_,
        set_frame_scalar _ _ _ rfl rfl rfl rfl, by simp [KindRep, Mem.set],
        by show ((s.mem.set item _).node item).child = 0; simpa [Mem.set] using hchild⟩
      simp [PerValue.parse_value, value_text, JKind.text, peek, starts_with]
    | string str =>
      have hs : IsCStr str := hpay
      refine ⟨{ s with mem := s.mem.set item { s.mem.node item with
          valuestring := some str, type := cJSON_String } }, ?_,
        set_frame_scalar _ _ _ rfl rfl rfl rfl, by simp [KindRep, Mem.set],
        by show ((s.mem.set item _).node item).child = 0; simpa [Mem.set] using hchild⟩
      have hq : peek (quote str ++ rest) = 34 := rfl
      simp only [PerValue.parse_value, value_text, JKind.text, hq, if_true,
        PerValue.string_production, PerValue.parse_string_quote _ _ _ _ hs]
    | number n =>
      have hr : INT_MIN ≤ n ∧ n ≤ INT_MAX := hpay
      obtain ⟨e1, e2⟩ := scan_sprintf_d false n rest hstop
      have hhead := sprintf_d_head n rest
      have h34 : peek (sprintf_d n ++ rest) ≠ 34 := by rcases hhead with h | h <;> omega
      have h123 : peek (sprintf_d n ++ rest) ≠ 123 := by rcases hhead with h | h <;> omega
      refine ⟨{ s with mem := s.mem.set item { s.mem.node item with
          valuedouble := Double.fin n 0, valueint := n, type := cJSON_Number } }, ?_,
        set_frame_scalar _ _ _ rfl rfl rfl rfl, by simp [KindRep, Mem.set],
        by show ((s.mem.set item _).node item).child = 0; simpa [Mem.set] using hchild⟩
      simp only [PerValue.parse_value, value_text, JKind.text, if_neg h34, if_neg h123,
        if_pos hhead, PerValue.parse_number, e1, e2, toInt_fin_zero n hr.1 hr.2]
    | decimal tok valid d i =>
      obtain ⟨hd, hi⟩ : d = tok.value ∧ i = tok.value.toInt := hpay
      subst hd
      subst hi
      have hsc := scan_number_token false tok rest (valid.scans hstop)
      obtain ⟨c, tl, e, hc⟩ := valid_text_head tok valid rest
      have hhead : peek (tok.text ++ rest) = 45 ∨
          (48 ≤ peek (tok.text ++ rest) ∧ peek (tok.text ++ rest) ≤ 57) := by
        rw [e]; exact hc
      have h34 : peek (tok.text ++ rest) ≠ 34 := by rcases hhead with h | h <;> omega
      have h123 : peek (tok.text ++ rest) ≠ 123 := by rcases hhead with h | h <;> omega
      refine ⟨{ s with mem := s.mem.set item { s.mem.node item with
          valuedouble := tok.value, valueint := tok.value.toInt, type := cJSON_Number } }, ?_,
        set_frame_scalar _ _ _ rfl rfl rfl rfl, by simp [KindRep, Mem.set],
        by show ((s.mem.set item _).node item).child = 0; simpa [Mem.set] using hchild⟩
      simp only [PerValue.parse_value, value_text, JKind.text, if_neg h34, if_neg h123,
        if_pos hhead, PerValue.parse_number, hsc, Scanned.value, NumberToken.value]

theorem Arena.arena_laws : ParserLaws false Arena.parse_string Arena.parse_value where
  keys := by
    intro s item k rest hk
    exact ⟨_, Arena.arena_string_quote s item k rest hk⟩
  array := by
    intro F s item value h
    simp [Arena.parse_value, h]
  object := by
    intro F s item value h
    simp [Arena.parse_value, h]
  scalar := by
    intro F kind h1 h2 hpay s item rest hstop hi0 hib hchild
    cases kind with
    | array => exact absurd rfl h1
    | object => exact absurd rfl h2
    | null =>
      refine ⟨{ s with mem := s.mem.set item { s.mem.node item with type := cJSON_NULL } }, ?_,
        set_frame_scalar _ _ _ rfl rfl rfl rfl, by simp [KindRep, Mem.set],
        by show ((s.mem.set item _).node item).child = 0; simpa [Mem.set] using hchild⟩
      simp [Arena.parse_value, value_text, JKind.text, peek, starts_with]
    | jfalse =>
      refine ⟨{ s with mem := s.mem.set item { s.mem.node item with type := cJSON_False } }, ?_,
        set_frame_scalar _ _ _ rfl rfl rfl rfl, by simp [KindRep, Mem.set],
        by show ((s.mem.set item _).node item).child = 0; simpa [Mem.set] using hchild⟩
      simp [Arena.parse_value, value_text, JKind.text, peek, starts_with]
    | jtrue =>
      refine ⟨{ s with mem := s.mem.set item { s.mem.node item with type := cJSON_True } }, ?_,
        set_frame_scalar _ _ _ rfl rfl rfl rfl, by simp [KindRep, Mem.set],
        by show ((s.mem.set item _).node item).child = 0; simpa [Mem.set] using hchild⟩
      simp [Arena.parse_value, value_text, JKind.text, peek, starts_with]
    | string str =>
      have hs : IsCStr str := hpay
      have hq : peek (quote str ++ rest) = 34 := rfl
      refine ⟨{ mem := s.mem.set item { s.mem.node item with
                  valuestring := some str, type := cJSON_String },
                aux := { cJSON_Buf.pokes (str ++ [0]) s.aux s.aux.offset with
                  offset := s.aux.offset + str.length + 1 } }, ?_,
        set_frame_scalar _ _ _ rfl rfl rfl rfl, by simp [KindRep, Mem.set],
        by show ((s.mem.set item _).node item).child = 0; simpa [Mem.set] using hchild⟩
      simp only [Arena.parse_value, value_text, JKind.text, hq, if_true]
      exact Arena.arena_string_quote s item str rest hs
    | number n =>
      obtain ⟨e1, e2⟩ := scan_sprintf_d true n rest hstop
      have hhead := sprintf_d_head n rest
      have h34 : peek (sprintf_d n ++ rest) ≠ 34 := by rcases hhead with h | h <;> omega
      have h123 : peek (sprintf_d n ++ rest) ≠ 123 := by rcases hhead with h | h <;> omega
      refine ⟨{ s with mem := s.mem.set item { s.mem.node item with
          valuedouble := Double.fin n 0, type := cJSON_Number } }, ?_,
        set_frame_scalar _ _ _ rfl rfl rfl rfl, by simp [KindRep, Mem.set],
        by show ((s.mem.set item _).node item).child = 0; simpa [Mem.set] using hchild⟩
      simp only [Arena.parse_value, value_text, JKind.text, if_neg h34, if_neg h123,
        if_pos hhead, Arena.parse_number, e1, e2]
    | decimal tok valid d i =>
      obtain ⟨hd, hi⟩ : d = tok.value ∧ i = tok.value.toInt := hpay
      subst hd
      subst hi
      have hsc := scan_number_token true tok rest (valid.scans hstop)
      obtain ⟨c, tl, e, hc⟩ := valid_text_head tok valid rest
      have hhead : peek (tok.text ++ rest) = 45 ∨
          (48 ≤ peek (tok.text ++ rest) ∧ peek (tok.text ++ rest) ≤ 57) := by
        rw [e]; exact hc
      have h34 : peek (tok.text ++ rest) ≠ 34 := by rcases hhead with h | h <;> omega
      have h123 : peek (tok.text ++ rest) ≠ 123 := by rcases hhead with h | h <;> omega
      refine ⟨{ s with mem := s.mem.set item { s.mem.node item with
          valuedouble := tok.value, type := cJSON_Number } }, ?_,
        set_frame_scalar _ _ _ rfl rfl rfl rfl, by simp [KindRep, Mem.set],
        by show ((s.mem.set item _).node item).child = 0; simpa [Mem.set] using hchild⟩
      simp only [Arena.parse_value, value_text, JKind.text, if_neg h34, if_neg h123,
        if_pos hhead, Arena.parse_number, hsc, Scanned.value, NumberToken.value]

theorem slice_length (b : cJSON_Buf) (start n : Nat) : (b.slice start n).length = n := by
  simp [cJSON_Buf.slice]

theorem as_cstr_append_zero (s rest : Bytes) (h : ∀ c ∈ s, c ≠ 0) : as_cstr (s ++ 0 :: rest) = s := by
  induction s with
  | nil => simp [as_cstr]
  | cons c s ih =>
    have hc : c ≠ 0 := h c (by simp)
    have ih1 := ih (fun x hx => h x (by simp [hx]))
    unfold as_cstr at ih1 ⊢
    rw [List.cons_append, List.takeWhile_cons, if_pos (by simpa using hc), ih1]

/-- The C string at `padding` of a buffer whose written bytes are a prefix of that
length, a NUL-free text and a NUL. -/
theorem text_of_written (b : cJSON_Buf) (padding : Int) (pre txt : Bytes) (hp : 0 ≤ padding)
    (hb : 0 ≤ b.offset) (hw : b.written = pre ++ (txt ++ [0])) (hpre : pre.length = padding.toNat)
    (hz : ∀ c ∈ txt, c ≠ 0) : b.text padding = txt := by
  have hlen : b.offset.toNat = padding.toNat + (txt.length + 1) := by
    have := congrArg List.length hw
    simpa [cJSON_Buf.written, slice_length, hpre] using this
  have e : (b.offset - padding).toNat = txt.length + 1 := by omega
  have hsplit := slice_add b 0 padding.toNat (txt.length + 1)
  rw [← hlen] at hsplit
  have hw' : b.slice 0 b.offset.toNat = pre ++ (txt ++ [0]) := hw
  rw [hw'] at hsplit
  have := List.append_inj_right hsplit (by rw [slice_length, hpre])
  rw [Nat.zero_add] at this
  unfold cJSON_Buf.text
  rw [e, ← this]
  exact as_cstr_append_zero txt [] hz

theorem escape_nonzero : ∀ (s : Bytes), ∀ c ∈ escape s, c ≠ 0
  | [], c, hc => by simp [escape] at hc
  | a :: s, c, hc => by
    simp only [escape, List.mem_append] at hc
    rcases hc with hc | hc
    · unfold escape_byte at hc
      split_ifs at hc with h1 <;>
        simp [sprintf_u04x, hex_digit] at hc <;> try omega
      rcases hc with rfl | rfl | rfl | rfl | rfl | rfl <;> first | omega | (split_ifs <;> omega)
    · exact escape_nonzero s c hc

theorem quote_nonzero (s : Bytes) : ∀ c ∈ quote s, c ≠ 0 := by
  intro c hc
  simp only [quote, List.mem_cons, List.mem_append, List.mem_singleton, List.not_mem_nil,
    or_false] at hc
  rcases hc with rfl | hc | rfl
  · decide
  · exact escape_nonzero s c hc
  · decide

theorem sprintf_d_nonzero (v : Int) : ∀ c ∈ sprintf_d v, c ≠ 0 := by
  obtain ⟨ds, h1, h2, _, _⟩ := sprintf_d_nat v.natAbs
  intro c hc
  have hd : ∀ x ∈ ds, x ≠ 0 := by
    intro x hx
    have := (is_digit_iff x).1 (h2 x hx)
    omega
  unfold sprintf_d at hc
  rw [h1] at hc
  split_ifs at hc
  · rcases List.mem_cons.1 hc with rfl | hc
    · decide
    · exact hd c hc
  · exact hd c hc

theorem digits_nonzero {ds : Bytes} (h : ∀ c ∈ ds, is_digit c = true) : ∀ c ∈ ds, c ≠ 0 := by
  intro c hc
  have := (is_digit_iff c).1 (h c hc)
  omega

/-- The text of a token of the number grammar holds no NUL. -/
theorem valid_text_nonzero (t : NumberToken) (ht : t.valid) : ∀ c ∈ t.text, c ≠ 0 := by
  obtain ⟨hi, hf, he⟩ := ht
  have h1 : ∀ c ∈ (if t.minus then [45] else ([] : Bytes)), c ≠ 0 := by
    intro c hc
    split_ifs at hc
    · simp at hc; omega
    · simp at hc
  have h2 : ∀ c ∈ t.int_digits, c ≠ 0 := by
    rcases hi with h | ⟨hd, _⟩
    · rw [h]; intro c hc; simp at hc; omega
    · exact digits_nonzero hd.2
  have h3 : ∀ c ∈ frac_text t.frac_digits, c ≠ 0 := by
    cases hfd : t.frac_digits with
    | none => intro c hc; simp [frac_text] at hc
    | some f =>
      rw [hfd] at hf
      intro c hc
      simp only [frac_text, List.mem_cons] at hc
      rcases hc with rfl | hc
      · decide
      · exact digits_nonzero hf.2 c hc
  have h4 : ∀ c ∈ exp_text t.exp, c ≠ 0 := by
    cases hex : t.exp with
    | none => intro c hc; simp [exp_text] at hc
    | some e =>
      rw [hex] at he
      obtain ⟨hm, hd⟩ := he
      intro c hc
      simp only [exp_text, ExpPart.text, List.mem_cons, List.mem_append] at hc
      rcases hc with rfl | hc | hc
      · rcases hm with h | h <;> omega
      · cases hs : e.sign with
        | none => rw [hs] at hc; simp at hc
        | some b =>
          rw [hs] at hc
          cases b <;> simp at hc <;> omega
      · exact digits_nonzero hd.2 c hc
  intro c hc
  simp only [NumberToken.text, NumberToken.tail_text, List.mem_append] at hc
  rcases hc with hc | hc | hc | hc
  · exact h1 c hc
  · exact h2 c hc
  · exact h3 c hc
  · exact h4 c hc

theorem chain_text_nonzero : ∀ (t : JTree) (obj : Bool), ∀ c ∈ t.chain_text obj, c ≠ 0
  | JTree.nil, _, c, hc => by simp [JTree.chain_text] at hc
  | JTree.node key kind child next, obj, c, hc => by
    have ihc := chain_text_nonzero child
    have ihn := chain_text_nonzero next obj
    simp only [JTree.chain_text, List.mem_append] at hc
    rcases hc with hc | hc | hc
    · cases obj with
      | false => simp at hc
      | true =>
        simp only [if_true, List.mem_append, List.mem_singleton] at hc
        rcases hc with hc | rfl
        · exact quote_nonzero _ c hc
        · decide
    · cases kind with
      | null => simp [JKind.text] at hc; rcases hc with rfl | rfl | rfl <;> decide
      | jfalse => simp [JKind.text] at hc; rcases hc with rfl | rfl | rfl | rfl | rfl <;> decide
      | jtrue => simp [JKind.text] at hc; rcases hc with rfl | rfl | rfl | rfl <;> decide
      | number n => exact sprintf_d_nonzero n c hc
      | decimal tok valid d i => exact valid_text_nonzero tok valid c hc
      | string s => exact quote_nonzero s c hc
      | array =>
        simp only [JKind.text, List.mem_cons, List.mem_append, List.mem_singleton,
          List.not_mem_nil, or_false] at hc
        rcases hc with rfl | hc | rfl
        · decide
        · exact ihc false c hc
        · decide
      | object =>
        simp only [JKind.text, List.mem_cons, List.mem_append, List.mem_singleton,
          List.not_mem_nil, or_false] at hc
        rcases hc with rfl | hc | rfl
        · decide
        · exact ihc true c hc
        · decide
    · cases next with
      | nil => simp [sep_text] at hc
      | node k2 kind2 c2 n2 =>
        simp only [sep_text, List.mem_cons] at hc
        rcases hc with rfl | hc
        · decide
        · exact ihn c hc

theorem value_text_nonzero (kind : JKind) (child : JTree) : ∀ c ∈ value_text kind child, c ≠ 0 := by
  intro c hc
  have := chain_text_nonzero (JTree.node none kind child JTree.nil) false c
  apply this
  simpa [JTree.chain_text, sep_text, value_text] using hc

/-- Compact printing with `print_json` of `src/cJSON.c`: the C string after the
padding is the compact text of the value. -/
theorem print_json_spec (libc : Libc) (m : Mem) (root : Nat) (kind : JKind) (child : JTree)
    (padding estimate : Int) (fuel : Nat) (hs : ShowsValue m root kind child)
    (hn : (JTree.node none kind child JTree.nil).prints_with libc)
    (hpad : 0 ≤ padding) (hfuel : child.size + 2 ≤ fuel) :
    ∃ b, PerValue.print_json libc fuel m root false padding estimate = some b ∧
      b.text padding = value_text kind child := by
  let b0 := PerValue.cJSON_Buf_Init libc (if estimate < 256 then 256 else estimate) padding
  have hb0 : BufOK b0 := by
    constructor
    · show 1 ≤ (if estimate < 256 then 256 else estimate) + padding
      split_ifs <;> omega
    · exact hpad
  obtain ⟨b1, h1, e1⟩ := print_value_spec libc m kind child (print_chain libc m child hn.2.1)
    root fuel 0 b0 hs hn.1 hb0 hfuel
  obtain ⟨b2, h2, e2⟩ := Copy_Char_ok b1 0 e1.1
  refine ⟨b2, ?_, ?_⟩
  · simp only [PerValue.print_json]
    have h1' : PerValue.print_value libc m false fuel root 0
        (PerValue.cJSON_Buf_Init libc (if estimate < 256 then 256 else estimate) padding) =
        some b1 := h1
    rw [h1']
    simpa using h2
  · have hw := (e1.trans e2).2
    refine text_of_written b2 padding b0.written (value_text kind child) hpad e2.1.2 hw ?_
      (value_text_nonzero kind child)
    show (cJSON_Buf.slice _ 0 _).length = _
    rw [slice_length]; rfl

theorem chain_text_size : ∀ (t : JTree) (obj : Bool), t.wf obj → t.size ≤ (t.chain_text obj).length
  | JTree.nil, _, _ => by simp [JTree.size]
  | JTree.node key kind child next, obj, hwf => by
    obtain ⟨_, _, hchild, hwfn⟩ := hwf
    have ihn := chain_text_size next obj hwfn
    have hk : child.size + 1 ≤
        (kind.text (child.chain_text false) (child.chain_text true)).length := by
      cases kind with
      | array =>
        have := chain_text_size child false hchild
        simp [JKind.text]; omega
      | object =>
        have := chain_text_size child true hchild
        simp [JKind.text]; omega
      | null => have hc : child = JTree.nil := hchild; subst hc; simp [JKind.text, JTree.size]
      | jfalse => have hc : child = JTree.nil := hchild; subst hc; simp [JKind.text, JTree.size]
      | jtrue => have hc : child = JTree.nil := hchild; subst hc; simp [JKind.text, JTree.size]
      | string s =>
        have hc : child = JTree.nil := hchild; subst hc; simp [JKind.text, JTree.size, quote]
      | number n =>
        have hc : child = JTree.nil := hchild
        subst hc
        obtain ⟨c, tl, e, _, _⟩ := value_text_head (JKind.number n) JTree.nil []
        have := congrArg List.length e
        simp [value_text, JKind.text] at this
        simp [JKind.text, JTree.size]; omega
      | decimal tok valid d i =>
        have hc : child = JTree.nil := hchild
        subst hc
        obtain ⟨c, tl, e, _, _⟩ := value_text_head (JKind.decimal tok valid d i) JTree.nil []
        have := congrArg List.length e
        simp [value_text, JKind.text] at this
        simp [JKind.text, JTree.size]; omega
    have hsep : next.size ≤ (sep_text next (next.chain_text obj)).length := by
      cases next with
      | nil => simp [JTree.size]
      | node k2 kind2 c2 n2 => simp only [sep_text, List.length_cons]; omega
    simp only [JTree.size, JTree.chain_text, List.length_append]
    omega

theorem value_text_size (kind : JKind) (child : JTree) (hwf : value_wf kind child) :
    child.size + 1 ≤ (value_text kind child).length := by
  have := chain_text_size (JTree.node none kind child JTree.nil) false hwf
  simpa [JTree.size, JTree.chain_text, sep_text, value_text] using this

theorem NumStop_nil : NumStop [] := by simp [NumStop, peek, is_digit]

/-- `cJSON_Parse` of `src/cJSON.c` reads the compact text of a value of the data model
back into a fresh tree that represents this value. -/
theorem PerValue.parse_text_spec (m : Mem) (kind : JKind) (child : JTree)
    (hwf : value_wf kind child) (hbrk : 0 < m.brk) :
    ∃ m1, PerValue.cJSON_Parse m (value_text kind child) = PResult.ok (m1, m.brk) ∧
      Rep true m1 m.brk (JTree.node none kind child JTree.nil) ∧
      (∀ q, q < m.brk → m1.node q = m.node q) := by
  have hF := value_text_size kind child hwf
  have hv := parses_value PerValue.heap_laws kind child hwf ((value_text kind child).length + 1)
    (by omega)
  obtain ⟨s1, hp, hFr, hK, hR⟩ := hv { mem := (cJSON_New_Item m).1, aux := () } m.brk []
    NumStop_nil hbrk (by show m.brk < m.brk + 1; omega)
    (by simp [cJSON_New_Item, cJSON.zeroed])
  have hfresh : (cJSON_New_Item m).1.node m.brk = { cJSON.zeroed with hash_string := -1 } := by
    simp [cJSON_New_Item]
  refine ⟨s1.mem, ?_, ⟨by omega, ?_, hK, hR.rep, ?_⟩, ?_⟩
  · have hsk := skip_value_text kind child []
    simp only [List.append_nil] at hsk hp
    simp only [PerValue.cJSON_Parse, PerValue.cJSON_Parse_fuel, hsk]
    have e : (cJSON_New_Item m) = ((cJSON_New_Item m).1, m.brk) := rfl
    rw [e]
    simp only []
    rw [hp]
  · rw [hFr.string_eq, hfresh]; rfl
  · show (s1.mem.node m.brk).next = 0
    rw [hFr.next_eq, hfresh]; rfl
  · intro q hq
    rw [hFr.old q (by show q < m.brk + 1; omega) (by omega)]
    simp [cJSON_New_Item, Nat.ne_of_lt hq]

theorem JKind.text_reread (k : JKind) (a b : Bytes) : k.reread.text a b = k.text a b := by
  cases k <;> rfl

theorem JTree.chain_text_reread : ∀ (t : JTree) (obj : Bool),
    t.reread.chain_text obj = t.chain_text obj
  | JTree.nil, _ => rfl
  | JTree.node key kind child next, obj => by
    simp only [JTree.reread, JTree.chain_text, JKind.text_reread,
      JTree.chain_text_reread child, JTree.chain_text_reread next]
    cases next <;> rfl

theorem value_text_reread (kind : JKind) (child : JTree) :
    value_text kind.reread child.reread = value_text kind child := by
  simp only [value_text, JKind.text_reread, JTree.chain_text_reread]

theorem JTree.size_reread : ∀ t : JTree, t.reread.size = t.size
  | JTree.nil => rfl
  | JTree.node key kind child next => by
    simp only [JTree.reread, JTree.size, JTree.size_reread child, JTree.size_reread next]

theorem JTree.reread_eq_nil {t : JTree} (h : t.reread = JTree.nil) : t = JTree.nil := by
  cases t with
  | nil => rfl
  | node _ _ _ _ => simp [JTree.reread] at h

theorem Double.same_refl (d : Double) : d.same d := by
  cases d <;> simp [Double.same]

/-- A number that its token denotes is, after it was read back, the same number. -/
theorem JKind.kind_reread_same (k : JKind) (h : k.comes_back) : k.reread.same k := by
  cases k with
  | decimal tok valid d i => exact ⟨rfl, h.1, h.2⟩
  | null => rfl
  | jfalse => rfl
  | jtrue => rfl
  | number n => rfl
  | string s => rfl
  | array => rfl
  | object => rfl

/-- A chain whose numbers are denoted by their tokens is, after it was read back, the
same chain. -/
theorem JTree.reread_same : ∀ t : JTree, t.comes_back → t.reread.same t
  | JTree.nil, _ => trivial
  | JTree.node _ kind child next, h =>
    ⟨rfl, JKind.kind_reread_same kind h.1, JTree.reread_same child h.2.1,
      JTree.reread_same next h.2.2⟩

theorem JKind.kind_reread_twice (k : JKind) : k.reread.reread = k.reread := by
  cases k <;> rfl

/-- Reading back a chain that was read back changes nothing. -/
theorem JTree.reread_twice : ∀ t : JTree, t.reread.reread = t.reread
  | JTree.nil => rfl
  | JTree.node key kind child next => by
    simp only [JTree.reread, JKind.kind_reread_twice, JTree.reread_twice child,
      JTree.reread_twice next]

/-- A chain of the data model is read back as it is. -/
theorem JKind.reread_of_payload_ok (k : JKind) (h : k.payload_ok) : k.reread = k := by
  cases k with
  | decimal tok valid d i =>
    obtain ⟨hd, hi⟩ : d = tok.value ∧ i = tok.value.toInt := h
    subst hd; subst hi; rfl
  | null => rfl
  | jfalse => rfl
  | jtrue => rfl
  | number n => rfl
  | string s => rfl
  | array => rfl
  | object => rfl

theorem KindRep.shows_kind {c : cJSON} {k : JKind} (h : KindRep true c k)
    (hp : k.reread.payload_ok) : ShowsKind c k := by
  cases k with
  | number n =>
    obtain ⟨h1, h2, h3⟩ := h
    exact ⟨by rw [h1]; rfl, h2, h3 rfl, hp.1, hp.2⟩
  | decimal tok valid d i =>
    obtain ⟨h1, h2, h3⟩ := h
    exact ⟨by rw [h1]; rfl, h2, h3 rfl⟩
  | string s => exact ⟨by rw [h.1]; rfl, h.2⟩
  | null => have h' : c.type = cJSON_NULL := h; show c.type % 256 = _; rw [h']; rfl
  | jfalse => have h' : c.type = cJSON_False := h; show c.type % 256 = _; rw [h']; rfl
  | jtrue => have h' : c.type = cJSON_True := h; show c.type % 256 = _; rw [h']; rfl
  | array => have h' : c.type = cJSON_Array := h; show c.type % 256 = _; rw [h']; rfl
  | object => have h' : c.type = cJSON_Object := h; show c.type % 256 = _; rw [h']; rfl

/-- The records of a chain show the printer that chain; the chain is one of the data
model once its numbers are read back. -/
theorem Rep.shows {m : Mem} : ∀ (t : JTree) (obj : Bool) (p : Nat), Rep true m p t →
    t.reread.wf obj → Shows m obj p t
  | JTree.nil, _, _, h, _ => h
  | JTree.node key kind child next, obj, p, h, hwf => by
    obtain ⟨h1, h2, h3, h4, h5⟩ := h
    obtain ⟨w1, w2, w3, w4⟩ := hwf
    refine ⟨h1, ?_, h3.shows_kind w2, ?_, Rep.shows next obj _ h5 w4⟩
    · cases obj with
      | false => simpa using w1
      | true => simp only [if_true] at w1 ⊢; exact ⟨h2, w1.1⟩
    · cases kind with
      | array => exact Rep.shows child false _ h4 w3
      | object => exact Rep.shows child true _ h4 w3
      | null => exact JTree.reread_eq_nil w3
      | jfalse => exact JTree.reread_eq_nil w3
      | jtrue => exact JTree.reread_eq_nil w3
      | number n => exact JTree.reread_eq_nil w3
      | decimal tok valid d i => exact JTree.reread_eq_nil w3
      | string s => exact JTree.reread_eq_nil w3

theorem Rep.shows_value {m : Mem} {root : Nat} {kind : JKind} {child : JTree}
    (h : Rep true m root (JTree.node none kind child JTree.nil))
    (hwf : value_wf kind.reread child.reread) : ShowsValue m root kind child := by
  have := Rep.shows _ false root h hwf
  exact ⟨this.1, this.2.2.1, this.2.2.2.1⟩

theorem RepIn.chain {vi : Bool} {m : Mem} {lo hi : Nat} (hash : Bytes → Int) :
    ∀ {t : JTree} {pr p : Nat}, RepIn vi m lo hi pr p t → t.wf true →
      ∃ l, l.headD 0 = p ∧ DLSeg m pr l 0 ∧ l.map (fun c => (m.node c).string) = t.keys ∧
        KeysCached hash m l
  | JTree.nil, _, _, h, _ => by
    have hp : _ = 0 := h
    exact ⟨[], by simp [hp], trivial, rfl, fun c hc => by simp at hc⟩
  | JTree.node key kind child next, pr, p, h, hwf => by
    obtain ⟨h1, h2, h3, h4, h5, h6, h7, h8, h9⟩ := h
    obtain ⟨w1, _, _, w4⟩ := hwf
    have w1' : key.isSome = true ∧ IsCStr (key.getD []) := by simpa using w1
    obtain ⟨l, e1, e2, e3, e4⟩ := RepIn.chain hash h9 w4
    refine ⟨p :: l, rfl, ⟨h1, h4, by rw [e1], e2⟩, by simp [JTree.keys, h6, e3], ?_⟩
    intro c hc
    rcases List.mem_cons.1 hc with rfl | hc
    · refine ⟨by rw [h6]; exact w1'.1, by simpa [cJSON.key, h6] using w1'.2, Or.inl h5⟩
    · exact e4 c hc

/-- `cJSON_Parse` of the arena variant reads the compact text of an object of the data
model back into a fresh tree that represents it. -/
theorem Arena.parse_object_text_spec (libc : Libc) (m : Mem) (t : JTree) (hwf : t.wf true)
    (hbrk : 0 < m.brk) :
    ∃ m1 buf, Arena.cJSON_Parse libc m (value_text JKind.object t) = PResult.ok (m1, m.brk, buf) ∧
      (m1.node m.brk).type = cJSON_Object ∧ (m1.node m.brk).string = none ∧
      (m1.node m.brk).next = 0 ∧
      RepIn false m1 (m.brk + 1) m1.brk 0 (m1.node m.brk).child t := by
  have hwf' : value_wf JKind.object t := ⟨rfl, trivial, hwf, trivial⟩
  have hF := value_text_size JKind.object t hwf'
  have hh := parses_heads Arena.arena_laws t true ((value_text JKind.object t).length + 1) hwf
    (by omega)
  have hv := parse_object_spec false Arena.parse_string
    (Arena.parse_value ((value_text JKind.object t).length + 1)) Arena.arena_laws.keys t
    ((value_text JKind.object t).length + 1) hwf hh (by omega)
  obtain ⟨s1, hp, hFr, hK, hR⟩ := hv
    { mem := (cJSON_New_Item m).1,
      aux := Arena.cJSON_Buf_Init libc (strlen (value_text JKind.object t)) 0 } m.brk []
    NumStop_nil hbrk (by show m.brk < m.brk + 1; omega)
    (by simp [cJSON_New_Item, cJSON.zeroed])
  have hfresh : (cJSON_New_Item m).1.node m.brk = { cJSON.zeroed with hash_string := -1 } := by
    simp [cJSON_New_Item]
  refine ⟨s1.mem, s1.aux, ?_, hK, ?_, ?_, hR⟩
  · have hsk := skip_value_text JKind.object t []
    have hpeek : peek (value_text JKind.object t) = 123 := rfl
    simp only [List.append_nil] at hsk hp
    simp only [Arena.cJSON_Parse, Arena.cJSON_Parse_fuel, hsk, Arena.parse_root, hpeek, if_true]
    have e : (cJSON_New_Item m) = ((cJSON_New_Item m).1, m.brk) := rfl
    rw [e]
    simp only [Nat.cast_inj]
    rw [hp]
  · rw [hFr.string_eq, hfresh]; rfl
  · rw [hFr.next_eq, hfresh]; rfl

theorem pad_digits_int (n : Nat) :
    pad_digits 1 n = [48] ∨ (IsDigits (pad_digits 1 n) ∧ 49 ≤ peek (pad_digits 1 n)) := by
  obtain ⟨ds, h1, h2, _, h4⟩ := sprintf_d_nat n
  have hne : ds ≠ [] := by
    by_cases h0 : n = 0
    · rw [if_pos h0] at h4; rw [h4]; simp
    · rw [if_neg h0] at h4
      rintro rfl
      simp [peek] at h4
  have hlen : 1 - ds.length = 0 := by
    have := List.length_pos.2 hne
    omega
  have e : pad_digits 1 n = ds := by
    unfold pad_digits
    simp only [h1, hlen, List.replicate_zero, List.nil_append]
  rw [e]
  by_cases h0 : n = 0
  · rw [if_pos h0] at h4; exact Or.inl h4
  · rw [if_neg h0] at h4; exact Or.inr ⟨⟨hne, h2⟩, h4.1⟩

theorem pad_digits_digits (w n : Nat) : IsDigits (pad_digits w n) := by
  obtain ⟨ds, h1, h2, _, h4⟩ := sprintf_d_nat n
  have hne : ds ≠ [] := by
    by_cases h0 : n = 0
    · rw [if_pos h0] at h4; rw [h4]; simp
    · rw [if_neg h0] at h4
      rintro rfl
      simp [peek] at h4
  unfold pad_digits
  simp only [h1]
  refine ⟨by simp [hne], ?_⟩
  intro c hc
  rcases List.mem_append.1 hc with hc | hc
  · have := (List.mem_replicate.1 hc).2
    subst this
    rfl
  · exact h2 c hc

/-- With the conversions of C99, `print_number` of `src/cJSON.c` formats every finite
number as a token of the JSON number grammar. -/
theorem c99_number_text_token (m e i : Int) :
    ∃ tok : NumberToken, tok.valid ∧
      PerValue.number_text libc_c99 (Double.fin m e) i = tok.text := by
  have hfixed : ∀ prec : Nat, ∃ tok : NumberToken, tok.valid ∧
      sprintf_fixed prec (Double.fin m e) = tok.text := by
    intro prec
    simp only [sprintf_fixed]
    generalize (if 0 ≤ e then m.natAbs * 10 ^ e.toNat * 10 ^ prec
      else round_half_even (m.natAbs * 10 ^ prec) (10 ^ (-e).toNat)) = q
    by_cases hp : prec = 0
    · refine ⟨NumberToken.mk (decide (m < 0)) (pad_digits 1 (q / 10 ^ prec)) none none,
        ⟨pad_digits_int _, trivial, trivial⟩, ?_⟩
      simp [NumberToken.text, NumberToken.tail_text, frac_text, exp_text, hp]
    · refine ⟨NumberToken.mk (decide (m < 0)) (pad_digits 1 (q / 10 ^ prec))
        (some (pad_digits prec (q % 10 ^ prec))) none,
        ⟨pad_digits_int _, pad_digits_digits _ _, trivial⟩, ?_⟩
      simp [NumberToken.text, NumberToken.tail_text, frac_text, exp_text, hp]
  have hexp : ∃ tok : NumberToken, tok.valid ∧ sprintf_exp (Double.fin m e) = tok.text := by
    simp only [sprintf_exp]
    generalize (if decide ((if (dec_digits (m.natAbs + 1) m.natAbs []).length ≤ 7 then
        m.natAbs * 10 ^ (7 - (dec_digits (m.natAbs + 1) m.natAbs []).length)
        else round_half_even m.natAbs
          (10 ^ ((dec_digits (m.natAbs + 1) m.natAbs []).length - 7))) = 10 ^ 7) = true
      then 10 ^ 6
      else if (dec_digits (m.natAbs + 1) m.natAbs []).length ≤ 7 then
        m.natAbs * 10 ^ (7 - (dec_digits (m.natAbs + 1) m.natAbs []).length)
        else round_half_even m.natAbs
          (10 ^ ((dec_digits (m.natAbs + 1) m.natAbs []).length - 7))) = q1
    generalize (if m.natAbs = 0 then (0 : Int) else
      ((dec_digits (m.natAbs + 1) m.natAbs []).length : Int) - 1 + e +
        (if decide ((if (dec_digits (m.natAbs + 1) m.natAbs []).length ≤ 7 then
          m.natAbs * 10 ^ (7 - (dec_digits (m.natAbs + 1) m.natAbs []).length)
          else round_half_even m.natAbs
            (10 ^ ((dec_digits (m.natAbs + 1) m.natAbs []).length - 7))) = 10 ^ 7) = true
        then 1 else 0)) = x
    refine ⟨NumberToken.mk (decide (m < 0)) (pad_digits 1 (q1 / 10 ^ 6))
      (some (pad_digits 6 (q1 % 10 ^ 6)))
      (some (ExpPart.mk 101 (some (decide (x < 0))) (pad_digits 2 x.natAbs))),
      ⟨pad_digits_int _, pad_digits_digits _ _, Or.inl rfl, pad_digits_digits _ _⟩, ?_⟩
    by_cases hx : x < 0 <;>
      simp [NumberToken.text, NumberToken.tail_text, frac_text, exp_text, ExpPart.text, hx]
  unfold PerValue.number_text
  split_ifs
  · obtain ⟨ds, h1, h2, _, h4⟩ := sprintf_d_nat i.natAbs
    refine ⟨NumberToken.mk (decide (i < 0)) ds none none, ⟨?_, trivial, trivial⟩, ?_⟩
    · by_cases h0 : i.natAbs = 0
      · rw [if_pos h0] at h4; exact Or.inl h4
      · rw [if_neg h0] at h4
        refine Or.inr ⟨⟨?_, h2⟩, h4.1⟩
        rintro rfl
        simp [peek] at h4
    · by_cases hi : i < 0 <;>
        simp [sprintf_d, NumberToken.text, NumberToken.tail_text, frac_text, exp_text, hi, h1]
  · exact hfixed 0
  · exact hexp
  · exact hfixed 6
/-! ## Failures inside nested containers -/

theorem skip_space_append : ∀ (ws Y : Bytes), IsSpace ws → skip (ws ++ Y) = skip Y
  | [], _, _ => rfl
  | c :: ws, Y, h => by
    have hc := h c (by simp)
    simp only [List.cons_append, skip, if_pos (show c ≠ 0 ∧ c ≤ 32 from ⟨by omega, hc.2⟩)]
    exact skip_space_append ws Y (fun b hb => h b (by simp [hb]))

theorem sep_text_comma (obj : Bool) (t : JTree) (W : Bytes) :
    NumStop (sep_text t (t.chain_text obj) ++ 44 :: W) ∧
    skip (sep_text t (t.chain_text obj) ++ 44 :: W) =
      sep_text t (t.chain_text obj) ++ 44 :: W := by
  cases t with
  | nil => exact ⟨by simp [sep_text, NumStop, peek, is_digit], by simp [sep_text, skip]⟩
  | node k kind c n => exact ⟨by simp [sep_text, NumStop, peek, is_digit], by simp [sep_text, skip]⟩

/-- The loop of `parse_array` fails where the production for the element after the
chain `t` fails. -/
theorem parse_array_loop_fails {σ : Type} (vi : Bool)
    (pv : PState σ → Nat → Bytes → PResult (PState σ × Bytes)) (W Y : Bytes) (r : Option Bytes)
    (hW : skip W = Y)
    (hfail : ∀ (s : PState σ) (item : Nat), 0 < item → item < s.mem.brk →
      (s.mem.node item).child = 0 → pv s item Y = PResult.fail r) :
    ∀ t : JTree, t.wf false → ParsesHeads vi pv t →
      ∀ (lf : Nat) (s : PState σ) (cur : Nat), t.size + 1 ≤ lf → 0 < cur → cur < s.mem.brk →
      parse_array_loop pv lf s cur (sep_text t (t.chain_text false) ++ 44 :: W) = PResult.fail r
  | JTree.nil, _, _ => by
    intro lf s cur hlf hc0 hcb
    obtain ⟨lf, rfl⟩ : ∃ k, lf = k + 1 := ⟨lf - 1, by omega⟩
    obtain ⟨L1, L2, L3, L4⟩ := link_fresh_spec s.mem cur hcb
    have e : (cJSON_New_Item s.mem) = ((cJSON_New_Item s.mem).1, s.mem.brk) := rfl
    have hf := hfail { s with mem := link_fresh s.mem cur } s.mem.brk (by omega)
      (by show s.mem.brk < (link_fresh s.mem cur).brk; omega)
      (by show ((link_fresh s.mem cur).node s.mem.brk).child = 0; rw [L2]; rfl)
    simp only [sep_text, List.nil_append, parse_array_loop, peek, List.headD_cons, if_true,
      List.tail_cons, hW]
    rw [e]
    simp only []
    simp only [link_fresh] at hf
    rw [hf]
  | JTree.node key kind child next, hwf, hh => by
    intro lf s cur hlf hc0 hcb
    obtain ⟨lf, rfl⟩ : ∃ k, lf = k + 1 := ⟨lf - 1, by omega⟩
    obtain ⟨hkey, _, _, hwfn⟩ := hwf
    obtain ⟨hv, hhn⟩ := hh
    simp only [JTree.size] at hlf
    have ih := parse_array_loop_fails vi pv W Y r hW hfail next hwfn hhn
    obtain ⟨L1, L2, L3, L4⟩ := link_fresh_spec s.mem cur hcb
    have hstop := sep_text_comma false next W
    have htxt : sep_text (JTree.node key kind child next)
          ((JTree.node key kind child next).chain_text false) ++ 44 :: W =
        44 :: (value_text kind child ++ (sep_text next (next.chain_text false) ++ 44 :: W)) := by
      have hkey' : key = none := by simpa using hkey
      simp [sep_text, JTree.chain_text, value_text]
    obtain ⟨s1, hp1, hF1, -, -⟩ := hv { s with mem := link_fresh s.mem cur } s.mem.brk
      (sep_text next (next.chain_text false) ++ 44 :: W) hstop.1 (by omega)
      (by show s.mem.brk < (link_fresh s.mem cur).brk; omega)
      (by show ((link_fresh s.mem cur).node s.mem.brk).child = 0; rw [L2]; rfl)
    have hF1brk : s.mem.brk + 1 ≤ s1.mem.brk := by
      have := hF1.brk_le
      simpa [L1] using this
    have hp2 := ih lf s1 s.mem.brk (by omega) (by omega) (by omega)
    have e : (cJSON_New_Item s.mem) = ((cJSON_New_Item s.mem).1, s.mem.brk) := rfl
    rw [htxt]
    simp only [parse_array_loop, peek, List.headD_cons, if_true, List.tail_cons,
      skip_value_text]
    rw [e]
    simp only []
    have := hp1
    simp only [link_fresh] at this
    rw [this]
    simp only [hstop.2]
    exact hp2

theorem hook_first_spec (m : Mem) (item ty : Nat) (hi : item < m.brk) :
    (hook_first m item ty).brk = m.brk + 1 ∧
    (hook_first m item ty).node m.brk = { cJSON.zeroed with hash_string := -1 } ∧
    (hook_first m item ty).node item = { m.node item with type := ty, child := m.brk } := by
  have h1 : item ≠ m.brk := by omega
  have h2 : m.brk ≠ item := by omega
  refine ⟨rfl, ?_, ?_⟩
  · simp [hook_first, cJSON_New_Item, Mem.set, h2]
  · simp [hook_first, cJSON_New_Item, Mem.set, h1]

/-- `parse_array` fails where the production for the element after the elements `t`
fails. -/
theorem parse_array_fails {σ : Type} (vi : Bool)
    (pv : PState σ → Nat → Bytes → PResult (PState σ × Bytes)) (W Y : Bytes) (r : Option Bytes)
    (hW : skip W = Y)
    (hfail : ∀ (s : PState σ) (item : Nat), 0 < item → item < s.mem.brk →
      (s.mem.node item).child = 0 → pv s item Y = PResult.fail r)
    (t : JTree) (hwf : t.wf false) (hh : ParsesHeads vi pv t)
    (hY : (Enclosing.in_array t).awaits Y) (lf : Nat) (hlf : t.size + 1 ≤ lf)
    (s : PState σ) (item : Nat) (hi0 : 0 < item) (hib : item < s.mem.brk) :
    parse_array pv lf s item (91 :: (before_text false t ++ W)) = PResult.fail r := by
  obtain ⟨H1, H2, H3⟩ := hook_first_spec s.mem item cJSON_Array hib
  have e : cJSON_New_Item (s.mem.set item { s.mem.node item with type := cJSON_Array }) =
      ((cJSON_New_Item (s.mem.set item { s.mem.node item with type := cJSON_Array })).1,
        s.mem.brk) := rfl
  cases t with
  | nil =>
    have h93 : peek Y ≠ 93 := hY
    have hf := hfail { s with mem := hook_first s.mem item cJSON_Array } s.mem.brk (by omega)
      (by show s.mem.brk < (hook_first s.mem item cJSON_Array).brk; omega)
      (by show ((hook_first s.mem item cJSON_Array).node s.mem.brk).child = 0; rw [H2]; rfl)
    simp only [before_text, List.nil_append, parse_array, peek, List.headD_cons, ne_eq,
      not_true_eq_false, if_false, List.tail_cons, hW]
    rw [if_neg (by simpa [peek] using h93), e]
    simp only []
    rw [← hW, skip_skip, hW]
    simp only [hook_first] at hf
    rw [hf]
  | node key kind c next =>
    obtain ⟨hkey, _, _, hwfn⟩ := hwf
    have hkey' : key = none := by simpa using hkey
    obtain ⟨hv, hhn⟩ := hh
    simp only [JTree.size] at hlf
    have hstop := sep_text_comma false next W
    obtain ⟨s1, hp1, hF1, -, -⟩ := hv { s with mem := hook_first s.mem item cJSON_Array }
      s.mem.brk (sep_text next (next.chain_text false) ++ 44 :: W) hstop.1 (by omega)
      (by show s.mem.brk < (hook_first s.mem item cJSON_Array).brk; omega)
      (by show ((hook_first s.mem item cJSON_Array).node s.mem.brk).child = 0; rw [H2]; rfl)
    have hF1brk : s.mem.brk + 1 ≤ s1.mem.brk := by
      have := hF1.brk_le
      simpa [H1] using this
    have hp2 := parse_array_loop_fails vi pv W Y r hW hfail next hwfn hhn lf s1 s.mem.brk
      (by omega) (by omega) (by omega)
    have htxt : 91 :: (before_text false (JTree.node key kind c next) ++ W) =
        91 :: (value_text kind c ++ (sep_text next (next.chain_text false) ++ 44 :: W)) := by
      simp [before_text, JTree.chain_text, value_text, hkey']
    have hhead : peek (value_text kind c ++
        (sep_text next (next.chain_text false) ++ 44 :: W)) ≠ 93 := by
      obtain ⟨ch, tl, e, _, hk⟩ := value_text_head kind c
        (sep_text next (next.chain_text false) ++ 44 :: W)
      rw [e]
      cases kind <;> simp [peek] at hk ⊢ <;> omega
    rw [htxt]
    simp only [parse_array, peek, List.headD_cons, ne_eq, not_true_eq_false, if_false,
      List.tail_cons, skip_value_text]
    rw [if_neg (by simpa [peek] using hhead), e]
    simp only []
    have := hp1
    simp only [hook_first] at this
    rw [this]
    simp only [hstop.2]
    exact hp2

/-- `parse_member` fails where the production for the value of the member fails. -/
theorem parse_member_fails {σ : Type}
    (ps pv : PState σ → Nat → Bytes → PResult (PState σ × Bytes)) (hps : ParsesKeys ps)
    (W Y : Bytes) (r : Option Bytes) (hW : skip W = Y)
    (hfail : ∀ (s : PState σ) (item : Nat), 0 < item → item < s.mem.brk →
      (s.mem.node item).child = 0 → pv s item Y = PResult.fail r)
    (k : Bytes) (hk : IsCStr k) (s : PState σ) (item : Nat) (hi0 : 0 < item)
    (hib : item < s.mem.brk) (hchild : (s.mem.node item).child = 0) :
    parse_member ps pv s item (quote k ++ 58 :: W) = PResult.fail r := by
  obtain ⟨aux, hp⟩ := hps s item k (58 :: W) hk
  let ma := s.mem.set item { s.mem.node item with valuestring := some k, type := cJSON_String }
  let m1 := ma.set item
    { ma.node item with string := (ma.node item).valuestring, valuestring := none }
  have hm1i : m1.node item = { s.mem.node item with
      string := some k, valuestring := none, type := cJSON_String } := by
    simp [m1, ma, Mem.set]
  have hf := hfail { mem := m1, aux := aux } item hi0 (by show item < m1.brk; exact hib)
    (by rw [hm1i]; exact hchild)
  simp only [parse_member, skip_quote]
  have hp' : ps s item (quote k ++ 58 :: W) = _ := hp
  rw [hp']
  have hs58 : skip (58 :: W) = 58 :: W := by simp [skip]
  simp only [hs58, peek, List.headD_cons, ne_eq, not_true_eq_false, if_false, List.tail_cons, hW]
  have hf' : pv { mem := m1, aux := aux } item Y = _ := hf
  rw [hf']

/-- The loop of `parse_object` fails where the production for the value of the member
after the chain `t` fails. -/
theorem parse_object_loop_fails {σ : Type} (vi : Bool)
    (ps pv : PState σ → Nat → Bytes → PResult (PState σ × Bytes)) (hps : ParsesKeys ps)
    (W Y : Bytes) (r : Option Bytes) (hW : skip W = Y)
    (hfail : ∀ (s : PState σ) (item : Nat), 0 < item → item < s.mem.brk →
      (s.mem.node item).child = 0 → pv s item Y = PResult.fail r)
    (k : Bytes) (hk : IsCStr k) :
    ∀ t : JTree, t.wf true → ParsesHeads vi pv t →
      ∀ (lf : Nat) (s : PState σ) (cur : Nat), t.size + 1 ≤ lf → 0 < cur → cur < s.mem.brk →
      parse_object_loop ps pv lf s cur
        (sep_text t (t.chain_text true) ++ 44 :: (quote k ++ 58 :: W)) = PResult.fail r
  | JTree.nil, _, _ => by
    intro lf s cur hlf hc0 hcb
    obtain ⟨lf, rfl⟩ : ∃ n, lf = n + 1 := ⟨lf - 1, by omega⟩
    obtain ⟨L1, L2, L3, L4⟩ := link_fresh_spec s.mem cur hcb
    have e : (cJSON_New_Item s.mem) = ((cJSON_New_Item s.mem).1, s.mem.brk) := rfl
    have hf := parse_member_fails ps pv hps W Y r hW hfail k hk
      { s with mem := link_fresh s.mem cur } s.mem.brk (by omega)
      (by show s.mem.brk < (link_fresh s.mem cur).brk; omega)
      (by show ((link_fresh s.mem cur).node s.mem.brk).child = 0; rw [L2]; rfl)
    simp only [sep_text, List.nil_append, parse_object_loop, peek, List.headD_cons, if_true,
      List.tail_cons]
    rw [e]
    simp only []
    simp only [link_fresh] at hf
    rw [hf]
  | JTree.node key kind child next, hwf, hh => by
    intro lf s cur hlf hc0 hcb
    obtain ⟨lf, rfl⟩ : ∃ n, lf = n + 1 := ⟨lf - 1, by omega⟩
    obtain ⟨hkey, _, _, hwfn⟩ := hwf
    have hkey' : key.isSome = true ∧ IsCStr (key.getD []) := by simpa using hkey
    obtain ⟨k1, hk0⟩ := Option.isSome_iff_exists.1 hkey'.1
    subst hk0
    have hkc : IsCStr k1 := by simpa using hkey'.2
    obtain ⟨hv, hhn⟩ := hh
    simp only [JTree.size] at hlf
    have ih := parse_object_loop_fails vi ps pv hps W Y r hW hfail k hk next hwfn hhn
    obtain ⟨L1, L2, L3, L4⟩ := link_fresh_spec s.mem cur hcb
    have hstop := sep_text_comma true next (quote k ++ 58 :: W)
    have htxt : sep_text (JTree.node (some k1) kind child next)
          ((JTree.node (some k1) kind child next).chain_text true) ++
            44 :: (quote k ++ 58 :: W) =
        44 :: (quote k1 ++ 58 :: (value_text kind child ++
          (sep_text next (next.chain_text true) ++ 44 :: (quote k ++ 58 :: W)))) := by
      simp [sep_text, JTree.chain_text, value_text]
    obtain ⟨s1, hp1, hb1, -, -, -, -, -, -, -⟩ :=
      parse_member_spec vi ps pv hps kind child hv k1 hkc { s with mem := link_fresh s.mem cur }
        s.mem.brk (sep_text next (next.chain_text true) ++ 44 :: (quote k ++ 58 :: W))
        hstop.1 hstop.2
        (by omega) (by show s.mem.brk < (link_fresh s.mem cur).brk; omega)
        (by show ((link_fresh s.mem cur).node s.mem.brk).child = 0; rw [L2]; rfl)
    have hF1brk : s.mem.brk + 1 ≤ s1.mem.brk := by simpa [L1] using hb1
    have hp2 := ih lf s1 s.mem.brk (by omega) (by omega) (by omega)
    have e : (cJSON_New_Item s.mem) = ((cJSON_New_Item s.mem).1, s.mem.brk) := rfl
    rw [htxt]
    simp only [parse_object_loop, peek, List.headD_cons, if_true, List.tail_cons]
    rw [e]
    simp only []
    have := hp1
    simp only [link_fresh] at this
    rw [this]
    exact hp2

/-- `parse_object` fails where the production for the value of the member after the
members `t` fails. -/
theorem parse_object_fails {σ : Type} (vi : Bool)
    (ps pv : PState σ → Nat → Bytes → PResult (PState σ × Bytes)) (hps : ParsesKeys ps)
    (W Y : Bytes) (r : Option Bytes) (hW : skip W = Y)
    (hfail : ∀ (s : PState σ) (item : Nat), 0 < item → item < s.mem.brk →
      (s.mem.node item).child = 0 → pv s item Y = PResult.fail r)
    (k : Bytes) (hk : IsCStr k)
    (t : JTree) (hwf : t.wf true) (hh : ParsesHeads vi pv t) (lf : Nat) (hlf : t.size + 1 ≤ lf)
    (s : PState σ) (item : Nat) (hi0 : 0 < item) (hib : item < s.mem.brk) :
    parse_object ps pv lf s item (123 :: (before_text true t ++ (quote k ++ 58 :: W))) =
      PResult.fail r := by
  obtain ⟨H1, H2, H3⟩ := hook_first_spec s.mem item cJSON_Object hib
  have e : cJSON_New_Item (s.mem.set item { s.mem.node item with type := cJSON_Object }) =
      ((cJSON_New_Item (s.mem.set item { s.mem.node item with type := cJSON_Object })).1,
        s.mem.brk) := rfl
  have hq125 : ∀ (q R : Bytes), peek (quote q ++ R) ≠ 125 := by
    intro q R; simp [quote, peek]
  cases t with
  | nil =>
    have hf := parse_member_fails ps pv hps W Y r hW hfail k hk
      { s with mem := hook_first s.mem item cJSON_Object } s.mem.brk (by omega)
      (by show s.mem.brk < (hook_first s.mem item cJSON_Object).brk; omega)
      (by show ((hook_first s.mem item cJSON_Object).node s.mem.brk).child = 0; rw [H2]; rfl)
    simp only [before_text, List.nil_append, parse_object, peek, List.headD_cons, ne_eq,
      not_true_eq_false, if_false, List.tail_cons, skip_quote]
    rw [if_neg (by simpa [peek] using hq125 k (58 :: W)), e]
    simp only []
    simp only [hook_first] at hf
    rw [hf]
  | node key kind c next =>
    obtain ⟨hkey, _, _, hwfn⟩ := hwf
    have hkey' : key.isSome = true ∧ IsCStr (key.getD []) := by simpa using hkey
    obtain ⟨k1, hk0⟩ := Option.isSome_iff_exists.1 hkey'.1
    subst hk0
    have hkc : IsCStr k1 := by simpa using hkey'.2
    obtain ⟨hv, hhn⟩ := hh
    simp only [JTree.size] at hlf
    have hstop := sep_text_comma true next (quote k ++ 58 :: W)
    obtain ⟨s1, hp1, hb1, -, -, -, -, -, -, -⟩ :=
      parse_member_spec vi ps pv hps kind c hv k1 hkc
        { s with mem := hook_first s.mem item cJSON_Object }
        s.mem.brk (sep_text next (next.chain_text true) ++ 44 :: (quote k ++ 58 :: W))
        hstop.1 hstop.2
        (by omega) (by show s.mem.brk < (hook_first s.mem item cJSON_Object).brk; omega)
        (by show ((hook_first s.mem item cJSON_Object).node s.mem.brk).child = 0; rw [H2]; rfl)
    have hF1brk : s.mem.brk + 1 ≤ s1.mem.brk := by simpa [H1] using hb1
    have hp2 := parse_object_loop_fails vi ps pv hps W Y r hW hfail k hk next hwfn hhn lf s1
      s.mem.brk (by omega) (by omega) (by omega)
    have htxt : 123 :: (before_text true (JTree.node (some k1) kind c next) ++
          (quote k ++ 58 :: W)) =
        123 :: (quote k1 ++ 58 :: (value_text kind c ++
          (sep_text next (next.chain_text true) ++ 44 :: (quote k ++ 58 :: W)))) := by
      simp [before_text, JTree.chain_text, value_text]
    rw [htxt]
    simp only [parse_object, peek, List.headD_cons, ne_eq, not_true_eq_false, if_false,
      List.tail_cons, skip_quote]
    rw [if_neg (by simpa [peek] using hq125 k1 (58 :: (value_text kind c ++
      (sep_text next (next.chain_text true) ++ 44 :: (quote k ++ 58 :: W))))), e]
    simp only []
    have := hp1
    simp only [hook_first] at this
    rw [this]
    exact hp2

/-- A failure of the value production at a position propagates through the container
that encloses the position. -/
theorem fails_enclosed {σ : Type} {vi : Bool}
    {ps : PState σ → Nat → Bytes → PResult (PState σ × Bytes)}
    {pvF : Nat → PState σ → Nat → Bytes → PResult (PState σ × Bytes)}
    (L : ParserLaws vi ps pvF) (f : Enclosing) (hf : f.wf) (W Y : Bytes) (r : Option Bytes)
    (F0 : Nat) (hF0 : 1 ≤ F0) (hW : skip W = Y) (hY : f.awaits Y) (h : FailsAt pvF F0 Y r) :
    FailsAt pvF (F0 + f.size + 1) (f.text ++ W) r := by
  intro F hF s item hi0 hib _
  obtain ⟨F, rfl⟩ : ∃ n, F = n + 1 := ⟨F - 1, by omega⟩
  cases f with
  | in_array t =>
    have hsz : t.size + 1 ≤ F := by simp only [Enclosing.size] at hF; omega
    have ht : t.wf false := hf
    have e : (Enclosing.in_array t).text ++ W = 91 :: (before_text false t ++ W) := by
      simp [Enclosing.text]
    rw [e, L.array F s item _ (by simp [peek])]
    exact parse_array_fails vi (pvF F) W Y r hW (h F (by omega)) t ht
      (parses_heads L t false F ht hsz) hY F hsz s item hi0 hib
  | in_object t k =>
    have hsz : t.size + 1 ≤ F := by simp only [Enclosing.size] at hF; omega
    have ht : t.wf true := hf.1
    have e : (Enclosing.in_object t k).text ++ W =
        123 :: (before_text true t ++ (quote k ++ 58 :: W)) := by
      simp [Enclosing.text]
    rw [e, L.object F s item _ (by simp [peek])]
    exact parse_object_fails vi ps (pvF F) L.keys W Y r hW (h F (by omega)) k hf.2 t ht
      (parses_heads L t true F ht hsz) F hsz s item hi0 hib

theorem Enclosing.text_head (f : Enclosing) (R : Bytes) :
    ∃ c tl, f.text ++ R = c :: tl ∧ (c = 91 ∨ c = 123) := by
  cases f with
  | in_array t => exact ⟨91, _, rfl, Or.inl rfl⟩
  | in_object t k => exact ⟨123, _, rfl, Or.inr rfl⟩

/-- A failure of the value production at a position propagates through all the
containers that enclose the position. -/
theorem fails_in_path {σ : Type} {vi : Bool}
    {ps : PState σ → Nat → Bytes → PResult (PState σ × Bytes)}
    {pvF : Nat → PState σ → Nat → Bytes → PResult (PState σ × Bytes)}
    (L : ParserLaws vi ps pvF) (W Y : Bytes) (r : Option Bytes) (F0 : Nat) (hF0 : 1 ≤ F0)
    (hW : skip W = Y) (h : FailsAt pvF F0 Y r) :
    ∀ path : List Enclosing, (∀ f ∈ path, f.wf) → awaits_value path Y →
      FailsAt pvF (F0 + path_size path) (path_text path ++ W) r
  | [], _, haw => absurd haw (by simp [awaits_value])
  | [f], hwf, haw => by
    have := fails_enclosed L f (hwf f (by simp)) W Y r F0 hF0 hW haw h
    simpa [path_text, path_size, Nat.add_assoc] using this
  | f :: g :: p, hwf, haw => by
    have ih := fails_in_path L W Y r F0 hF0 hW h (g :: p)
      (fun x hx => hwf x (by simp [hx])) haw
    obtain ⟨c, tl, e, hc⟩ := g.text_head (path_text p ++ W)
    have e' : path_text (g :: p) ++ W = c :: tl := by
      simpa [path_text, List.append_assoc] using e
    have hsk : skip (path_text (g :: p) ++ W) = path_text (g :: p) ++ W := by
      rw [e']; exact skip_not_space (by simp only [peek, List.headD_cons]; omega)
    have haw' : f.awaits (path_text (g :: p) ++ W) := by
      cases f with
      | in_array t =>
        cases t with
        | nil =>
          show peek (path_text (g :: p) ++ W) ≠ 93
          rw [e']; simp only [peek, List.headD_cons]; omega
        | node _ _ _ _ => trivial
      | in_object t k => trivial
    have := fails_enclosed L f (hwf f (by simp)) _ _ r (F0 + path_size (g :: p)) (by omega) hsk
      haw' ih
    have e1 : F0 + path_size (g :: p) + f.size + 1 = F0 + path_size (f :: g :: p) := by
      simp only [path_size]; omega
    have e2 : f.text ++ (path_text (g :: p) ++ W) = path_text (f :: g :: p) ++ W := by
      simp [path_text, List.append_assoc]
    rw [e1, e2] at this
    exact this

theorem before_text_size (obj : Bool) (t : JTree) (h : t.wf obj) :
    t.size ≤ (before_text obj t).length := by
  cases t with
  | nil => simp [JTree.size]
  | node k kind c n =>
    have := chain_text_size (JTree.node k kind c n) obj h
    simp only [before_text, List.length_append, List.length_singleton]
    omega

theorem path_size_le : ∀ path : List Enclosing, (∀ f ∈ path, f.wf) →
    path_size path ≤ (path_text path).length
  | [], _ => by simp [path_size]
  | f :: p, hwf => by
    have ih := path_size_le p (fun x hx => hwf x (by simp [hx]))
    have hf := hwf f (by simp)
    have : f.size + 1 ≤ f.text.length := by
      cases f with
      | in_array t =>
        have := before_text_size false t hf
        simp only [Enclosing.size, Enclosing.text, List.length_cons]; omega
      | in_object t k =>
        have := before_text_size true t hf.1
        simp only [Enclosing.size, Enclosing.text, List.length_cons, List.length_append]; omega
    simp only [path_size, path_text, List.length_append]
    omega

theorem path_text_head : ∀ (path : List Enclosing) (R : Bytes), path ≠ [] →
    ∃ c tl, path_text path ++ R = c :: tl ∧ (c = 91 ∨ c = 123)
  | [], _, h => absurd rfl h
  | f :: p, R, _ => by
    obtain ⟨c, tl, e, hc⟩ := f.text_head (path_text p ++ R)
    exact ⟨c, tl, by simpa [path_text, List.append_assoc] using e, hc⟩

theorem awaits_value_ne_nil {path : List Enclosing} {Y : Bytes} (h : awaits_value path Y) :
    path ≠ [] := by
  rintro rfl; simp [awaits_value] at h

/-- Where no value begins, `parse_value` of the arena variant fails and records the
position. -/
theorem Arena.fails_no_value (X : Bytes) (hX : BeginsNoValue X) :
    FailsAt Arena.parse_value 1 X (some X) := by
  intro F hF s item _ _ _
  obtain ⟨F, rfl⟩ : ∃ n, F = n + 1 := ⟨F - 1, by omega⟩
  obtain ⟨_, h34, h123, h91, h45, hd, hn, hf, ht⟩ := hX
  rw [Arena.parse_value]
  rw [if_neg h34, if_neg h123, if_neg (by rintro (h | h); exact h45 h; exact hd h), if_neg h91]
  simp only [hn, hf, ht, Bool.false_eq_true, if_false]

/-- The same in `src/cJSON.c`. -/
theorem PerValue.heap_fails_no_value (X : Bytes) (hX : BeginsNoValue X) :
    FailsAt PerValue.parse_value 1 X (some X) := by
  intro F hF s item _ _ _
  obtain ⟨F, rfl⟩ : ∃ n, F = n + 1 := ⟨F - 1, by omega⟩
  obtain ⟨_, h34, h123, h91, h45, hd, hn, hf, ht⟩ := hX
  rw [PerValue.parse_value]
  rw [if_neg h34, if_neg h123, if_neg (by rintro (h | h); exact h45 h; exact hd h), if_neg h91]
  simp only [hn, hf, ht, Bool.false_eq_true, if_false]

/-- In the arena variant a failure of `parse_value` inside containers is the outcome of
`cJSON_Parse`. -/
theorem Arena.parse_fails_in_path (libc : Libc) (m : Mem) (path : List Enclosing)
    (W Y : Bytes) (r : Option Bytes) (hm : 0 < m.brk) (hwf : ∀ f ∈ path, f.wf)
    (hW : skip W = Y) (haw : awaits_value path Y) (h : FailsAt Arena.parse_value 1 Y r) :
    Arena.cJSON_Parse libc m (path_text path ++ W) = PResult.fail r := by
  have hF := fails_in_path Arena.arena_laws W Y r 1 (le_refl _) hW h path hwf haw
  have hsz := path_size_le path hwf
  obtain ⟨c, tl, e, hc⟩ := path_text_head path W (awaits_value_ne_nil haw)
  have hlen : (path_text path).length ≤ (path_text path ++ W).length := by simp
  have hsk : skip (path_text path ++ W) = path_text path ++ W := by
    rw [e]; exact skip_not_space (by simp only [peek, List.headD_cons]; omega)
  have hbrk : m.brk ≠ m.brk + 1 := by omega
  have hv := hF ((path_text path ++ W).length + 1 + 1) (by omega)
    { mem := (cJSON_New_Item m).1,
      aux := Arena.cJSON_Buf_Init libc (strlen (path_text path ++ W)) 0 } m.brk hm
    (by show m.brk < m.brk + 1; omega)
    (by simp [cJSON_New_Item, cJSON.zeroed])
  have hroot : Arena.parse_root ((path_text path ++ W).length + 1)
      { mem := (cJSON_New_Item m).1,
        aux := Arena.cJSON_Buf_Init libc (strlen (path_text path ++ W)) 0 } m.brk
      (path_text path ++ W) = PResult.fail r := by
    rw [← hv]
    rcases hc with hc | hc
    · have hp : peek (path_text path ++ W) = 91 := by rw [e, hc]; rfl
      rw [Arena.arena_laws.array _ _ _ _ hp]
      unfold Arena.parse_root
      rw [if_neg (by rw [hp]; decide), if_pos hp]
    · have hp : peek (path_text path ++ W) = 123 := by rw [e, hc]; rfl
      rw [Arena.arena_laws.object _ _ _ _ hp]
      unfold Arena.parse_root
      rw [if_pos hp]
  unfold Arena.cJSON_Parse Arena.cJSON_Parse_fuel
  rw [hsk]
  show (match Arena.parse_root ((path_text path ++ W).length + 1)
      { mem := (cJSON_New_Item m).1,
        aux := Arena.cJSON_Buf_Init libc (strlen (path_text path ++ W)) 0 } m.brk
      (path_text path ++ W) with
    | PResult.ok (s, _) => PResult.ok (s.mem, m.brk, s.aux)
    | PResult.fail ep => PResult.fail ep
    | PResult.stuck => PResult.stuck) = _
  rw [hroot]

/-! ## Integers in print, strings at a value position -/

/-- Printing a number node that holds an integer of the `int` range, in either mode. -/
theorem print_json_integer (libc : Libc) (m : Mem) (root : Nat) (n : Int) (fmt : Bool)
    (padding estimate : Int) (fuel : Nat) (hroot : root ≠ 0)
    (hty : (m.node root).type % 256 = cJSON_Number)
    (hd : (m.node root).valuedouble = Double.fin n 0) (hi : (m.node root).valueint = n)
    (h1 : INT_MIN ≤ n) (h2 : n ≤ INT_MAX) (hpad : 0 ≤ padding) (hfuel : 1 ≤ fuel) :
    ∃ b, PerValue.print_json libc fuel m root fmt padding estimate = some b ∧
      b.text padding = sprintf_d n := by
  obtain ⟨fuel, rfl⟩ : ∃ k, fuel = k + 1 := ⟨fuel - 1, by omega⟩
  let b0 := PerValue.cJSON_Buf_Init libc (if estimate < 256 then 256 else estimate) padding
  have hb0 : BufOK b0 := by
    constructor
    · show 1 ≤ (if estimate < 256 then 256 else estimate) + padding
      split_ifs <;> omega
    · exact hpad
  obtain ⟨b1, hb1, e1⟩ := print_number_spec libc (m.node root) n b0 hb0 hd hi h1 h2
  obtain ⟨b2, h2', e2⟩ := Copy_Char_ok b1 0 e1.1
  have hv : PerValue.print_value libc m fmt (fuel + 1) root 0
      (PerValue.cJSON_Buf_Init libc (if estimate < 256 then 256 else estimate) padding) =
      some b1 := by
    have hb1' : PerValue.print_number libc (m.node root)
      (PerValue.cJSON_Buf_Init libc (if estimate < 256 then 256 else estimate) padding) =
      some b1 := hb1
    simp [PerValue.print_value, hroot, hty, hb1', cJSON_NULL, cJSON_False, cJSON_True,
      cJSON_Number]
  refine ⟨b2, ?_, ?_⟩
  · simp only [PerValue.print_json]
    rw [hv]
    simpa using h2'
  · have hw := (e1.trans e2).2
    refine text_of_written b2 padding b0.written (sprintf_d n) hpad e2.1.2 hw ?_
      (sprintf_d_nonzero n)
    show (cJSON_Buf.slice _ 0 _).length = _
    rw [slice_length]; rfl

/-- The text `sprintf` makes of an `int` with `%d` is its decimal representation: a `-`
for a negative number, then the digits of the absolute value without leading zero. -/
theorem sprintf_d_decimal (n : Int) :
    ∃ ds, sprintf_d n = (if n < 0 then [45] else []) ++ ds ∧ IsDigits ds ∧
      digits_value ds 0 = n.natAbs ∧ (if n = 0 then ds = [48] else 49 ≤ peek ds) := by
  obtain ⟨ds, h1, h2, h3, h4⟩ := sprintf_d_nat n.natAbs
  have hne : ds ≠ [] := by
    by_cases h0 : n.natAbs = 0
    · rw [if_pos h0] at h4; rw [h4]; simp
    · rw [if_neg h0] at h4
      intro e; rw [e] at h4; simp [peek] at h4
  refine ⟨ds, ?_, ⟨hne, h2⟩, h3, ?_⟩
  · unfold sprintf_d
    by_cases hn : n < 0
    · simp [hn, h1]
    · simp [hn, h1]
  · by_cases h0 : n = 0
    · subst h0; simpa using h4
    · have : n.natAbs ≠ 0 := by simpa using h0
      rw [if_neg this] at h4
      rw [if_neg h0]; exact h4.1

theorem awaits_of_ne_nil : ∀ (path : List Enclosing) (Y : Bytes), path ≠ [] → peek Y ≠ 93 →
    awaits_value path Y
  | [], _, h, _ => absurd rfl h
  | [f], Y, _, h93 => by
    show f.awaits Y
    cases f with
    | in_array t =>
      cases t with
      | nil => exact h93
      | node _ _ _ _ => trivial
    | in_object t k => trivial
  | _ :: g :: p, Y, _, h93 => awaits_of_ne_nil (g :: p) Y (by simp) h93

/-- Where `parse_string` of the arena variant fails on a literal, so does `parse_value`. -/
theorem Arena.fails_string (lit : Bytes) (r : Option Bytes)
    (h : ∀ (st : PState cJSON_Buf) (item : Nat),
      Arena.parse_string st item (34 :: lit) = PResult.fail r) :
    FailsAt Arena.parse_value 1 (34 :: lit) r := by
  intro F hF s item _ _ _
  obtain ⟨F, rfl⟩ : ∃ n, F = n + 1 := ⟨F - 1, by omega⟩
  rw [Arena.parse_value, if_pos (show peek (34 :: lit) = 34 from rfl)]
  exact h s item

/-- In the arena variant a string literal that fails at a place where a value is
expected makes `cJSON_Parse` fail with the outcome of `parse_string`. -/
theorem Arena.parse_fails_at_string (libc : Libc) (m : Mem) (path : List Enclosing)
    (ws lit : Bytes) (r : Option Bytes) (hm : 0 < m.brk) (hwf : ∀ f ∈ path, f.wf)
    (hws : IsSpace ws) (hp : path ≠ [])
    (h : ∀ (st : PState cJSON_Buf) (item : Nat),
      Arena.parse_string st item (34 :: lit) = PResult.fail r) :
    Arena.cJSON_Parse libc m (path_text path ++ (ws ++ 34 :: lit)) = PResult.fail r := by
  have hsk : skip (ws ++ 34 :: lit) = 34 :: lit := by
    rw [skip_space_append ws _ hws]; exact skip_not_space (by simp [peek])
  exact Arena.parse_fails_in_path libc m path (ws ++ 34 :: lit) (34 :: lit) r hm hwf hsk
    (awaits_of_ne_nil path _ hp (by simp [peek])) (Arena.fails_string lit r h)

/-- `cJSON_Parse` of `src/cJSON.c` on a text that is one string literal, closed or not. -/
theorem PerValue.parse_root_string (m : Mem) (lit : Bytes) (m1 : Mem) (rest : Bytes)
    (h : PerValue.parse_string (cJSON_New_Item m).1 m.brk (34 :: lit) = PResult.ok (m1, rest)) :
    PerValue.cJSON_Parse m (34 :: lit) = PResult.ok (m1, m.brk) := by
  have hsk : skip (34 :: lit) = 34 :: lit := skip_not_space (by simp [peek])
  unfold PerValue.cJSON_Parse PerValue.cJSON_Parse_fuel
  rw [hsk]
  show (match PerValue.parse_value ((34 :: lit).length + 1)
      { mem := (cJSON_New_Item m).1, aux := () } m.brk (34 :: lit) with
    | PResult.ok (s, _) => PResult.ok (s.mem, m.brk)
    | PResult.fail ep => PResult.fail ep
    | PResult.stuck => PResult.stuck) = _
  rw [PerValue.parse_value, if_pos (show peek (34 :: lit) = 34 from rfl)]
  simp only [PerValue.string_production, h]

theorem grow_size_least (offset len : Int) : ∀ (fuel : Nat) (ns : Int), 1 ≤ ns →
    offset + len < ns * 2 ^ fuel →
    ∃ k, grow_size offset len (fuel + 1) ns = some (ns * 2 ^ k) ∧ ns * 2 ^ k - offset > len ∧
      ∀ j, j < k → ns * 2 ^ j - offset ≤ len
  | 0, ns, _, h => by
    have h0 : offset + len < ns := by simpa using h
    refine ⟨0, ?_, by rw [pow_zero, mul_one]; omega, fun j hj => by omega⟩
    simp only [grow_size, pow_zero, mul_one]
    rw [if_neg (by omega)]
  | fuel + 1, ns, h1, h => by
    by_cases hc : ns - offset ≤ len
    · obtain ⟨k, hk, hk1, hk2⟩ := grow_size_least offset len fuel (ns * 2) (by omega)
        (by rw [pow_succ] at h; linarith)
      refine ⟨k + 1, ?_, ?_, ?_⟩
      · rw [grow_size, if_pos hc, hk, pow_succ]; congr 1; ring
      · rw [pow_succ]; have : ns * (2 ^ k * 2) = ns * 2 * 2 ^ k := by ring
        rw [this]; exact hk1
      · intro j hj
        cases j with
        | zero => simpa using hc
        | succ j =>
          have := hk2 j (by omega)
          rw [pow_succ]; have e : ns * (2 ^ j * 2) = ns * 2 * 2 ^ j := by ring
          rw [e]; exact this
    · refine ⟨0, by rw [grow_size, if_neg hc]; simp, by rw [pow_zero, mul_one]; omega,
        fun j hj => by omega⟩

/-- What `cJSON_Buf_Check` does on an allocated buffer: the bytes and the cursor stay,
and the capacity is the old one if it leaves more than `n` bytes of room, and else the
old one doubled the least number of times that does. -/
theorem Buf_Check_grows (b : cJSON_Buf) (n : Int) (h1 : 1 ≤ b.len) :
    ∃ b1, cJSON_Buf_Check b n = some b1 ∧ b1.buf = b.buf ∧ b1.offset = b.offset ∧
      b1.len - b1.offset > n ∧
      (b.len - b.offset > n → b1.len = b.len) ∧
      (¬ b.len - b.offset > n → ∃ k, 1 ≤ k ∧ b1.len = b.len * 2 ^ k ∧
        ∀ j, 1 ≤ j → j < k → b.len * 2 ^ j - b.offset ≤ n) := by
  unfold cJSON_Buf_Check cJSON_Buf_Check_fuel
  by_cases h : b.len - b.offset > n
  · exact ⟨b, by rw [if_pos h], rfl, rfl, h, fun _ => rfl, fun hc => absurd h hc⟩
  · rw [if_neg h]
    have hpow : ((b.offset + n).toNat : Int) < 2 ^ ((b.offset + n).toNat + 1) := by
      exact_mod_cast Nat.lt_of_lt_of_le (Nat.lt_two_pow _)
        (Nat.pow_le_pow_right (by decide) (Nat.le_succ _))
    obtain ⟨k, hk, hk1, hk2⟩ := grow_size_least b.offset n ((b.offset + n).toNat + 1) (b.len * 2)
      (by omega)
      (by
        have h0 : b.offset + n = ((b.offset + n).toNat : Int) := by omega
        have h2 : (2 : Int) ^ ((b.offset + n).toNat + 1) ≤
            b.len * 2 * 2 ^ ((b.offset + n).toNat + 1) := by
          have : (0 : Int) < 2 ^ ((b.offset + n).toNat + 1) := by positivity
          nlinarith
        omega)
    have e : b.len * 2 * 2 ^ k = b.len * 2 ^ (k + 1) := by rw [pow_succ]; ring
    refine ⟨{ b with len := b.len * 2 * 2 ^ k }, by rw [hk], rfl, rfl, hk1, fun hc => absurd hc h,
      fun _ => ⟨k + 1, by omega, e, ?_⟩⟩
    intro j hj1 hj2
    obtain ⟨j, rfl⟩ : ∃ i, j = i + 1 := ⟨j - 1, by omega⟩
    have := hk2 j (by omega)
    rw [pow_succ]
    have e2 : b.len * (2 ^ j * 2) = b.len * 2 * 2 ^ j := by ring
    rw [e2]; exact this

/-- One append keeps the capacity invariant and stores below the capacity. -/
theorem append_keeps_invariant (op : BufOp) (b : cJSON_Buf) (h1 : 1 ≤ b.len)
    (h2 : 0 ≤ b.offset) :
    ∃ b1, op.apply b = some b1 ∧ 1 ≤ b1.len ∧ 0 ≤ b1.offset ∧ b1.offset < b1.len ∧
      b.offset ≤ op.last_index b ∧ op.last_index b < b1.len := by
  cases op with
  | copy_str s =>
    obtain ⟨c, hc, _, hoff, hroom, _, _⟩ := Buf_Check_grows b s.length h1
    refine ⟨{ cJSON_Buf.pokes (s ++ [0]) c c.offset with offset := c.offset + s.length },
      by simp only [BufOp.apply, cJSON_Buf_Copy_Str, hc], ?_, ?_, ?_, ?_, ?_⟩
    · show 1 ≤ (cJSON_Buf.pokes (s ++ [0]) c c.offset).len
      rw [(pokes_len _ _ _).1]; omega
    · show 0 ≤ c.offset + (s.length : Int); omega
    · show c.offset + (s.length : Int) < (cJSON_Buf.pokes (s ++ [0]) c c.offset).len
      rw [(pokes_len _ _ _).1]; omega
    · show b.offset ≤ b.offset + (s.length : Int); omega
    · show b.offset + (s.length : Int) < (cJSON_Buf.pokes (s ++ [0]) c c.offset).len
      rw [(pokes_len _ _ _).1]; omega
  | copy_char ch =>
    obtain ⟨c, hc, _, hoff, hroom, _, _⟩ := Buf_Check_grows b 1 h1
    refine ⟨{ c.poke c.offset ch with offset := c.offset + 1 },
      by simp only [BufOp.apply, cJSON_Buf_Copy_Char, hc], ?_, ?_, ?_, ?_, ?_⟩
    · show 1 ≤ c.len; omega
    · show 0 ≤ c.offset + 1; omega
    · show c.offset + 1 < c.len; omega
    · exact le_refl _
    · show b.offset < c.len; omega

theorem run_appends_invariant : ∀ (ops : List BufOp) (b : cJSON_Buf), 1 ≤ b.len →
    0 ≤ b.offset → b.offset ≤ b.len →
    ∃ b1, run_appends ops b = some b1 ∧ 1 ≤ b1.len ∧ 0 ≤ b1.offset ∧ b1.offset ≤ b1.len
  | [], b, h1, h2, h3 => ⟨b, rfl, h1, h2, h3⟩
  | op :: ops, b, h1, h2, _ => by
    obtain ⟨b1, e1, g1, g2, g3, _, _⟩ := append_keeps_invariant op b h1 h2
    obtain ⟨b2, e2, k⟩ := run_appends_invariant ops b1 g1 g2 (by omega)
    exact ⟨b2, by simp only [run_appends, e1, Option.some_bind, e2], k⟩

theorem written_length (b : cJSON_Buf) : b.written.length = b.offset.toNat := by
  simp [cJSON_Buf.written, cJSON_Buf.slice]

theorem run_copy_str_emits : ∀ (strs : List Bytes) (b : cJSON_Buf), BufOK b →
    ∃ b1, run_appends (strs.map BufOp.copy_str) b = some b1 ∧ Emits b strs.flatten b1
  | [], b, hb => ⟨b, rfl, Emits.refl b hb⟩
  | s :: strs, b, hb => by
    obtain ⟨b1, e1, k1⟩ := Copy_Str_ok b s hb
    obtain ⟨b2, e2, k2⟩ := run_copy_str_emits strs b1 k1.1
    refine ⟨b2, by simp only [List.map_cons, run_appends, BufOp.apply, e1, Option.some_bind, e2], ?_⟩
    have := k1.trans k2
    simpa using this

/-- An append with `cJSON_Buf_Copy_Str` leaves a capacity that is not smaller and that
exceeds the index of the terminating NUL it stored. -/
theorem copy_str_capacity (b : cJSON_Buf) (s : Bytes) (h1 : 1 ≤ b.len) :
    ∃ b1, cJSON_Buf_Copy_Str b s = some b1 ∧ b.len ≤ b1.len ∧ b.offset + s.length < b1.len := by
  obtain ⟨c, hc, _, hoff, hroom, hkeep, hgrow⟩ := Buf_Check_grows b s.length h1
  have hlen : b.len ≤ c.len := by
    by_cases h : b.len - b.offset > s.length
    · rw [hkeep h]
    · obtain ⟨k, _, e, _⟩ := hgrow h
      rw [e]
      have : (1 : Int) ≤ 2 ^ k := one_le_pow₀ (by norm_num)
      nlinarith
  refine ⟨{ cJSON_Buf.pokes (s ++ [0]) c c.offset with offset := c.offset + s.length },
    by simp only [cJSON_Buf_Copy_Str, hc], ?_, ?_⟩
  · show b.len ≤ (cJSON_Buf.pokes (s ++ [0]) c c.offset).len
    rw [(pokes_len _ _ _).1]; exact hlen
  · show b.offset + (s.length : Int) < (cJSON_Buf.pokes (s ++ [0]) c c.offset).len
    rw [(pokes_len _ _ _).1]; omega

/-- A sequence of appends with `cJSON_Buf_Copy_Str` never shrinks the capacity, and
after a non-empty sequence the cursor lies below it. -/
theorem run_copy_str_capacity : ∀ (strs : List Bytes) (b : cJSON_Buf), 1 ≤ b.len →
    0 ≤ b.offset →
    ∃ b1, run_appends (strs.map BufOp.copy_str) b = some b1 ∧ b.len ≤ b1.len ∧
      (strs ≠ [] → b1.offset < b1.len)
  | [], b, _, _ => ⟨b, rfl, Int.le_refl _, fun h => absurd rfl h⟩
  | s :: strs, b, h1, h2 => by
    obtain ⟨b1, e1, g1, g2, g3, _, _⟩ := append_keeps_invariant (BufOp.copy_str s) b h1 h2
    obtain ⟨b1', e1', k1, _⟩ := copy_str_capacity b s h1
    have hb : b1' = b1 := by
      have : cJSON_Buf_Copy_Str b s = some b1 := e1
      rw [this] at e1'; exact (Option.some.inj e1').symm
    subst hb
    obtain ⟨b2, e2, k2, k3⟩ := run_copy_str_capacity strs b1' g1 g2
    refine ⟨b2, by simp only [List.map_cons, run_appends, e1, Option.some_bind, e2],
      by omega, fun _ => ?_⟩
    cases strs with
    | nil =>
      have : b2 = b1' := by simpa [run_appends] using e2.symm
      rw [this]; exact g3
    | cons t ts => exact k3 (by simp)

theorem escape_byte_as_specified (c : Nat) (hc : c < 256) :
    escape_byte c = escape_as_specified c := by
  unfold escape_byte escape_as_specified
  by_cases h : c > 31 ∧ c ≠ 34 ∧ c ≠ 92
  · rw [if_pos h, if_neg h.2.1, if_neg h.2.2, if_neg (by omega), if_neg (by omega),
      if_neg (by omega), if_neg (by omega), if_neg (by omega), if_neg (by omega)]
  · rw [if_neg h]
    by_cases h92 : c = 92
    · subst h92; rfl
    by_cases h34 : c = 34
    · subst h34; rfl
    rw [if_neg h92, if_neg h34, if_neg h34, if_neg h92]
    have hlt : c < 32 := by omega
    split_ifs
    · rfl
    · rfl
    · rfl
    · rfl
    · rfl
    · simp only [sprintf_u04x]
      have e1 : c / 4096 % 16 = 0 := by omega
      have e2 : c / 256 % 16 = 0 := by omega
      have e3 : c / 16 % 16 = c / 16 := by omega
      rw [e1, e2, e3]
      rfl

theorem escape_as_flatMap : ∀ (s : Bytes), IsCStr s → escape s = s.flatMap escape_as_specified
  | [], _ => rfl
  | c :: s, h => by
    rw [escape, List.flatMap_cons, escape_byte_as_specified c (h c (by simp)).2,
      escape_as_flatMap s (fun x hx => h x (by simp [hx]))]

theorem digits_while_suffix : ∀ (num : Bytes) (n : Int), (digits_while num n).1 <:+ num
  | [], _ => List.suffix_refl _
  | c :: num, n => by
    rw [digits_while]
    split_ifs
    · exact (digits_while_suffix num _).trans (List.suffix_cons c num)
    · exact List.suffix_refl _

theorem scan_fraction_agree (num : Bytes) (sign n : Int)
    (h : peek num = 46 → is_digit (peek num.tail) = true) :
    scan_fraction false num sign n = scan_fraction true num sign n := by
  unfold scan_fraction
  by_cases hp : peek num = 46
  · rw [if_pos ⟨hp, Or.inl rfl⟩, if_pos ⟨hp, Or.inr (h hp)⟩]
  · rw [if_neg (fun hc => hp hc.1), if_neg (fun hc => hp hc.1)]

theorem guarded_suffix {num X : Bytes} (hg : PointsBeforeDigits num) (hX : X <:+ num) :
    peek X = 46 → is_digit (peek X.tail) = true := by
  intro hp
  obtain ⟨pre, rfl⟩ := hX
  cases X with
  | nil => simp [peek] at hp
  | cons c tl =>
    have : c = 46 := by simpa [peek] using hp
    subst this
    exact hg pre tl rfl

theorem scan_integer_agree (num X : Bytes) (sign : Int) (hg : PointsBeforeDigits num)
    (hX : X <:+ num) : scan_integer false X sign = scan_integer true X sign := by
  unfold scan_integer
  have h1 : (if peek X = 48 then X.tail else X) <:+ num := by
    split_ifs
    · exact (List.tail_suffix X).trans hX
    · exact hX
  by_cases hd : 49 ≤ peek (if peek X = 48 then X.tail else X) ∧
      peek (if peek X = 48 then X.tail else X) ≤ 57
  · simp only [if_pos hd]
    apply scan_fraction_agree
    apply guarded_suffix hg
    unfold digits_do
    exact ((digits_while_suffix _ _).trans (List.tail_suffix _)).trans h1
  · simp only [if_neg hd]
    exact scan_fraction_agree _ _ _ (guarded_suffix hg h1)

/-- The two scans agree on a text in which every point is followed by a digit. -/
theorem scan_number_agree (num : Bytes) (hg : PointsBeforeDigits num) :
    scan_number false num = scan_number true num := by
  unfold scan_number
  split_ifs
  · exact scan_integer_agree num _ _ hg (List.tail_suffix num)
  · exact scan_integer_agree num _ _ hg (List.suffix_refl num)

theorem skip_splits : ∀ value : Bytes, ∃ ws, IsSpace ws ∧ value = ws ++ skip value
  | [] => ⟨[], by intro c hc; simp at hc, rfl⟩
  | c :: s => by
    by_cases h : c ≠ 0 ∧ c ≤ 32
    · obtain ⟨ws, hws, e⟩ := skip_splits s
      refine ⟨c :: ws, ?_, ?_⟩
      · intro x hx
        rcases List.mem_cons.1 hx with rfl | hx
        · exact ⟨by omega, h.2⟩
        · exact hws x hx
      · rw [skip, if_pos h, List.cons_append, ← e]
    · exact ⟨[], by intro x hx; simp at hx, by rw [skip, if_neg h]; rfl⟩

theorem print_tabs_emits (fmt : Bool) : ∀ (d : Nat) (b : cJSON_Buf), BufOK b →
    ∃ b1, print_tabs fmt d b = some b1 ∧ Emits b (if fmt then List.replicate d 9 else []) b1
  | 0, b, hb => ⟨b, rfl, by simpa using Emits.refl b hb⟩
  | d + 1, b, hb => by
    cases fmt with
    | false => exact ⟨b, by simp [print_tabs], by simpa using Emits.refl b hb⟩
    | true =>
      obtain ⟨b1, h1, e1⟩ := Copy_Char_ok b 9 hb
      obtain ⟨b2, h2, e2⟩ := print_tabs_emits true d b1 e1.1
      refine ⟨b2, by simp [print_tabs, h1, h2], ?_⟩
      have := e1.trans e2
      simpa [List.replicate_succ] using this

theorem copy_char_if_emits (fmt : Bool) (b : cJSON_Buf) (ch : Nat) (hb : BufOK b) :
    ∃ b1, copy_char_if fmt b ch = some b1 ∧ Emits b (if fmt then [ch] else []) b1 := by
  cases fmt with
  | false => exact ⟨b, rfl, by simpa using Emits.refl b hb⟩
  | true =>
    obtain ⟨b1, h1, e1⟩ := Copy_Char_ok b ch hb
    exact ⟨b1, by simp [copy_char_if, h1], by simpa using e1⟩

theorem Siblings.next_ne_zero {m : Mem} {c : Nat} {l : List Nat}
    (h : Siblings m (m.node c).next l) : (m.node c).next ≠ 0 ↔ l.isEmpty = false := by
  cases l with
  | nil => simp [Siblings] at h; simp [h]
  | cons d l => have := h.1; have := h.2.1; simp; omega

/-- The loop of `print_object` lays the members out one per line. -/
theorem print_object_loop_layout (pv : Nat → cJSON_Buf → Option cJSON_Buf) (m : Mem)
    (fmt : Bool) (tabs : Nat) (vt : Nat → Bytes) :
    ∀ (l : List Nat) (p lf : Nat) (b : cJSON_Buf), Siblings m p l → BufOK b →
      l.length + 1 ≤ lf → (∀ c ∈ l, (m.node c).string.isSome = true) →
      (∀ c ∈ l, ∀ b0, BufOK b0 → ∃ b1, pv c b0 = some b1 ∧ Emits b0 (vt c) b1) →
      ∃ b1, print_object_loop pv m fmt tabs lf p b = some b1 ∧
        Emits b (members_layout fmt tabs (l.map fun c => ((m.node c).key, vt c))) b1
  | [], p, lf, b, hs, hb, hlf, _, _ => by
    obtain ⟨lf, rfl⟩ : ∃ k, lf = k + 1 := ⟨lf - 1, by simp at hlf; omega⟩
    have hp : p = 0 := hs
    exact ⟨b, by simp [print_object_loop, hp], by simpa [members_layout] using Emits.refl b hb⟩
  | c :: l, p, lf, b, hs, hb, hlf, hk, hpv => by
    obtain ⟨lf, rfl⟩ : ∃ k, lf = k + 1 := ⟨lf - 1, by simp at hlf; omega⟩
    obtain ⟨hp, hc, hnext⟩ := hs
    subst hp
    obtain ⟨k, hkey⟩ := Option.isSome_iff_exists.1 (hk p (by simp))
    obtain ⟨b1, h1, e1⟩ := print_tabs_emits fmt tabs b hb
    obtain ⟨b2, h2, e2⟩ := print_string_ptr_spec k b1 e1.1
    obtain ⟨b3, h3, e3⟩ := Copy_Char_ok b2 58 e2.1
    obtain ⟨b4, h4, e4⟩ := copy_char_if_emits fmt b3 9 e3.1
    obtain ⟨b5, h5, e5⟩ := hpv p (by simp) b4 e4.1
    have hsep : ∃ b6, (if (m.node p).next ≠ 0 then cJSON_Buf_Copy_Char b5 44 else some b5) =
        some b6 ∧ Emits b5 (if l.isEmpty then [] else [44]) b6 := by
      by_cases hn : (m.node p).next ≠ 0
      · obtain ⟨b6, h6, e6⟩ := Copy_Char_ok b5 44 e5.1
        have := (Siblings.next_ne_zero hnext).1 hn
        exact ⟨b6, by rw [if_pos hn, h6], by simpa [this] using e6⟩
      · have : l.isEmpty = true := by
          by_contra hc2
          exact hn ((Siblings.next_ne_zero hnext).2 (by simpa using hc2))
        exact ⟨b5, by rw [if_neg hn], by simpa [this] using Emits.refl b5 e5.1⟩
    obtain ⟨b6, h6, e6⟩ := hsep
    obtain ⟨b7, h7, e7⟩ := copy_char_if_emits fmt b6 10 e6.1
    obtain ⟨b8, h8, e8⟩ := print_object_loop_layout pv m fmt tabs vt l (m.node p).next lf b7
      hnext e7.1 (by simp at hlf ⊢; omega) (fun c hc => hk c (by simp [hc]))
      (fun c hc => hpv c (by simp [hc]))
    refine ⟨b8, ?_, ?_⟩
    · simp only [print_object_loop, if_neg hc, h1, Option.some_bind, hkey, h2, h3, h4, h5, h6,
        h7, h8]
    · have := ((((((e1.trans e2).trans e3).trans e4).trans e5).trans e6).trans e7).trans e8
      simpa [members_layout, member_layout, cJSON.key, hkey, List.append_assoc] using this

/-- The loop of `print_array` separates the elements by a comma, and a space in pretty
mode. -/
theorem print_array_loop_layout (pv : Nat → cJSON_Buf → Option cJSON_Buf) (m : Mem)
    (fmt : Bool) (vt : Nat → Bytes) :
    ∀ (l : List Nat) (p lf : Nat) (b : cJSON_Buf), Siblings m p l → BufOK b →
      l.length + 1 ≤ lf →
      (∀ c ∈ l, ∀ b0, BufOK b0 → ∃ b1, pv c b0 = some b1 ∧ Emits b0 (vt c) b1) →
      ∃ b1, print_array_loop pv m fmt lf p b = some b1 ∧
        Emits b (elements_layout fmt (l.map vt)) b1
  | [], p, lf, b, hs, hb, hlf, _ => by
    obtain ⟨lf, rfl⟩ : ∃ k, lf = k + 1 := ⟨lf - 1, by simp at hlf; omega⟩
    have hp : p = 0 := hs
    exact ⟨b, by simp [print_array_loop, hp], by simpa [elements_layout] using Emits.refl b hb⟩
  | c :: l, p, lf, b, hs, hb, hlf, hpv => by
    obtain ⟨lf, rfl⟩ : ∃ k, lf = k + 1 := ⟨lf - 1, by simp at hlf; omega⟩
    obtain ⟨hp, hc, hnext⟩ := hs
    subst hp
    obtain ⟨b1, h1, e1⟩ := hpv p (by simp) b hb
    have hsep : ∃ b3, (if (m.node p).next ≠ 0 then
          (cJSON_Buf_Copy_Char b1 44).bind fun b2 => copy_char_if fmt b2 32
        else some b1) = some b3 ∧
        Emits b1 (if l.isEmpty then [] else 44 :: (if fmt then [32] else [])) b3 := by
      by_cases hn : (m.node p).next ≠ 0
      · obtain ⟨b2, h2, e2⟩ := Copy_Char_ok b1 44 e1.1
        obtain ⟨b3, h3, e3⟩ := copy_char_if_emits fmt b2 32 e2.1
        have := (Siblings.next_ne_zero hnext).1 hn
        exact ⟨b3, by rw [if_pos hn, h2]; exact h3, by simpa [this] using e2.trans e3⟩
      · have : l.isEmpty = true := by
          by_contra hc2
          exact hn ((Siblings.next_ne_zero hnext).2 (by simpa using hc2))
        exact ⟨b1, by rw [if_neg hn], by simpa [this] using Emits.refl b1 e1.1⟩
    obtain ⟨b3, h3, e3⟩ := hsep
    obtain ⟨b4, h4, e4⟩ := print_array_loop_layout pv m fmt vt l (m.node p).next lf b3
      hnext e3.1 (by simp at hlf ⊢; omega) (fun c hc => hpv c (by simp [hc]))
    refine ⟨b4, ?_, ?_⟩
    · simp only [print_array_loop, if_neg hc, h1, Option.some_bind, h3, h4]
    · have := (e1.trans e3).trans e4
      cases l with
      | nil =>
        have h0 : elements_layout fmt ([] : List Bytes) = [] := rfl
        simpa [elements_layout, h0] using this
      | cons d l => simpa [elements_layout, List.append_assoc] using this

/-- A number node of the arena variant whose value is an integer below `10^60` in
absolute value prints through the `%.0f` conversion. -/
theorem Arena.print_value_integral (libc : Libc) (m : Mem) (fmt : Bool) (F item depth : Nat)
    (n : Int) (b : cJSON_Buf) (hitem : item ≠ 0) (hb : BufOK b)
    (hty : (m.node item).type % 256 = cJSON_Number)
    (hd : (m.node item).valuedouble = Double.fin n 0) (hn : n.natAbs < 10 ^ 60) :
    ∃ b1, Arena.print_value libc m fmt (F + 1) item depth b = some b1 ∧
      Emits b (libc.sprintf_f0 (Double.fin n 0)) b1 := by
  obtain ⟨b1, h1, e1⟩ := Copy_Str_ok b (libc.sprintf_f0 (Double.fin n 0)) hb
  refine ⟨b1, ?_, e1⟩
  have hn1 : n.natAbs * 10 ^ (0 : Int).toNat < 10 ^ 60 := by simpa using hn
  have hnum : Arena.print_number libc (m.node item) b = some b1 := by
    unfold Arena.print_number
    simp only [hd, Double.mul_zero_ne_zero, Double.is_integral, Double.floor, Double.near_int,
      Double.abs_lt_1e60, le_refl, if_true, decide_True, Bool.and_self, sprintf_into, hn1]
    exact h1
  simp [Arena.print_value, hitem, hty, hnum, cJSON_NULL, cJSON_False, cJSON_True, cJSON_Number]

theorem spaced_wf_suffix (side : Bool) : ∀ {L l : List Spaced}, l <:+ L → spaced_wf side L →
    spaced_wf side l
  | [], l, h, _ => by
    have : l = [] := List.suffix_nil.1 h
    subst this; trivial
  | x :: L, l, h, hw => by
    rcases List.suffix_cons_iff.1 h with rfl | h
    · exact hw
    · exact spaced_wf_suffix side h hw.2.2

theorem number_text_head (t : NumberToken) (rest : Bytes) (ht : t.valid) :
    peek (t.text ++ rest) = 45 ∨ (48 ≤ peek (t.text ++ rest) ∧ peek (t.text ++ rest) ≤ 57) := by
  unfold NumberToken.text
  cases t.minus with
  | true => left; rfl
  | false =>
    right
    simp only [Bool.false_eq_true, if_false, List.nil_append, List.append_assoc]
    rcases ht.1 with h | h
    · rw [h]; simp [peek]
    · have := h.1.peek_append (t.tail_text ++ rest)
      rw [this.1]
      exact (is_digit_iff _).1 this.2

/-- The first byte of a well-formed token is no white space and no NUL. -/
theorem token_head (tok : Token) (rest R : Bytes) (h : tok.fits rest) :
    ∃ c tl, tok.text ++ R = c :: tl ∧ 32 < c := by
  cases tok with
  | punct c =>
    refine ⟨c, R, rfl, ?_⟩
    rcases h with h | h | h | h | h | h <;> omega
  | string s => exact ⟨34, escape s ++ [34] ++ R, by simp [Token.text, quote], by decide⟩
  | number t =>
    have hh := number_text_head t R h.1
    cases hx : t.text ++ R with
    | nil => rw [hx] at hh; simp [peek] at hh
    | cons c tl =>
      rw [hx] at hh
      refine ⟨c, tl, by simp [Token.text, hx], ?_⟩
      simp only [peek, List.headD_cons] at hh
      omega
  | lit_null => exact ⟨110, _, rfl, by decide⟩
  | lit_false => exact ⟨102, _, rfl, by decide⟩
  | lit_true => exact ⟨116, _, rfl, by decide⟩

theorem skip_spaced (side : Bool) : ∀ (L : List Spaced), spaced_wf side L →
    skip (spaced_text side L) = aligned_text side L
  | [], _ => rfl
  | x :: l, h => by
    rw [spaced_text, skip_space_append _ _ h.1, aligned_text]
    obtain ⟨c, tl, e, hc⟩ := token_head x.token _ (spaced_text side l) h.2.1
    rw [e]
    exact skip_not_space (by simp [peek]; omega)

theorem skip_aligned (side : Bool) : ∀ (L : List Spaced), spaced_wf side L →
    skip (aligned_text side L) = aligned_text side L
  | [], _ => rfl
  | x :: l, h => by
    rw [aligned_text]
    obtain ⟨c, tl, e, hc⟩ := token_head x.token _ (spaced_text side l) h.2.1
    rw [e]
    exact skip_not_space (by simp [peek]; omega)

theorem SameState.set_mem {s1 s2 : PState cJSON_Buf} (h : SameState s1 s2) (f : Mem → Mem) :
    SameState { s1 with mem := f s1.mem } { s2 with mem := f s2.mem } :=
  ⟨by show f s1.mem = f s2.mem; rw [h.1], h.2.1, h.2.2⟩

theorem pokes_buf_congr : ∀ (s : Bytes) (b1 b2 : cJSON_Buf) (i : Int), b1.buf = b2.buf →
    (cJSON_Buf.pokes s b1 i).buf = (cJSON_Buf.pokes s b2 i).buf
  | [], _, _, _, h => h
  | c :: s, b1, b2, i, h => by
    rw [cJSON_Buf.pokes, cJSON_Buf.pokes]
    apply pokes_buf_congr
    show (fun j : Nat => if (j : Int) = i then c else b1.buf j) =
      fun j : Nat => if (j : Int) = i then c else b2.buf j
    rw [h]

theorem Token.effect_same (tok : Token) {s1 s2 : PState cJSON_Buf} (h : SameState s1 s2)
    (item : Nat) : SameState (tok.effect s1 item) (tok.effect s2 item) := by
  cases tok with
  | punct c => exact h
  | string str =>
    refine ⟨?_, ?_, ?_⟩
    · show s1.mem.set item _ = s2.mem.set item _
      rw [h.1]
    · show (cJSON_Buf.pokes (str ++ [0]) s1.aux s1.aux.offset).buf =
        (cJSON_Buf.pokes (str ++ [0]) s2.aux s2.aux.offset).buf
      rw [h.2.2]
      exact pokes_buf_congr _ _ _ _ h.2.1
    · show s1.aux.offset + _ + 1 = s2.aux.offset + _ + 1
      rw [h.2.2]
  | number t => exact h.set_mem (fun m => m.set item { m.node item with
      valuedouble := t.value, type := cJSON_Number })
  | lit_null => exact h.set_mem (fun m => m.set item { m.node item with type := cJSON_NULL })
  | lit_false => exact h.set_mem (fun m => m.set item { m.node item with type := cJSON_False })
  | lit_true => exact h.set_mem (fun m => m.set item { m.node item with type := cJSON_True })

/-- The value production of the arena variant reads a scalar token and stops after it. -/
theorem Arena.parse_value_scalar (tok : Token) (R : Bytes) (h : tok.fits R)
    (hp : tok.is_punct = false) (F : Nat) (s : PState cJSON_Buf) (item : Nat) :
    Arena.parse_value (F + 1) s item (tok.text ++ R) = PResult.ok (tok.effect s item, R) := by
  cases tok with
  | punct c => simp [Token.is_punct] at hp
  | string str =>
    rw [Arena.parse_value, if_pos (by simp [Token.text, quote, peek])]
    exact Arena.arena_string_quote s item str R h
  | number t =>
    show Arena.parse_value (F + 1) s item (t.text ++ R) = _
    rw [Arena.parse_value_number F s item _ (number_text_head t R h.1)]
    have hs := scan_number_token true t R (h.1.scans h.2)
    simp only [Token.text, Arena.parse_number, hs, Scanned.value, Token.effect,
      NumberToken.value]
  | lit_null =>
    rw [Arena.parse_value]
    simp [Token.text, peek, starts_with, Token.effect]
  | lit_false =>
    rw [Arena.parse_value]
    simp [Token.text, peek, starts_with, Token.effect]
  | lit_true =>
    rw [Arena.parse_value]
    simp [Token.text, peek, starts_with, Token.effect]

/-- On a structural character other than `{` and `[` the value production fails there. -/
theorem Arena.parse_value_punct (c : Nat) (R : Bytes) (h : (Token.punct c).fits R)
    (h1 : c ≠ 123) (h2 : c ≠ 91) (F : Nat) (s : PState cJSON_Buf) (item : Nat) :
    Arena.parse_value (F + 1) s item (c :: R) = PResult.fail (some (c :: R)) := by
  have hc : c = 93 ∨ c = 125 ∨ c = 44 ∨ c = 58 := by
    rcases h with h | h | h | h | h | h <;> simp_all
  rw [Arena.parse_value]
  rcases hc with rfl | rfl | rfl | rfl <;> simp [peek, starts_with]

/-- The string production of the arena variant fails at a token that is no string. -/
theorem Arena.parse_string_not_string (tok : Token) (R : Bytes) (h : tok.fits R)
    (hns : ∀ str, tok ≠ Token.string str) (s : PState cJSON_Buf) (item : Nat) :
    Arena.parse_string s item (tok.text ++ R) = PResult.fail (some (tok.text ++ R)) := by
  cases tok with
  | string str => exact absurd rfl (hns str)
  | punct c =>
    have : c ≠ 34 := by rcases h with h | h | h | h | h | h <;> omega
    simp [Arena.parse_string, Token.text, peek, this]
  | number t =>
    have hh := number_text_head t R h.1
    have : peek (t.text ++ R) ≠ 34 := by omega
    simp only [Arena.parse_string, Token.text, if_pos this]
  | lit_null => simp [Arena.parse_string, Token.text, peek]
  | lit_false => simp [Arena.parse_string, Token.text, peek]
  | lit_true => simp [Arena.parse_string, Token.text, peek]

/-- The first byte of a token is a given structural character only if the token is
that character. -/
theorem token_peek_punct (tok : Token) (R : Bytes) (h : tok.fits R) (c : Nat)
    (hc : c = 91 ∨ c = 93 ∨ c = 123 ∨ c = 125 ∨ c = 44 ∨ c = 58) :
    peek (tok.text ++ R) = c ↔ tok = Token.punct c := by
  cases tok with
  | punct d => simp [Token.text, peek]
  | string str =>
    simp only [Token.text, quote, peek, List.cons_append, List.headD_cons]
    constructor
    · intro e; rcases hc with h | h | h | h | h | h <;> omega
    · intro e; cases e
  | number t =>
    have hh := number_text_head t R h.1
    simp only [Token.text]
    constructor
    · intro e; rcases hc with h | h | h | h | h | h <;> omega
    · intro e; cases e
  | lit_null =>
    simp only [Token.text, peek, List.cons_append, List.headD_cons]
    constructor
    · intro e; rcases hc with h | h | h | h | h | h <;> omega
    · intro e; cases e
  | lit_false =>
    simp only [Token.text, peek, List.cons_append, List.headD_cons]
    constructor
    · intro e; rcases hc with h | h | h | h | h | h <;> omega
    · intro e; cases e
  | lit_true =>
    simp only [Token.text, peek, List.cons_append, List.headD_cons]
    constructor
    · intro e; rcases hc with h | h | h | h | h | h <;> omega
    · intro e; cases e

theorem parse_array_loop_comma {σ : Type}
    (pv : PState σ → Nat → Bytes → PResult (PState σ × Bytes)) (lf : Nat) (s : PState σ)
    (child : Nat) (R : Bytes) :
    parse_array_loop pv (lf + 1) s child (44 :: R) =
      match pv { s with mem := link_fresh s.mem child } s.mem.brk (skip R) with
      | PResult.ok (s1, v1) => parse_array_loop pv lf s1 s.mem.brk (skip v1)
      | PResult.fail ep => PResult.fail ep
      | PResult.stuck => PResult.stuck := rfl

theorem parse_array_loop_other {σ : Type}
    (pv : PState σ → Nat → Bytes → PResult (PState σ × Bytes)) (lf : Nat) (s : PState σ)
    (child : Nat) (value : Bytes) (h : peek value ≠ 44) :
    parse_array_loop pv (lf + 1) s child value =
      if peek value = 93 then PResult.ok (s, value.tail) else PResult.fail (some value) := by
  rw [parse_array_loop, if_neg h]

theorem parse_object_loop_comma {σ : Type}
    (ps pv : PState σ → Nat → Bytes → PResult (PState σ × Bytes)) (lf : Nat) (s : PState σ)
    (child : Nat) (R : Bytes) :
    parse_object_loop ps pv (lf + 1) s child (44 :: R) =
      match parse_member ps pv { s with mem := link_fresh s.mem child } s.mem.brk R with
      | PResult.ok (s1, v1) => parse_object_loop ps pv lf s1 s.mem.brk v1
      | PResult.fail ep => PResult.fail ep
      | PResult.stuck => PResult.stuck := rfl

theorem parse_object_loop_other {σ : Type}
    (ps pv : PState σ → Nat → Bytes → PResult (PState σ × Bytes)) (lf : Nat) (s : PState σ)
    (child : Nat) (value : Bytes) (h : peek value ≠ 44) :
    parse_object_loop ps pv (lf + 1) s child value =
      if peek value = 125 then PResult.ok (s, value.tail) else PResult.fail (some value) := by
  rw [parse_object_loop, if_neg h]

theorem SameOutcome.mono {u : Bool} {l L : List Spaced}
    {r1 r2 : PResult (PState cJSON_Buf × Bytes)} (h : SameOutcome u l r1 r2) (hs : l <:+ L) :
    SameOutcome u L r1 r2 := by
  have hlen := hs.length_le
  rcases h with ⟨s1, s2, l', h1, h2, h3, h4, h5⟩ | ⟨l', h1, h2, h3⟩
  · exact Or.inl ⟨s1, s2, l', h1.trans hs, by omega, h3, h4, h5⟩
  · exact Or.inr ⟨l', h1.trans hs, h2, h3⟩

theorem SameState.brk {s1 s2 : PState cJSON_Buf} (h : SameState s1 s2) :
    s2.mem.brk = s1.mem.brk := by rw [h.1]

theorem peek_aligned_punct (side : Bool) (x : Spaced) (l : List Spaced)
    (h : spaced_wf side (x :: l)) (c : Nat)
    (hc : c = 91 ∨ c = 93 ∨ c = 123 ∨ c = 125 ∨ c = 44 ∨ c = 58) :
    peek (aligned_text side (x :: l)) = c ↔ x.token = Token.punct c :=
  token_peek_punct x.token _ h.2.1 c hc

theorem aligned_punct (side : Bool) (x : Spaced) (l : List Spaced) (c : Nat)
    (h : x.token = Token.punct c) :
    aligned_text side (x :: l) = c :: spaced_text side l := by
  rw [aligned_text, h]; rfl

/-- The loop of `parse_array` ends alike on the two texts. -/
theorem sim_array_loop
    (pv1 pv2 : PState cJSON_Buf → Nat → Bytes → PResult (PState cJSON_Buf × Bytes)) (n : Nat)
    (hsim : SimValue n pv1 pv2) :
    ∀ (k : Nat) (L : List Spaced), L.length ≤ k → L.length ≤ n + 1 → spaced_wf true L →
      spaced_wf false L → ∀ (lf1 lf2 : Nat), L.length + 1 ≤ lf1 → L.length + 1 ≤ lf2 →
      ∀ (s1 s2 : PState cJSON_Buf) (child : Nat), SameState s1 s2 →
        SameOutcome true L (parse_array_loop pv1 lf1 s1 child (aligned_text true L))
          (parse_array_loop pv2 lf2 s2 child (aligned_text false L)) := by
  intro k
  induction k with
  | zero =>
    intro L hk _ _ _ lf1 lf2 h1 h2 s1 s2 child _
    have hL : L = [] := List.length_eq_zero.1 (by omega)
    subst hL
    obtain ⟨lf1, rfl⟩ : ∃ j, lf1 = j + 1 := ⟨lf1 - 1, by omega⟩
    obtain ⟨lf2, rfl⟩ : ∃ j, lf2 = j + 1 := ⟨lf2 - 1, by omega⟩
    exact Or.inr ⟨[], List.suffix_refl _, rfl, rfl⟩
  | succ k ih =>
    intro L hk hn hw1 hw2 lf1 lf2 h1 h2 s1 s2 child hs
    obtain ⟨lf1, rfl⟩ : ∃ j, lf1 = j + 1 := ⟨lf1 - 1, by omega⟩
    obtain ⟨lf2, rfl⟩ : ∃ j, lf2 = j + 1 := ⟨lf2 - 1, by omega⟩
    cases L with
    | nil => exact Or.inr ⟨[], List.suffix_refl _, rfl, rfl⟩
    | cons x l =>
      simp only [List.length_cons] at hk hn h1 h2
      by_cases h44 : x.token = Token.punct 44
      · rw [aligned_punct true x l 44 h44, aligned_punct false x l 44 h44,
          parse_array_loop_comma, parse_array_loop_comma, skip_spaced true l hw1.2.2,
          skip_spaced false l hw2.2.2, hs.brk]
        have hst := hs.set_mem (fun m => link_fresh m child)
        rcases hsim l (by omega) hw1.2.2 hw2.2.2 _ _ s1.mem.brk hst with
          ⟨t1, t2, l', g1, g2, g3, g4, g5⟩ | ⟨l', g1, g2, g3⟩
        · rw [g4, g5]
          simp only [if_true]
          rw [skip_spaced true l' (spaced_wf_suffix true g1 hw1.2.2),
            skip_spaced false l' (spaced_wf_suffix false g1 hw2.2.2)]
          exact (ih l' (by omega) (by omega) (spaced_wf_suffix true g1 hw1.2.2)
            (spaced_wf_suffix false g1 hw2.2.2) lf1 lf2 (by omega) (by omega) t1 t2 _ g3).mono
            (g1.trans (List.suffix_cons x l))
        · rw [g2, g3]
          exact Or.inr ⟨l', g1.trans (List.suffix_cons x l), rfl, rfl⟩
      · have p1 : peek (aligned_text true (x :: l)) ≠ 44 := fun e =>
          h44 ((peek_aligned_punct true x l hw1 44 (by simp)).1 e)
        have p2 : peek (aligned_text false (x :: l)) ≠ 44 := fun e =>
          h44 ((peek_aligned_punct false x l hw2 44 (by simp)).1 e)
        rw [parse_array_loop_other _ _ _ _ _ p1, parse_array_loop_other _ _ _ _ _ p2]
        by_cases h93 : x.token = Token.punct 93
        · rw [if_pos ((peek_aligned_punct true x l hw1 93 (by simp)).2 h93),
            if_pos ((peek_aligned_punct false x l hw2 93 (by simp)).2 h93),
            aligned_punct true x l 93 h93, aligned_punct false x l 93 h93]
          exact Or.inl ⟨s1, s2, l, List.suffix_cons x l, by simp, hs, rfl, rfl⟩
        · rw [if_neg (fun e => h93 ((peek_aligned_punct true x l hw1 93 (by simp)).1 e)),
            if_neg (fun e => h93 ((peek_aligned_punct false x l hw2 93 (by simp)).1 e))]
          exact Or.inr ⟨x :: l, List.suffix_refl _, rfl, rfl⟩

theorem parse_member_string {σ : Type}
    (ps pv : PState σ → Nat → Bytes → PResult (PState σ × Bytes)) (s : PState σ) (child : Nat)
    (value : Bytes) (s1 : PState σ) (v1 : Bytes)
    (h : ps s child (skip value) = PResult.ok (s1, v1)) :
    parse_member ps pv s child value =
      if peek (skip v1) ≠ 58 then PResult.fail (some (skip v1))
      else
        match pv { s1 with mem := s1.mem.set child { s1.mem.node child with
            string := (s1.mem.node child).valuestring, valuestring := none } } child
            (skip (skip v1).tail) with
        | PResult.ok (s2, v3) => PResult.ok (s2, skip v3)
        | PResult.fail ep => PResult.fail ep
        | PResult.stuck => PResult.stuck := by
  simp only [parse_member, h]
  try rfl

theorem parse_member_fail {σ : Type}
    (ps pv : PState σ → Nat → Bytes → PResult (PState σ × Bytes)) (s : PState σ) (child : Nat)
    (value : Bytes) (ep : Option Bytes) (h : ps s child (skip value) = PResult.fail ep) :
    parse_member ps pv s child value = PResult.fail ep := by
  simp only [parse_member, h]

theorem parse_array_open {σ : Type}
    (pv : PState σ → Nat → Bytes → PResult (PState σ × Bytes)) (lf : Nat) (s : PState σ)
    (item : Nat) (R : Bytes) :
    parse_array pv lf s item (91 :: R) =
      if peek (skip R) = 93 then
        PResult.ok ({ s with mem := s.mem.set item { s.mem.node item with type := cJSON_Array } },
          (skip R).tail)
      else
        match pv { s with mem := hook_first s.mem item cJSON_Array } s.mem.brk
            (skip (skip R)) with
        | PResult.ok (s1, v2) => parse_array_loop pv lf s1 s.mem.brk (skip v2)
        | PResult.fail ep => PResult.fail ep
        | PResult.stuck => PResult.stuck := by
  simp only [parse_array, peek, List.headD_cons, ne_eq, not_true_eq_false, if_false,
    List.tail_cons]
  rfl

theorem parse_object_open {σ : Type}
    (ps pv : PState σ → Nat → Bytes → PResult (PState σ × Bytes)) (lf : Nat) (s : PState σ)
    (item : Nat) (R : Bytes) :
    parse_object ps pv lf s item (123 :: R) =
      if peek (skip R) = 125 then
        PResult.ok ({ s with mem := s.mem.set item { s.mem.node item with type := cJSON_Object } },
          (skip R).tail)
      else
        match parse_member ps pv { s with mem := hook_first s.mem item cJSON_Object } s.mem.brk
            (skip R) with
        | PResult.ok (s1, v2) => parse_object_loop ps pv lf s1 s.mem.brk v2
        | PResult.fail ep => PResult.fail ep
        | PResult.stuck => PResult.stuck := by
  simp only [parse_object, peek, List.headD_cons, ne_eq, not_true_eq_false, if_false,
    List.tail_cons]
  rfl

/-- One member of an object is read alike from the two texts. -/
theorem sim_member
    (pv1 pv2 : PState cJSON_Buf → Nat → Bytes → PResult (PState cJSON_Buf × Bytes)) (n : Nat)
    (hsim : SimValue n pv1 pv2) (L : List Spaced) (hn : L.length ≤ n + 2)
    (hw1 : spaced_wf true L) (hw2 : spaced_wf false L) (v1 v2 : Bytes)
    (hv1 : skip v1 = aligned_text true L) (hv2 : skip v2 = aligned_text false L)
    (s1 s2 : PState cJSON_Buf) (child : Nat) (hs : SameState s1 s2) :
    SameOutcome false L (parse_member Arena.parse_string pv1 s1 child v1)
      (parse_member Arena.parse_string pv2 s2 child v2) := by
  cases L with
  | nil =>
    rw [parse_member_fail _ _ _ _ _ (some []) (by rw [hv1]; rfl),
      parse_member_fail _ _ _ _ _ (some []) (by rw [hv2]; rfl)]
    exact Or.inr ⟨[], List.suffix_refl _, rfl, rfl⟩
  | cons x l =>
    have a1 : aligned_text true (x :: l) = x.token.text ++ spaced_text true l := rfl
    have a2 : aligned_text false (x :: l) = x.token.text ++ spaced_text false l := rfl
    by_cases hstr : ∃ str, x.token = Token.string str
    · obtain ⟨str, hx⟩ := hstr
      have hfit : IsCStr str := by
        have := hw1.2.1
        rw [hx] at this
        exact this
      have e1 : Arena.parse_string s1 child (skip v1) =
          PResult.ok (Arena.stored s1 child str, spaced_text true l) := by
        rw [hv1, a1, hx]
        exact Arena.arena_string_quote s1 child str _ hfit
      have e2 : Arena.parse_string s2 child (skip v2) =
          PResult.ok (Arena.stored s2 child str, spaced_text false l) := by
        rw [hv2, a2, hx]
        exact Arena.arena_string_quote s2 child str _ hfit
      rw [parse_member_string _ _ _ _ _ _ _ e1, parse_member_string _ _ _ _ _ _ _ e2,
        skip_spaced true l hw1.2.2, skip_spaced false l hw2.2.2]
      have hst := ((Token.string str).effect_same hs child).set_mem (fun m =>
        m.set child { m.node child with
          string := (m.node child).valuestring, valuestring := none })
      simp only [Token.effect] at hst
      cases l with
      | nil => exact Or.inr ⟨[], List.nil_suffix, rfl, rfl⟩
      | cons y l2 =>
        simp only [List.length_cons] at hn
        by_cases h58 : y.token = Token.punct 58
        · rw [if_neg (by simpa using (peek_aligned_punct true y l2 hw1.2.2 58 (by simp)).2 h58),
            if_neg (by simpa using (peek_aligned_punct false y l2 hw2.2.2 58 (by simp)).2 h58),
            aligned_punct true y l2 58 h58, aligned_punct false y l2 58 h58]
          simp only [List.tail_cons]
          rw [skip_spaced true l2 hw1.2.2.2.2, skip_spaced false l2 hw2.2.2.2.2]
          rcases hsim l2 (by omega) hw1.2.2.2.2 hw2.2.2.2.2 _ _ child hst with
            ⟨t1, t2, l', g1, g2, g3, g4, g5⟩ | ⟨l', g1, g2, g3⟩
          · simp only [if_true] at g4 g5
            rw [g4, g5]
            simp only []
            rw [skip_spaced true l' (spaced_wf_suffix true g1 hw1.2.2.2.2),
              skip_spaced false l' (spaced_wf_suffix false g1 hw2.2.2.2.2)]
            refine Or.inl ⟨t1, t2, l', ?_, ?_, g3, rfl, rfl⟩
            · exact g1.trans ((List.suffix_cons y l2).trans (List.suffix_cons x _))
            · have := g1.length_le
              simp only [List.length_cons]; omega
          · rw [g2, g3]
            exact Or.inr ⟨l', g1.trans ((List.suffix_cons y l2).trans (List.suffix_cons x _)),
              rfl, rfl⟩
        · rw [if_pos (fun e => h58 ((peek_aligned_punct true y l2 hw1.2.2 58 (by simp)).1 e)),
            if_pos (fun e => h58 ((peek_aligned_punct false y l2 hw2.2.2 58 (by simp)).1 e))]
          exact Or.inr ⟨y :: l2, List.suffix_cons x _, rfl, rfl⟩
    · have hns : ∀ str, x.token ≠ Token.string str := fun str e => hstr ⟨str, e⟩
      have e1 := Arena.parse_string_not_string x.token (spaced_text true l) hw1.2.1 hns s1 child
      have e2 := Arena.parse_string_not_string x.token (spaced_text false l) hw2.2.1 hns s2 child
      rw [← a1, ← hv1] at e1
      rw [← a2, ← hv2] at e2
      rw [parse_member_fail _ _ _ _ _ _ e1, parse_member_fail _ _ _ _ _ _ e2, hv1, hv2]
      exact Or.inr ⟨x :: l, List.suffix_refl _, rfl, rfl⟩

/-- The loop of `parse_object` ends alike on the two texts. -/
theorem sim_object_loop
    (pv1 pv2 : PState cJSON_Buf → Nat → Bytes → PResult (PState cJSON_Buf × Bytes)) (n : Nat)
    (hsim : SimValue n pv1 pv2) :
    ∀ (k : Nat) (L : List Spaced), L.length ≤ k → L.length ≤ n + 3 → spaced_wf true L →
      spaced_wf false L → ∀ (lf1 lf2 : Nat), L.length + 1 ≤ lf1 → L.length + 1 ≤ lf2 →
      ∀ (s1 s2 : PState cJSON_Buf) (child : Nat), SameState s1 s2 →
        SameOutcome true L
          (parse_object_loop Arena.parse_string pv1 lf1 s1 child (aligned_text true L))
          (parse_object_loop Arena.parse_string pv2 lf2 s2 child (aligned_text false L)) := by
  intro k
  induction k with
  | zero =>
    intro L hk _ _ _ lf1 lf2 h1 h2 s1 s2 child _
    have hL : L = [] := List.length_eq_zero.1 (by omega)
    subst hL
    obtain ⟨lf1, rfl⟩ : ∃ j, lf1 = j + 1 := ⟨lf1 - 1, by omega⟩
    obtain ⟨lf2, rfl⟩ : ∃ j, lf2 = j + 1 := ⟨lf2 - 1, by omega⟩
    exact Or.inr ⟨[], List.suffix_refl _, rfl, rfl⟩
  | succ k ih =>
    intro L hk hn hw1 hw2 lf1 lf2 h1 h2 s1 s2 child hs
    obtain ⟨lf1, rfl⟩ : ∃ j, lf1 = j + 1 := ⟨lf1 - 1, by omega⟩
    obtain ⟨lf2, rfl⟩ : ∃ j, lf2 = j + 1 := ⟨lf2 - 1, by omega⟩
    cases L with
    | nil => exact Or.inr ⟨[], List.suffix_refl _, rfl, rfl⟩
    | cons x l =>
      simp only [List.length_cons] at hk hn h1 h2
      by_cases h44 : x.token = Token.punct 44
      · rw [aligned_punct true x l 44 h44, aligned_punct false x l 44 h44,
          parse_object_loop_comma, parse_object_loop_comma, hs.brk]
        have hst := hs.set_mem (fun m => link_fresh m child)
        rcases sim_member pv1 pv2 n hsim l (by omega) hw1.2.2 hw2.2.2 _ _
            (skip_spaced true l hw1.2.2) (skip_spaced false l hw2.2.2) _ _ s1.mem.brk hst with
          ⟨t1, t2, l', g1, g2, g3, g4, g5⟩ | ⟨l', g1, g2, g3⟩
        · rw [g4, g5]
          simp only [Bool.false_eq_true, if_false]
          exact (ih l' (by omega) (by omega) (spaced_wf_suffix true g1 hw1.2.2)
            (spaced_wf_suffix false g1 hw2.2.2) lf1 lf2 (by omega) (by omega) t1 t2 _ g3).mono
            (g1.trans (List.suffix_cons x l))
        · rw [g2, g3]
          exact Or.inr ⟨l', g1.trans (List.suffix_cons x l), rfl, rfl⟩
      · have p1 : peek (aligned_text true (x :: l)) ≠ 44 := fun e =>
          h44 ((peek_aligned_punct true x l hw1 44 (by simp)).1 e)
        have p2 : peek (aligned_text false (x :: l)) ≠ 44 := fun e =>
          h44 ((peek_aligned_punct false x l hw2 44 (by simp)).1 e)
        rw [parse_object_loop_other _ _ _ _ _ _ p1, parse_object_loop_other _ _ _ _ _ _ p2]
        by_cases h125 : x.token = Token.punct 125
        · rw [if_pos ((peek_aligned_punct true x l hw1 125 (by simp)).2 h125),
            if_pos ((peek_aligned_punct false x l hw2 125 (by simp)).2 h125),
            aligned_punct true x l 125 h125, aligned_punct false x l 125 h125]
          exact Or.inl ⟨s1, s2, l, List.suffix_cons x l, by simp only [List.length_cons]; omega, hs, rfl, rfl⟩
        · rw [if_neg (fun e => h125 ((peek_aligned_punct true x l hw1 125 (by simp)).1 e)),
            if_neg (fun e => h125 ((peek_aligned_punct false x l hw2 125 (by simp)).1 e))]
          exact Or.inr ⟨x :: l, List.suffix_refl _, rfl, rfl⟩

theorem peek_aligned_ne (side : Bool) (l : List Spaced) (hw : spaced_wf side l) (c : Nat)
    (hc : c = 91 ∨ c = 93 ∨ c = 123 ∨ c = 125 ∨ c = 44 ∨ c = 58)
    (h : ¬ ∃ y l2, l = y :: l2 ∧ y.token = Token.punct c) : peek (aligned_text side l) ≠ c := by
  cases l with
  | nil =>
    show (0 : Nat) ≠ c
    rcases hc with h | h | h | h | h | h <;> omega
  | cons y l2 =>
    intro e
    exact h ⟨y, l2, rfl, (peek_aligned_punct side y l2 hw c hc).1 e⟩

/-- `parse_array` ends alike on the two texts of a sequence that starts with `[`. -/
theorem sim_array
    (pv1 pv2 : PState cJSON_Buf → Nat → Bytes → PResult (PState cJSON_Buf × Bytes)) (n : Nat)
    (hsim : SimValue n pv1 pv2) (x : Spaced) (l : List Spaced) (hx : x.token = Token.punct 91)
    (hn : l.length ≤ n) (hw1 : spaced_wf true (x :: l)) (hw2 : spaced_wf false (x :: l))
    (lf1 lf2 : Nat) (h1 : l.length + 1 ≤ lf1) (h2 : l.length + 1 ≤ lf2)
    (s1 s2 : PState cJSON_Buf) (item : Nat) (hs : SameState s1 s2) :
    SameOutcome true (x :: l) (parse_array pv1 lf1 s1 item (aligned_text true (x :: l)))
      (parse_array pv2 lf2 s2 item (aligned_text false (x :: l))) := by
  rw [aligned_punct true x l 91 hx, aligned_punct false x l 91 hx, parse_array_open,
    parse_array_open, skip_spaced true l hw1.2.2, skip_spaced false l hw2.2.2,
    skip_aligned true l hw1.2.2, skip_aligned false l hw2.2.2, hs.brk]
  by_cases hcl : ∃ y l2, l = y :: l2 ∧ y.token = Token.punct 93
  · obtain ⟨y, l2, rfl, h93⟩ := hcl
    rw [if_pos ((peek_aligned_punct true y l2 hw1.2.2 93 (by simp)).2 h93),
      if_pos ((peek_aligned_punct false y l2 hw2.2.2 93 (by simp)).2 h93),
      aligned_punct true y l2 93 h93, aligned_punct false y l2 93 h93]
    exact Or.inl ⟨_, _, l2, (List.suffix_cons y l2).trans (List.suffix_cons x _),
      by simp only [List.length_cons]; omega,
      hs.set_mem (fun m => m.set item { m.node item with type := cJSON_Array }), rfl, rfl⟩
  · rw [if_neg (peek_aligned_ne true l hw1.2.2 93 (by simp) hcl),
      if_neg (peek_aligned_ne false l hw2.2.2 93 (by simp) hcl)]
    have hst := hs.set_mem (fun m => hook_first m item cJSON_Array)
    rcases hsim l hn hw1.2.2 hw2.2.2 _ _ s1.mem.brk hst with
      ⟨t1, t2, l', g1, g2, g3, g4, g5⟩ | ⟨l', g1, g2, g3⟩
    · rw [g4, g5]
      simp only [if_true]
      rw [skip_spaced true l' (spaced_wf_suffix true g1 hw1.2.2),
        skip_spaced false l' (spaced_wf_suffix false g1 hw2.2.2)]
      have hl' := g1.length_le
      exact (sim_array_loop pv1 pv2 n hsim l'.length l' (le_refl _) (by omega)
        (spaced_wf_suffix true g1 hw1.2.2) (spaced_wf_suffix false g1 hw2.2.2) lf1 lf2
        (by omega) (by omega) t1 t2 _ g3).mono (g1.trans (List.suffix_cons x l))
    · rw [g2, g3]
      exact Or.inr ⟨l', g1.trans (List.suffix_cons x l), rfl, rfl⟩

/-- `parse_object` ends alike on the two texts of a sequence that starts with `{`. -/
theorem sim_object
    (pv1 pv2 : PState cJSON_Buf → Nat → Bytes → PResult (PState cJSON_Buf × Bytes)) (n : Nat)
    (hsim : SimValue n pv1 pv2) (x : Spaced) (l : List Spaced) (hx : x.token = Token.punct 123)
    (hn : l.length ≤ n + 2) (hw1 : spaced_wf true (x :: l)) (hw2 : spaced_wf false (x :: l))
    (lf1 lf2 : Nat) (h1 : l.length + 1 ≤ lf1) (h2 : l.length + 1 ≤ lf2)
    (s1 s2 : PState cJSON_Buf) (item : Nat) (hs : SameState s1 s2) :
    SameOutcome true (x :: l)
      (parse_object Arena.parse_string pv1 lf1 s1 item (aligned_text true (x :: l)))
      (parse_object Arena.parse_string pv2 lf2 s2 item (aligned_text false (x :: l))) := by
  rw [aligned_punct true x l 123 hx, aligned_punct false x l 123 hx, parse_object_open,
    parse_object_open, skip_spaced true l hw1.2.2, skip_spaced false l hw2.2.2, hs.brk]
  by_cases hcl : ∃ y l2, l = y :: l2 ∧ y.token = Token.punct 125
  · obtain ⟨y, l2, rfl, h125⟩ := hcl
    rw [if_pos ((peek_aligned_punct true y l2 hw1.2.2 125 (by simp)).2 h125),
      if_pos ((peek_aligned_punct false y l2 hw2.2.2 125 (by simp)).2 h125),
      aligned_punct true y l2 125 h125, aligned_punct false y l2 125 h125]
    exact Or.inl ⟨_, _, l2, (List.suffix_cons y l2).trans (List.suffix_cons x _),
      by simp only [List.length_cons]; omega,
      hs.set_mem (fun m => m.set item { m.node item with type := cJSON_Object }), rfl, rfl⟩
  · rw [if_neg (peek_aligned_ne true l hw1.2.2 125 (by simp) hcl),
      if_neg (peek_aligned_ne false l hw2.2.2 125 (by simp) hcl)]
    have hst := hs.set_mem (fun m => hook_first m item cJSON_Object)
    rcases sim_member pv1 pv2 n hsim l hn hw1.2.2 hw2.2.2 _ _
        (skip_aligned true l hw1.2.2) (skip_aligned false l hw2.2.2) _ _ s1.mem.brk hst with
      ⟨t1, t2, l', g1, g2, g3, g4, g5⟩ | ⟨l', g1, g2, g3⟩
    · rw [g4, g5]
      simp only [Bool.false_eq_true, if_false]
      have hl' := g1.length_le
      exact (sim_object_loop pv1 pv2 n hsim l'.length l' (le_refl _) (by omega)
        (spaced_wf_suffix true g1 hw1.2.2) (spaced_wf_suffix false g1 hw2.2.2) lf1 lf2
        (by omega) (by omega) t1 t2 _ g3).mono (g1.trans (List.suffix_cons x l))
    · rw [g2, g3]
      exact Or.inr ⟨l', g1.trans (List.suffix_cons x l), rfl, rfl⟩

/-- The value production of the arena variant ends alike on the two texts of a
sequence of tokens, whatever the fuel above the number of tokens. -/
theorem sim_value : ∀ (n F1 F2 : Nat), n < F1 → n < F2 →
    SimValue n (Arena.parse_value F1) (Arena.parse_value F2) := by
  intro n
  induction n with
  | zero =>
    intro F1 F2 h1 h2 L hL _ _ s1 s2 item _
    have hL' : L = [] := List.length_eq_zero.1 (by omega)
    subst hL'
    obtain ⟨F1, rfl⟩ : ∃ j, F1 = j + 1 := ⟨F1 - 1, by omega⟩
    obtain ⟨F2, rfl⟩ : ∃ j, F2 = j + 1 := ⟨F2 - 1, by omega⟩
    exact Or.inr ⟨[], List.suffix_refl _, rfl, rfl⟩
  | succ n ih =>
    intro F1 F2 h1 h2 L hL hw1 hw2 s1 s2 item hs
    obtain ⟨F1, rfl⟩ : ∃ j, F1 = j + 1 := ⟨F1 - 1, by omega⟩
    obtain ⟨F2, rfl⟩ : ∃ j, F2 = j + 1 := ⟨F2 - 1, by omega⟩
    cases L with
    | nil => exact Or.inr ⟨[], List.suffix_refl _, rfl, rfl⟩
    | cons x l =>
      simp only [List.length_cons] at hL
      have a1 : aligned_text true (x :: l) = x.token.text ++ spaced_text true l := rfl
      have a2 : aligned_text false (x :: l) = x.token.text ++ spaced_text false l := rfl
      by_cases hp : x.token.is_punct = false
      · rw [a1, a2, Arena.parse_value_scalar x.token _ hw1.2.1 hp,
          Arena.parse_value_scalar x.token _ hw2.2.1 hp]
        exact Or.inl ⟨_, _, l, List.suffix_cons x l, by simp only [List.length_cons]; omega,
          x.token.effect_same hs item, rfl, rfl⟩
      · obtain ⟨c, hc⟩ : ∃ c, x.token = Token.punct c := by
          cases hx : x.token with
          | punct c => exact ⟨c, rfl⟩
          | string s => rw [hx] at hp; simp [Token.is_punct] at hp
          | number t => rw [hx] at hp; simp [Token.is_punct] at hp
          | lit_null => rw [hx] at hp; simp [Token.is_punct] at hp
          | lit_false => rw [hx] at hp; simp [Token.is_punct] at hp
          | lit_true => rw [hx] at hp; simp [Token.is_punct] at hp
        have hsim := ih F1 F2 (by omega) (by omega)
        by_cases h123 : c = 123
        · subst h123
          have e1 := Arena.arena_laws.object F1 s1 item (aligned_text true (x :: l))
            ((peek_aligned_punct true x l hw1 123 (by simp)).2 hc)
          have e2 := Arena.arena_laws.object F2 s2 item (aligned_text false (x :: l))
            ((peek_aligned_punct false x l hw2 123 (by simp)).2 hc)
          rw [e1, e2]
          exact sim_object _ _ n hsim x l hc (by omega) hw1 hw2 F1 F2 (by omega) (by omega)
            s1 s2 item hs
        by_cases h91 : c = 91
        · subst h91
          have e1 := Arena.arena_laws.array F1 s1 item (aligned_text true (x :: l))
            ((peek_aligned_punct true x l hw1 91 (by simp)).2 hc)
          have e2 := Arena.arena_laws.array F2 s2 item (aligned_text false (x :: l))
            ((peek_aligned_punct false x l hw2 91 (by simp)).2 hc)
          rw [e1, e2]
          exact sim_array _ _ n hsim x l hc (by omega) hw1 hw2 F1 F2 (by omega) (by omega)
            s1 s2 item hs
        · have f1 := hw1.2.1
          have f2 := hw2.2.1
          rw [hc] at f1 f2
          rw [aligned_punct true x l c hc, aligned_punct false x l c hc,
            Arena.parse_value_punct c _ f1 h123 h91, Arena.parse_value_punct c _ f2 h123 h91,
            ← aligned_punct true x l c hc, ← aligned_punct false x l c hc]
          exact Or.inr ⟨x :: l, List.suffix_refl _, rfl, rfl⟩

theorem spaced_text_length (side : Bool) : ∀ (L : List Spaced), spaced_wf side L →
    L.length ≤ (spaced_text side L).length
  | [], _ => Nat.le_refl _
  | x :: l, h => by
    obtain ⟨c, tl, e, _⟩ := token_head x.token _ [] h.2.1
    have hlen : 1 ≤ x.token.text.length := by
      have := congrArg List.length e
      simp at this
      omega
    have := spaced_text_length side l h.2.2
    simp only [spaced_text, List.length_append, List.length_cons]
    omega

/-- `parse_root` ends alike on the two texts of a sequence of tokens. -/
theorem sim_root (L : List Spaced) (hw1 : spaced_wf true L) (hw2 : spaced_wf false L)
    (F1 F2 : Nat) (h1 : L.length + 1 ≤ F1) (h2 : L.length + 1 ≤ F2)
    (s1 s2 : PState cJSON_Buf) (item : Nat) (hs : SameState s1 s2) :
    SameOutcome true L (Arena.parse_root F1 s1 item (aligned_text true L))
      (Arena.parse_root F2 s2 item (aligned_text false L)) := by
  cases L with
  | nil => exact Or.inr ⟨[], List.suffix_refl _, rfl, rfl⟩
  | cons x l =>
    simp only [List.length_cons] at h1 h2
    have hsim := sim_value l.length F1 F2 (by omega) (by omega)
    unfold Arena.parse_root
    by_cases h123 : x.token = Token.punct 123
    · rw [if_pos ((peek_aligned_punct true x l hw1 123 (by simp)).2 h123),
        if_pos ((peek_aligned_punct false x l hw2 123 (by simp)).2 h123)]
      exact sim_object _ _ l.length hsim x l h123 (by omega) hw1 hw2 F1 F2 (by omega)
        (by omega) s1 s2 item hs
    · rw [if_neg (fun e => h123 ((peek_aligned_punct true x l hw1 123 (by simp)).1 e)),
        if_neg (fun e => h123 ((peek_aligned_punct false x l hw2 123 (by simp)).1 e))]
      by_cases h91 : x.token = Token.punct 91
      · rw [if_pos ((peek_aligned_punct true x l hw1 91 (by simp)).2 h91),
          if_pos ((peek_aligned_punct false x l hw2 91 (by simp)).2 h91)]
        exact sim_array _ _ l.length hsim x l h91 (le_refl _) hw1 hw2 F1 F2 (by omega)
          (by omega) s1 s2 item hs
      · rw [if_neg (fun e => h91 ((peek_aligned_punct true x l hw1 91 (by simp)).1 e)),
          if_neg (fun e => h91 ((peek_aligned_punct false x l hw2 91 (by simp)).1 e))]
        exact Or.inr ⟨x :: l, List.suffix_refl _, rfl, rfl⟩

theorem Arena.cJSON_Parse_eq (libc : Libc) (m : Mem) (value : Bytes) :
    Arena.cJSON_Parse libc m value =
      match Arena.parse_root (value.length + 1)
          { mem := (cJSON_New_Item m).1, aux := Arena.cJSON_Buf_Init libc (strlen value) 0 }
          m.brk (skip value) with
      | PResult.ok (s, _) => PResult.ok (s.mem, m.brk, s.aux)
      | PResult.fail ep => PResult.fail ep
      | PResult.stuck => PResult.stuck := rfl

namespace Alloc

theorem Store.eq_of {h1 h2 : Store} (hn : h1.node = h2.node) (ht : h1.text = h2.text)
    (hf : h1.freed = h2.freed) (hb : h1.brk = h2.brk) : h1 = h2 := by
  cases h1; cases h2; simp_all

theorem free_some {h h1 : Store} {p : Nat} (e : free h p = some h1) :
    h.live p = true ∧ h1 = { h with freed := fun q => if q = p then true else h.freed q } := by
  unfold free at e
  by_cases hl : h.live p = true
  · rw [if_pos hl] at e
    exact ⟨hl, (Option.some.inj e).symm⟩
  · rw [if_neg hl] at e; cases e

theorem free_of_live {h : Store} {p : Nat} (hl : h.live p = true) :
    free h p = some { h with freed := fun q => if q = p then true else h.freed q } := by
  unfold free; rw [if_pos hl]

theorem free_all_append : ∀ (l1 l2 : List Nat) (h : Store),
    free_all (l1 ++ l2) h = (free_all l1 h).bind (free_all l2)
  | [], _, _ => rfl
  | p :: l1, l2, h => by
    simp only [List.cons_append, free_all]
    cases free h p with
    | none => rfl
    | some h1 => exact free_all_append l1 l2 h1

/-- Releasing the blocks of a list succeeds exactly if they are live and distinct, and
then it marks them. -/
theorem free_all_iff : ∀ (l : List Nat) (h h' : Store),
    free_all l h = some h' ↔ (l.Nodup ∧ (∀ a ∈ l, h.live a = true)) ∧ h' = h.release l
  | [], h, h' => by
    simp only [free_all, List.nodup_nil, List.not_mem_nil, false_implies, implies_true,
      and_self, true_and, Option.some.injEq]
    constructor
    · intro e; subst e
      exact Store.eq_of rfl rfl (by funext q; simp [Store.release]) rfl
    · intro e; rw [e]
      exact Store.eq_of rfl rfl (by funext q; simp [Store.release]) rfl
  | p :: l, h, h' => by
    simp only [free_all]
    constructor
    · intro e
      obtain ⟨h1, e1, e2⟩ := Option.bind_eq_some.1 e
      obtain ⟨hl, rfl⟩ := free_some e1
      obtain ⟨⟨hnd, hlive⟩, rfl⟩ := (free_all_iff l _ h').1 e2
      have hp : p ∉ l := by
        intro hm
        have := hlive p hm
        simp [Store.live] at this
      refine ⟨⟨List.nodup_cons.2 ⟨hp, hnd⟩, ?_⟩, ?_⟩
      · intro a ha
        rcases List.mem_cons.1 ha with rfl | ha
        · exact hl
        · have := hlive a ha
          have hne : a ≠ p := fun e => hp (e ▸ ha)
          simpa [Store.live, hne] using this
      · refine Store.eq_of rfl rfl ?_ rfl
        funext q
        by_cases hq : q = p
        · simp [Store.release, hq]
        · simp [Store.release, hq]
    · rintro ⟨⟨hnd, hlive⟩, rfl⟩
      obtain ⟨hp, hnd'⟩ := List.nodup_cons.1 hnd
      rw [free_of_live (hlive p (by simp))]
      simp only [Option.some_bind]
      refine (free_all_iff l _ _).2 ⟨⟨hnd', ?_⟩, ?_⟩
      · intro a ha
        have := hlive a (by simp [ha])
        have hne : a ≠ p := fun e => hp (e ▸ ha)
        simpa [Store.live, hne] using this
      · refine Store.eq_of rfl rfl ?_ rfl
        funext q
        by_cases hq : q = p
        · simp [Store.release, hq]
        · simp [Store.release, hq]

theorem free_all_node {l : List Nat} {h h' : Store} (e : free_all l h = some h') :
    h'.node = h.node := by
  rw [((free_all_iff l h h').1 e).2]; rfl

theorem free_all_live {l : List Nat} {h h' : Store} (e : free_all l h = some h') (a : Nat)
    (ha : h'.live a = true) : h.live a = true := by
  rw [((free_all_iff l h h').1 e).2] at ha
  simp only [Store.live, Store.release, Bool.and_eq_true, decide_eq_true_eq, Bool.not_eq_true',
    Bool.or_eq_false_iff, decide_eq_false_iff_not] at ha ⊢
  exact ⟨ha.1, ha.2.1, ha.2.2.1⟩

theorem free_all_if {P : Prop} [Decidable P] (h : Store) (p : Nat) :
    (if P then free h p else some h) = free_all (if P then [p] else []) h := by
  by_cases hP : P
  · rw [if_pos hP, if_pos hP]
    simp only [free_all]
    cases free h p <;> rfl
  · rw [if_neg hP, if_neg hP]; rfl

/-- One round of the loop of `cJSON_Delete`: the children, the blocks of the record,
then the siblings. -/
theorem delete_unfold (r : Releases) (F : Nat) (h : Store) (c : Nat) (hc : c ≠ 0)
    (hl : h.live c = true) :
    cJSON_Delete_with r (F + 1) h c =
      ((if r.children (h.node c).type ∧ (h.node c).child ≠ 0 then
          cJSON_Delete_with r F h (h.node c).child else some h).bind fun h1 =>
        (free_all (r.own (h.node c) c) h1).bind fun h5 =>
          cJSON_Delete_with r F h5 (h.node c).next) := by
  rw [cJSON_Delete_with, if_neg hc, if_neg (by simp [hl])]
  simp only [Releases.own]
  cases (if r.children (h.node c).type ∧ (h.node c).child ≠ 0 then
      cJSON_Delete_with r F h (h.node c).child else some h) with
  | none => rfl
  | some h1 =>
    simp only [Option.some_bind, free_all_append, free_all_if]
    cases free_all (if r.valuestring (h.node c).type (h.node c).allocate_type ∧
        (h.node c).valuestring ≠ 0 then [(h.node c).valuestring] else []) h1 with
    | none => rfl
    | some h2 =>
      simp only [Option.some_bind]
      cases free_all (if r.string (h.node c).allocate_type ∧ (h.node c).string ≠ 0 then
          [(h.node c).string] else []) h2 with
      | none => rfl
      | some h3 =>
        simp only [Option.some_bind]
        cases free_all (if r.data (h.node c).type ∧ (h.node c).data ≠ 0 then
            [(h.node c).data] else []) h3 with
        | none => rfl
        | some h4 =>
          simp only [Option.some_bind, free_all]
          cases free h4 c <;> rfl

theorem delete_list_unfold (r : Releases) (f : Nat → Node) (F c : Nat) (hc : c ≠ 0) :
    delete_list r f (F + 1) c =
      ((if r.children (f c).type ∧ (f c).child ≠ 0 then delete_list r f F (f c).child
          else some []).bind fun l1 =>
        (delete_list r f F (f c).next).bind fun l2 => some (l1 ++ (r.own (f c) c ++ l2))) := by
  rw [delete_list, if_neg hc]

theorem mem_own_self (r : Releases) (n : Node) (c : Nat) : c ∈ r.own n c := by
  simp [Releases.own]

/-- What `cJSON_Delete` does is to release the blocks of `delete_list`, in order. -/
theorem delete_to_list (r : Releases) : ∀ (F : Nat) (h : Store) (c : Nat) (h' : Store),
    cJSON_Delete_with r F h c = some h' →
    ∃ l, delete_list r h.node F c = some l ∧ free_all l h = some h'
  | 0, _, _, _, e => by simp [cJSON_Delete_with] at e
  | F + 1, h, c, h', e => by
    by_cases hc : c = 0
    · subst hc
      simp only [cJSON_Delete_with, if_true, Option.some.injEq] at e
      subst e
      exact ⟨[], by simp [delete_list], rfl⟩
    · by_cases hl : h.live c = true
      · rw [delete_unfold r F h c hc hl] at e
        obtain ⟨h1, e1, e⟩ := Option.bind_eq_some.1 e
        obtain ⟨h5, e5, e6⟩ := Option.bind_eq_some.1 e
        have hch : ∃ l1, (if r.children (h.node c).type ∧ (h.node c).child ≠ 0 then
            delete_list r h.node F (h.node c).child else some []) = some l1 ∧
            free_all l1 h = some h1 := by
          by_cases hcond : r.children (h.node c).type ∧ (h.node c).child ≠ 0
          · rw [if_pos hcond] at e1 ⊢
            exact delete_to_list r F h _ h1 e1
          · rw [if_neg hcond] at e1 ⊢
            exact ⟨[], rfl, by rw [← Option.some.inj e1]; rfl⟩
        obtain ⟨l1, g1, g2⟩ := hch
        obtain ⟨l2, g3, g4⟩ := delete_to_list r F h5 _ h' e6
        have hn : h5.node = h.node := by
          rw [free_all_node e5, free_all_node g2]
        rw [hn] at g3
        refine ⟨l1 ++ (r.own (h.node c) c ++ l2), ?_, ?_⟩
        · rw [delete_list_unfold r h.node F c hc, g1, g3]; rfl
        · rw [free_all_append, g2, Option.some_bind, free_all_append, e5, Option.some_bind, g4]
      · rw [cJSON_Delete_with, if_neg hc, if_pos (by simpa using hl)] at e
        cases e

/-- If the blocks of `delete_list` can be released in order, `cJSON_Delete` succeeds
and does so. -/
theorem list_to_delete (r : Releases) : ∀ (F : Nat) (h : Store) (c : Nat) (l : List Nat)
    (h' : Store), delete_list r h.node F c = some l → free_all l h = some h' →
    cJSON_Delete_with r F h c = some h'
  | 0, _, _, _, _, e, _ => by simp [delete_list] at e
  | F + 1, h, c, l, h', e, ef => by
    by_cases hc : c = 0
    · subst hc
      simp only [delete_list, if_true, Option.some.injEq] at e
      subst e
      simp only [free_all, Option.some.injEq] at ef
      subst ef
      simp [cJSON_Delete_with]
    · rw [delete_list_unfold r h.node F c hc] at e
      obtain ⟨l1, e1, e⟩ := Option.bind_eq_some.1 e
      obtain ⟨l2, e2, e3⟩ := Option.bind_eq_some.1 e
      have e3' := Option.some.inj e3
      subst e3'
      rw [free_all_append] at ef
      obtain ⟨h1, f1, ef⟩ := Option.bind_eq_some.1 ef
      rw [free_all_append] at ef
      obtain ⟨h5, f5, f6⟩ := Option.bind_eq_some.1 ef
      have hl1 : h1.live c = true :=
        ((free_all_iff _ _ _).1 f5).1.2 c (mem_own_self r _ c)
      have hl : h.live c = true := free_all_live f1 c hl1
      have hn1 : h1.node = h.node := free_all_node f1
      have hn5 : h5.node = h.node := by rw [free_all_node f5, hn1]
      rw [delete_unfold r F h c hc hl]
      have hch : (if r.children (h.node c).type ∧ (h.node c).child ≠ 0 then
          cJSON_Delete_with r F h (h.node c).child else some h) = some h1 := by
        by_cases hcond : r.children (h.node c).type ∧ (h.node c).child ≠ 0
        · rw [if_pos hcond] at e1 ⊢
          exact list_to_delete r F h _ l1 h1 e1 f1
        · rw [if_neg hcond] at e1 ⊢
          have : l1 = [] := (Option.some.inj e1).symm
          subst this
          exact f1
      rw [hch, Option.some_bind, f5, Option.some_bind]
      exact list_to_delete r F h5 _ l2 h' (by rw [hn5]; exact e2) f6

theorem delete_list_mono (r : Releases) (f : Nat → Node) : ∀ (F c : Nat) (l : List Nat),
    delete_list r f F c = some l → delete_list r f (F + 1) c = some l
  | 0, _, _, e => by simp [delete_list] at e
  | F + 1, c, l, e => by
    by_cases hc : c = 0
    · subst hc
      simp only [delete_list, if_true] at e ⊢
      exact e
    · rw [delete_list_unfold r f F c hc] at e
      obtain ⟨l1, e1, e⟩ := Option.bind_eq_some.1 e
      obtain ⟨l2, e2, e3⟩ := Option.bind_eq_some.1 e
      rw [delete_list_unfold r f (F + 1) c hc]
      have hch : (if r.children (f c).type ∧ (f c).child ≠ 0 then
          delete_list r f (F + 1) (f c).child else some []) = some l1 := by
        by_cases hcond : r.children (f c).type ∧ (f c).child ≠ 0
        · rw [if_pos hcond] at e1 ⊢
          exact delete_list_mono r f F _ l1 e1
        · rw [if_neg hcond] at e1 ⊢
          exact e1
      rw [hch, delete_list_mono r f F _ l2 e2]
      exact e3

/-- The list of blocks depends on the records of these blocks only. -/
theorem delete_list_congr (r : Releases) (f g : Nat → Node) : ∀ (F c : Nat) (l : List Nat),
    delete_list r f F c = some l → (∀ a ∈ l, g a = f a) → delete_list r g F c = some l
  | 0, _, _, e, _ => by simp [delete_list] at e
  | F + 1, c, l, e, hg => by
    by_cases hc : c = 0
    · subst hc
      simp only [delete_list, if_true] at e ⊢
      exact e
    · rw [delete_list_unfold r f F c hc] at e
      obtain ⟨l1, e1, e⟩ := Option.bind_eq_some.1 e
      obtain ⟨l2, e2, e3⟩ := Option.bind_eq_some.1 e
      have e3' := Option.some.inj e3
      subst e3'
      have hgc : g c = f c := hg c (by simp [mem_own_self])
      rw [delete_list_unfold r g F c hc, hgc]
      have hch : (if r.children (f c).type ∧ (f c).child ≠ 0 then
          delete_list r g F (f c).child else some []) = some l1 := by
        by_cases hcond : r.children (f c).type ∧ (f c).child ≠ 0
        · rw [if_pos hcond] at e1 ⊢
          exact delete_list_congr r f g F _ l1 e1 (fun a ha => hg a (by simp [ha]))
        · rw [if_neg hcond] at e1 ⊢
          exact e1
      rw [hch, delete_list_congr r f g F _ l2 e2 (fun a ha => hg a (by simp [ha]))]
      rfl

theorem delete_list_mem (r : Releases) (f : Nat → Node) (F c : Nat) (l : List Nat)
    (hc : c ≠ 0) (e : delete_list r f F c = some l) : c ∈ l := by
  cases F with
  | zero => simp [delete_list] at e
  | succ F =>
    rw [delete_list_unfold r f F c hc] at e
    obtain ⟨l1, _, e⟩ := Option.bind_eq_some.1 e
    obtain ⟨l2, _, e3⟩ := Option.bind_eq_some.1 e
    rw [← Option.some.inj e3]
    simp [mem_own_self]

/-- The last sibling of a chain is among the blocks that deleting the chain releases. -/
theorem last_sibling_mem (r : Releases) (h : Store) : ∀ (F k c cn : Nat) (l : List Nat),
    c ≠ 0 → last_sibling h k c = some cn → delete_list r h.node F c = some l → cn ∈ l
  | 0, _, _, _, _, _, _, e => by simp [delete_list] at e
  | F + 1, k, c, cn, l, hc, hk, e => by
    cases k with
    | zero => simp [last_sibling] at hk
    | succ k =>
      rw [delete_list_unfold r h.node F c hc] at e
      obtain ⟨l1, _, e⟩ := Option.bind_eq_some.1 e
      obtain ⟨l2, e2, e3⟩ := Option.bind_eq_some.1 e
      rw [← Option.some.inj e3]
      by_cases hn : (h.node c).next ≠ 0
      · rw [last_sibling, if_pos ⟨hc, hn⟩] at hk
        have := last_sibling_mem r h F k _ cn l2 hn hk e2
        simp [this]
      · rw [last_sibling, if_neg (fun hh => hn hh.2)] at hk
        rw [← Option.some.inj hk]
        simp [mem_own_self]

theorem delete_list_zero (r : Releases) (f : Nat → Node) (F : Nat) (l : List Nat)
    (e : delete_list r f F 0 = some l) : l = [] ∧ ∃ F0, F = F0 + 1 := by
  cases F with
  | zero => simp [delete_list] at e
  | succ F0 =>
    simp only [delete_list, if_true, Option.some.injEq] at e
    exact ⟨e.symm, F0, rfl⟩

theorem own_next (r : Releases) (n : Node) (c p : Nat) :
    r.own { n with next := p } c = r.own n c := rfl

theorem own_child (r : Releases) (n : Node) (c p : Nat) :
    r.own { n with child := p } c = r.own n c := rfl

/-- The blocks of a chain of siblings whose last record gets the new sibling `ref`:
those of the chain, then those of `ref`. -/
theorem delete_list_extend (r : Releases) (h g : Store) (ref : Nat) (E : List Nat)
    (hE : ∀ K, delete_list r g.node (K + 2) ref = some E) :
    ∀ (F k c cn : Nat) (l : List Nat), c ≠ 0 → delete_list r h.node F c = some l → l.Nodup →
      last_sibling h k c = some cn → g.node cn = { h.node cn with next := ref } →
      (∀ a ∈ l, a ≠ cn → g.node a = h.node a) →
      delete_list r g.node (F + 1) c = some (l ++ E)
  | 0, _, _, _, _, _, e, _, _, _, _ => by simp [delete_list] at e
  | F + 1, k, c, cn, l, hc, e, hnd, hk, hcn, hag => by
    cases k with
    | zero => simp [last_sibling] at hk
    | succ k =>
      rw [delete_list_unfold r h.node F c hc] at e
      obtain ⟨l1, e1, e⟩ := Option.bind_eq_some.1 e
      obtain ⟨l2, e2, e3⟩ := Option.bind_eq_some.1 e
      have e3' := Option.some.inj e3
      subst e3'
      have hcm : c ∈ r.own (h.node c) c := mem_own_self r _ c
      have hd1 := List.nodup_append.1 hnd
      have hd2 := List.nodup_append.1 hd1.2.1
      have hc1 : c ∉ l1 := fun hh => hd1.2.2 hh (List.mem_append_left _ hcm) 
      rw [delete_list_unfold r g.node (F + 1) c hc]
      by_cases hn : (h.node c).next ≠ 0
      · rw [last_sibling, if_pos ⟨hc, hn⟩] at hk
        have hcn2 : cn ∈ l2 := last_sibling_mem r h F k _ cn l2 hn hk e2
        have hne : c ≠ cn := fun hh => hd2.2.2 hcm (hh ▸ hcn2) 
        have hgc : g.node c = h.node c := hag c (by simp [hcm]) hne
        rw [hgc]
        have hch : (if r.children (h.node c).type ∧ (h.node c).child ≠ 0 then
            delete_list r g.node (F + 1) (h.node c).child else some []) = some l1 := by
          by_cases hcond : r.children (h.node c).type ∧ (h.node c).child ≠ 0
          · rw [if_pos hcond] at e1 ⊢
            refine delete_list_mono r g.node F _ l1
              (delete_list_congr r h.node g.node F _ l1 e1 fun a ha => hag a (by simp [ha]) ?_)
            intro hh
            exact hd1.2.2 ha (List.mem_append_right _ (hh ▸ hcn2)) 
          · rw [if_neg hcond] at e1 ⊢
            exact e1
        rw [hch, delete_list_extend r h g ref E hE F k _ cn l2 hn e2 hd2.2.1 hk hcn
          (fun a ha hne => hag a (by simp [ha]) hne)]
        simp
      · have hn0 : (h.node c).next = 0 := by simpa using hn
        rw [last_sibling, if_neg (fun hh => hn hh.2)] at hk
        have hk' : c = cn := Option.some.inj hk
        subst hk'
        rw [hn0] at e2
        obtain ⟨hl2, F0, hF⟩ := delete_list_zero r h.node F l2 e2
        subst hl2
        subst hF
        rw [hcn]
        have hch : (if r.children (h.node c).type ∧ (h.node c).child ≠ 0 then
            delete_list r g.node (F0 + 1 + 1) (h.node c).child else some []) = some l1 := by
          by_cases hcond : r.children (h.node c).type ∧ (h.node c).child ≠ 0
          · rw [if_pos hcond] at e1 ⊢
            refine delete_list_mono r g.node (F0 + 1) _ l1
              (delete_list_congr r h.node g.node (F0 + 1) _ l1 e1
                fun a ha => hag a (by simp [ha]) ?_)
            intro hh
            exact hc1 (hh ▸ ha)
          · rw [if_neg hcond] at e1 ⊢
            exact e1
        show ((if r.children (h.node c).type ∧ (h.node c).child ≠ 0 then
            delete_list r g.node (F0 + 1 + 1) (h.node c).child else some []).bind fun l1 =>
          (delete_list r g.node (F0 + 1 + 1) ref).bind fun l2 =>
            some (l1 ++ (r.own { h.node c with next := ref } c ++ l2))) = _
        rw [hch, hE F0, own_next]
        simp

/-- The blocks of a container that gets the new last child `ref`: those of the
container and those of `ref`. -/
theorem delete_list_attach (r : Releases) (h g : Store) (A ref : Nat) (E : List Nat) (F : Nat)
    (l : List Nat) (hE : ∀ K, delete_list r g.node (K + 2) ref = some E) (hA : A ≠ 0)
    (href : ref ≠ 0) (hty : r.children (h.node A).type = true)
    (e : delete_list r h.node F A = some l) (hnd : l.Nodup)
    (hg : ((h.node A).child = 0 ∧ g.node A = { h.node A with child := ref } ∧
          ∀ a ∈ l, a ≠ A → g.node a = h.node a) ∨
        ((h.node A).child ≠ 0 ∧ ∃ k cn, last_sibling h k (h.node A).child = some cn ∧
          g.node cn = { h.node cn with next := ref } ∧
          ∀ a ∈ l, a ≠ cn → g.node a = h.node a)) :
    ∃ l2, delete_list r g.node (F + 1) A = some l2 ∧ l2.Perm (l ++ E) := by
  cases F with
  | zero => simp [delete_list] at e
  | succ F =>
    rw [delete_list_unfold r h.node F A hA] at e
    obtain ⟨l1, e1, e⟩ := Option.bind_eq_some.1 e
    obtain ⟨l2, e2, e3⟩ := Option.bind_eq_some.1 e
    have e3' := Option.some.inj e3
    subst e3'
    have hcm : A ∈ r.own (h.node A) A := mem_own_self r _ A
    have hd1 := List.nodup_append.1 hnd
    have hd2 := List.nodup_append.1 hd1.2.1
    have hA1 : A ∉ l1 := fun hh => hd1.2.2 hh (List.mem_append_left _ hcm)
    have hA2 : A ∉ l2 := fun hh => hd2.2.2 hcm hh
    rw [delete_list_unfold r g.node (F + 1) A hA]
    rcases hg with ⟨hc0, hgA, hag⟩ | ⟨hc0, k, cn, hk, hcn, hag⟩
    · rw [if_neg (fun hh => hh.2 hc0)] at e1
      have : l1 = [] := (Option.some.inj e1).symm
      subst this
      have hF : ∃ F0, F = F0 + 1 := by
        cases F with
        | zero => simp [delete_list] at e2
        | succ F0 => exact ⟨F0, rfl⟩
      obtain ⟨F0, hF⟩ := hF
      subst hF
      have hnx : delete_list r g.node (F0 + 1 + 1) (h.node A).next = some l2 :=
        delete_list_mono r g.node (F0 + 1) _ l2
          (delete_list_congr r h.node g.node (F0 + 1) _ l2 e2
            fun a ha => hag a (by simp [ha]) (fun hh => hA2 (hh ▸ ha)))
      refine ⟨E ++ (r.own (h.node A) A ++ l2), ?_, ?_⟩
      · rw [hgA]
        show ((if r.children (h.node A).type ∧ ref ≠ 0 then
              delete_list r g.node (F0 + 1 + 1) ref else some []).bind fun l1 =>
            (delete_list r g.node (F0 + 1 + 1) (h.node A).next).bind fun l2 =>
              some (l1 ++ (r.own { h.node A with child := ref } A ++ l2))) = _
        rw [if_pos ⟨hty, href⟩, hE F0, hnx, own_child]
        rfl
      · simp only [List.nil_append]
        exact List.perm_append_comm
    · rw [if_pos ⟨hty, hc0⟩] at e1
      have hcn1 : cn ∈ l1 := last_sibling_mem r h F k _ cn l1 hc0 hk e1
      have hne : A ≠ cn := fun hh => hA1 (hh ▸ hcn1)
      have hgA : g.node A = h.node A := hag A (by simp [hcm]) hne
      have hnx : delete_list r g.node (F + 1) (h.node A).next = some l2 :=
        delete_list_mono r g.node F _ l2
          (delete_list_congr r h.node g.node F _ l2 e2
            fun a ha => hag a (by simp [ha])
              (fun hh => hd1.2.2 hcn1 (List.mem_append_right _ (hh ▸ ha))))
      rw [hgA, if_pos ⟨hty, hc0⟩, delete_list_extend r h g ref E hE F k _ cn l1 hc0 e1 hd1.1 hk
        hcn (fun a ha hne => hag a (by simp [ha]) hne), hnx]
      refine ⟨_, rfl, ?_⟩
      have hp := @List.perm_append_comm _ E (r.own (h.node A) A ++ l2)
      rw [List.append_assoc] at hp
      simp only [List.append_assoc]
      exact List.Perm.append_left l1 hp

theorem live_iff (h : Store) (p : Nat) :
    h.live p = true ↔ 0 < p ∧ p < h.brk ∧ h.freed p = false := by
  simp [Store.live]

theorem own_prev (r : Releases) (n : Node) (c p : Nat) :
    r.own { n with prev := p } c = r.own n c := rfl

/-- The blocks of a record without children and without sibling are its own. -/
theorem delete_list_leaf (r : Releases) (f : Nat → Node) (K ref : Nat) (href : ref ≠ 0)
    (hnext : (f ref).next = 0) (hch : r.children (f ref).type = false) :
    delete_list r f (K + 2) ref = some (r.own (f ref) ref) := by
  rw [delete_list_unfold r f (K + 1) ref href, if_neg (by simp [hch]), hnext]
  simp [delete_list]

theorem last_sibling_mono (h : Store) : ∀ (k c cn : Nat),
    last_sibling h k c = some cn → last_sibling h (k + 1) c = some cn
  | 0, _, _, e => by simp [last_sibling] at e
  | k + 1, c, cn, e => by
    by_cases hn : c ≠ 0 ∧ (h.node c).next ≠ 0
    · rw [last_sibling, if_pos hn] at e ⊢
      exact last_sibling_mono h k _ cn e
    · rw [last_sibling, if_neg hn] at e ⊢
      exact e

/-- Deleting a chain walks it to its end, so the loop of `cJSON_AddItemToArray` finds
the last sibling, also in a heap with the same records on the chain. -/
theorem last_sibling_of_list (r : Releases) (h g : Store) : ∀ (F c : Nat) (l : List Nat),
    c ≠ 0 → delete_list r h.node F c = some l → (∀ a ∈ l, g.node a = h.node a) →
    ∃ cn, last_sibling h F c = some cn ∧ last_sibling g F c = some cn
  | 0, _, _, _, e, _ => by simp [delete_list] at e
  | F + 1, c, l, hc, e, hag => by
    rw [delete_list_unfold r h.node F c hc] at e
    obtain ⟨l1, _, e⟩ := Option.bind_eq_some.1 e
    obtain ⟨l2, e2, e3⟩ := Option.bind_eq_some.1 e
    have e3' := Option.some.inj e3
    subst e3'
    have hgc : g.node c = h.node c := hag c (by simp [mem_own_self])
    by_cases hn : (h.node c).next ≠ 0
    · obtain ⟨cn, h1, h2⟩ := last_sibling_of_list r h g F _ l2 hn e2
        (fun a ha => hag a (by simp [ha]))
      refine ⟨cn, ?_, ?_⟩
      · rw [last_sibling, if_pos ⟨hc, hn⟩]; exact h1
      · rw [last_sibling, hgc, if_pos ⟨hc, hn⟩]; exact h2
    · refine ⟨c, ?_, ?_⟩
      · rw [last_sibling, if_neg (fun hh => hn hh.2)]
      · rw [last_sibling, hgc, if_neg (fun hh => hn hh.2)]

/-- Attaching a fresh record without children as the last child of the container `A`
and deleting `A`: the deletion succeeds and releases the blocks that it released
without the new record, and the blocks `E` of the new record. Here `h` is the heap
before the new record was made and `h3` the heap with it. -/
theorem attach_then_delete (r : Releases) (F : Nat) (h h3 hd : Store) (A ref : Nat)
    (E : List Nat) (hdel : cJSON_Delete_with r F h A = some hd) (hA : A ≠ 0)
    (hty : r.children (h.node A).type = true)
    (hnode : ∀ a, a < h.brk → h3.node a = h.node a)
    (hfreed : ∀ a, a < h.brk → h3.freed a = h.freed a)
    (hbrk : h.brk ≤ h3.brk) (href : h.brk ≤ ref)
    (hnext : (h3.node ref).next = 0) (hch : r.children (h3.node ref).type = false)
    (hown : r.own (h3.node ref) ref = E) (hnd : E.Nodup)
    (hE : ∀ e ∈ E, h.brk ≤ e ∧ h3.live e = true) :
    ∃ g gd l l2, cJSON_AddItemToArray F h3 A ref = some g ∧
      cJSON_Delete_with r (F + 1) g A = some gd ∧
      hd = h.release l ∧ gd = g.release l2 ∧ l2.Perm (l ++ E) ∧
      (∀ a ∈ l, h.live a = true) ∧ g.brk = h3.brk ∧ g.freed = h3.freed ∧ g.text = h3.text ∧
      (∀ a, a ∉ l → a ≠ ref → g.node a = h3.node a) := by
  obtain ⟨l, el, fl⟩ := delete_to_list r F h A hd hdel
  obtain ⟨⟨hlnd, hlive⟩, hhd⟩ := (free_all_iff l h hd).1 fl
  have hlt : ∀ a ∈ l, 0 < a ∧ a < h.brk ∧ h.freed a = false :=
    fun a ha => (live_iff h a).1 (hlive a ha)
  have hAl : A ∈ l := delete_list_mem r h.node F A l hA el
  have hAlt := hlt A hAl
  have href0 : ref ≠ 0 := by omega
  have hrefl : ref ∉ l := fun hh => by have := (hlt ref hh).2.1; omega
  have hag3 : ∀ a ∈ l, h3.node a = h.node a := fun a ha => hnode a (hlt a ha).2.1
  have hA3 : h3.node A = h.node A := hag3 A hAl
  -- the heap after the attachment
  have hadd : ∃ g, cJSON_AddItemToArray F h3 A ref = some g ∧ g.brk = h3.brk ∧
      g.freed = h3.freed ∧ g.text = h3.text ∧
      (∀ a, a ∉ l → a ≠ ref → g.node a = h3.node a) ∧
      (∀ K, delete_list r g.node (K + 2) ref = some E) ∧
      (((h.node A).child = 0 ∧ g.node A = { h.node A with child := ref } ∧
          ∀ a ∈ l, a ≠ A → g.node a = h.node a) ∨
        ((h.node A).child ≠ 0 ∧ ∃ k cn, last_sibling h k (h.node A).child = some cn ∧
          g.node cn = { h.node cn with next := ref } ∧
          ∀ a ∈ l, a ≠ cn → g.node a = h.node a)) := by
    unfold cJSON_AddItemToArray
    simp only [if_neg href0, hA3]
    by_cases hc0 : (h.node A).child = 0
    · rw [if_pos hc0]
      refine ⟨_, rfl, rfl, rfl, rfl, ?_, ?_, Or.inl ⟨hc0, ?_, ?_⟩⟩
      · intro a ha _
        have : a ≠ A := fun hh => ha (hh ▸ hAl)
        simp [Store.set, this]
      · intro K
        have hne : ref ≠ A := fun hh => hrefl (hh ▸ hAl)
        have hr : (h3.set A { h.node A with child := ref }).node ref = h3.node ref := by
          simp [Store.set, hne]
        rw [delete_list_leaf r _ K ref href0 (by rw [hr]; exact hnext) (by rw [hr]; exact hch),
          hr, hown]
      · simp [Store.set]
      · intro a ha hne
        simp only [Store.set, if_neg hne]
        exact hag3 a ha
    · rw [if_neg hc0]
      have hF : ∃ F0, F = F0 + 1 := by
        cases F with
        | zero => simp [delete_list] at el
        | succ F0 => exact ⟨F0, rfl⟩
      obtain ⟨F0, hF⟩ := hF
      subst hF
      have el0 := el
      rw [delete_list_unfold r h.node F0 A hA, if_pos ⟨hty, hc0⟩] at el0
      obtain ⟨l1, e1, el0⟩ := Option.bind_eq_some.1 el0
      obtain ⟨l2, _, e3⟩ := Option.bind_eq_some.1 el0
      have e3' := Option.some.inj e3
      have hl1 : ∀ a ∈ l1, a ∈ l := fun a ha => by rw [← e3']; simp [ha]
      obtain ⟨cn, hk, hk3⟩ := last_sibling_of_list r h h3 F0 _ l1 hc0 e1
        (fun a ha => hag3 a (hl1 a ha))
      have hcn1 : cn ∈ l1 := last_sibling_mem r h F0 F0 _ cn l1 hc0 hk e1
      have hcnl : cn ∈ l := hl1 cn hcn1
      have hcnref : cn ≠ ref := fun hh => hrefl (hh ▸ hcnl)
      rw [last_sibling_mono h3 F0 _ cn hk3]
      refine ⟨_, rfl, rfl, rfl, rfl, ?_, ?_, Or.inr ⟨hc0, F0, cn, hk, ?_, ?_⟩⟩
      · intro a ha har
        have : a ≠ cn := fun hh => ha (hh ▸ hcnl)
        simp [suffix_object, Store.set, this, har]
      · intro K
        have hr : (suffix_object h3 cn ref).node ref = { h3.node ref with prev := cn } := by
          simp [suffix_object, Store.set, Ne.symm hcnref]
        rw [delete_list_leaf r _ K ref href0 (by rw [hr]; exact hnext) (by rw [hr]; exact hch),
          hr, own_prev, hown]
      · simp [suffix_object, Store.set, hcnref, hag3 cn hcnl]
      · intro a ha hne
        have har : a ≠ ref := fun hh => hrefl (hh ▸ ha)
        simp only [suffix_object, Store.set, if_neg hne, if_neg har]
        exact hag3 a ha
  obtain ⟨g, eg, gbrk, gfreed, gtext, gnode, gE, gcase⟩ := hadd
  obtain ⟨l2, el2, hperm⟩ := delete_list_attach r h g A ref E F l gE hA href0 hty el hlnd gcase
  have hnd2 : l2.Nodup := by
    rw [hperm.nodup_iff, List.nodup_append]
    refine ⟨hlnd, hnd, ?_⟩
    intro a ha hb
    have := (hlt a ha).2.1
    have := (hE a hb).1
    omega
  have hlive2 : ∀ a ∈ l2, g.live a = true := by
    intro a ha
    rw [hperm.mem_iff, List.mem_append] at ha
    rw [live_iff, gbrk, gfreed]
    rcases ha with ha | ha
    · have := hlt a ha
      exact ⟨this.1, by omega, by rw [hfreed a this.2.1]; exact this.2.2⟩
    · exact (live_iff h3 a).1 (hE a ha).2
  have fl2 : free_all l2 g = some (g.release l2) :=
    (free_all_iff l2 g _).2 ⟨⟨hnd2, hlive2⟩, rfl⟩
  exact ⟨g, g.release l2, l, l2, eg, list_to_delete r (F + 1) g A l2 _ el2 fl2, hhd, rfl, hperm,
    hlive, gbrk, gfreed, gtext, gnode⟩

end Alloc

/-- The loop of `print_array` reads the records of the chain only. -/
theorem print_array_loop_frame (pv pv2 : Nat → cJSON_Buf → Option cJSON_Buf) (m m2 : Mem)
    (fmt : Bool) (S : Nat → Prop)
    (hS : ∀ p, S p → p ≠ 0 → (m.node p).next ≠ 0 → S (m.node p).next)
    (hag : ∀ p, S p → m2.node p = m.node p)
    (hpv : ∀ c b, S c → c ≠ 0 → pv2 c b = pv c b) :
    ∀ (fuel child : Nat) (b : cJSON_Buf), (child ≠ 0 → S child) →
      print_array_loop pv2 m2 fmt fuel child b = print_array_loop pv m fmt fuel child b
  | 0, _, _, _ => rfl
  | fuel + 1, child, b, hc => by
    by_cases h0 : child = 0
    · simp [print_array_loop, h0]
    · have hs := hc h0
      have ih := fun b3 => print_array_loop_frame pv pv2 m m2 fmt S hS hag hpv fuel
        (m.node child).next b3 (hS child hs h0)
      rw [print_array_loop, print_array_loop, if_neg h0, if_neg h0, hpv child b hs h0,
        hag child hs]
      simp only [ih]

/-- The loop of `print_object` reads the records of the chain only. -/
theorem print_object_loop_frame (pv pv2 : Nat → cJSON_Buf → Option cJSON_Buf) (m m2 : Mem)
    (fmt : Bool) (depth : Nat) (S : Nat → Prop)
    (hS : ∀ p, S p → p ≠ 0 → (m.node p).next ≠ 0 → S (m.node p).next)
    (hag : ∀ p, S p → m2.node p = m.node p)
    (hpv : ∀ c b, S c → c ≠ 0 → pv2 c b = pv c b) :
    ∀ (fuel child : Nat) (b : cJSON_Buf), (child ≠ 0 → S child) →
      print_object_loop pv2 m2 fmt depth fuel child b =
        print_object_loop pv m fmt depth fuel child b
  | 0, _, _, _ => rfl
  | fuel + 1, child, b, hc => by
    by_cases h0 : child = 0
    · simp [print_object_loop, h0]
    · have hs := hc h0
      have ih := fun b3 => print_object_loop_frame pv pv2 m m2 fmt depth S hS hag hpv fuel
        (m.node child).next b3 (hS child hs h0)
      have hp := fun b4 => hpv child b4 hs h0
      rw [print_object_loop, print_object_loop, if_neg h0, if_neg h0, hag child hs]
      simp only [ih, hp]

/-- The printer of the arena variant reads the records of the tree only. -/
theorem Arena.arena_print_value_frame (libc : Libc) (m m2 : Mem) (fmt : Bool) (S : Nat → Prop)
    (hS : ∀ p, S p → p ≠ 0 →
      ((m.node p).child ≠ 0 → S (m.node p).child) ∧ ((m.node p).next ≠ 0 → S (m.node p).next))
    (hag : ∀ p, S p → m2.node p = m.node p) :
    ∀ (fuel item depth : Nat) (b : cJSON_Buf), (item ≠ 0 → S item) →
      Arena.print_value libc m2 fmt fuel item depth b =
        Arena.print_value libc m fmt fuel item depth b
  | 0, _, _, _, _ => rfl
  | fuel + 1, item, depth, b, hi => by
    by_cases h0 : item = 0
    · simp [Arena.print_value, h0]
    · have hs := hi h0
      have hn := hag item hs
      have hpv : ∀ c b1, S c → c ≠ 0 →
          Arena.print_value libc m2 fmt fuel c (depth + 1) b1 =
            Arena.print_value libc m fmt fuel c (depth + 1) b1 :=
        fun c b1 hc _ => Arena.arena_print_value_frame libc m m2 fmt S hS hag fuel c (depth + 1) b1
          (fun _ => hc)
      have hnext : ∀ p, S p → p ≠ 0 → (m.node p).next ≠ 0 → S (m.node p).next :=
        fun p hp h1 => (hS p hp h1).2
      have ha : print_array (fun c b1 => Arena.print_value libc m2 fmt fuel c (depth + 1) b1)
          m2 fmt fuel item b =
          print_array (fun c b1 => Arena.print_value libc m fmt fuel c (depth + 1) b1)
            m fmt fuel item b := by
        unfold print_array
        rw [hn]
        simp only [print_array_loop_frame _ _ m m2 fmt S hnext hag hpv fuel _ _
          (hS item hs h0).1]
      have ho : print_object (fun c b1 => Arena.print_value libc m2 fmt fuel c (depth + 1) b1)
          m2 fmt depth fuel item b =
          print_object (fun c b1 => Arena.print_value libc m fmt fuel c (depth + 1) b1)
            m fmt depth fuel item b := by
        unfold print_object
        rw [hn]
        simp only [print_object_loop_frame _ _ m m2 fmt (depth + 1) S hnext hag hpv fuel _ _
          (hS item hs h0).1]
      rw [Arena.print_value, Arena.print_value, if_neg h0, if_neg h0]
      simp only [hn, ha, ho]

/-- The printer of `src/cJSON.c` reads the records of the tree only. -/
theorem PerValue.heap_print_value_frame (libc : Libc) (m m2 : Mem) (fmt : Bool) (S : Nat → Prop)
    (hS : ∀ p, S p → p ≠ 0 →
      ((m.node p).child ≠ 0 → S (m.node p).child) ∧ ((m.node p).next ≠ 0 → S (m.node p).next))
    (hag : ∀ p, S p → m2.node p = m.node p) :
    ∀ (fuel item depth : Nat) (b : cJSON_Buf), (item ≠ 0 → S item) →
      PerValue.print_value libc m2 fmt fuel item depth b =
        PerValue.print_value libc m fmt fuel item depth b
  | 0, _, _, _, _ => rfl
  | fuel + 1, item, depth, b, hi => by
    by_cases h0 : item = 0
    · simp [PerValue.print_value, h0]
    · have hs := hi h0
      have hn := hag item hs
      have hpv : ∀ c b1, S c → c ≠ 0 →
          PerValue.print_value libc m2 fmt fuel c (depth + 1) b1 =
            PerValue.print_value libc m fmt fuel c (depth + 1) b1 :=
        fun c b1 hc _ => PerValue.heap_print_value_frame libc m m2 fmt S hS hag fuel c (depth + 1)
          b1 (fun _ => hc)
      have hnext : ∀ p, S p → p ≠ 0 → (m.node p).next ≠ 0 → S (m.node p).next :=
        fun p hp h1 => (hS p hp h1).2
      have ha : print_array
          (fun c b1 => PerValue.print_value libc m2 fmt fuel c (depth + 1) b1)
          m2 fmt fuel item b =
          print_array (fun c b1 => PerValue.print_value libc m fmt fuel c (depth + 1) b1)
            m fmt fuel item b := by
        unfold print_array
        rw [hn]
        simp only [print_array_loop_frame _ _ m m2 fmt S hnext hag hpv fuel _ _
          (hS item hs h0).1]
      have ho : print_object
          (fun c b1 => PerValue.print_value libc m2 fmt fuel c (depth + 1) b1)
          m2 fmt depth fuel item b =
          print_object (fun c b1 => PerValue.print_value libc m fmt fuel c (depth + 1) b1)
            m fmt depth fuel item b := by
        unfold print_object
        rw [hn]
        simp only [print_object_loop_frame _ _ m m2 fmt (depth + 1) S hnext hag hpv fuel _ _
          (hS item hs h0).1]
      rw [PerValue.print_value, PerValue.print_value, if_neg h0, if_neg h0]
      simp only [hn, ha, ho]

namespace Alloc

theorem or_reference_and (t : Nat) : (t ||| cJSON_IsReference) &&& cJSON_IsReference ≠ 0 := by
  intro hh
  have h1 := congrArg (fun n => Nat.testBit n 8) hh
  have h3 : Nat.testBit 256 8 = true := by decide
  simp [cJSON_IsReference, Nat.testBit_and, Nat.testBit_or, h3] at h1

theorem or_reference_ne (t k : Nat) (hk : k < 256) : t ||| cJSON_IsReference ≠ k := by
  intro hh
  have h1 := congrArg (fun n => Nat.testBit n 8) hh
  have h2 : Nat.testBit k 8 = false := Nat.testBit_lt_two_pow (by simpa using hk)
  have h3 : Nat.testBit 256 8 = true := by decide
  simp [cJSON_IsReference, Nat.testBit_or, h2, h3] at h1

theorem or_key_and (t : Nat) : (t ||| Allocate_Key) &&& Allocate_Key ≠ 0 := by
  intro hh
  have h1 := congrArg (fun n => Nat.testBit n 0) hh
  have h3 : Nat.testBit 1 0 = true := by decide
  simp [Allocate_Key, Nat.testBit_and, Nat.testBit_or, h3] at h1

theorem release_live (h : Store) (l : List Nat) (a : Nat) :
    (h.release l).live a = true ↔ h.live a = true ∧ a ∉ l := by
  simp only [Store.live, Store.release, Bool.and_eq_true, decide_eq_true_eq, Bool.not_eq_true',
    Bool.or_eq_false_iff, decide_eq_false_iff_not]
  tauto

theorem string_at_eq (h1 h2 : Store) (q : Nat) (hl : h1.live q = h2.live q)
    (ht : h1.text q = h2.text q) : h1.string_at q = h2.string_at q := by
  simp only [Store.string_at, hl, ht]

/-- The generic statement of reference safety: see `attach_then_delete`. What survived
the deletion without the new record survives the deletion with it, unchanged, and reads
the same before and after. -/
theorem reference_safe (r : Releases) (F : Nat) (h h3 hd : Store) (A ref : Nat)
    (E : List Nat) (hdel : cJSON_Delete_with r F h A = some hd) (hA : A ≠ 0)
    (hty : r.children (h.node A).type = true)
    (hnode : ∀ a, a < h.brk → h3.node a = h.node a)
    (hfreed : ∀ a, a < h.brk → h3.freed a = h.freed a)
    (htext : ∀ a, a < h.brk → h3.text a = h.text a)
    (hbrk : h.brk ≤ h3.brk) (href : h.brk ≤ ref)
    (hnext : (h3.node ref).next = 0) (hch : r.children (h3.node ref).type = false)
    (hown : r.own (h3.node ref) ref = E) (hnd : E.Nodup)
    (hE : ∀ e ∈ E, h.brk ≤ e ∧ h3.live e = true) :
    ∃ g gd, cJSON_AddItemToArray F h3 A ref = some g ∧
      cJSON_Delete_with r (F + 1) g A = some gd ∧ Unharmed h hd gd ∧
      ∀ p, Survives h hd p → gd.record p = h.record p ∧ g.record p = h.record p := by
  obtain ⟨g, gd, l, l2, eg, egd, hhd, hgd, hperm, hlive, gbrk, gfreed, gtext, gnode⟩ :=
    attach_then_delete r F h h3 hd A ref E hdel hA hty hnode hfreed hbrk href hnext hch hown
      hnd hE
  have hmem : ∀ a, a < h.brk → (a ∈ l2 ↔ a ∈ l) := by
    intro a ha
    rw [hperm.mem_iff, List.mem_append]
    constructor
    · rintro (h1 | h1)
      · exact h1
      · have := (hE a h1).1; omega
    · exact Or.inl
  have hglive : ∀ a, a < h.brk → g.live a = h.live a := by
    intro a ha
    have h1 : a < h3.brk := by omega
    simp only [Store.live, gbrk, gfreed, hfreed a ha, ha, h1]
  have hgdlive : ∀ a, a < h.brk → gd.live a = hd.live a := by
    intro a ha
    rw [Bool.eq_iff_iff, hgd, hhd, release_live, release_live, hglive a ha, hmem a ha]
  have hsurv : ∀ a, hd.live a = true → a < h.brk ∧ a ∉ l ∧ a ≠ ref ∧ h.live a = true := by
    intro a ha
    rw [hhd, release_live] at ha
    have h1 := ((live_iff h a).1 ha.1).2.1
    exact ⟨h1, ha.2, by omega, ha.1⟩
  have hgnode : ∀ a, hd.live a = true → g.node a = h.node a := by
    intro a ha
    obtain ⟨h1, h2, h3', _⟩ := hsurv a ha
    rw [gnode a h2 h3', hnode a h1]
  have hgtext : ∀ a, a < h.brk → g.text a = h.text a := by
    intro a ha
    rw [gtext, htext a ha]
  have hgdnode : gd.node = g.node := by rw [hgd]; rfl
  have hgdtext : gd.text = g.text := by rw [hgd]; rfl
  have hstr : ∀ q, q = 0 ∨ hd.live q = true →
      gd.string_at q = h.string_at q ∧ g.string_at q = h.string_at q := by
    rintro q (rfl | hq)
    · exact ⟨rfl, rfl⟩
    · obtain ⟨h1, _, _, _⟩ := hsurv q hq
      have h2 : hd.live q = h.live q := by
        rw [hq]; exact ((hsurv q hq).2.2.2).symm
      exact ⟨string_at_eq gd h q (by rw [hgdlive q h1, h2]) (by rw [hgdtext, hgtext q h1]),
        string_at_eq g h q (hglive q h1) (hgtext q h1)⟩
  refine ⟨g, gd, eg, egd, ⟨hgdlive, ?_⟩, ?_⟩
  · intro a ha
    exact ⟨by rw [hgdnode, hgnode a ha], by rw [hgdtext, hgtext a (hsurv a ha).1]⟩
  · rintro p ⟨hp, hv, hs⟩
    have hn := hgnode p hp
    have hv1 := hstr _ hv
    have hs1 := hstr _ hs
    constructor
    · simp only [Store.record, hgdnode, hn, hv1.1, hs1.1]
    · simp only [Store.record, hn, hv1.2, hs1.2]

/-- The heap in which `create_reference` has made the reference to the live record
`x`: one fresh block at the old `brk`, which holds the record of `x` with the reference
bit set and without key and siblings; the blocks that existed are as they were. -/
theorem create_reference_eq (h : Store) (x : Nat) (hx : h.live x = true) :
    ∃ h1, create_reference h x = some (h1, h.brk) ∧ h1.brk = h.brk + 1 ∧
      h1.text = h.text ∧
      (∀ a, a < h.brk → h1.node a = h.node a ∧ h1.freed a = h.freed a) ∧
      h1.freed h.brk = false ∧
      h1.node h.brk = { h.node x with
        string := 0, type := (h.node x).type ||| cJSON_IsReference, next := 0, prev := 0 } := by
  have hlt := ((live_iff h x).1 hx).2.1
  have hne : x ≠ h.brk := by omega
  unfold create_reference
  rw [if_pos hx]
  refine ⟨_, rfl, rfl, rfl, ?_, ?_, ?_⟩
  · intro a ha
    have : a ≠ h.brk := by omega
    simp [cJSON_New_Item, malloc, Store.set, this]
  · simp [cJSON_New_Item, malloc, Store.set]
  · simp [cJSON_New_Item, malloc, Store.set, hne]

/-- The heap in which `cJSON_AddItemToObject` of the arena variant has given the fresh
reference its key, before it is attached. -/
theorem Arena.arena_add_to_object_eq (F : Nat) (h1 : Store) (A ref : Nat) (key : Bytes)
    (href : ref ≠ 0) (hs : (h1.node ref).string = 0) :
    ∃ h3, Arena.cJSON_AddItemToObject F h1 A key ref = cJSON_AddItemToArray F h3 A ref ∧
      h3.brk = h1.brk + 1 ∧ (∀ a, a ≠ ref → h3.node a = h1.node a) ∧
      (∀ a, a ≠ h1.brk → h3.freed a = h1.freed a ∧ h3.text a = h1.text a) ∧
      h3.freed h1.brk = false ∧
      h3.node ref = { h1.node ref with
        string := h1.brk, allocate_type := (h1.node ref).allocate_type ||| Allocate_Key } := by
  unfold Arena.cJSON_AddItemToObject
  rw [if_neg href, if_neg (fun hh => hh.2 hs)]
  refine ⟨_, rfl, rfl, ?_, ?_, ?_, ?_⟩
  · intro a ha
    simp [cJSON_strdup, malloc, Store.set, ha]
  · intro a ha
    simp [cJSON_strdup, malloc, Store.set, ha]
  · simp [cJSON_strdup, malloc, Store.set]
  · simp [cJSON_strdup, malloc, Store.set]

/-- The heap in which `cJSON_AddItemToObject` of `src/cJSON.c` has given the fresh
reference its key, before it is attached. -/
theorem PerValue.heap_add_to_object_eq (F : Nat) (h1 : Store) (A ref : Nat) (key : Bytes)
    (href : ref ≠ 0) (hs : (h1.node ref).string = 0) :
    ∃ h3, PerValue.cJSON_AddItemToObject F h1 A key ref = cJSON_AddItemToArray F h3 A ref ∧
      h3.brk = h1.brk + 1 ∧ (∀ a, a ≠ ref → h3.node a = h1.node a) ∧
      (∀ a, a ≠ h1.brk → h3.freed a = h1.freed a ∧ h3.text a = h1.text a) ∧
      h3.freed h1.brk = false ∧
      h3.node ref = { h1.node ref with string := h1.brk } := by
  unfold PerValue.cJSON_AddItemToObject
  rw [if_neg href, if_neg (fun hh => hh hs)]
  refine ⟨_, rfl, rfl, ?_, ?_, ?_, ?_⟩
  · intro a ha
    simp [cJSON_strdup, malloc, Store.set, ha]
  · intro a ha
    simp [cJSON_strdup, malloc, Store.set, ha]
  · simp [cJSON_strdup, malloc, Store.set]
  · simp [cJSON_strdup, malloc, Store.set]

theorem Arena.arena_children_reference (t : Nat) :
    Arena.releases.children (t ||| cJSON_IsReference) = false := by
  simp [Arena.releases, or_reference_ne t cJSON_Array (by decide),
    or_reference_ne t cJSON_Object (by decide)]

theorem PerValue.heap_children_reference (t : Nat) :
    PerValue.releases.children (t ||| cJSON_IsReference) = false := by
  simp [PerValue.releases, or_reference_and t]

/-- Of a reference with a key of its own the arena variant releases the key and the
record. -/
theorem Arena.arena_own_reference_key (n : Node) (ref kb t a : Nat) (hkb : kb ≠ 0)
    (hty : n.type = t ||| cJSON_IsReference) (hat : n.allocate_type = a ||| Allocate_Key)
    (hs : n.string = kb) : Arena.releases.own n ref = [kb, ref] := by
  simp [Releases.own, Arena.releases, hty, hat, hs, hkb, or_reference_ne t cJSON_String (by decide),
    or_reference_and t, or_key_and a]

/-- Of a reference without a key the arena variant releases the record only. -/
theorem Arena.arena_own_reference (n : Node) (ref t : Nat)
    (hty : n.type = t ||| cJSON_IsReference) (hs : n.string = 0) :
    Arena.releases.own n ref = [ref] := by
  simp [Releases.own, Arena.releases, hty, hs, or_reference_ne t cJSON_String (by decide),
    or_reference_and t]

/-- Of a reference with a key of its own `src/cJSON.c` releases the key and the record. -/
theorem PerValue.heap_own_reference_key (n : Node) (ref kb t : Nat) (hkb : kb ≠ 0)
    (hty : n.type = t ||| cJSON_IsReference) (hs : n.string = kb) :
    PerValue.releases.own n ref = [kb, ref] := by
  simp [Releases.own, PerValue.releases, hty, hs, hkb, or_reference_and t]

/-- Of a reference without a key `src/cJSON.c` releases the record only. -/
theorem PerValue.heap_own_reference (n : Node) (ref t : Nat)
    (hty : n.type = t ||| cJSON_IsReference) (hs : n.string = 0) :
    PerValue.releases.own n ref = [ref] := by
  simp [Releases.own, PerValue.releases, hty, hs, or_reference_and t]

theorem Arena.arena_children_container (t : Nat) (h : t = cJSON_Array ∨ t = cJSON_Object) :
    Arena.releases.children t = true := by
  rcases h with h | h <;> subst h <;> decide

theorem PerValue.heap_children_container (t : Nat) (h : t = cJSON_Array ∨ t = cJSON_Object) :
    PerValue.releases.children t = true := by
  rcases h with h | h <;> subst h <;> decide

/-- Reference safety for a reference with a key, for the conditions `r` of either file:
`hadd` is the step of `cJSON_AddItemToObject` and `hown` the blocks of the reference. -/
theorem reference_with_key_safe (r : Releases) (F : Nat) (h hd : Store) (A x : Nat)
    (add : Store → Nat → Option Store)
    (hadd : ∀ h1 ref, ref ≠ 0 → (h1.node ref).string = 0 →
      ∃ h3, add h1 ref = cJSON_AddItemToArray F h3 A ref ∧
        h3.brk = h1.brk + 1 ∧ (∀ a, a ≠ ref → h3.node a = h1.node a) ∧
        (∀ a, a ≠ h1.brk → h3.freed a = h1.freed a ∧ h3.text a = h1.text a) ∧
        h3.freed h1.brk = false ∧
        (h3.node ref).next = (h1.node ref).next ∧
        r.children (h3.node ref).type = r.children (h1.node ref).type ∧
        (h1.brk ≠ 0 → (h1.node ref).type = (h.node x).type ||| cJSON_IsReference →
          r.own (h3.node ref) ref = [h1.brk, ref]))
    (hrc : ∀ t, r.children (t ||| cJSON_IsReference) = false)
    (hx : h.live x = true) (hA : A ≠ 0) (hty : r.children (h.node A).type = true)
    (hdel : cJSON_Delete_with r F h A = some hd) :
    ∃ g gd, (create_reference h x).bind (fun p => add p.1 p.2) = some g ∧
      cJSON_Delete_with r (F + 1) g A = some gd ∧ Unharmed h hd gd ∧
      ∀ p, Survives h hd p → gd.record p = h.record p ∧ g.record p = h.record p := by
  have hpos := ((live_iff h x).1 hx).1
  have hlt := ((live_iff h x).1 hx).2.1
  obtain ⟨h1, e1, b1, t1, n1, f1, r1⟩ := create_reference_eq h x hx
  have href : h.brk ≠ 0 := by omega
  obtain ⟨h3, e3, b3, n3, ft3, f3, nx3, ch3, own3⟩ := hadd h1 h.brk href (by rw [r1])
  have hkey : h1.brk ≠ h.brk := by omega
  have hf3 : h3.freed h.brk = false := by rw [(ft3 h.brk (Ne.symm hkey)).1]; exact f1
  obtain ⟨g, gd, eg, egd, hu, hrec⟩ := reference_safe r F h h3 hd A h.brk [h1.brk, h.brk] hdel
    hA hty
    (fun a ha => by rw [n3 a (by omega), (n1 a ha).1])
    (fun a ha => by rw [(ft3 a (by omega)).1, (n1 a ha).2])
    (fun a ha => by rw [(ft3 a (by omega)).2, t1])
    (by omega) (Nat.le_refl _)
    (by rw [nx3, r1])
    (by rw [ch3, r1]; exact hrc _)
    (own3 (by omega) (by rw [r1]))
    (by simp [hkey])
    (by
      intro e he
      simp only [List.mem_cons, List.mem_singleton, List.not_mem_nil, or_false] at he
      rcases he with rfl | rfl
      · exact ⟨by omega, (live_iff h3 _).2 ⟨by omega, by omega, f3⟩⟩
      · exact ⟨Nat.le_refl _, (live_iff h3 _).2 ⟨by omega, by omega, hf3⟩⟩)
  refine ⟨g, gd, ?_, egd, hu, hrec⟩
  rw [e1, Option.some_bind, e3]
  exact eg

/-- Reference safety for a reference without a key, attached by
`cJSON_AddItemReferenceToArray`, for the conditions `r` of either file. -/
theorem reference_in_array_safe (r : Releases) (F : Nat) (h hd : Store) (A x : Nat)
    (hown : ∀ n : Node, n.type = (h.node x).type ||| cJSON_IsReference → n.string = 0 →
      r.own n h.brk = [h.brk])
    (hrc : ∀ t, r.children (t ||| cJSON_IsReference) = false)
    (hx : h.live x = true) (hA : A ≠ 0) (hty : r.children (h.node A).type = true)
    (hdel : cJSON_Delete_with r F h A = some hd) :
    ∃ g gd, cJSON_AddItemReferenceToArray F h A x = some g ∧
      cJSON_Delete_with r (F + 1) g A = some gd ∧ Unharmed h hd gd ∧
      ∀ p, Survives h hd p → gd.record p = h.record p ∧ g.record p = h.record p := by
  have hpos := ((live_iff h x).1 hx).1
  have hlt := ((live_iff h x).1 hx).2.1
  obtain ⟨h1, e1, b1, t1, n1, f1, r1⟩ := create_reference_eq h x hx
  obtain ⟨g, gd, eg, egd, hu, hrec⟩ := reference_safe r F h h1 hd A h.brk [h.brk] hdel
    hA hty (fun a ha => (n1 a ha).1) (fun a ha => (n1 a ha).2) (fun a _ => by rw [t1])
    (by omega) (Nat.le_refl _) (by rw [r1]) (by rw [r1]; exact hrc _)
    (hown _ (by rw [r1]) (by rw [r1])) (by simp)
    (by
      intro e he
      simp only [List.mem_singleton] at he
      subst he
      exact ⟨Nat.le_refl _, (live_iff h1 _).2 ⟨by omega, by omega, f1⟩⟩)
  refine ⟨g, gd, ?_, egd, hu, hrec⟩
  unfold cJSON_AddItemReferenceToArray
  rw [e1, Option.some_bind]
  exact eg

end Alloc

/-- Printing a tree with the arena variant gives the same in two heaps in which the
records of the tree read the same. -/
theorem Arena.arena_print_json_view (libc : Libc) (h g : Alloc.Store) (S : Nat → Prop)
    (hS : Alloc.ClosedUnder h S) (hag : ∀ p, S p → g.record p = h.record p) (B fuel : Nat)
    (fmt : Bool) (buf : Option cJSON_Buf) (hB : S B) :
    Arena.print_json libc fuel g.view B fmt buf = Arena.print_json libc fuel h.view B fmt buf := by
  simp only [Arena.print_json]
  rw [Arena.arena_print_value_frame libc h.view g.view fmt S hS hag fuel B 0 _ (fun _ => hB)]

/-- Printing a tree with `src/cJSON.c` gives the same in two heaps in which the records
of the tree read the same. -/
theorem PerValue.heap_print_json_view (libc : Libc) (h g : Alloc.Store) (S : Nat → Prop)
    (hS : Alloc.ClosedUnder h S) (hag : ∀ p, S p → g.record p = h.record p) (B fuel : Nat)
    (fmt : Bool) (padding estimate : Int) (hB : S B) :
    PerValue.print_json libc fuel g.view B fmt padding estimate =
      PerValue.print_json libc fuel h.view B fmt padding estimate := by
  simp only [PerValue.print_json]
  rw [PerValue.heap_print_value_frame libc h.view g.view fmt S hS hag fuel B 0 _ (fun _ => hB)]

theorem Passes.here (t : Bytes) : Passes t t := ⟨[], by simp, rfl⟩

theorem Passes.onward {a b c : Bytes} (h1 : Passes a b) (h2 : Passes b c) : Passes a c := by
  obtain ⟨x, hx, rfl⟩ := h1
  obtain ⟨y, hy, rfl⟩ := h2
  refine ⟨x ++ y, ?_, by simp⟩
  intro b hb
  rcases List.mem_append.1 hb with h | h
  · exact hx b h
  · exact hy b h

theorem Passes.rest_le {a b : Bytes} (h : Passes a b) : b.length ≤ a.length := by
  obtain ⟨x, _, rfl⟩ := h
  simp

theorem Passes.over (c t : Bytes) (h : ∀ b ∈ c, b ≠ 0) : Passes (c ++ t) t := ⟨c, h, rfl⟩

theorem Passes.cons (b : Nat) (t : Bytes) (h : b ≠ 0) : Passes (b :: t) t :=
  ⟨[b], by simpa using h, rfl⟩

theorem peek_cons_of_ne_zero {t : Bytes} (h : peek t ≠ 0) : t = peek t :: t.tail := by
  cases t with
  | nil => simp [peek] at h
  | cons b X => rfl

theorem Passes.tail {t : Bytes} (h : peek t ≠ 0) : Passes t t.tail := by
  have e := peek_cons_of_ne_zero h
  exact ⟨[peek t], by simpa using h, by simpa using e⟩

theorem Passes.tail_lt {t : Bytes} (h : peek t ≠ 0) : t.tail.length < t.length := by
  have e := peek_cons_of_ne_zero h
  rw [e]; simp

theorem Passes.skip (t : Bytes) : Passes t (skip t) := by
  obtain ⟨ws, hws, e⟩ := skip_splits t
  exact ⟨ws, fun b hb => by have := (hws b hb).1; omega, e⟩

theorem skip_length_le (t : Bytes) : (skip t).length ≤ t.length := (Passes.skip t).rest_le

theorem Passes.drop_starts (p t : Bytes) (hp : ∀ b ∈ p, b ≠ 0) (h : starts_with p t = true) :
    Passes t (t.drop p.length) := by
  have e : t.take p.length = p := by simpa [starts_with] using h
  refine ⟨p, hp, ?_⟩
  conv_lhs => rw [← List.take_append_drop p.length t, e]

theorem starts_with_length (p t : Bytes) (h : starts_with p t = true) : p.length ≤ t.length := by
  have e : t.take p.length = p := by simpa [starts_with] using h
  have := congrArg List.length e
  rw [List.length_take] at this
  omega

theorem Progress.of_passes {a b : Bytes} (h : Passes a b) (hl : b.length < a.length) :
    Progress a b := by
  obtain ⟨c, hc, rfl⟩ := h
  refine ⟨c, ?_, hc, rfl⟩
  rintro rfl
  simp at hl

theorem Progress.passes {a b : Bytes} (h : Progress a b) : Passes a b := by
  obtain ⟨c, _, hc, e⟩ := h
  exact ⟨c, hc, e⟩

theorem Progress.length_lt {a b : Bytes} (h : Progress a b) : b.length < a.length := by
  obtain ⟨c, h0, _, rfl⟩ := h
  have : 0 < c.length := List.length_pos.2 h0
  simp; omega

theorem hex_value_ne_zero {a x : Nat} (h : hex_value a = some x) : a ≠ 0 := by
  rintro rfl
  simp [hex_value] at h

theorem hex4_value_no_nul {hs : Bytes} {u : Nat} (h : hex4_value hs = some u) :
    hs.length = 4 ∧ ∀ b ∈ hs, b ≠ 0 := by
  obtain ⟨a, b, c, d, x, y, z, w, rfl, ha, hb, hc, hd, -⟩ := hex4_value_some h
  refine ⟨rfl, ?_⟩
  intro e he
  simp only [List.mem_cons, List.mem_singleton, List.not_mem_nil, or_false] at he
  rcases he with rfl | rfl | rfl | rfl
  · exact hex_value_ne_zero ha
  · exact hex_value_ne_zero hb
  · exact hex_value_ne_zero hc
  · exact hex_value_ne_zero hd

theorem utf8_encode_length_le (cp : Nat) : (utf8_encode cp).length ≤ 4 := by
  unfold utf8_encode
  split_ifs <;> simp

theorem Arena.loop_stop (ptr : Bytes) (h : peek ptr = 34 ∨ peek ptr = 0) (fuel : Nat)
    (out : Bytes) : Arena.parse_string_loop (fuel + 1) ptr out = Decoded.done out ptr := by
  rw [Arena.parse_string_loop, if_pos h]

theorem Arena.loop_raw (c : Nat) (hc : c ≠ 34 ∧ c ≠ 0 ∧ c ≠ 92) (X : Bytes) (fuel : Nat)
    (out : Bytes) :
    Arena.parse_string_loop (fuel + 1) (c :: X) out =
      Arena.parse_string_loop fuel X (out ++ [c]) := by
  rw [Arena.parse_string_loop]
  simp only [peek, List.headD_cons, List.tail_cons]
  rw [if_neg (by omega), if_pos hc.2.2]

theorem Arena.loop_simple_escape (e code : Nat)
    (h : (e = 98 ∧ code = 8) ∨ (e = 102 ∧ code = 12) ∨ (e = 110 ∧ code = 10) ∨
      (e = 114 ∧ code = 13) ∨ (e = 116 ∧ code = 9)) (X : Bytes) (fuel : Nat) (out : Bytes) :
    Arena.parse_string_loop (fuel + 1) (92 :: e :: X) out =
      Arena.parse_string_loop fuel X (out ++ [code]) := by
  rw [Arena.parse_string_loop]
  simp only [peek, List.headD_cons, List.tail_cons]
  rcases h with ⟨rfl, rfl⟩ | ⟨rfl, rfl⟩ | ⟨rfl, rfl⟩ | ⟨rfl, rfl⟩ | ⟨rfl, rfl⟩ <;> simp

theorem Arena.loop_backslash_nul (X : Bytes) (h : peek X = 0) (fuel : Nat) (out : Bytes) :
    Arena.parse_string_loop (fuel + 1) (92 :: X) out = Decoded.bad out false := by
  rw [Arena.parse_string_loop, if_neg (by simp [peek]), if_neg (by simp [peek])]
  simp only [List.tail_cons]
  rw [if_pos h]

theorem Arena.loop_bad_hex (X : Bytes) (h : Arena.parse_hex4 X = 0x10000) (fuel : Nat)
    (out : Bytes) :
    Arena.parse_string_loop (fuel + 1) (92 :: 117 :: X) out = Decoded.bad out true := by
  rw [Arena.parse_string_loop]
  simp only [peek, List.headD_cons, List.tail_cons]
  simp [h]

/-- One round of the decoding loop of `parse_string`: it stops at a quote or at the NUL, or
fails with the bytes stored so far, or moves over a nonempty piece `c` of the input,
none of which is the NUL, and stores at most as many bytes; what it does depends on
that piece only. -/
theorem Arena.string_loop_cases (ptr : Bytes) :
    (peek ptr = 34 ∨ peek ptr = 0) ∨
    (∃ e, ∀ (fuel : Nat) (out : Bytes),
      Arena.parse_string_loop (fuel + 1) ptr out = Decoded.bad out e) ∨
    (∃ c w ptr1, c ≠ [] ∧ (∀ b ∈ c, b ≠ 0) ∧ ptr = c ++ ptr1 ∧ w.length ≤ c.length ∧
      ∀ (fuel : Nat) (Y out : Bytes),
        Arena.parse_string_loop (fuel + 1) (c ++ Y) out =
          Arena.parse_string_loop fuel Y (out ++ w)) := by
  by_cases hstop : peek ptr = 34 ∨ peek ptr = 0
  · exact Or.inl hstop
  right
  have h0 : peek ptr ≠ 0 := fun h => hstop (Or.inr h)
  have h34 : peek ptr ≠ 34 := fun h => hstop (Or.inl h)
  have ep := peek_cons_of_ne_zero h0
  by_cases h92 : peek ptr = 92
  swap
  · refine Or.inr ⟨[peek ptr], [peek ptr], ptr.tail, by simp, by simpa using h0,
      by simpa using ep, by simp, fun fuel Y out => ?_⟩
    exact Arena.loop_raw (peek ptr) ⟨h34, h0, h92⟩ Y fuel out
  rw [h92] at ep
  by_cases hn : peek ptr.tail = 0
  · left
    refine ⟨false, fun fuel out => ?_⟩
    rw [ep]
    exact Arena.loop_backslash_nul _ hn fuel out
  have eq := peek_cons_of_ne_zero hn
  have ep2 : ptr = 92 :: peek ptr.tail :: ptr.tail.tail := by rw [← eq]; exact ep
  by_cases hs : (peek ptr.tail = 98 ∨ peek ptr.tail = 102 ∨ peek ptr.tail = 110 ∨
      peek ptr.tail = 114 ∨ peek ptr.tail = 116)
  · right
    have hcode : ∃ code, (peek ptr.tail = 98 ∧ code = 8) ∨ (peek ptr.tail = 102 ∧ code = 12) ∨
        (peek ptr.tail = 110 ∧ code = 10) ∨ (peek ptr.tail = 114 ∧ code = 13) ∨
        (peek ptr.tail = 116 ∧ code = 9) := by
      rcases hs with h | h | h | h | h
      · exact ⟨8, Or.inl ⟨h, rfl⟩⟩
      · exact ⟨12, Or.inr (Or.inl ⟨h, rfl⟩)⟩
      · exact ⟨10, Or.inr (Or.inr (Or.inl ⟨h, rfl⟩))⟩
      · exact ⟨13, Or.inr (Or.inr (Or.inr (Or.inl ⟨h, rfl⟩)))⟩
      · exact ⟨9, Or.inr (Or.inr (Or.inr (Or.inr ⟨h, rfl⟩)))⟩
    obtain ⟨code, hcode⟩ := hcode
    refine ⟨[92, peek ptr.tail], [code], ptr.tail.tail, by simp, ?_, by simpa using ep2,
      by simp, fun fuel Y out => ?_⟩
    · intro b hb
      simp only [List.mem_cons, List.mem_singleton, List.not_mem_nil, or_false] at hb
      rcases hb with rfl | rfl
      · decide
      · exact hn
    · exact Arena.loop_simple_escape _ code hcode Y fuel out
  by_cases hu : peek ptr.tail = 117
  swap
  · right
    refine ⟨[92, peek ptr.tail], [peek ptr.tail], ptr.tail.tail, by simp, ?_, by simpa using ep2,
      by simp, fun fuel Y out => ?_⟩
    · intro b hb
      simp only [List.mem_cons, List.mem_singleton, List.not_mem_nil, or_false] at hb
      rcases hb with rfl | rfl
      · decide
      · exact hn
    · exact Arena.loop_other_escape _ ⟨hn, fun h => hs (Or.inl h),
        fun h => hs (Or.inr (Or.inl h)), fun h => hs (Or.inr (Or.inr (Or.inl h))),
        fun h => hs (Or.inr (Or.inr (Or.inr (Or.inl h)))),
        fun h => hs (Or.inr (Or.inr (Or.inr (Or.inr h)))), hu⟩ Y fuel out
  rw [hu] at ep2
  by_cases hx : Arena.parse_hex4 ptr.tail.tail = 0x10000
  · left
    refine ⟨true, fun fuel out => ?_⟩
    rw [ep2]
    exact Arena.loop_bad_hex _ hx fuel out
  obtain ⟨hi, rest, ehi, hhi⟩ := parse_hex4_inv _ hx
  obtain ⟨hlen, hnn⟩ := hex4_value_no_nul hhi
  have ep3 : ptr = 92 :: 117 :: (hi ++ rest) := by rw [← ehi]; exact ep2
  have hlt := (parse_hex4_of_value hhi rest).2
  by_cases hlow : 0xDC00 ≤ Arena.parse_hex4 ptr.tail.tail ∧ Arena.parse_hex4 ptr.tail.tail ≤ 0xDFFF
  · left
    refine ⟨true, fun fuel out => ?_⟩
    rw [ep3]
    exact Arena.loop_low_surrogate hi _ hhi hlow rest fuel out
  by_cases hhigh : 0xD800 ≤ Arena.parse_hex4 ptr.tail.tail ∧
      Arena.parse_hex4 ptr.tail.tail ≤ 0xDBFF
  · by_cases hpair : ∃ lo v rest2, hex4_value lo = some v ∧ (0xDC00 ≤ v ∧ v ≤ 0xDFFF) ∧
        rest = 92 :: 117 :: (lo ++ rest2)
    · right
      obtain ⟨lo, v, rest2, hlo, hv, erest⟩ := hpair
      obtain ⟨hlen2, hnn2⟩ := hex4_value_no_nul hlo
      refine ⟨92 :: 117 :: (hi ++ 92 :: 117 :: lo),
        utf8_encode (surrogate_code_point (Arena.parse_hex4 ptr.tail.tail) v), rest2, by simp,
        ?_, ?_, ?_, fun fuel Y out => ?_⟩
      · intro b hb
        simp only [List.mem_cons, List.mem_append] at hb
        rcases hb with rfl | rfl | h | rfl | rfl | h
        · decide
        · decide
        · exact hnn b h
        · decide
        · decide
        · exact hnn2 b h
      · rw [ep3, erest]; simp
      · have := utf8_encode_length_le (surrogate_code_point (Arena.parse_hex4 ptr.tail.tail) v)
        simp only [List.length_cons, List.length_append]
        omega
      · have := Arena.loop_surrogate_pair hi lo _ v hhi hlo hhigh hv Y fuel out
        simpa using this
    · left
      refine ⟨true, fun fuel out => ?_⟩
      rw [ep3]
      exact Arena.loop_high_surrogate hi _ hhi hhigh rest
        (fun lo v rest2 hlo hv e => hpair ⟨lo, v, rest2, hlo, hv, e⟩) fuel out
  · right
    refine ⟨92 :: 117 :: hi,
      (if Arena.parse_hex4 ptr.tail.tail = 0 then []
        else utf8_encode (Arena.parse_hex4 ptr.tail.tail)), rest, by simp, ?_, ?_, ?_,
      fun fuel Y out => ?_⟩
    · intro b hb
      simp only [List.mem_cons] at hb
      rcases hb with rfl | rfl | h
      · decide
      · decide
      · exact hnn b h
    · rw [ep3]; simp
    · have := utf8_encode_length_le (Arena.parse_hex4 ptr.tail.tail)
      split_ifs <;> simp only [List.length_cons, List.length_nil] <;> omega
    · have := Arena.loop_unicode hi _ hhi (by omega) Y fuel out
      simpa using this

theorem Passes.ne_nil {a b : Bytes} (h : Passes a b) (hb : b ≠ []) : a ≠ [] := by
  obtain ⟨c, _, rfl⟩ := h
  simp [hb]

theorem peek_left {a : Bytes} (h : a ≠ []) (v : Bytes) : peek (a ++ v) = peek a := by
  cases a with
  | nil => exact absurd rfl h
  | cons b X => rfl

theorem tail_append {a : Bytes} (h : a ≠ []) (v : Bytes) : (a ++ v).tail = a.tail ++ v := by
  cases a with
  | nil => exact absurd rfl h
  | cons b X => rfl

theorem ne_nil_of_peek {a : Bytes} (h : peek a ≠ 0) : a ≠ [] := by
  rintro rfl
  exact h rfl

/-- When the decoding loop ends, it has moved over bytes none of which is the NUL, has
stored at most as many bytes as it has moved over, and stands at a quote or at the
NUL. -/
theorem Arena.string_loop_done : ∀ (F : Nat) (ptr out out1 p : Bytes),
    Arena.parse_string_loop F ptr out = Decoded.done out1 p →
    Passes ptr p ∧ out1.length + p.length ≤ out.length + ptr.length ∧
      (peek p = 34 ∨ peek p = 0)
  | 0, _, _, _, _, h => by simp [Arena.parse_string_loop] at h
  | F + 1, ptr, out, out1, p, h => by
    rcases Arena.string_loop_cases ptr with hstop | ⟨e, hbad⟩ | ⟨c, w, ptr1, _, hcn, rfl, hw, hstep⟩
    · rw [Arena.loop_stop ptr hstop] at h
      injection h with h1 h2
      subst h1; subst h2
      exact ⟨Passes.here _, Nat.le_refl _, hstop⟩
    · rw [hbad] at h; cases h
    · rw [hstep F ptr1 out] at h
      obtain ⟨g1, g2, g3⟩ := Arena.string_loop_done F ptr1 (out ++ w) out1 p h
      refine ⟨(Passes.over c ptr1 hcn).onward g1, ?_, g3⟩
      simp only [List.length_append] at g2 ⊢
      omega

theorem as_cstr_passes : ∀ (c r : Bytes), (∀ b ∈ c, b ≠ 0) → as_cstr (c ++ r) = c ++ as_cstr r
  | [], _, _ => rfl
  | b :: c, r, h => by
    have hb : b ≠ 0 := h b (by simp)
    have ih := as_cstr_passes c r (fun x hx => h x (by simp [hx]))
    unfold as_cstr at ih ⊢
    simp only [List.cons_append, List.takeWhile_cons, hb, ne_eq, not_false_eq_true,
      decide_True, if_true, ih]

/-- Moving over bytes none of which is the NUL shortens the C string by as many bytes. -/
theorem strlen_passes {t r : Bytes} (h : Passes t r) :
    strlen t + r.length = strlen r + t.length := by
  obtain ⟨c, hc, rfl⟩ := h
  unfold strlen
  rw [as_cstr_passes c r hc]
  simp only [List.length_append]
  omega

/-- When the decoding loop fails, it has stored at most as many bytes as the input has
before its terminating NUL. -/
theorem Arena.string_loop_bad : ∀ (F : Nat) (ptr out out1 : Bytes) (e : Bool),
    Arena.parse_string_loop F ptr out = Decoded.bad out1 e →
    out1.length ≤ out.length + strlen ptr
  | 0, _, _, _, _, h => by simp [Arena.parse_string_loop] at h
  | F + 1, ptr, out, out1, e, h => by
    rcases Arena.string_loop_cases ptr with hstop | ⟨e1, hbad⟩ | ⟨c, w, ptr1, _, hcn, rfl, hw, hstep⟩
    · rw [Arena.loop_stop ptr hstop] at h; cases h
    · rw [hbad] at h
      injection h with h1 h2
      subst h1
      omega
    · rw [hstep F ptr1 out] at h
      have := Arena.string_loop_bad F ptr1 (out ++ w) out1 e h
      have hp := strlen_passes (Passes.over c ptr1 hcn)
      simp only [List.length_append] at this hp ⊢
      omega

/-- The decoding loop ends within as many rounds as the input has bytes, and one. -/
theorem Arena.string_loop_total : ∀ (F : Nat) (ptr out : Bytes), ptr.length < F →
    Arena.parse_string_loop F ptr out ≠ Decoded.stuck
  | 0, _, _, h => by omega
  | F + 1, ptr, out, hF => by
    rcases Arena.string_loop_cases ptr with hstop | ⟨e1, hbad⟩ | ⟨c, w, ptr1, hc0, hcn, rfl, hw, hstep⟩
    · rw [Arena.loop_stop ptr hstop]; simp
    · rw [hbad]; simp
    · rw [hstep F ptr1 out]
      apply Arena.string_loop_total
      have : 0 < c.length := List.length_pos.2 hc0
      simp only [List.length_append] at hF
      omega

/-- A run of the decoding loop that ends inside the input is the same with more input
behind it. -/
theorem Arena.string_loop_stable : ∀ (F : Nat) (ptr out out1 p : Bytes),
    Arena.parse_string_loop F ptr out = Decoded.done out1 p → p ≠ [] →
    ∀ (F1 : Nat) (v : Bytes), F ≤ F1 →
      Arena.parse_string_loop F1 (ptr ++ v) out = Decoded.done out1 (p ++ v)
  | 0, _, _, _, _, h, _, _, _, _ => by simp [Arena.parse_string_loop] at h
  | F + 1, ptr, out, out1, p, h, hp, F1, v, hF => by
    obtain ⟨F2, rfl⟩ : ∃ k, F1 = k + 1 := ⟨F1 - 1, by omega⟩
    rcases Arena.string_loop_cases ptr with hstop | ⟨e1, hbad⟩ | ⟨c, w, ptr1, hc0, hcn, rfl, hw, hstep⟩
    · rw [Arena.loop_stop ptr hstop] at h
      injection h with h1 h2
      subst h1; subst h2
      exact Arena.loop_stop _ (by rw [peek_left hp]; exact hstop) F2 out
    · rw [hbad] at h; cases h
    · rw [hstep F ptr1 out] at h
      rw [List.append_assoc, hstep F2 (ptr1 ++ v) out]
      exact Arena.string_loop_stable F ptr1 (out ++ w) out1 p h hp F2 v (by omega)

theorem Arena.parse_string_of_done (s : PState cJSON_Buf) (item : Nat) (str out ptr : Bytes)
    (hq : peek str = 34)
    (hl : Arena.parse_string_loop (str.length + 1) str.tail [] = Decoded.done out ptr) :
    Arena.parse_string s item str =
      PResult.ok
        ({ mem := s.mem.set item { s.mem.node item with
              valuestring := some (as_cstr out), type := cJSON_String },
           aux := { cJSON_Buf.pokes (out ++ [0]) s.aux s.aux.offset with
              offset := s.aux.offset + out.length + 1 } },
         if peek ptr = 34 then ptr.tail else ptr) := by
  unfold Arena.parse_string
  rw [if_neg (by simp [hq])]
  simp only [hl]

theorem Arena.parse_string_inv (s : PState cJSON_Buf) (item : Nat) (str : Bytes)
    (s1 : PState cJSON_Buf) (r : Bytes) (h : Arena.parse_string s item str = PResult.ok (s1, r)) :
    ∃ out ptr, peek str = 34 ∧
      Arena.parse_string_loop (str.length + 1) str.tail [] = Decoded.done out ptr ∧
      s1 = { mem := s.mem.set item { s.mem.node item with
              valuestring := some (as_cstr out), type := cJSON_String },
             aux := { cJSON_Buf.pokes (out ++ [0]) s.aux s.aux.offset with
              offset := s.aux.offset + out.length + 1 } } ∧
      r = if peek ptr = 34 then ptr.tail else ptr := by
  unfold Arena.parse_string at h
  by_cases hq : peek str = 34
  · rw [if_neg (by simp [hq])] at h
    cases hl : Arena.parse_string_loop (str.length + 1) str.tail [] with
    | done out ptr =>
      simp only [hl] at h
      injection h with h
      injection h with h1 h2
      exact ⟨out, ptr, hq, rfl, h1.symm, h2.symm⟩
    | bad out e => simp only [hl] at h; cases h
    | stuck => simp only [hl] at h; cases h
  · rw [if_pos hq] at h; cases h

/-- The string production of the arena variant always has an outcome. -/
theorem Arena.parse_string_total (s : PState cJSON_Buf) (item : Nat) (str : Bytes) :
    Arena.parse_string s item str ≠ PResult.stuck := by
  unfold Arena.parse_string
  by_cases hq : peek str = 34
  · rw [if_neg (by simp [hq])]
    have ht := Arena.string_loop_total (str.length + 1) str.tail []
      (by have := List.length_tail str; omega)
    cases hl : Arena.parse_string_loop (str.length + 1) str.tail [] with
    | done out ptr => simp
    | bad out e => simp
    | stuck => exact absurd hl ht
  · rw [if_pos hq]; simp

/-- A string literal that `parse_string` of the arena variant accepts: the position it
returns lies behind the literal, the capacity of the arena is unchanged, and the cursor
has moved by at most as many bytes as the position. -/
theorem Arena.parse_string_ok (s : PState cJSON_Buf) (item : Nat) (str : Bytes)
    (s1 : PState cJSON_Buf) (r : Bytes) (h : Arena.parse_string s item str = PResult.ok (s1, r)) :
    Progress str r ∧ s1.aux.len = s.aux.len ∧ s.aux.offset ≤ s1.aux.offset ∧
      s1.aux.offset + r.length ≤ s.aux.offset + str.length := by
  obtain ⟨out, ptr, hq, hl, rfl, rfl⟩ := Arena.parse_string_inv s item str s1 r h
  obtain ⟨g1, g2, g3⟩ := Arena.string_loop_done _ _ _ _ _ hl
  have h0 : peek str ≠ 0 := by omega
  have hlen := Passes.tail_lt h0
  have hp : Passes str ptr := (Passes.tail h0).onward g1
  simp only [List.length_nil, Nat.zero_add] at g2
  by_cases h34 : peek ptr = 34
  · rw [if_pos h34]
    have h1 : peek ptr ≠ 0 := by omega
    have hl2 := Passes.tail_lt h1
    refine ⟨Progress.of_passes (hp.onward (Passes.tail h1)) (by omega), ?_, ?_, ?_⟩
    · show (cJSON_Buf.pokes (out ++ [0]) s.aux s.aux.offset).len = _
      exact (pokes_len _ _ _).1
    · show s.aux.offset ≤ s.aux.offset + out.length + 1
      omega
    · show s.aux.offset + out.length + 1 + (ptr.tail.length : Int) ≤ _
      omega
  · rw [if_neg h34]
    refine ⟨Progress.of_passes hp (by omega), ?_, ?_, ?_⟩
    · show (cJSON_Buf.pokes (out ++ [0]) s.aux s.aux.offset).len = _
      exact (pokes_len _ _ _).1
    · show s.aux.offset ≤ s.aux.offset + out.length + 1
      omega
    · show s.aux.offset + out.length + 1 + (ptr.length : Int) ≤ _
      omega

/-- A string literal that is accepted and ends inside the text is accepted alike with
more text behind it, also in a state with another capacity of the arena. -/
theorem Arena.parse_string_stable (s s2 : PState cJSON_Buf) (item : Nat) (u v : Bytes)
    (s1 : PState cJSON_Buf) (r : Bytes) (h : Arena.parse_string s item u = PResult.ok (s1, r))
    (hr : r ≠ []) (hs : SameState s s2) :
    ∃ s3, Arena.parse_string s2 item (u ++ v) = PResult.ok (s3, r ++ v) ∧ SameState s1 s3 := by
  obtain ⟨out, ptr, hq, hl, rfl, rfl⟩ := Arena.parse_string_inv s item u s1 r h
  have hu : u ≠ [] := ne_nil_of_peek (by omega)
  have hptr : ptr ≠ [] := by
    by_cases h34 : peek ptr = 34
    · exact ne_nil_of_peek (by omega)
    · rw [if_neg h34] at hr; exact hr
  have hl2 := Arena.string_loop_stable _ _ _ _ _ hl hptr ((u ++ v).length + 1) v
    (by simp)
  rw [← tail_append hu] at hl2
  have hrest : (if peek (ptr ++ v) = 34 then (ptr ++ v).tail else ptr ++ v) =
      (if peek ptr = 34 then ptr.tail else ptr) ++ v := by
    rw [peek_left hptr]
    by_cases h34 : peek ptr = 34
    · rw [if_pos h34, if_pos h34, tail_append hptr]
    · rw [if_neg h34, if_neg h34]
  rw [Arena.parse_string_of_done s2 item (u ++ v) out (ptr ++ v)
    (by rw [peek_left hu]; exact hq) hl2, hrest]
  refine ⟨_, rfl, ?_⟩
  · refine ⟨?_, ?_, ?_⟩
    · show s.mem.set item _ = s2.mem.set item _
      rw [hs.1]
    · show (cJSON_Buf.pokes (out ++ [0]) s.aux s.aux.offset).buf =
        (cJSON_Buf.pokes (out ++ [0]) s2.aux s2.aux.offset).buf
      rw [hs.2.2]
      exact pokes_buf_congr _ _ _ _ hs.2.1
    · show s.aux.offset + out.length + 1 = s2.aux.offset + out.length + 1
      rw [hs.2.2]

theorem is_digit_ne_zero {c : Nat} (h : is_digit c = true) : c ≠ 0 := by
  rintro rfl
  simp [is_digit] at h

theorem digits_while_passes : ∀ (num : Bytes) (n : Int), Passes num (digits_while num n).1
  | [], _ => Passes.here _
  | c :: num, n => by
    rw [digits_while]
    by_cases h : is_digit c = true
    · rw [if_pos h]
      exact (Passes.cons c num (is_digit_ne_zero h)).onward (digits_while_passes num _)
    · rw [if_neg h]
      exact Passes.here _

theorem digits_while_stable : ∀ (num : Bytes) (n : Int) (v : Bytes),
    (digits_while num n).1 ≠ [] →
    digits_while (num ++ v) n = ((digits_while num n).1 ++ v, (digits_while num n).2)
  | [], _, _, h => by simp [digits_while] at h
  | c :: num, n, v, h => by
    by_cases hd : is_digit c = true
    · have e1 : digits_while (c :: num) n =
          digits_while num (n * 10 + (char_to_int c - 48)) := by
        rw [digits_while, if_pos hd]
      have e2 : digits_while (c :: num ++ v) n =
          digits_while (num ++ v) (n * 10 + (char_to_int c - 48)) := by
        rw [List.cons_append, digits_while, if_pos hd]
      rw [e1] at h ⊢
      rw [e2]
      exact digits_while_stable num _ v h
    · have e1 : digits_while (c :: num) n = (c :: num, n) := by
        rw [digits_while, if_neg hd]
      have e2 : digits_while (c :: num ++ v) n = (c :: (num ++ v), n) := by
        rw [List.cons_append, digits_while, if_neg hd]
      rw [e1, e2]
      rfl

theorem fraction_while_passes : ∀ (num : Bytes) (n scale : Int),
    Passes num (fraction_while num n scale).1
  | [], _, _ => Passes.here _
  | c :: num, n, scale => by
    rw [fraction_while]
    by_cases h : is_digit c = true
    · rw [if_pos h]
      exact (Passes.cons c num (is_digit_ne_zero h)).onward (fraction_while_passes num _ _)
    · rw [if_neg h]
      exact Passes.here _

theorem fraction_while_stable : ∀ (num : Bytes) (n scale : Int) (v : Bytes),
    (fraction_while num n scale).1 ≠ [] →
    fraction_while (num ++ v) n scale =
      ((fraction_while num n scale).1 ++ v, (fraction_while num n scale).2)
  | [], _, _, _, h => by simp [fraction_while] at h
  | c :: num, n, scale, v, h => by
    by_cases hd : is_digit c = true
    · have e1 : fraction_while (c :: num) n scale =
          fraction_while num (n * 10 + (char_to_int c - 48)) (scale - 1) := by
        rw [fraction_while, if_pos hd]
      have e2 : fraction_while (c :: num ++ v) n scale =
          fraction_while (num ++ v) (n * 10 + (char_to_int c - 48)) (scale - 1) := by
        rw [List.cons_append, fraction_while, if_pos hd]
      rw [e1] at h ⊢
      rw [e2]
      exact fraction_while_stable num _ _ v h
    · have e1 : fraction_while (c :: num) n scale = (c :: num, n, scale) := by
        rw [fraction_while, if_neg hd]
      have e2 : fraction_while (c :: num ++ v) n scale = (c :: (num ++ v), n, scale) := by
        rw [List.cons_append, fraction_while, if_neg hd]
      rw [e1, e2]
      rfl

theorem scan_exponent_passes (num : Bytes) (sign n scale : Int) :
    Passes num (scan_exponent num sign n scale).rest := by
  unfold scan_exponent
  by_cases he : peek num = 101 ∨ peek num = 69
  · rw [if_pos he]
    have h0 : peek num ≠ 0 := by omega
    refine (Passes.tail h0).onward ?_
    by_cases hs : peek num.tail = 43 ∨ peek num.tail = 45
    · have h1 : peek num.tail ≠ 0 := by omega
      simp only [if_pos hs]
      exact (Passes.tail h1).onward (digits_while_passes _ _)
    · simp only [if_neg hs]
      exact digits_while_passes _ _
  · rw [if_neg he]
    exact Passes.here _

theorem scan_exponent_stable (num : Bytes) (sign n scale : Int) (v : Bytes)
    (hr : (scan_exponent num sign n scale).rest ≠ []) :
    scan_exponent (num ++ v) sign n scale = (scan_exponent num sign n scale).more v := by
  have hnum : num ≠ [] := (scan_exponent_passes num sign n scale).ne_nil hr
  unfold scan_exponent at hr ⊢
  rw [peek_left hnum]
  by_cases he : peek num = 101 ∨ peek num = 69
  · simp only [if_pos he] at hr ⊢
    by_cases hs : peek num.tail = 43 ∨ peek num.tail = 45
    · have h1 : num.tail ≠ [] := ne_nil_of_peek (by omega)
      simp only [if_pos hs] at hr
      simp only [tail_append hnum, peek_left h1, if_pos hs, tail_append h1,
        digits_while_stable _ _ v hr, Scanned.more]
    · simp only [if_neg hs] at hr
      have h1 : num.tail ≠ [] := (digits_while_passes _ _).ne_nil hr
      simp only [tail_append hnum, peek_left h1, if_neg hs, digits_while_stable _ _ v hr,
        Scanned.more]
  · simp only [if_neg he, Scanned.more]

theorem scan_fraction_passes (num : Bytes) (sign n : Int) :
    Passes num (scan_fraction true num sign n).rest := by
  unfold scan_fraction
  by_cases hc : peek num = 46 ∧ ((true : Bool) = false ∨ is_digit (peek num.tail) = true)
  · rw [if_pos hc]
    have h0 : peek num ≠ 0 := by omega
    have hd : is_digit (peek num.tail) = true := by
      rcases hc.2 with h | h
      · cases h
      · exact h
    have h1 : peek num.tail ≠ 0 := is_digit_ne_zero hd
    exact (((Passes.tail h0).onward (Passes.tail h1)).onward (fraction_while_passes _ _ _)).onward
      (scan_exponent_passes _ _ _ _)
  · rw [if_neg hc]
    exact scan_exponent_passes _ _ _ _

theorem scan_fraction_stable (num : Bytes) (sign n : Int) (v : Bytes)
    (hr : (scan_fraction true num sign n).rest ≠ [])
    (h46 : peek (scan_fraction true num sign n).rest ≠ 46) :
    scan_fraction true (num ++ v) sign n = (scan_fraction true num sign n).more v := by
  have hnum : num ≠ [] := (scan_fraction_passes num sign n).ne_nil hr
  unfold scan_fraction at hr h46 ⊢
  rw [peek_left hnum]
  by_cases hc : peek num = 46 ∧ ((true : Bool) = false ∨ is_digit (peek num.tail) = true)
  · have hd : is_digit (peek num.tail) = true := by
      rcases hc.2 with h | h
      · cases h
      · exact h
    have h1 : num.tail ≠ [] := ne_nil_of_peek (is_digit_ne_zero hd)
    have hc2 : peek num = 46 ∧
        ((true : Bool) = false ∨ is_digit (peek (num ++ v).tail) = true) := by
      rw [tail_append hnum, peek_left h1]; exact hc
    simp only [if_pos hc, fraction_do] at hr
    simp only [if_pos hc, if_pos hc2, fraction_do]
    have hf : (fraction_while num.tail.tail (n * 10 + (char_to_int (peek num.tail) - 48))
        (0 - 1)).1 ≠ [] := (scan_exponent_passes _ _ _ _).ne_nil hr
    rw [tail_append hnum, tail_append h1, peek_left h1, fraction_while_stable _ _ _ v hf]
    exact scan_exponent_stable _ _ _ _ v hr
  · simp only [if_neg hc] at hr h46
    have hc2 : ¬ (peek num = 46 ∧
        ((true : Bool) = false ∨ is_digit (peek (num ++ v).tail) = true)) := by
      intro hh
      by_cases he : peek num = 101 ∨ peek num = 69
      · omega
      · apply h46
        unfold scan_exponent
        rw [if_neg he]
        exact hh.1
    simp only [if_neg hc, if_neg hc2]
    exact scan_exponent_stable _ _ _ _ v hr

theorem scan_integer_passes (num : Bytes) (sign : Int) :
    Passes num (scan_integer true num sign).rest := by
  unfold scan_integer
  have hp1 : Passes num (if peek num = 48 then num.tail else num) := by
    by_cases h : peek num = 48
    · rw [if_pos h]; exact Passes.tail (by omega)
    · rw [if_neg h]; exact Passes.here _
  refine hp1.onward ?_
  simp only
  by_cases hd : 49 ≤ peek (if peek num = 48 then num.tail else num) ∧
      peek (if peek num = 48 then num.tail else num) ≤ 57
  · rw [if_pos hd]
    simp only [digits_do]
    exact ((Passes.tail (by omega)).onward (digits_while_passes _ _)).onward
      (scan_fraction_passes _ _ _)
  · rw [if_neg hd]
    exact scan_fraction_passes _ _ _

theorem scan_integer_stable (num : Bytes) (sign : Int) (v : Bytes)
    (hr : (scan_integer true num sign).rest ≠ [])
    (h46 : peek (scan_integer true num sign).rest ≠ 46) :
    scan_integer true (num ++ v) sign = (scan_integer true num sign).more v := by
  have hnum : num ≠ [] := (scan_integer_passes num sign).ne_nil hr
  unfold scan_integer at hr h46 ⊢
  simp only at hr h46 ⊢
  have e1 : (if peek (num ++ v) = 48 then (num ++ v).tail else num ++ v) =
      (if peek num = 48 then num.tail else num) ++ v := by
    rw [peek_left hnum]
    by_cases h : peek num = 48
    · rw [if_pos h, if_pos h, tail_append hnum]
    · rw [if_neg h, if_neg h]
  rw [e1]
  generalize (if peek num = 48 then num.tail else num) = num1 at hr h46 ⊢
  by_cases hd : 49 ≤ peek num1 ∧ peek num1 ≤ 57
  · have h1 : num1 ≠ [] := ne_nil_of_peek (by omega)
    simp only [if_pos hd, digits_do] at hr h46
    simp only [peek_left h1, if_pos hd, digits_do]
    have hdw : (digits_while num1.tail (0 * 10 + (char_to_int (peek num1) - 48))).1 ≠ [] :=
      (scan_fraction_passes _ _ _).ne_nil hr
    rw [tail_append h1, digits_while_stable _ _ v hdw]
    exact scan_fraction_stable _ _ _ v hr h46
  · simp only [if_neg hd] at hr h46
    have h1 : num1 ≠ [] := (scan_fraction_passes _ _ _).ne_nil hr
    simp only [peek_left h1, if_neg hd]
    exact scan_fraction_stable _ _ _ v hr h46

/-- The scan of `parse_number` of the arena variant moves over bytes none of which is
the NUL. -/
theorem scan_number_passes (num : Bytes) : Passes num (scan_number true num).rest := by
  unfold scan_number
  by_cases h : peek num = 45
  · rw [if_pos h]
    exact (Passes.tail (by omega)).onward (scan_integer_passes _ _)
  · rw [if_neg h]
    exact scan_integer_passes _ _

/-- On a text that starts with `-` or a digit the scan of `parse_number` consumes that
byte. -/
theorem scan_number_progress (num : Bytes)
    (h : peek num = 45 ∨ (48 ≤ peek num ∧ peek num ≤ 57)) :
    (scan_number true num).rest.length < num.length := by
  have h0 : peek num ≠ 0 := by omega
  have hl := Passes.tail_lt h0
  unfold scan_number
  by_cases h45 : peek num = 45
  · rw [if_pos h45]
    have := (scan_integer_passes num.tail (-1)).rest_le
    omega
  · rw [if_neg h45]
    unfold scan_integer
    simp only
    by_cases h48 : peek num = 48
    · simp only [if_pos h48]
      have h2 : Passes num.tail
          (if 49 ≤ peek num.tail ∧ peek num.tail ≤ 57 then
            scan_fraction true (digits_do num.tail 0).1 1 (digits_do num.tail 0).2
          else scan_fraction true num.tail 1 0).rest := by
        have := scan_integer_passes num 1
        unfold scan_integer at this
        simp only [if_pos h48] at this
        obtain ⟨c, hc, e⟩ := this
        by_cases hd : 49 ≤ peek num.tail ∧ peek num.tail ≤ 57
        · rw [if_pos hd]
          simp only [digits_do]
          exact ((Passes.tail (by omega)).onward (digits_while_passes _ _)).onward
            (scan_fraction_passes _ _ _)
        · rw [if_neg hd]
          exact scan_fraction_passes _ _ _
      have := h2.rest_le
      omega
    · simp only [if_neg h48]
      have hd : 49 ≤ peek num ∧ peek num ≤ 57 := by omega
      rw [if_pos hd]
      simp only [digits_do]
      have h3 := digits_while_passes num.tail (0 * 10 + (char_to_int (peek num) - 48))
      have h4 := scan_fraction_passes
        (digits_while num.tail (0 * 10 + (char_to_int (peek num) - 48))).1 1
        (digits_while num.tail (0 * 10 + (char_to_int (peek num) - 48))).2
      have := (h3.onward h4).rest_le
      omega

/-- A number that ends inside the text, before a byte other than a point, is scanned
alike with more text behind it. -/
theorem scan_number_stable (num v : Bytes) (hr : (scan_number true num).rest ≠ [])
    (h46 : peek (scan_number true num).rest ≠ 46) :
    scan_number true (num ++ v) = (scan_number true num).more v := by
  have hnum : num ≠ [] := (scan_number_passes num).ne_nil hr
  unfold scan_number at hr h46 ⊢
  rw [peek_left hnum]
  by_cases h : peek num = 45
  · simp only [if_pos h] at hr h46
    simp only [if_pos h, tail_append hnum]
    exact scan_integer_stable _ _ v hr h46
  · simp only [if_neg h] at hr h46
    simp only [if_neg h]
    exact scan_integer_stable _ _ v hr h46

theorem Advances.of_same_aux {s s1 : PState cJSON_Buf} {t r : Bytes} (h : Passes t r)
    (ha : s1.aux = s.aux) : Advances s t s1 r := by
  have := h.rest_le
  refine ⟨h, by rw [ha], by rw [ha], ?_⟩
  rw [ha]; omega

theorem Advances.seq {s s1 s2 : PState cJSON_Buf} {t r r2 : Bytes} (h1 : Advances s t s1 r)
    (h2 : Advances s1 r s2 r2) : Advances s t s2 r2 := by
  obtain ⟨a1, a2, a3, a4⟩ := h1
  obtain ⟨b1, b2, b3, b4⟩ := h2
  exact ⟨a1.onward b1, by rw [b2, a2], by omega, by omega⟩

theorem Advances.rest_length_le {s s1 : PState cJSON_Buf} {t r : Bytes} (h : Advances s t s1 r) :
    r.length ≤ t.length := h.1.rest_le

theorem Advances.fits {s s1 : PState cJSON_Buf} {t r : Bytes} (h : Advances s t s1 r)
    (hf : Fits s t) : Fits s1 r := by
  obtain ⟨a1, a2, a3, a4⟩ := h
  obtain ⟨f1, f2⟩ := hf
  have hp := strlen_passes a1
  exact ⟨by omega, by rw [a2]; omega⟩

theorem Fits.after_passes {s s1 : PState cJSON_Buf} {t r : Bytes} (hf : Fits s t) (h : Passes t r)
    (ha : s1.aux = s.aux) : Fits s1 r := (Advances.of_same_aux h ha).fits hf

theorem parse_array_loop_inv {σ : Type}
    (pv : PState σ → Nat → Bytes → PResult (PState σ × Bytes)) (k : Nat) (s : PState σ)
    (child : Nat) (value : Bytes) (s1 : PState σ) (r : Bytes)
    (h : parse_array_loop pv k s child value = PResult.ok (s1, r)) :
    ∃ k0, k = k0 + 1 ∧
      ((peek value = 93 ∧ s1 = s ∧ r = value.tail) ∨
        (∃ R s2 v1, value = 44 :: R ∧
          pv { s with mem := link_fresh s.mem child } s.mem.brk (skip R) = PResult.ok (s2, v1) ∧
          parse_array_loop pv k0 s2 s.mem.brk (skip v1) = PResult.ok (s1, r))) := by
  cases k with
  | zero => simp [parse_array_loop] at h
  | succ k0 =>
    refine ⟨k0, rfl, ?_⟩
    by_cases hc : peek value = 44
    · have e : value = 44 :: value.tail := by
        have := peek_cons_of_ne_zero (show peek value ≠ 0 by omega)
        rw [hc] at this; exact this
      right
      rw [e, parse_array_loop_comma] at h
      cases hpv : pv { s with mem := link_fresh s.mem child } s.mem.brk (skip value.tail) with
      | ok p =>
        obtain ⟨s2, v1⟩ := p
        simp only [hpv] at h
        exact ⟨value.tail, s2, v1, e, hpv, h⟩
      | fail ep => simp only [hpv] at h; cases h
      | stuck => simp only [hpv] at h; cases h
    · left
      rw [parse_array_loop_other pv k0 s child value hc] at h
      by_cases h93 : peek value = 93
      · rw [if_pos h93] at h
        injection h with h
        injection h with h1 h2
        exact ⟨h93, h1.symm, h2.symm⟩
      · rw [if_neg h93] at h; cases h

theorem parse_array_inv {σ : Type}
    (pv : PState σ → Nat → Bytes → PResult (PState σ × Bytes)) (F : Nat) (s : PState σ)
    (item : Nat) (value : Bytes) (s1 : PState σ) (r : Bytes)
    (h : parse_array pv F s item value = PResult.ok (s1, r)) :
    ∃ R, value = 91 :: R ∧
      ((peek (skip R) = 93 ∧
          s1 = { s with mem := s.mem.set item { s.mem.node item with type := cJSON_Array } } ∧
          r = (skip R).tail) ∨
        (peek (skip R) ≠ 93 ∧ ∃ s2 v2,
          pv { s with mem := hook_first s.mem item cJSON_Array } s.mem.brk (skip (skip R)) =
            PResult.ok (s2, v2) ∧
          parse_array_loop pv F s2 s.mem.brk (skip v2) = PResult.ok (s1, r))) := by
  by_cases hc : peek value = 91
  · have e : value = 91 :: value.tail := by
      have := peek_cons_of_ne_zero (show peek value ≠ 0 by omega)
      rw [hc] at this; exact this
    refine ⟨value.tail, e, ?_⟩
    rw [e, parse_array_open] at h
    simp only [List.tail_cons] at h ⊢
    by_cases h93 : peek (skip value.tail) = 93
    · rw [if_pos h93] at h
      injection h with h
      injection h with h1 h2
      exact Or.inl ⟨h93, h1.symm, h2.symm⟩
    · rw [if_neg h93] at h
      right
      refine ⟨h93, ?_⟩
      cases hpv : pv { s with mem := hook_first s.mem item cJSON_Array } s.mem.brk
          (skip (skip value.tail)) with
      | ok p =>
        obtain ⟨s2, v2⟩ := p
        simp only [hpv] at h
        exact ⟨s2, v2, rfl, h⟩
      | fail ep => simp only [hpv] at h; cases h
      | stuck => simp only [hpv] at h; cases h
  · unfold parse_array at h
    rw [if_pos hc] at h; cases h

theorem parse_member_inv {σ : Type}
    (ps pv : PState σ → Nat → Bytes → PResult (PState σ × Bytes)) (s : PState σ) (child : Nat)
    (value : Bytes) (s2 : PState σ) (r : Bytes)
    (h : parse_member ps pv s child value = PResult.ok (s2, r)) :
    ∃ s1 v1 v3, ps s child (skip value) = PResult.ok (s1, v1) ∧ peek (skip v1) = 58 ∧
      pv { s1 with mem := s1.mem.set child { s1.mem.node child with
          string := (s1.mem.node child).valuestring, valuestring := none } } child
        (skip (skip v1).tail) = PResult.ok (s2, v3) ∧ r = skip v3 := by
  cases hps : ps s child (skip value) with
  | ok p =>
    obtain ⟨s1, v1⟩ := p
    rw [parse_member_string ps pv s child value s1 v1 hps] at h
    by_cases h58 : peek (skip v1) = 58
    · rw [if_neg (by simp [h58])] at h
      cases hpv : pv { s1 with mem := s1.mem.set child { s1.mem.node child with
          string := (s1.mem.node child).valuestring, valuestring := none } } child
        (skip (skip v1).tail) with
      | ok q =>
        obtain ⟨s3, v3⟩ := q
        simp only [hpv] at h
        injection h with h
        injection h with h1 h2
        subst h1
        exact ⟨s1, v1, v3, rfl, h58, hpv, h2.symm⟩
      | fail ep => simp only [hpv] at h; cases h
      | stuck => simp only [hpv] at h; cases h
    · rw [if_pos h58] at h; cases h
  | fail ep => rw [parse_member_fail ps pv s child value ep hps] at h; cases h
  | stuck => simp only [parse_member, hps] at h; cases h

theorem parse_object_loop_inv {σ : Type}
    (ps pv : PState σ → Nat → Bytes → PResult (PState σ × Bytes)) (k : Nat) (s : PState σ)
    (child : Nat) (value : Bytes) (s1 : PState σ) (r : Bytes)
    (h : parse_object_loop ps pv k s child value = PResult.ok (s1, r)) :
    ∃ k0, k = k0 + 1 ∧
      ((peek value = 125 ∧ s1 = s ∧ r = value.tail) ∨
        (∃ R s2 v1, value = 44 :: R ∧
          parse_member ps pv { s with mem := link_fresh s.mem child } s.mem.brk R =
            PResult.ok (s2, v1) ∧
          parse_object_loop ps pv k0 s2 s.mem.brk v1 = PResult.ok (s1, r))) := by
  cases k with
  | zero => simp [parse_object_loop] at h
  | succ k0 =>
    refine ⟨k0, rfl, ?_⟩
    by_cases hc : peek value = 44
    · have e : value = 44 :: value.tail := by
        have := peek_cons_of_ne_zero (show peek value ≠ 0 by omega)
        rw [hc] at this; exact this
      right
      rw [e, parse_object_loop_comma] at h
      cases hpv : parse_member ps pv { s with mem := link_fresh s.mem child } s.mem.brk
          value.tail with
      | ok p =>
        obtain ⟨s2, v1⟩ := p
        simp only [hpv] at h
        exact ⟨value.tail, s2, v1, e, hpv, h⟩
      | fail ep => simp only [hpv] at h; cases h
      | stuck => simp only [hpv] at h; cases h
    · left
      rw [parse_object_loop_other ps pv k0 s child value hc] at h
      by_cases h125 : peek value = 125
      · rw [if_pos h125] at h
        injection h with h
        injection h with h1 h2
        exact ⟨h125, h1.symm, h2.symm⟩
      · rw [if_neg h125] at h; cases h

theorem parse_object_inv {σ : Type}
    (ps pv : PState σ → Nat → Bytes → PResult (PState σ × Bytes)) (F : Nat) (s : PState σ)
    (item : Nat) (value : Bytes) (s1 : PState σ) (r : Bytes)
    (h : parse_object ps pv F s item value = PResult.ok (s1, r)) :
    ∃ R, value = 123 :: R ∧
      ((peek (skip R) = 125 ∧
          s1 = { s with mem := s.mem.set item { s.mem.node item with type := cJSON_Object } } ∧
          r = (skip R).tail) ∨
        (peek (skip R) ≠ 125 ∧ ∃ s2 v2,
          parse_member ps pv { s with mem := hook_first s.mem item cJSON_Object } s.mem.brk
            (skip R) = PResult.ok (s2, v2) ∧
          parse_object_loop ps pv F s2 s.mem.brk v2 = PResult.ok (s1, r))) := by
  by_cases hc : peek value = 123
  · have e : value = 123 :: value.tail := by
      have := peek_cons_of_ne_zero (show peek value ≠ 0 by omega)
      rw [hc] at this; exact this
    refine ⟨value.tail, e, ?_⟩
    rw [e, parse_object_open] at h
    simp only [List.tail_cons] at h ⊢
    by_cases h125 : peek (skip value.tail) = 125
    · rw [if_pos h125] at h
      injection h with h
      injection h with h1 h2
      exact Or.inl ⟨h125, h1.symm, h2.symm⟩
    · rw [if_neg h125] at h
      right
      refine ⟨h125, ?_⟩
      cases hpv : parse_member ps pv { s with mem := hook_first s.mem item cJSON_Object }
          s.mem.brk (skip value.tail) with
      | ok p =>
        obtain ⟨s2, v2⟩ := p
        simp only [hpv] at h
        exact ⟨s2, v2, rfl, h⟩
      | fail ep => simp only [hpv] at h; cases h
      | stuck => simp only [hpv] at h; cases h
  · unfold parse_object at h
    rw [if_pos hc] at h; cases h

theorem parse_array_loop_advances
    (pv : PState cJSON_Buf → Nat → Bytes → PResult (PState cJSON_Buf × Bytes))
    (hpv : ∀ s i t s1 r, pv s i t = PResult.ok (s1, r) → Advances s t s1 r) :
    ∀ (k : Nat) (s : PState cJSON_Buf) (child : Nat) (value : Bytes) (s1 : PState cJSON_Buf)
      (r : Bytes), parse_array_loop pv k s child value = PResult.ok (s1, r) →
      Advances s value s1 r ∧ r.length < value.length
  | 0, _, _, _, _, _, h => by simp [parse_array_loop] at h
  | k + 1, s, child, value, s1, r, h => by
    obtain ⟨k0, hk, hcase⟩ := parse_array_loop_inv pv (k + 1) s child value s1 r h
    have hk0 : k = k0 := by omega
    subst hk0
    rcases hcase with ⟨h93, rfl, rfl⟩ | ⟨R, s2, v1, rfl, hpv1, hloop⟩
    · have h0 : peek value ≠ 0 := by omega
      exact ⟨Advances.of_same_aux (Passes.tail h0) rfl, Passes.tail_lt h0⟩
    · have a1 : Advances s (44 :: R) { s with mem := link_fresh s.mem child } (skip R) :=
        Advances.of_same_aux ((Passes.cons 44 R (by decide)).onward (Passes.skip R)) rfl
      have a2 := hpv _ _ _ _ _ hpv1
      have a3 : Advances s2 v1 s2 (skip v1) := Advances.of_same_aux (Passes.skip v1) rfl
      obtain ⟨a4, hl⟩ := parse_array_loop_advances pv hpv k s2 _ (skip v1) s1 r hloop
      have hlen := ((a1.seq a2).seq a3).rest_length_le
      exact ⟨((a1.seq a2).seq a3).seq a4, by omega⟩

theorem parse_array_advances
    (pv : PState cJSON_Buf → Nat → Bytes → PResult (PState cJSON_Buf × Bytes))
    (hpv : ∀ s i t s1 r, pv s i t = PResult.ok (s1, r) → Advances s t s1 r)
    (F : Nat) (s : PState cJSON_Buf) (item : Nat) (value : Bytes) (s1 : PState cJSON_Buf)
    (r : Bytes) (h : parse_array pv F s item value = PResult.ok (s1, r)) :
    Advances s value s1 r ∧ r.length < value.length := by
  obtain ⟨R, rfl, hcase⟩ := parse_array_inv pv F s item value s1 r h
  have p1 : Passes (91 :: R) (skip R) := (Passes.cons 91 R (by decide)).onward (Passes.skip R)
  have hl1 : (skip R).length < (91 :: R).length := by
    have := skip_length_le R
    simp only [List.length_cons]; omega
  rcases hcase with ⟨h93, rfl, rfl⟩ | ⟨h93, s2, v2, hpv1, hloop⟩
  · have h0 : peek (skip R) ≠ 0 := by omega
    have := Passes.tail_lt h0
    exact ⟨Advances.of_same_aux (p1.onward (Passes.tail h0)) rfl, by omega⟩
  · have a1 : Advances s (91 :: R) { s with mem := hook_first s.mem item cJSON_Array }
        (skip (skip R)) := Advances.of_same_aux (p1.onward (Passes.skip _)) rfl
    have a2 := hpv _ _ _ _ _ hpv1
    have a3 : Advances s2 v2 s2 (skip v2) := Advances.of_same_aux (Passes.skip v2) rfl
    obtain ⟨a4, hl⟩ := parse_array_loop_advances pv hpv F s2 _ (skip v2) s1 r hloop
    have hlen := ((a1.seq a2).seq a3).rest_length_le
    exact ⟨((a1.seq a2).seq a3).seq a4, by omega⟩

theorem parse_member_advances
    (ps pv : PState cJSON_Buf → Nat → Bytes → PResult (PState cJSON_Buf × Bytes))
    (hps : ∀ s i t s1 r, ps s i t = PResult.ok (s1, r) → Advances s t s1 r)
    (hpv : ∀ s i t s1 r, pv s i t = PResult.ok (s1, r) → Advances s t s1 r)
    (s : PState cJSON_Buf) (child : Nat) (value : Bytes) (s2 : PState cJSON_Buf) (r : Bytes)
    (h : parse_member ps pv s child value = PResult.ok (s2, r)) : Advances s value s2 r := by
  obtain ⟨s1, v1, v3, h1, h58, h3, rfl⟩ := parse_member_inv ps pv s child value s2 r h
  have a0 : Advances s value s (skip value) := Advances.of_same_aux (Passes.skip value) rfl
  have a1 := hps _ _ _ _ _ h1
  have a2 : Advances s1 v1
      { s1 with mem := s1.mem.set child { s1.mem.node child with
        string := (s1.mem.node child).valuestring, valuestring := none } }
      (skip (skip v1).tail) :=
    Advances.of_same_aux (((Passes.skip v1).onward (Passes.tail (by omega))).onward (Passes.skip _))
      rfl
  have a3 := hpv _ _ _ _ _ h3
  have a4 : Advances s2 v3 s2 (skip v3) := Advances.of_same_aux (Passes.skip v3) rfl
  exact (((a0.seq a1).seq a2).seq a3).seq a4

theorem parse_object_loop_advances
    (ps pv : PState cJSON_Buf → Nat → Bytes → PResult (PState cJSON_Buf × Bytes))
    (hps : ∀ s i t s1 r, ps s i t = PResult.ok (s1, r) → Advances s t s1 r)
    (hpv : ∀ s i t s1 r, pv s i t = PResult.ok (s1, r) → Advances s t s1 r) :
    ∀ (k : Nat) (s : PState cJSON_Buf) (child : Nat) (value : Bytes) (s1 : PState cJSON_Buf)
      (r : Bytes), parse_object_loop ps pv k s child value = PResult.ok (s1, r) →
      Advances s value s1 r ∧ r.length < value.length
  | 0, _, _, _, _, _, h => by simp [parse_object_loop] at h
  | k + 1, s, child, value, s1, r, h => by
    obtain ⟨k0, hk, hcase⟩ := parse_object_loop_inv ps pv (k + 1) s child value s1 r h
    have hk0 : k = k0 := by omega
    subst hk0
    rcases hcase with ⟨h125, rfl, rfl⟩ | ⟨R, s2, v1, rfl, hm, hloop⟩
    · have h0 : peek value ≠ 0 := by omega
      exact ⟨Advances.of_same_aux (Passes.tail h0) rfl, Passes.tail_lt h0⟩
    · have a1 : Advances s (44 :: R) { s with mem := link_fresh s.mem child } R :=
        Advances.of_same_aux (Passes.cons 44 R (by decide)) rfl
      have a2 := parse_member_advances ps pv hps hpv _ _ _ _ _ hm
      obtain ⟨a4, hl⟩ := parse_object_loop_advances ps pv hps hpv k s2 _ v1 s1 r hloop
      have hlen := (a1.seq a2).rest_length_le
      exact ⟨(a1.seq a2).seq a4, by omega⟩

theorem parse_object_advances
    (ps pv : PState cJSON_Buf → Nat → Bytes → PResult (PState cJSON_Buf × Bytes))
    (hps : ∀ s i t s1 r, ps s i t = PResult.ok (s1, r) → Advances s t s1 r)
    (hpv : ∀ s i t s1 r, pv s i t = PResult.ok (s1, r) → Advances s t s1 r)
    (F : Nat) (s : PState cJSON_Buf) (item : Nat) (value : Bytes) (s1 : PState cJSON_Buf)
    (r : Bytes) (h : parse_object ps pv F s item value = PResult.ok (s1, r)) :
    Advances s value s1 r ∧ r.length < value.length := by
  obtain ⟨R, rfl, hcase⟩ := parse_object_inv ps pv F s item value s1 r h
  have p1 : Passes (123 :: R) (skip R) := (Passes.cons 123 R (by decide)).onward (Passes.skip R)
  have hl1 : (skip R).length < (123 :: R).length := by
    have := skip_length_le R
    simp only [List.length_cons]; omega
  rcases hcase with ⟨h125, rfl, rfl⟩ | ⟨h125, s2, v2, hm, hloop⟩
  · have h0 : peek (skip R) ≠ 0 := by omega
    have := Passes.tail_lt h0
    exact ⟨Advances.of_same_aux (p1.onward (Passes.tail h0)) rfl, by omega⟩
  · have a1 : Advances s (123 :: R) { s with mem := hook_first s.mem item cJSON_Object }
        (skip R) := Advances.of_same_aux p1 rfl
    have a2 := parse_member_advances ps pv hps hpv _ _ _ _ _ hm
    obtain ⟨a4, hl⟩ := parse_object_loop_advances ps pv hps hpv F s2 _ v2 s1 r hloop
    have hlen := (a1.seq a2).rest_length_le
    exact ⟨(a1.seq a2).seq a4, by omega⟩

theorem Arena.parse_string_advances (s : PState cJSON_Buf) (item : Nat) (str : Bytes)
    (s1 : PState cJSON_Buf) (r : Bytes) (h : Arena.parse_string s item str = PResult.ok (s1, r)) :
    Advances s str s1 r := by
  obtain ⟨h1, h2, h3, h4⟩ := Arena.parse_string_ok s item str s1 r h
  exact ⟨h1.passes, h2, h3, h4⟩

/-- A value that `parse_value` of the arena variant accepts: the position it returns
lies strictly behind the one it was called at and was reached over bytes none of which
is the NUL; the cursor of the arena moved by at most as much. -/
theorem Arena.parse_value_advances : ∀ (F : Nat) (s : PState cJSON_Buf) (item : Nat)
    (t : Bytes) (s1 : PState cJSON_Buf) (r : Bytes),
    Arena.parse_value F s item t = PResult.ok (s1, r) →
    Advances s t s1 r ∧ r.length < t.length
  | 0, _, _, _, _, _, h => by simp [Arena.parse_value] at h
  | F + 1, s, item, t, s1, r, h => by
    have ih : ∀ s i t s1 r, Arena.parse_value F s i t = PResult.ok (s1, r) → Advances s t s1 r :=
      fun s i t s1 r h => (Arena.parse_value_advances F s i t s1 r h).1
    rw [Arena.parse_value] at h
    by_cases h34 : peek t = 34
    · rw [if_pos h34] at h
      obtain ⟨h1, h2, h3, h4⟩ := Arena.parse_string_ok s item t s1 r h
      exact ⟨⟨h1.passes, h2, h3, h4⟩, h1.length_lt⟩
    rw [if_neg h34] at h
    by_cases h123 : peek t = 123
    · rw [if_pos h123] at h
      exact parse_object_advances _ _ Arena.parse_string_advances ih F s item t s1 r h
    rw [if_neg h123] at h
    by_cases hnum : peek t = 45 ∨ (48 ≤ peek t ∧ peek t ≤ 57)
    · rw [if_pos hnum] at h
      injection h with h
      injection h with h1 h2
      subst h1; subst h2
      exact ⟨Advances.of_same_aux (scan_number_passes t) rfl, scan_number_progress t hnum⟩
    rw [if_neg hnum] at h
    by_cases h91 : peek t = 91
    · rw [if_pos h91] at h
      exact parse_array_advances _ ih F s item t s1 r h
    rw [if_neg h91] at h
    by_cases hn : starts_with [110, 117, 108, 108] t = true
    · rw [if_pos hn] at h
      injection h with h
      injection h with h1 h2
      subst h1; subst h2
      have hl := starts_with_length _ _ hn
      exact ⟨Advances.of_same_aux (Passes.drop_starts _ t (by decide) hn) rfl, by
        simp only [List.length_drop, List.length_cons, List.length_nil] at hl ⊢; omega⟩
    rw [if_neg hn] at h
    by_cases hf : starts_with [102, 97, 108, 115, 101] t = true
    · rw [if_pos hf] at h
      injection h with h
      injection h with h1 h2
      subst h1; subst h2
      have hl := starts_with_length _ _ hf
      exact ⟨Advances.of_same_aux (Passes.drop_starts _ t (by decide) hf) rfl, by
        simp only [List.length_drop, List.length_cons, List.length_nil] at hl ⊢; omega⟩
    rw [if_neg hf] at h
    by_cases ht : starts_with [116, 114, 117, 101] t = true
    · rw [if_pos ht] at h
      injection h with h
      injection h with h1 h2
      subst h1; subst h2
      have hl := starts_with_length _ _ ht
      exact ⟨Advances.of_same_aux (Passes.drop_starts _ t (by decide) ht) rfl, by
        simp only [List.length_drop, List.length_cons, List.length_nil] at hl ⊢; omega⟩
    rw [if_neg ht] at h
    cases h

theorem Arena.parse_value_with_self : ∀ F : Nat,
    Arena.parse_value_with Arena.parse_string F = Arena.parse_value F
  | 0 => by
    funext s item value
    rfl
  | F + 1 => by
    funext s item value
    rw [Arena.parse_value_with, Arena.parse_value, Arena.parse_value_with_self F]

theorem Arena.parse_root_with_self (F : Nat) :
    Arena.parse_root_with Arena.parse_string F = Arena.parse_root F := by
  funext s item value
  rw [Arena.parse_root_with, Arena.parse_root, Arena.parse_value_with_self F]

theorem Arena.cJSON_Parse_with_self (libc : Libc) (F : Nat) (m : Mem) (value : Bytes) :
    Arena.cJSON_Parse_with Arena.parse_string libc F m value =
      Arena.cJSON_Parse_fuel libc F m value := by
  rw [Arena.cJSON_Parse_with, Arena.cJSON_Parse_fuel, Arena.parse_root_with_self F]
  try rfl

/-- A call of `parse_string` stores at most as many bytes as the text has before its
terminating NUL. -/
theorem Arena.string_writes_le (str : Bytes) : Arena.string_writes str ≤ strlen str := by
  unfold Arena.string_writes
  by_cases hq : peek str = 34
  · rw [if_neg (by simp [hq])]
    have hl := Passes.tail_lt (show peek str ≠ 0 by omega)
    have ht := strlen_passes (Passes.tail (show peek str ≠ 0 by omega))
    cases hl2 : Arena.parse_string_loop (str.length + 1) str.tail [] with
    | done out ptr =>
      obtain ⟨g1, g2, _⟩ := Arena.string_loop_done _ _ _ _ _ hl2
      have hp := strlen_passes g1
      simp only [List.length_nil] at g2 ⊢
      omega
    | bad out e =>
      have := Arena.string_loop_bad _ _ _ _ _ hl2
      simp only [List.length_nil] at this ⊢
      omega
    | stuck => simp
  · rw [if_pos hq]; omega

/-- In an arena that has room for the text, the bounds check of `parse_string_checked`
passes. -/
theorem Arena.parse_string_checked_eq (s : PState cJSON_Buf) (item : Nat) (str : Bytes)
    (h : Fits s str) : Arena.parse_string_checked s item str = Arena.parse_string s item str := by
  unfold Arena.parse_string_checked
  have := Arena.string_writes_le str
  rw [if_pos ⟨h.1, by have := h.2; omega⟩]

theorem parse_array_loop_agree
    (pv pv2 : PState cJSON_Buf → Nat → Bytes → PResult (PState cJSON_Buf × Bytes)) (N : Nat)
    (I : PState cJSON_Buf → Bytes → Prop)
    (hI : ∀ s t s1 r, Advances s t s1 r → I s t → I s1 r)
    (hpv : ∀ s i t, t.length < N → I s t → pv2 s i t = pv s i t ∧ pv s i t ≠ PResult.stuck)
    (hadv : ∀ s i t s1 r, pv s i t = PResult.ok (s1, r) → Advances s t s1 r) :
    ∀ (k k2 : Nat) (s : PState cJSON_Buf) (child : Nat) (value : Bytes), value.length ≤ N →
      value.length < k → k ≤ k2 → I s value →
      parse_array_loop pv2 k2 s child value = parse_array_loop pv k s child value ∧
        parse_array_loop pv k s child value ≠ PResult.stuck
  | 0, _, _, _, _, _, h, _, _ => by omega
  | k + 1, k2, s, child, value, hN, hk, hk2, hf => by
    obtain ⟨k3, rfl⟩ : ∃ j, k2 = j + 1 := ⟨k2 - 1, by omega⟩
    by_cases hc : peek value = 44
    · have e : value = 44 :: value.tail := by
        have := peek_cons_of_ne_zero (show peek value ≠ 0 by omega)
        rw [hc] at this; exact this
      have hl := Passes.tail_lt (show peek value ≠ 0 by omega)
      have hs := skip_length_le value.tail
      have p1 : Passes value (skip value.tail) :=
        (Passes.tail (show peek value ≠ 0 by omega)).onward (Passes.skip _)
      have f1 : I { s with mem := link_fresh s.mem child } (skip value.tail) :=
        hI s _ _ _ (Advances.of_same_aux p1 rfl) hf
      obtain ⟨e1, e2⟩ := hpv { s with mem := link_fresh s.mem child } s.mem.brk
        (skip value.tail) (by omega) f1
      rw [e, parse_array_loop_comma, parse_array_loop_comma, e1]
      cases hr : pv { s with mem := link_fresh s.mem child } s.mem.brk (skip value.tail) with
      | ok p =>
        obtain ⟨s1, v1⟩ := p
        have a1 := hadv _ _ _ _ _ hr
        have a2 : Advances s1 v1 s1 (skip v1) := Advances.of_same_aux (Passes.skip v1) rfl
        have hl2 := (a1.seq a2).rest_length_le
        exact parse_array_loop_agree pv pv2 N I hI hpv hadv k k3 s1 s.mem.brk (skip v1) (by omega)
          (by omega) (by omega) (hI _ _ _ _ (a1.seq a2) f1)
      | fail ep => exact ⟨rfl, by simp⟩
      | stuck => exact absurd hr e2
    · rw [parse_array_loop_other pv2 k3 s child value hc,
        parse_array_loop_other pv k s child value hc]
      refine ⟨rfl, ?_⟩
      split_ifs <;> simp

theorem parse_array_agree
    (pv pv2 : PState cJSON_Buf → Nat → Bytes → PResult (PState cJSON_Buf × Bytes)) (N : Nat)
    (I : PState cJSON_Buf → Bytes → Prop)
    (hI : ∀ s t s1 r, Advances s t s1 r → I s t → I s1 r)
    (hpv : ∀ s i t, t.length < N → I s t → pv2 s i t = pv s i t ∧ pv s i t ≠ PResult.stuck)
    (hadv : ∀ s i t s1 r, pv s i t = PResult.ok (s1, r) → Advances s t s1 r)
    (k k2 : Nat) (s : PState cJSON_Buf) (item : Nat) (value : Bytes) (hN : value.length ≤ N)
    (hk : value.length ≤ k) (hk2 : k ≤ k2) (hf : I s value) :
    parse_array pv2 k2 s item value = parse_array pv k s item value ∧
      parse_array pv k s item value ≠ PResult.stuck := by
  by_cases hc : peek value = 91
  · have e : value = 91 :: value.tail := by
      have := peek_cons_of_ne_zero (show peek value ≠ 0 by omega)
      rw [hc] at this; exact this
    have hl := Passes.tail_lt (show peek value ≠ 0 by omega)
    have hs := skip_length_le value.tail
    have hs2 := skip_length_le (skip value.tail)
    have p1 : Passes value (skip (skip value.tail)) :=
      ((Passes.tail (show peek value ≠ 0 by omega)).onward (Passes.skip _)).onward (Passes.skip _)
    rw [e, parse_array_open, parse_array_open]
    simp only [List.tail_cons]
    by_cases h93 : peek (skip value.tail) = 93
    · rw [if_pos h93, if_pos h93]
      exact ⟨rfl, by simp⟩
    · rw [if_neg h93, if_neg h93]
      have f1 : I { s with mem := hook_first s.mem item cJSON_Array }
          (skip (skip value.tail)) := hI s _ _ _ (Advances.of_same_aux p1 rfl) hf
      obtain ⟨e1, e2⟩ := hpv { s with mem := hook_first s.mem item cJSON_Array } s.mem.brk
        (skip (skip value.tail)) (by omega) f1
      rw [e1]
      cases hr : pv { s with mem := hook_first s.mem item cJSON_Array } s.mem.brk
          (skip (skip value.tail)) with
      | ok p =>
        obtain ⟨s1, v1⟩ := p
        have a1 := hadv _ _ _ _ _ hr
        have a2 : Advances s1 v1 s1 (skip v1) := Advances.of_same_aux (Passes.skip v1) rfl
        have hl2 := (a1.seq a2).rest_length_le
        exact parse_array_loop_agree pv pv2 N I hI hpv hadv k k2 s1 s.mem.brk (skip v1) (by omega)
          (by omega) hk2 (hI _ _ _ _ (a1.seq a2) f1)
      | fail ep => exact ⟨rfl, by simp⟩
      | stuck => exact absurd hr e2
  · unfold parse_array
    rw [if_pos hc, if_pos hc]
    exact ⟨rfl, by simp⟩

theorem parse_member_stuck {σ : Type}
    (ps pv : PState σ → Nat → Bytes → PResult (PState σ × Bytes)) (s : PState σ) (child : Nat)
    (value : Bytes) (h : ps s child (skip value) = PResult.stuck) :
    parse_member ps pv s child value = PResult.stuck := by
  simp only [parse_member, h]

theorem parse_member_agree
    (ps ps2 pv pv2 : PState cJSON_Buf → Nat → Bytes → PResult (PState cJSON_Buf × Bytes))
    (N : Nat)
    (I : PState cJSON_Buf → Bytes → Prop)
    (hI : ∀ s t s1 r, Advances s t s1 r → I s t → I s1 r)
    (hps : ∀ s i t, I s t → ps2 s i t = ps s i t ∧ ps s i t ≠ PResult.stuck)
    (hpv : ∀ s i t, t.length < N → I s t → pv2 s i t = pv s i t ∧ pv s i t ≠ PResult.stuck)
    (hadvs : ∀ s i t s1 r, ps s i t = PResult.ok (s1, r) → Advances s t s1 r)
    (s : PState cJSON_Buf) (child : Nat) (value : Bytes) (hN : value.length ≤ N)
    (hf : I s value) :
    parse_member ps2 pv2 s child value = parse_member ps pv s child value ∧
      parse_member ps pv s child value ≠ PResult.stuck := by
  have f0 : I s (skip value) := hI s _ _ _ (Advances.of_same_aux (Passes.skip value) rfl) hf
  obtain ⟨e1, e2⟩ := hps s child (skip value) f0
  cases hr : ps s child (skip value) with
  | ok p =>
    obtain ⟨s1, v1⟩ := p
    rw [parse_member_string ps pv s child value s1 v1 hr,
      parse_member_string ps2 pv2 s child value s1 v1 (by rw [e1]; exact hr)]
    by_cases h58 : peek (skip v1) = 58
    · rw [if_neg (by simp [h58]), if_neg (by simp [h58])]
      have a1 := hadvs _ _ _ _ _ hr
      have h0 : peek (skip v1) ≠ 0 := by omega
      have p2 : Passes v1 (skip (skip v1).tail) :=
        ((Passes.skip v1).onward (Passes.tail h0)).onward (Passes.skip _)
      have a2 : Advances s1 v1
          { s1 with mem := s1.mem.set child { s1.mem.node child with
            string := (s1.mem.node child).valuestring, valuestring := none } }
          (skip (skip v1).tail) := Advances.of_same_aux p2 rfl
      have hl1 := a1.rest_length_le
      have hl2 := skip_length_le value
      have hl3 := skip_length_le v1
      have hl4 := Passes.tail_lt h0
      have hl5 := skip_length_le (skip v1).tail
      obtain ⟨e3, e4⟩ := hpv
        { s1 with mem := s1.mem.set child { s1.mem.node child with
            string := (s1.mem.node child).valuestring, valuestring := none } } child
        (skip (skip v1).tail) (by omega) (hI _ _ _ _ (a1.seq a2) f0)
      rw [e3]
      refine ⟨rfl, ?_⟩
      cases hr2 : pv { s1 with mem := s1.mem.set child { s1.mem.node child with
            string := (s1.mem.node child).valuestring, valuestring := none } } child
          (skip (skip v1).tail) with
      | ok q => obtain ⟨s2, v3⟩ := q; simp
      | fail ep => simp
      | stuck => exact absurd hr2 e4
    · rw [if_pos h58, if_pos h58]
      exact ⟨rfl, by simp⟩
  | fail ep =>
    rw [parse_member_fail ps pv s child value ep hr,
      parse_member_fail ps2 pv2 s child value ep (by rw [e1]; exact hr)]
    exact ⟨rfl, by simp⟩
  | stuck => exact absurd hr e2

theorem parse_object_loop_agree
    (ps ps2 pv pv2 : PState cJSON_Buf → Nat → Bytes → PResult (PState cJSON_Buf × Bytes))
    (N : Nat)
    (I : PState cJSON_Buf → Bytes → Prop)
    (hI : ∀ s t s1 r, Advances s t s1 r → I s t → I s1 r)
    (hps : ∀ s i t, I s t → ps2 s i t = ps s i t ∧ ps s i t ≠ PResult.stuck)
    (hpv : ∀ s i t, t.length < N → I s t → pv2 s i t = pv s i t ∧ pv s i t ≠ PResult.stuck)
    (hadvs : ∀ s i t s1 r, ps s i t = PResult.ok (s1, r) → Advances s t s1 r)
    (hadv : ∀ s i t s1 r, pv s i t = PResult.ok (s1, r) → Advances s t s1 r) :
    ∀ (k k2 : Nat) (s : PState cJSON_Buf) (child : Nat) (value : Bytes), value.length ≤ N →
      value.length < k → k ≤ k2 → I s value →
      parse_object_loop ps2 pv2 k2 s child value = parse_object_loop ps pv k s child value ∧
        parse_object_loop ps pv k s child value ≠ PResult.stuck
  | 0, _, _, _, _, _, h, _, _ => by omega
  | k + 1, k2, s, child, value, hN, hk, hk2, hf => by
    obtain ⟨k3, rfl⟩ : ∃ j, k2 = j + 1 := ⟨k2 - 1, by omega⟩
    by_cases hc : peek value = 44
    · have e : value = 44 :: value.tail := by
        have := peek_cons_of_ne_zero (show peek value ≠ 0 by omega)
        rw [hc] at this; exact this
      have hl := Passes.tail_lt (show peek value ≠ 0 by omega)
      have f1 : I { s with mem := link_fresh s.mem child } value.tail :=
        hI s _ _ _ (Advances.of_same_aux (Passes.tail (show peek value ≠ 0 by omega)) rfl) hf
      obtain ⟨e1, e2⟩ := parse_member_agree ps ps2 pv pv2 N I hI hps hpv hadvs
        { s with mem := link_fresh s.mem child } s.mem.brk value.tail (by omega) f1
      rw [e, parse_object_loop_comma, parse_object_loop_comma, e1]
      cases hr : parse_member ps pv { s with mem := link_fresh s.mem child } s.mem.brk
          value.tail with
      | ok p =>
        obtain ⟨s1, v1⟩ := p
        have a1 := parse_member_advances ps pv hadvs hadv _ _ _ _ _ hr
        have hl2 := a1.rest_length_le
        exact parse_object_loop_agree ps ps2 pv pv2 N I hI hps hpv hadvs hadv k k3 s1 s.mem.brk v1
          (by omega) (by omega) (by omega) (hI _ _ _ _ a1 f1)
      | fail ep => exact ⟨rfl, by simp⟩
      | stuck => exact absurd hr e2
    · rw [parse_object_loop_other ps2 pv2 k3 s child value hc,
        parse_object_loop_other ps pv k s child value hc]
      refine ⟨rfl, ?_⟩
      split_ifs <;> simp

theorem parse_object_agree
    (ps ps2 pv pv2 : PState cJSON_Buf → Nat → Bytes → PResult (PState cJSON_Buf × Bytes))
    (N : Nat)
    (I : PState cJSON_Buf → Bytes → Prop)
    (hI : ∀ s t s1 r, Advances s t s1 r → I s t → I s1 r)
    (hps : ∀ s i t, I s t → ps2 s i t = ps s i t ∧ ps s i t ≠ PResult.stuck)
    (hpv : ∀ s i t, t.length < N → I s t → pv2 s i t = pv s i t ∧ pv s i t ≠ PResult.stuck)
    (hadvs : ∀ s i t s1 r, ps s i t = PResult.ok (s1, r) → Advances s t s1 r)
    (hadv : ∀ s i t s1 r, pv s i t = PResult.ok (s1, r) → Advances s t s1 r)
    (k k2 : Nat) (s : PState cJSON_Buf) (item : Nat) (value : Bytes) (hN : value.length ≤ N)
    (hk : value.length ≤ k) (hk2 : k ≤ k2) (hf : I s value) :
    parse_object ps2 pv2 k2 s item value = parse_object ps pv k s item value ∧
      parse_object ps pv k s item value ≠ PResult.stuck := by
  by_cases hc : peek value = 123
  · have e : value = 123 :: value.tail := by
      have := peek_cons_of_ne_zero (show peek value ≠ 0 by omega)
      rw [hc] at this; exact this
    have hl := Passes.tail_lt (show peek value ≠ 0 by omega)
    have hs := skip_length_le value.tail
    have p1 : Passes value (skip value.tail) :=
      (Passes.tail (show peek value ≠ 0 by omega)).onward (Passes.skip _)
    rw [e, parse_object_open, parse_object_open]
    simp only [List.tail_cons]
    by_cases h125 : peek (skip value.tail) = 125
    · rw [if_pos h125, if_pos h125]
      exact ⟨rfl, by simp⟩
    · rw [if_neg h125, if_neg h125]
      have f1 : I { s with mem := hook_first s.mem item cJSON_Object } (skip value.tail) :=
        hI s _ _ _ (Advances.of_same_aux p1 rfl) hf
      obtain ⟨e1, e2⟩ := parse_member_agree ps ps2 pv pv2 N I hI hps hpv hadvs
        { s with mem := hook_first s.mem item cJSON_Object } s.mem.brk (skip value.tail)
        (by omega) f1
      rw [e1]
      cases hr : parse_member ps pv { s with mem := hook_first s.mem item cJSON_Object }
          s.mem.brk (skip value.tail) with
      | ok p =>
        obtain ⟨s1, v1⟩ := p
        have a1 := parse_member_advances ps pv hadvs hadv _ _ _ _ _ hr
        have hl2 := a1.rest_length_le
        exact parse_object_loop_agree ps ps2 pv pv2 N I hI hps hpv hadvs hadv k k2 s1 s.mem.brk v1
          (by omega) (by omega) hk2 (hI _ _ _ _ a1 f1)
      | fail ep => exact ⟨rfl, by simp⟩
      | stuck => exact absurd hr e2
  · unfold parse_object
    rw [if_pos hc, if_pos hc]
    exact ⟨rfl, by simp⟩

/-- The value production with another string production `ps2` and more fuel has the
outcome of `parse_value`, and that is an outcome, when the fuel exceeds the length of the
text and `ps2` agrees with `parse_string` wherever the invariant `I` holds. -/
theorem Arena.parse_value_agree
    (ps2 : PState cJSON_Buf → Nat → Bytes → PResult (PState cJSON_Buf × Bytes))
    (I : PState cJSON_Buf → Bytes → Prop)
    (hI : ∀ s t s1 r, Advances s t s1 r → I s t → I s1 r)
    (hps : ∀ s i t, I s t → ps2 s i t = Arena.parse_string s i t) :
    ∀ (F F2 : Nat) (s : PState cJSON_Buf) (item : Nat) (t : Bytes), t.length < F → F ≤ F2 →
      I s t →
      Arena.parse_value_with ps2 F2 s item t = Arena.parse_value F s item t ∧
        Arena.parse_value F s item t ≠ PResult.stuck
  | 0, _, _, _, _, h, _, _ => by omega
  | F + 1, F2, s, item, t, ht, hF, hf => by
    obtain ⟨F3, rfl⟩ : ∃ j, F2 = j + 1 := ⟨F2 - 1, by omega⟩
    have hps2 : ∀ s i t, I s t → ps2 s i t = Arena.parse_string s i t ∧
        Arena.parse_string s i t ≠ PResult.stuck :=
      fun s i t h => ⟨hps s i t h, Arena.parse_string_total s i t⟩
    have hpv : ∀ s i t, t.length < F → I s t →
        Arena.parse_value_with ps2 F3 s i t = Arena.parse_value F s i t ∧
          Arena.parse_value F s i t ≠ PResult.stuck :=
      fun s i t h1 h2 => Arena.parse_value_agree ps2 I hI hps F F3 s i t h1 (by omega) h2
    have hadv : ∀ s i t s1 r, Arena.parse_value F s i t = PResult.ok (s1, r) →
        Advances s t s1 r := fun s i t s1 r h => (Arena.parse_value_advances F s i t s1 r h).1
    rw [Arena.parse_value_with, Arena.parse_value]
    by_cases h34 : peek t = 34
    · rw [if_pos h34, if_pos h34]
      exact hps2 s item t hf
    rw [if_neg h34, if_neg h34]
    by_cases h123 : peek t = 123
    · rw [if_pos h123, if_pos h123]
      exact parse_object_agree Arena.parse_string ps2 (Arena.parse_value F)
        (Arena.parse_value_with ps2 F3) F I hI hps2 hpv Arena.parse_string_advances hadv F F3 s
        item t (by omega) (by omega) (by omega) hf
    rw [if_neg h123, if_neg h123]
    by_cases hnum : peek t = 45 ∨ (48 ≤ peek t ∧ peek t ≤ 57)
    · rw [if_pos hnum, if_pos hnum]
      exact ⟨rfl, by simp⟩
    rw [if_neg hnum, if_neg hnum]
    by_cases h91 : peek t = 91
    · rw [if_pos h91, if_pos h91]
      exact parse_array_agree (Arena.parse_value F) (Arena.parse_value_with ps2 F3) F I hI hpv
        hadv F F3 s item t (by omega) (by omega) (by omega) hf
    rw [if_neg h91, if_neg h91]
    refine ⟨rfl, ?_⟩
    split_ifs <;> simp

/-- With more fuel than the text has bytes `parse_value` of the arena variant has an
outcome. -/
theorem Arena.parse_value_total (F : Nat) (s : PState cJSON_Buf) (item : Nat) (t : Bytes)
    (h : t.length < F) : Arena.parse_value F s item t ≠ PResult.stuck :=
  (Arena.parse_value_agree Arena.parse_string (fun _ _ => True) (fun _ _ _ _ _ _ => trivial)
    (fun _ _ _ _ => rfl) F F s item t h (Nat.le_refl _) trivial).2

theorem Arena.parse_root_advances (F : Nat) (s : PState cJSON_Buf) (item : Nat) (t : Bytes)
    (s1 : PState cJSON_Buf) (r : Bytes) (h : Arena.parse_root F s item t = PResult.ok (s1, r)) :
    Advances s t s1 r ∧ r.length < t.length := by
  have hadv : ∀ s i t s1 r, Arena.parse_value F s i t = PResult.ok (s1, r) →
      Advances s t s1 r := fun s i t s1 r h => (Arena.parse_value_advances F s i t s1 r h).1
  unfold Arena.parse_root at h
  by_cases h123 : peek t = 123
  · rw [if_pos h123] at h
    exact parse_object_advances _ _ Arena.parse_string_advances hadv F s item t s1 r h
  rw [if_neg h123] at h
  by_cases h91 : peek t = 91
  · rw [if_pos h91] at h
    exact parse_array_advances _ hadv F s item t s1 r h
  rw [if_neg h91] at h
  cases h

theorem Arena.parse_root_agree
    (ps2 : PState cJSON_Buf → Nat → Bytes → PResult (PState cJSON_Buf × Bytes))
    (I : PState cJSON_Buf → Bytes → Prop)
    (hI : ∀ s t s1 r, Advances s t s1 r → I s t → I s1 r)
    (hps : ∀ s i t, I s t → ps2 s i t = Arena.parse_string s i t)
    (F F2 : Nat) (s : PState cJSON_Buf) (item : Nat) (t : Bytes) (ht : t.length < F)
    (hF : F ≤ F2) (hf : I s t) :
    Arena.parse_root_with ps2 F2 s item t = Arena.parse_root F s item t ∧
      Arena.parse_root F s item t ≠ PResult.stuck := by
  have hps2 : ∀ s i t, I s t → ps2 s i t = Arena.parse_string s i t ∧
      Arena.parse_string s i t ≠ PResult.stuck :=
    fun s i t h => ⟨hps s i t h, Arena.parse_string_total s i t⟩
  have hpv : ∀ s i t, t.length < F → I s t →
      Arena.parse_value_with ps2 F2 s i t = Arena.parse_value F s i t ∧
        Arena.parse_value F s i t ≠ PResult.stuck :=
    fun s i t h1 h2 => Arena.parse_value_agree ps2 I hI hps F F2 s i t h1 hF h2
  have hadv : ∀ s i t s1 r, Arena.parse_value F s i t = PResult.ok (s1, r) →
      Advances s t s1 r := fun s i t s1 r h => (Arena.parse_value_advances F s i t s1 r h).1
  unfold Arena.parse_root_with Arena.parse_root
  by_cases h123 : peek t = 123
  · rw [if_pos h123, if_pos h123]
    exact parse_object_agree Arena.parse_string ps2 (Arena.parse_value F)
      (Arena.parse_value_with ps2 F2) F I hI hps2 hpv Arena.parse_string_advances hadv F F2 s
      item t (by omega) (by omega) hF hf
  rw [if_neg h123, if_neg h123]
  by_cases h91 : peek t = 91
  · rw [if_pos h91, if_pos h91]
    exact parse_array_agree (Arena.parse_value F) (Arena.parse_value_with ps2 F2) F I hI hpv
      hadv F F2 s item t (by omega) (by omega) hF hf
  rw [if_neg h91, if_neg h91]
  exact ⟨rfl, by simp⟩

theorem Arena.cJSON_Parse_with_eq
    (ps2 : PState cJSON_Buf → Nat → Bytes → PResult (PState cJSON_Buf × Bytes))
    (libc : Libc) (F : Nat) (m : Mem) (value : Bytes) :
    Arena.cJSON_Parse_with ps2 libc F m value =
      match Arena.parse_root_with ps2 F
          { mem := (cJSON_New_Item m).1, aux := Arena.cJSON_Buf_Init libc (strlen value) 0 }
          m.brk (skip value) with
      | PResult.ok (s, _) => PResult.ok (s.mem, m.brk, s.aux)
      | PResult.fail ep => PResult.fail ep
      | PResult.stuck => PResult.stuck := rfl

theorem Arena.start_fits (libc : Libc) (m : Mem) (value : Bytes) :
    Fits { mem := (cJSON_New_Item m).1, aux := Arena.cJSON_Buf_Init libc (strlen value) 0 }
      (skip value) := by
  have := skip_length_le value
  have hp := strlen_passes (Passes.skip value)
  refine ⟨Int.le_refl _, ?_⟩
  show (0 : Int) + (strlen (skip value) : Int) ≤ (strlen value : Int)
  omega

/-- The function `cJSON_Parse` of the arena variant has an outcome, and with more fuel,
and with a string production that agrees with `parse_string` whenever the arena has room
for the text still to be read, it has the same one. -/
theorem Arena.cJSON_Parse_agree
    (ps2 : PState cJSON_Buf → Nat → Bytes → PResult (PState cJSON_Buf × Bytes))
    (hps : ∀ s i t, Fits s t → ps2 s i t = Arena.parse_string s i t)
    (libc : Libc) (F2 : Nat) (m : Mem) (value : Bytes) (hF : value.length + 1 ≤ F2) :
    Arena.cJSON_Parse_with ps2 libc F2 m value = Arena.cJSON_Parse libc m value ∧
      Arena.cJSON_Parse libc m value ≠ PResult.stuck := by
  have := skip_length_le value
  obtain ⟨e1, e2⟩ := Arena.parse_root_agree ps2 Fits (fun _ _ _ _ h hf => h.fits hf) hps
    (value.length + 1) F2
    { mem := (cJSON_New_Item m).1, aux := Arena.cJSON_Buf_Init libc (strlen value) 0 } m.brk
    (skip value) (by omega) hF (Arena.start_fits libc m value)
  rw [Arena.cJSON_Parse_with_eq, Arena.cJSON_Parse_eq, e1]
  refine ⟨rfl, ?_⟩
  cases hr : Arena.parse_root (value.length + 1)
      { mem := (cJSON_New_Item m).1, aux := Arena.cJSON_Buf_Init libc (strlen value) 0 } m.brk
      (skip value) with
  | ok p => obtain ⟨s, r⟩ := p; simp
  | fail ep => simp
  | stuck => exact absurd hr e2

/-- After a successful `cJSON_Parse` of the arena variant the capacity of the arena is
`strlen` of the text and the cursor lies within it. -/
theorem Arena.cJSON_Parse_cursor (libc : Libc) (m : Mem) (value : Bytes) (m1 : Mem) (root : Nat)
    (b : cJSON_Buf) (h : Arena.cJSON_Parse libc m value = PResult.ok (m1, root, b)) :
    b.len = strlen value ∧ 0 ≤ b.offset ∧ b.offset ≤ strlen value := by
  rw [Arena.cJSON_Parse_eq] at h
  cases hr : Arena.parse_root (value.length + 1)
      { mem := (cJSON_New_Item m).1, aux := Arena.cJSON_Buf_Init libc (strlen value) 0 } m.brk
      (skip value) with
  | ok p =>
    obtain ⟨s, r⟩ := p
    simp only [hr] at h
    injection h with h
    injection h with h1 h2
    injection h2 with h2 h3
    subst h3
    obtain ⟨a, _⟩ := Arena.parse_root_advances _ _ _ _ _ _ hr
    obtain ⟨f1, f2⟩ := a.fits (Arena.start_fits libc m value)
    have hlen : s.aux.len = strlen value := a.2.1
    refine ⟨hlen, f1, ?_⟩
    rw [hlen] at f2
    omega
  | fail ep => simp only [hr] at h; cases h
  | stuck => simp only [hr] at h; cases h

/-- The bounds check is not idle: in an arena of two bytes the string `"abc"` does not
fit, and `parse_string_checked` has no outcome where `parse_string` stores four bytes. -/
theorem Arena.checked_string_overflows :
    Arena.parse_string_checked { mem := Mem.init, aux := Arena.cJSON_Buf_Init libc_c99 2 0 } 1
      [34, 97, 98, 99, 34] = PResult.stuck ∧
    Arena.string_writes [34, 97, 98, 99, 34] = 4 ∧
    (Arena.parse_string { mem := Mem.init, aux := Arena.cJSON_Buf_Init libc_c99 2 0 } 1
      [34, 97, 98, 99, 34]).is_ok = true := by
  refine ⟨?_, by decide, by decide⟩
  unfold Arena.parse_string_checked
  rw [if_neg (by decide)]

theorem grow_size_zero (offset len : Int) (ho : 0 ≤ offset) (hl : 0 ≤ len) :
    ∀ fuel : Nat, grow_size offset len fuel 0 = none
  | 0 => rfl
  | fuel + 1 => by
    rw [grow_size, if_pos (by omega)]
    simpa using grow_size_zero offset len ho hl fuel

theorem skip_append : ∀ (u v : Bytes), skip u ≠ [] → skip (u ++ v) = skip u ++ v
  | [], _, h => absurd rfl h
  | c :: u, v, h => by
    by_cases hc : c ≠ 0 ∧ c ≤ 32
    · have e : skip (c :: u) = skip u := by rw [skip, if_pos hc]
      rw [e] at h ⊢
      show skip (c :: (u ++ v)) = _
      rw [skip, if_pos hc]
      exact skip_append u v h
    · have e : skip (c :: u) = c :: u := by rw [skip, if_neg hc]
      rw [e]
      show skip (c :: (u ++ v)) = _
      rw [skip, if_neg hc]
      rfl

/-- A text whose first byte after the white space is a bracket, a comma or a colon is
not empty, does not begin with a full stop, and is not white space only. -/
theorem before_punct (r : Bytes) (h0 : peek (skip r) ≠ 0) (h46 : peek (skip r) ≠ 46) :
    r ≠ [] ∧ peek r ≠ 46 ∧ skip r ≠ [] := by
  have h3 : skip r ≠ [] := ne_nil_of_peek h0
  refine ⟨?_, ?_, h3⟩
  · rintro rfl
    exact h3 rfl
  · intro e
    have : skip r = r := skip_of_gt (by omega)
    rw [this] at h46
    exact h46 e

theorem parse_array_loop_peek {σ : Type}
    (pv : PState σ → Nat → Bytes → PResult (PState σ × Bytes)) (k : Nat) (s : PState σ)
    (child : Nat) (value : Bytes) (s1 : PState σ) (r : Bytes)
    (h : parse_array_loop pv k s child value = PResult.ok (s1, r)) :
    peek value = 44 ∨ peek value = 93 := by
  obtain ⟨k0, _, h1 | ⟨R, _, _, e, _, _⟩⟩ := parse_array_loop_inv pv k s child value s1 r h
  · exact Or.inr h1.1
  · exact Or.inl (by rw [e]; rfl)

theorem parse_object_loop_peek {σ : Type}
    (ps pv : PState σ → Nat → Bytes → PResult (PState σ × Bytes)) (k : Nat) (s : PState σ)
    (child : Nat) (value : Bytes) (s1 : PState σ) (r : Bytes)
    (h : parse_object_loop ps pv k s child value = PResult.ok (s1, r)) :
    peek value = 44 ∨ peek value = 125 := by
  obtain ⟨k0, _, h1 | ⟨R, _, _, e, _, _⟩⟩ := parse_object_loop_inv ps pv k s child value s1 r h
  · exact Or.inr h1.1
  · exact Or.inl (by rw [e]; rfl)

/-- The loop of `parse_array` repeats on a longer text what it does on the text. -/
theorem parse_array_loop_stable
    (pv pv2 : PState cJSON_Buf → Nat → Bytes → PResult (PState cJSON_Buf × Bytes)) (v : Bytes)
    (hst : Stable pv pv2 v) (hne : Consumes pv) :
    ∀ (k k2 : Nat) (s s2 : PState cJSON_Buf) (child : Nat) (value : Bytes)
      (s1 : PState cJSON_Buf) (r : Bytes), k ≤ k2 →
      parse_array_loop pv k s child value = PResult.ok (s1, r) → SameState s s2 →
      ∃ s3, parse_array_loop pv2 k2 s2 child (value ++ v) = PResult.ok (s3, r ++ v) ∧
        SameState s1 s3
  | k, k2, s, s2, child, value, s1, r, hk, h, hs => by
    obtain ⟨k0, hk0, h1 | ⟨R, s4, v1, e, hp, hl⟩⟩ :=
      parse_array_loop_inv pv k s child value s1 r h
    · obtain ⟨h93, rfl, rfl⟩ := h1
      obtain ⟨j, rfl⟩ : ∃ j, k2 = j + 1 := ⟨k2 - 1, by omega⟩
      have hv : value ≠ [] := ne_nil_of_peek (by omega)
      rw [parse_array_loop_other pv2 j s2 child _ (by rw [peek_left hv]; omega),
        if_pos (by rw [peek_left hv]; exact h93), tail_append hv]
      exact ⟨s2, rfl, hs⟩
    · subst e
      subst hk0
      obtain ⟨j, rfl⟩ : ∃ j, k2 = j + 1 := ⟨k2 - 1, by omega⟩
      have hR : skip R ≠ [] := hne _ _ _ _ _ hp
      have hpk := parse_array_loop_peek pv k0 s4 s.mem.brk (skip v1) s1 r hl
      obtain ⟨g1, g2, g3⟩ := before_punct v1 (by omega) (by omega)
      obtain ⟨s5, hp2, hs5⟩ := hst _ { s2 with mem := link_fresh s2.mem child } s.mem.brk
        (skip R) s4 v1 hp g1 g2 (by
          have := hs.set_mem (fun m => link_fresh m child)
          exact this)
      obtain ⟨s3, hl2, hs3⟩ := parse_array_loop_stable pv pv2 v hst hne k0 j s4 s5 s.mem.brk
        (skip v1) s1 r (by omega) hl hs5
      refine ⟨s3, ?_, hs3⟩
      show parse_array_loop pv2 (j + 1) s2 child (44 :: (R ++ v)) = _
      rw [parse_array_loop_comma, skip_append R v hR, hs.brk, hp2]
      show parse_array_loop pv2 j s5 s.mem.brk (skip (v1 ++ v)) = _
      rw [skip_append v1 v g3]
      exact hl2
termination_by k => k
decreasing_by omega

/-- The production `parse_array` repeats on a longer text what it does on the text. -/
theorem parse_array_stable
    (pv pv2 : PState cJSON_Buf → Nat → Bytes → PResult (PState cJSON_Buf × Bytes)) (v : Bytes)
    (hst : Stable pv pv2 v) (hne : Consumes pv) (k k2 : Nat) (s s2 : PState cJSON_Buf)
    (item : Nat) (value : Bytes) (s1 : PState cJSON_Buf) (r : Bytes) (hk : k ≤ k2)
    (h : parse_array pv k s item value = PResult.ok (s1, r)) (hs : SameState s s2) :
    ∃ s3, parse_array pv2 k2 s2 item (value ++ v) = PResult.ok (s3, r ++ v) ∧
      SameState s1 s3 := by
  obtain ⟨R, rfl, h1 | ⟨h93, s4, v2, hp, hl⟩⟩ := parse_array_inv pv k s item value s1 r h
  · obtain ⟨h93, rfl, rfl⟩ := h1
    have hR : skip R ≠ [] := ne_nil_of_peek (by omega)
    show ∃ s3, parse_array pv2 k2 s2 item (91 :: (R ++ v)) = _ ∧ _
    rw [parse_array_open, skip_append R v hR, if_pos (by rw [peek_left hR]; exact h93),
      tail_append hR]
    exact ⟨_, rfl, hs.set_mem (fun m => m.set item { m.node item with type := cJSON_Array })⟩
  · have hR2 : skip (skip R) ≠ [] := hne _ _ _ _ _ hp
    have hR : skip R ≠ [] := by rw [skip_skip] at hR2; exact hR2
    have hpk := parse_array_loop_peek pv k s4 s.mem.brk (skip v2) s1 r hl
    obtain ⟨g1, g2, g3⟩ := before_punct v2 (by omega) (by omega)
    obtain ⟨s5, hp2, hs5⟩ := hst _ { s2 with mem := hook_first s2.mem item cJSON_Array }
      s.mem.brk (skip (skip R)) s4 v2 hp g1 g2 (by
        have := hs.set_mem (fun m => hook_first m item cJSON_Array)
        exact this)
    obtain ⟨s3, hl2, hs3⟩ := parse_array_loop_stable pv pv2 v hst hne k k2 s4 s5 s.mem.brk
      (skip v2) s1 r hk hl hs5
    refine ⟨s3, ?_, hs3⟩
    show parse_array pv2 k2 s2 item (91 :: (R ++ v)) = _
    rw [parse_array_open, skip_append R v hR, if_neg (by rw [peek_left hR]; exact h93),
      skip_append (skip R) v hR2, hs.brk, hp2]
    show parse_array_loop pv2 k2 s5 s.mem.brk (skip (v2 ++ v)) = _
    rw [skip_append v2 v g3]
    exact hl2

/-- One member of an object is read from a longer text as it is from the text. -/
theorem parse_member_stable
    (ps ps2 pv pv2 : PState cJSON_Buf → Nat → Bytes → PResult (PState cJSON_Buf × Bytes))
    (v : Bytes) (hsts : Stable ps ps2 v) (hnes : Consumes ps) (hst : Stable pv pv2 v)
    (hne : Consumes pv) : Stable (parse_member ps pv) (parse_member ps2 pv2) v := by
  intro s s2 child value s1 r h hr h46 hs
  obtain ⟨s4, v1, v3, hps, h58, hpv, rfl⟩ := parse_member_inv ps pv s child value s1 r h
  have hval : skip value ≠ [] := hnes _ _ _ _ _ hps
  obtain ⟨g1, g2, g3⟩ := before_punct v1 (by omega) (by omega)
  obtain ⟨s5, hps2, hs5⟩ := hsts s s2 child (skip value) s4 v1 hps g1 g2 hs
  have ht : skip (skip v1).tail ≠ [] := hne _ _ _ _ _ hpv
  have hv3 : v3 ≠ [] := by
    rintro rfl
    exact hr rfl
  have hv46 : peek v3 ≠ 46 := by
    intro e
    have : skip v3 = v3 := skip_of_gt (by omega)
    rw [this] at h46
    exact h46 e
  obtain ⟨s3, hpv2, hs3⟩ := hst _ { s5 with mem := s5.mem.set child { s5.mem.node child with
      string := (s5.mem.node child).valuestring, valuestring := none } } child
    (skip (skip v1).tail) s1 v3 hpv hv3 hv46 (by
      have := hs5.set_mem (fun m => m.set child { m.node child with
        string := (m.node child).valuestring, valuestring := none })
      exact this)
  refine ⟨s3, ?_, hs3⟩
  have e1 : ps2 s2 child (skip (value ++ v)) = PResult.ok (s5, v1 ++ v) := by
    rw [skip_append value v hval]; exact hps2
  rw [parse_member_string ps2 pv2 s2 child (value ++ v) s5 (v1 ++ v) e1, skip_append v1 v g3,
    if_neg (by rw [peek_left g3]; simp [h58]), tail_append g3,
    skip_append (skip v1).tail v ht, hpv2]
  show PResult.ok (s3, skip (v3 ++ v)) = _
  rw [skip_append v3 v hr]

/-- The loop of `parse_object` repeats on a longer text what it does on the text. -/
theorem parse_object_loop_stable
    (ps ps2 pv pv2 : PState cJSON_Buf → Nat → Bytes → PResult (PState cJSON_Buf × Bytes))
    (v : Bytes) (hsts : Stable ps ps2 v) (hnes : Consumes ps) (hst : Stable pv pv2 v)
    (hne : Consumes pv) :
    ∀ (k k2 : Nat) (s s2 : PState cJSON_Buf) (child : Nat) (value : Bytes)
      (s1 : PState cJSON_Buf) (r : Bytes), k ≤ k2 →
      parse_object_loop ps pv k s child value = PResult.ok (s1, r) → SameState s s2 →
      ∃ s3, parse_object_loop ps2 pv2 k2 s2 child (value ++ v) = PResult.ok (s3, r ++ v) ∧
        SameState s1 s3
  | k, k2, s, s2, child, value, s1, r, hk, h, hs => by
    obtain ⟨k0, hk0, h1 | ⟨R, s4, v1, e, hp, hl⟩⟩ :=
      parse_object_loop_inv ps pv k s child value s1 r h
    · obtain ⟨h125, rfl, rfl⟩ := h1
      obtain ⟨j, rfl⟩ : ∃ j, k2 = j + 1 := ⟨k2 - 1, by omega⟩
      have hv : value ≠ [] := ne_nil_of_peek (by omega)
      rw [parse_object_loop_other ps2 pv2 j s2 child _ (by rw [peek_left hv]; omega),
        if_pos (by rw [peek_left hv]; exact h125), tail_append hv]
      exact ⟨s2, rfl, hs⟩
    · subst e
      subst hk0
      obtain ⟨j, rfl⟩ : ∃ j, k2 = j + 1 := ⟨k2 - 1, by omega⟩
      have hpk := parse_object_loop_peek ps pv k0 s4 s.mem.brk v1 s1 r hl
      have g1 : v1 ≠ [] := ne_nil_of_peek (by omega)
      obtain ⟨s5, hp2, hs5⟩ := parse_member_stable ps ps2 pv pv2 v hsts hnes hst hne _
        { s2 with mem := link_fresh s2.mem child } s.mem.brk R s4 v1 hp g1 (by omega) (by
          have := hs.set_mem (fun m => link_fresh m child)
          exact this)
      obtain ⟨s3, hl2, hs3⟩ := parse_object_loop_stable ps ps2 pv pv2 v hsts hnes hst hne k0 j
        s4 s5 s.mem.brk v1 s1 r (by omega) hl hs5
      refine ⟨s3, ?_, hs3⟩
      show parse_object_loop ps2 pv2 (j + 1) s2 child (44 :: (R ++ v)) = _
      rw [parse_object_loop_comma, hs.brk, hp2]
      exact hl2
termination_by k => k
decreasing_by omega

/-- The production `parse_object` repeats on a longer text what it does on the text. -/
theorem parse_object_stable
    (ps ps2 pv pv2 : PState cJSON_Buf → Nat → Bytes → PResult (PState cJSON_Buf × Bytes))
    (v : Bytes) (hsts : Stable ps ps2 v) (hnes : Consumes ps) (hst : Stable pv pv2 v)
    (hne : Consumes pv) (k k2 : Nat) (s s2 : PState cJSON_Buf) (item : Nat) (value : Bytes)
    (s1 : PState cJSON_Buf) (r : Bytes) (hk : k ≤ k2)
    (h : parse_object ps pv k s item value = PResult.ok (s1, r)) (hs : SameState s s2) :
    ∃ s3, parse_object ps2 pv2 k2 s2 item (value ++ v) = PResult.ok (s3, r ++ v) ∧
      SameState s1 s3 := by
  obtain ⟨R, rfl, h1 | ⟨h125, s4, v2, hp, hl⟩⟩ := parse_object_inv ps pv k s item value s1 r h
  · obtain ⟨h125, rfl, rfl⟩ := h1
    have hR : skip R ≠ [] := ne_nil_of_peek (by omega)
    show ∃ s3, parse_object ps2 pv2 k2 s2 item (123 :: (R ++ v)) = _ ∧ _
    rw [parse_object_open, skip_append R v hR, if_pos (by rw [peek_left hR]; exact h125),
      tail_append hR]
    exact ⟨_, rfl, hs.set_mem (fun m => m.set item { m.node item with type := cJSON_Object })⟩
  · have hpk := parse_object_loop_peek ps pv k s4 s.mem.brk v2 s1 r hl
    have g1 : v2 ≠ [] := ne_nil_of_peek (by omega)
    obtain ⟨s6, w1, w3, hps, _, _, _⟩ := parse_member_inv ps pv _ _ _ _ _ hp
    have hR2 : skip (skip R) ≠ [] := hnes _ _ _ _ _ hps
    have hR : skip R ≠ [] := by rw [skip_skip] at hR2; exact hR2
    obtain ⟨s5, hp2, hs5⟩ := parse_member_stable ps ps2 pv pv2 v hsts hnes hst hne _
      { s2 with mem := hook_first s2.mem item cJSON_Object } s.mem.brk (skip R) s4 v2 hp g1
      (by omega) (by
        have := hs.set_mem (fun m => hook_first m item cJSON_Object)
        exact this)
    obtain ⟨s3, hl2, hs3⟩ := parse_object_loop_stable ps ps2 pv pv2 v hsts hnes hst hne k k2
      s4 s5 s.mem.brk v2 s1 r hk hl hs5
    refine ⟨s3, ?_, hs3⟩
    show parse_object ps2 pv2 k2 s2 item (123 :: (R ++ v)) = _
    rw [parse_object_open, skip_append R v hR, if_neg (by rw [peek_left hR]; exact h125),
      hs.brk, hp2]
    exact hl2

theorem Arena.parse_string_consumes : Consumes Arena.parse_string := by
  intro s i u s1 r h
  have := (Arena.parse_string_ok s i u s1 r h).1.length_lt
  rintro rfl
  simp at this

theorem Arena.parse_value_consumes (F : Nat) : Consumes (Arena.parse_value F) := by
  intro s i u s1 r h
  have := (Arena.parse_value_advances F s i u s1 r h).2
  rintro rfl
  simp at this

theorem Arena.parse_string_is_stable (v : Bytes) :
    Stable Arena.parse_string Arena.parse_string v :=
  fun s s2 i u s1 r h hr _ hs => Arena.parse_string_stable s s2 i u v s1 r h hr hs

theorem starts_with_append (p u v : Bytes) (h : starts_with p u = true) :
    starts_with p (u ++ v) = true ∧ (u ++ v).drop p.length = u.drop p.length ++ v := by
  have hl := starts_with_length p u h
  have e : u.take p.length = p := by simpa [starts_with] using h
  constructor
  · simp only [starts_with, decide_eq_true_eq]
    rw [List.take_append_of_le_length hl, e]
  · rw [List.drop_append_of_le_length hl]

theorem starts_with_peek (p : Bytes) (c : Nat) (u : Bytes) (h : starts_with (c :: p) u = true) :
    peek u = c := by
  have e : u.take (c :: p).length = c :: p := by simpa [starts_with] using h
  cases u with
  | nil => simp at e
  | cons b X =>
    simp only [List.length_cons, List.take_succ_cons, List.cons.injEq] at e
    exact e.1

/-- The production `parse_value` of the arena variant repeats on a longer text, and
with more fuel, what it does on the text. -/
theorem Arena.parse_value_stable (v : Bytes) :
    ∀ (F F2 : Nat), F ≤ F2 → Stable (Arena.parse_value F) (Arena.parse_value F2) v
  | 0, _, _ => by
    intro s s2 i u s1 r h
    simp [Arena.parse_value] at h
  | F + 1, F2, hF => by
    obtain ⟨j, rfl⟩ : ∃ j, F2 = j + 1 := ⟨F2 - 1, by omega⟩
    have ih : Stable (Arena.parse_value F) (Arena.parse_value j) v :=
      Arena.parse_value_stable v F j (by omega)
    intro s s2 i u s1 r h hr h46 hs
    have hu : u ≠ [] := Arena.parse_value_consumes _ _ _ _ _ _ h
    rw [Arena.parse_value] at h ⊢
    rw [peek_left hu]
    by_cases h34 : peek u = 34
    · rw [if_pos h34] at h ⊢
      exact Arena.parse_string_stable s s2 i u v s1 r h hr hs
    rw [if_neg h34] at h ⊢
    by_cases h123 : peek u = 123
    · rw [if_pos h123] at h ⊢
      exact parse_object_stable _ _ _ _ v (Arena.parse_string_is_stable v)
        Arena.parse_string_consumes ih (Arena.parse_value_consumes F) F j s s2 i u s1 r
        (by omega) h hs
    rw [if_neg h123] at h ⊢
    by_cases hnum : peek u = 45 ∨ (48 ≤ peek u ∧ peek u ≤ 57)
    · rw [if_pos hnum] at h ⊢
      have h1 : PResult.ok ({ s with mem := (Arena.parse_number s.mem i u).1 },
          (Arena.parse_number s.mem i u).2) = PResult.ok (s1, r) := h
      injection h1 with h1
      injection h1 with e1 e2
      subst e1
      subst e2
      have hr1 : (scan_number true u).rest ≠ [] := hr
      have h461 : peek (scan_number true u).rest ≠ 46 := h46
      have e := scan_number_stable u v hr1 h461
      have e3 : Arena.parse_number s2.mem i (u ++ v) =
          ((Arena.parse_number s.mem i u).1, (Arena.parse_number s.mem i u).2 ++ v) := by
        unfold Arena.parse_number
        rw [e, ← hs.1]
        rfl
      refine ⟨{ s2 with mem := (Arena.parse_number s.mem i u).1 }, ?_, rfl, hs.2.1, hs.2.2⟩
      show PResult.ok ({ s2 with mem := (Arena.parse_number s2.mem i (u ++ v)).1 },
        (Arena.parse_number s2.mem i (u ++ v)).2) = _
      rw [e3]
    rw [if_neg hnum] at h ⊢
    by_cases h91 : peek u = 91
    · rw [if_pos h91] at h ⊢
      exact parse_array_stable _ _ v ih (Arena.parse_value_consumes F) F j s s2 i u s1 r
        (by omega) h hs
    rw [if_neg h91] at h ⊢
    by_cases hn : starts_with [110, 117, 108, 108] u = true
    · obtain ⟨a1, a2⟩ := starts_with_append _ u v hn
      rw [if_pos hn] at h
      rw [if_pos a1]
      injection h with h
      injection h with e1 e2
      subst e1
      subst e2
      have a3 : List.drop 4 (u ++ v) = List.drop 4 u ++ v := a2
      exact ⟨_, by rw [a3],
        hs.set_mem (fun m => m.set i { m.node i with type := cJSON_NULL })⟩
    rw [if_neg hn] at h
    by_cases hf : starts_with [102, 97, 108, 115, 101] u = true
    · obtain ⟨a1, a2⟩ := starts_with_append _ u v hf
      have hp := starts_with_peek _ _ u hf
      rw [if_pos hf] at h
      rw [if_neg (fun a => by
        have := starts_with_peek _ _ _ a
        rw [peek_left hu] at this
        omega), if_pos a1]
      injection h with h
      injection h with e1 e2
      subst e1
      subst e2
      have a3 : List.drop 5 (u ++ v) = List.drop 5 u ++ v := a2
      exact ⟨_, by rw [a3],
        hs.set_mem (fun m => m.set i { m.node i with type := cJSON_False })⟩
    rw [if_neg hf] at h
    by_cases ht : starts_with [116, 114, 117, 101] u = true
    · obtain ⟨a1, a2⟩ := starts_with_append _ u v ht
      have hp := starts_with_peek _ _ u ht
      rw [if_pos ht] at h
      rw [if_neg (fun a => by
        have := starts_with_peek _ _ _ a
        rw [peek_left hu] at this
        omega), if_neg (fun a => by
        have := starts_with_peek _ _ _ a
        rw [peek_left hu] at this
        omega), if_pos a1]
      injection h with h
      injection h with e1 e2
      subst e1
      subst e2
      have a3 : List.drop 4 (u ++ v) = List.drop 4 u ++ v := a2
      exact ⟨_, by rw [a3],
        hs.set_mem (fun m => m.set i { m.node i with type := cJSON_True })⟩
    rw [if_neg ht] at h
    cases h

/-- The production `parse_root` repeats on a longer text, and with more fuel, what it
does on the text; the position it returns may be the end of the text. -/
theorem Arena.parse_root_stable (v : Bytes) (F F2 : Nat) (hF : F ≤ F2)
    (s s2 : PState cJSON_Buf) (i : Nat) (u : Bytes) (s1 : PState cJSON_Buf) (r : Bytes)
    (h : Arena.parse_root F s i u = PResult.ok (s1, r)) (hs : SameState s s2) :
    ∃ s3, Arena.parse_root F2 s2 i (u ++ v) = PResult.ok (s3, r ++ v) ∧ SameState s1 s3 := by
  have ih := Arena.parse_value_stable v F F2 hF
  have hu : u ≠ [] := by
    have := (Arena.parse_root_advances F s i u s1 r h).2
    rintro rfl
    simp at this
  unfold Arena.parse_root at h ⊢
  rw [peek_left hu]
  by_cases h123 : peek u = 123
  · rw [if_pos h123] at h ⊢
    exact parse_object_stable _ _ _ _ v (Arena.parse_string_is_stable v)
      Arena.parse_string_consumes ih (Arena.parse_value_consumes F) F F2 s s2 i u s1 r hF h hs
  rw [if_neg h123] at h ⊢
  by_cases h91 : peek u = 91
  · rw [if_pos h91] at h ⊢
    exact parse_array_stable _ _ v ih (Arena.parse_value_consumes F) F F2 s s2 i u s1 r hF h hs
  rw [if_neg h91] at h
  cases h

/-- A text that `cJSON_Parse` of the arena variant accepts is accepted with any bytes
after it, with the same node store, the same root and the same bytes and cursor in the
arena. -/
theorem Arena.cJSON_Parse_stable (libc : Libc) (m : Mem) (t v : Bytes) (m1 : Mem) (root : Nat)
    (b : cJSON_Buf) (h : Arena.cJSON_Parse libc m t = PResult.ok (m1, root, b)) :
    ∃ b1, Arena.cJSON_Parse libc m (t ++ v) = PResult.ok (m1, root, b1) ∧ b1.buf = b.buf ∧
      b1.offset = b.offset := by
  rw [Arena.cJSON_Parse_eq] at h
  cases hr : Arena.parse_root (t.length + 1)
      { mem := (cJSON_New_Item m).1, aux := Arena.cJSON_Buf_Init libc (strlen t) 0 } m.brk
      (skip t) with
  | ok p =>
    obtain ⟨s, r⟩ := p
    simp only [hr] at h
    injection h with h
    injection h with h1 h2
    injection h2 with h2 h3
    subst h1
    subst h2
    subst h3
    have hsk : skip t ≠ [] := by
      have := (Arena.parse_root_advances _ _ _ _ _ _ hr).2
      intro e
      rw [e] at this
      simp at this
    obtain ⟨s3, hr2, hs3⟩ := Arena.parse_root_stable v (t.length + 1) ((t ++ v).length + 1)
      (by simp) _
      { mem := (cJSON_New_Item m).1, aux := Arena.cJSON_Buf_Init libc (strlen (t ++ v)) 0 }
      m.brk (skip t) s r hr ⟨rfl, rfl, rfl⟩
    rw [Arena.cJSON_Parse_eq, skip_append t v hsk, hr2]
    exact ⟨s3.aux, by rw [hs3.1], hs3.2.1.symm, hs3.2.2.symm⟩
  | fail ep => simp only [hr] at h; cases h
  | stuck => simp only [hr] at h; cases h

/-! ## Printing and parsing -/

/-- C3 (code bug): in `src/cJSON.c` the hash that guards the comparison is case
sensitive, so on the object with keys `Foo`, `bar` the lookup of `FOO` returns `NULL`,
although `cJSON_strcasecmp` reports the keys equal; the arena variant, whose hash
lowers each byte, returns the `Foo` member on the same input. -/
theorem C3_lookup_is_case_sensitive :
    Children (foo_bar_object PerValue.cJSON_AddItemToObject) 1 [2, 3] ∧
    ((foo_bar_object PerValue.cJSON_AddItemToObject).node 2).string = some str_Foo ∧
    cJSON_strcasecmp (some str_Foo) (some str_FOO) = 0 ∧
    (PerValue.cJSON_GetObjectItem 8 (foo_bar_object PerValue.cJSON_AddItemToObject) 1
      str_FOO).map (fun r => r.item) = some 0 ∧
    (Arena.cJSON_GetObjectItem 8 (foo_bar_object Arena.cJSON_AddItemToObject) 1
      str_FOO).map (fun r => r.item) = some 2 := by
  refine ⟨by decide, by decide, by decide, by decide, by decide⟩

/-- C4: in the arena variant, on an object whose children all carry a key and whose
cached hashes are the sentinel or the hash of the key, `cJSON_GetObjectItemV2` returns
the child at the least index whose key equals the name up to ASCII case and stores
that index through `pos`; it returns `NULL`, leaving `pos` untouched, exactly when no
child has such a key. Only cached hashes change in the store. -/
theorem C4_lookup_returns_first_match (m : Mem) (object : Nat) (l : List Nat) (name : Bytes)
    (pos : Option Int) (fuel : Nat)
    (hl : Children m object l) (hk : KeysCached Arena.BKDRHash m l)
    (hname : IsCStr name) (hfuel : l.length < fuel) :
    ∃ r, Arena.cJSON_GetObjectItemV2 fuel m object name pos = some r ∧
      (∀ i : Nat, i < l.length → EqIgnoreCase (m.node (l.getD i 0)).key name →
        (∀ j : Nat, j < i → ¬ EqIgnoreCase (m.node (l.getD j 0)).key name) →
        r.item = l.getD i 0 ∧ r.pos = pos.map (fun _ => (i : Int))) ∧
      (r.item = 0 ↔ ∀ c ∈ l, ¬ EqIgnoreCase (m.node c).key name) ∧
      (r.item = 0 → r.pos = pos) ∧
      (∀ q, (r.mem.node q).unhashed = (m.node q).unhashed) ∧
      KeysCached Arena.BKDRHash r.mem l := by
  obtain ⟨r, hr, hu, hh, hA, hB, hC⟩ :=
    lookup_loop_spec Arena.BKDRHash (fun a b e => Arena.BKDRHash_congr e) name hname l fuel m 0 0
      hl.2 hk hfuel
  have hne := DLSeg.ne_zero hl.2
  refine ⟨{ mem := r.mem, item := r.found,
            pos := if r.found = 0 then pos else pos.map (fun _ => r.index) }, ?_, ?_, ⟨hC, hB⟩,
          ?_, hu, ?_⟩
  · simp only [Arena.cJSON_GetObjectItemV2, GetObjectItemV2_with, hl.1, hr]
  · intro i hi hm hleast
    obtain ⟨h1, h2⟩ := hA i hi hm hleast
    have hmem : l.getD i 0 ∈ l := by
      rw [List.getD_eq_getElem _ _ hi]; exact List.getElem_mem hi
    have : r.found ≠ 0 := by rw [h1]; exact hne _ hmem
    simp only [h1, if_neg (h1 ▸ this), h2, zero_add, and_self]
  · intro h0; simp only [if_pos h0]
  · intro c hc
    obtain ⟨hs, hcs, hh0⟩ := hk c hc
    have hu' := hu c
    simp only [cJSON.unhashed, cJSON.mk.injEq] at hu'
    have hstr : (r.mem.node c).string = (m.node c).string := hu'.2.2.2.2.2.2.2.1
    have hkey : (r.mem.node c).key = (m.node c).key := by simp [cJSON.key, hstr]
    refine ⟨by rw [hstr]; exact hs, by rw [hkey]; exact hcs, ?_⟩
    rcases hh c with h | ⟨_, _, h⟩
    · rw [h, hkey]; exact hh0
    · right; rw [h, hkey]

/-- Witness of C4 on the object with keys `Foo`, `bar` and the name `FOO`. -/
theorem C4_lookup_returns_first_match_witness :
    ∃ r, Arena.cJSON_GetObjectItemV2 8 (foo_bar_object Arena.cJSON_AddItemToObject) 1 str_FOO
        (some 7) = some r ∧
      (∀ i : Nat, i < [2, 3].length →
        EqIgnoreCase ((foo_bar_object Arena.cJSON_AddItemToObject).node
          (([2, 3] : List Nat).getD i 0)).key str_FOO →
        (∀ j : Nat, j < i →
          ¬ EqIgnoreCase ((foo_bar_object Arena.cJSON_AddItemToObject).node
            (([2, 3] : List Nat).getD j 0)).key str_FOO) →
        r.item = ([2, 3] : List Nat).getD i 0 ∧
          r.pos = (some (7 : Int)).map (fun _ => (i : Int))) ∧
      (r.item = 0 ↔ ∀ c ∈ ([2, 3] : List Nat),
        ¬ EqIgnoreCase ((foo_bar_object Arena.cJSON_AddItemToObject).node c).key str_FOO) ∧
      (r.item = 0 → r.pos = some 7) ∧
      (∀ q, (r.mem.node q).unhashed =
        ((foo_bar_object Arena.cJSON_AddItemToObject).node q).unhashed) ∧
      KeysCached Arena.BKDRHash r.mem [2, 3] :=
  C4_lookup_returns_first_match (foo_bar_object Arena.cJSON_AddItemToObject) 1 [2, 3] str_FOO
    (some 7) 8 (by decide) (by decide) (by decide) (by decide)

/-- C6 (code bug): an item that was looked up under the key `a` keeps the cached hash
of `a` when `cJSON_AddItemToObject` re-keys it to `b`. After the call the item carries
the key `b` and is the only child, yet `cJSON_GetObjectItem(object, "b")` returns
`NULL`. -/
theorem C6_add_member_then_lookup_misses :
    (rekeyed_item.node 2).string = some str_b ∧ Children rekeyed_item 3 [2] ∧
    (Arena.cJSON_GetObjectItem 8 rekeyed_item 3 str_b).map (fun r => r.item) = some 0 := by
  refine ⟨by decide, by decide, by decide⟩

/-- C7 (code bug): the same sequence of public operations reaches a store in which a
node has a cached hash that is neither the sentinel nor the hash of its current key. -/
theorem C7_hash_cache_goes_stale :
    (rekeyed_item.node 2).string = some str_b ∧
    (rekeyed_item.node 2).hash_string ≠ -1 ∧
    (rekeyed_item.node 2).hash_string ≠ Arena.BKDRHash str_b ∧
    (rekeyed_item.node 2).hash_string = Arena.BKDRHash str_a ∧
    ¬ KeysCached Arena.BKDRHash rekeyed_item [2] := by
  refine ⟨by decide, by decide, by decide, by decide, by decide⟩

/-- C8: `cJSON_AddItemToArray` appends. On a container with children `l` and a
detached item `x`, the children become `l ++ [x]`: the size grows by one, item
`l.length` is `x`, the items before it are the same nodes in the same order, and no
node changes except in its links. With a null item the store is unchanged. -/
theorem C8_add_child_appends (m : Mem) (array x : Nat) (l : List Nat) (fuel : Nat)
    (hl : Children m array l) (hfuel : l.length ≤ fuel)
    (hx : x ≠ 0) (hxl : x ∉ l) (hnext : (m.node x).next = 0) (hprev : (m.node x).prev = 0) :
    (∃ m', cJSON_AddItemToArray fuel m array x = some m' ∧ Children m' array (l ++ [x]) ∧
      cJSON_GetArraySize (l.length + 2) m' array = some ((l.length : Int) + 1) ∧
      cJSON_GetArrayItem m' array l.length = x ∧
      (∀ i : Nat, i < l.length →
        cJSON_GetArrayItem m' array i = cJSON_GetArrayItem m array i) ∧
      (∀ q, (m'.node q).data = (m.node q).data) ∧
      (∀ q, q ≠ array → (m'.node q).child = (m.node q).child)) ∧
    cJSON_AddItemToArray fuel m array 0 = some m := by
  refine ⟨?_, by simp [cJSON_AddItemToArray]⟩
  obtain ⟨m', h1, h2, h3, h4⟩ := add_child_appends_aux m array x l fuel hl hfuel hx hxl hnext hprev
  refine ⟨m', h1, h2, ?_, ?_, ?_, h3, h4⟩
  · rw [h2.getArraySize (l.length + 2) (by simp)]
    simp
  · rw [h2.getArrayItem l.length]
    simp
  · intro i hi
    rw [h2.getArrayItem i, hl.getArrayItem i, List.getD_append _ _ _ _ hi]

/-- Witness of C8: appending the detached node 4 to the array 1 with children 2, 3. -/
theorem C8_add_child_appends_witness :
    (∃ m', cJSON_AddItemToArray 8 two_element_array 1 4 = some m' ∧
      Children m' 1 ([2, 3] ++ [4]) ∧
      cJSON_GetArraySize (([2, 3] : List Nat).length + 2) m' 1 =
        some ((([2, 3] : List Nat).length : Int) + 1) ∧
      cJSON_GetArrayItem m' 1 (([2, 3] : List Nat).length) = 4 ∧
      (∀ i : Nat, i < ([2, 3] : List Nat).length →
        cJSON_GetArrayItem m' 1 i = cJSON_GetArrayItem two_element_array 1 i) ∧
      (∀ q, (m'.node q).data = (two_element_array.node q).data) ∧
      (∀ q, q ≠ 1 → (m'.node q).child = (two_element_array.node q).child)) ∧
    cJSON_AddItemToArray 8 two_element_array 1 0 = some two_element_array :=
  C8_add_child_appends two_element_array 1 4 [2, 3] 8 (by decide) (by decide) (by decide)
    (by decide) (by decide) (by decide)

/-- C9 (code bug): `cJSON_GetArrayItem` does not return `NULL` for a negative index.
The loop `while (c && item>0)` is skipped, and the first child is returned; on the
array with children 2, 3 the index `-1` yields node 2. Indices from `0` on behave as
documented. -/
theorem C9_negative_index_returns_first_child :
    Children two_element_array 1 [2, 3] ∧
    cJSON_GetArrayItem two_element_array 1 (-1) = 2 ∧
    cJSON_GetArrayItem two_element_array 1 0 = 2 ∧
    cJSON_GetArrayItem two_element_array 1 1 = 3 ∧
    cJSON_GetArrayItem two_element_array 1 2 = 0 := by
  refine ⟨by decide, by decide, by decide, by decide, by decide⟩

/-- C10: detaching. For `i < n`, `cJSON_DetachItemFromArray(container, i)` returns the
child `c_i` with both sibling links cleared, keeps every node's contents, and leaves
the container with the other children in their order; for `i >= n` it returns `NULL`
and leaves the store unchanged. `cJSON_DetachItemFromParent(container, c_i)` gives the
same result as the index-based call. -/
theorem C10_detach_unlinks (m : Mem) (array : Nat) (l : List Nat) (i : Nat)
    (hl : Children m array l) :
    (i < l.length →
      (cJSON_DetachItemFromArray m array i).2 = l.getD i 0 ∧
      l.getD i 0 ≠ 0 ∧
      ((cJSON_DetachItemFromArray m array i).1.node (l.getD i 0)).next = 0 ∧
      ((cJSON_DetachItemFromArray m array i).1.node (l.getD i 0)).prev = 0 ∧
      Children (cJSON_DetachItemFromArray m array i).1 array (l.eraseIdx i) ∧
      (∀ q, ((cJSON_DetachItemFromArray m array i).1.node q).data = (m.node q).data) ∧
      (∀ q, q ≠ array →
        ((cJSON_DetachItemFromArray m array i).1.node q).child = (m.node q).child) ∧
      cJSON_DetachItemFromParent m array (l.getD i 0) = cJSON_DetachItemFromArray m array i) ∧
    (l.length ≤ i → cJSON_DetachItemFromArray m array i = (m, 0)) := by
  have hwalk : walk_items m i (m.node array).child = l.getD i 0 := by
    have := hl.getArrayItem i
    simpa [cJSON_GetArrayItem] using this
  constructor
  · intro hi
    obtain ⟨l1, c, l2, rfl, rfl⟩ := exists_split_at l i hi
    have hc : (l1 ++ c :: l2).getD l1.length 0 = c := getD_split l1 c l2 0
    have hc0 : c ≠ 0 := DLSeg.ne_zero hl.2 c (by simp)
    have hdef : cJSON_DetachItemFromArray m array (l1.length : Int) =
        cJSON_DetachItemFromParent m array c := by
      simp only [cJSON_DetachItemFromArray, Int.toNat_natCast, hwalk, hc, if_pos hc0]
    have S := detach_parent_spec m array c l1 l2 hl
    rw [hc, hdef, eraseIdx_split]
    exact ⟨S.1, hc0, S.2.1, S.2.2.1, S.2.2.2.1, S.2.2.2.2.1, S.2.2.2.2.2, rfl⟩
  · intro hi
    have : l.getD i 0 = 0 := List.getD_eq_default _ _ hi
    simp only [cJSON_DetachItemFromArray, Int.toNat_natCast, hwalk, this]
    simp

/-- Witness of C10: detaching index 1 from the array 1 with children 2, 3. -/
theorem C10_detach_unlinks_witness :
    (1 < ([2, 3] : List Nat).length →
      (cJSON_DetachItemFromArray two_element_array 1 (1 : Nat)).2 =
        ([2, 3] : List Nat).getD 1 0 ∧
      ([2, 3] : List Nat).getD 1 0 ≠ 0 ∧
      ((cJSON_DetachItemFromArray two_element_array 1 (1 : Nat)).1.node
        (([2, 3] : List Nat).getD 1 0)).next = 0 ∧
      ((cJSON_DetachItemFromArray two_element_array 1 (1 : Nat)).1.node
        (([2, 3] : List Nat).getD 1 0)).prev = 0 ∧
      Children (cJSON_DetachItemFromArray two_element_array 1 (1 : Nat)).1 1
        (([2, 3] : List Nat).eraseIdx 1) ∧
      (∀ q, ((cJSON_DetachItemFromArray two_element_array 1 (1 : Nat)).1.node q).data =
        (two_element_array.node q).data) ∧
      (∀ q, q ≠ 1 →
        ((cJSON_DetachItemFromArray two_element_array 1 (1 : Nat)).1.node q).child =
          (two_element_array.node q).child) ∧
      cJSON_DetachItemFromParent two_element_array 1 (([2, 3] : List Nat).getD 1 0) =
        cJSON_DetachItemFromArray two_element_array 1 (1 : Nat)) ∧
    (([2, 3] : List Nat).length ≤ 1 →
      cJSON_DetachItemFromArray two_element_array 1 (1 : Nat) = (two_element_array, 0)) :=
  C10_detach_unlinks two_element_array 1 [2, 3] 1 (by decide)

/-! ## Duplicate keys -/

/-- C5: in the arena variant, parsing the compact text of an object with the members
`t` (keys may repeat) yields an object that represents exactly these members: one
child per occurrence, in source order, with its key and value, nothing merged or
dropped. On the result `cJSON_GetObjectItem` returns the child at the least index
whose key equals the name up to ASCII case, that is the first occurrence. -/
theorem C5_duplicate_keys_kept (libc : Libc) (m : Mem) (t : JTree) (name : Bytes)
    (hwf : t.wf true) (hname : IsCStr name) (hbrk : 0 < m.brk) :
    ∃ m1 buf, Arena.cJSON_Parse libc m (value_text JKind.object t) =
        PResult.ok (m1, m.brk, buf) ∧
      Rep false m1 m.brk (JTree.node none JKind.object t JTree.nil) ∧
      ∃ l, Children m1 m.brk l ∧ l.map (fun c => (m1.node c).string) = t.keys ∧
        ∃ r, Arena.cJSON_GetObjectItem (l.length + 1) m1 m.brk name = some r ∧
          (∀ i : Nat, i < l.length → EqIgnoreCase (m1.node (l.getD i 0)).key name →
            (∀ j : Nat, j < i → ¬ EqIgnoreCase (m1.node (l.getD j 0)).key name) →
            r.item = l.getD i 0) ∧
          (r.item = 0 ↔ ∀ c ∈ l, ¬ EqIgnoreCase (m1.node c).key name) := by
  obtain ⟨m1, buf, hp, hty, hstr, hnext, hR⟩ := Arena.parse_object_text_spec libc m t hwf hbrk
  obtain ⟨l, e1, e2, e3, e4⟩ := RepIn.chain Arena.BKDRHash hR hwf
  obtain ⟨r, hr, _, _, hA, hB, hC⟩ :=
    lookup_loop_spec Arena.BKDRHash (fun a b e => Arena.BKDRHash_congr e) name hname l
      (l.length + 1) m1 0 0 e2 e4 (by omega)
  refine ⟨m1, buf, hp, ⟨by omega, hstr, hty, hR.rep, hnext⟩, l, ⟨e1.symm, e2⟩, e3,
    { mem := r.mem, item := r.found, pos := none }, ?_, ?_, ⟨hC, hB⟩⟩
  · simp only [Arena.cJSON_GetObjectItem, Arena.cJSON_GetObjectItemV2, GetObjectItemV2_with,
      ← e1, hr]
    simp
  · intro i hi hm hleast
    exact (hA i hi hm hleast).1

/-- Witness of C5 on the text `{"a":1,"a":2}`: the parse gives two children keyed `a`,
and the lookup of `a` returns the first one, whose value is 1. -/
theorem C5_duplicate_keys_kept_witness :
    value_text JKind.object dup_members = text_dup ∧
    ((Arena.cJSON_Parse libc_c99 Mem.init text_dup).value.bind (fun p =>
      (Arena.cJSON_GetObjectItem 8 p.1 p.2.1 str_a).map
        (fun f => (f.item, (p.1.node 2).string, (p.1.node 2).valuedouble, (p.1.node 2).next)))) =
      some (2, some str_a, Double.fin 1 0, 3) ∧
    ((Arena.cJSON_Parse libc_c99 Mem.init text_dup).value.map (fun p =>
      ((p.1.node 3).string, (p.1.node 3).valuedouble, (p.1.node 3).next))) =
      some (some str_a, Double.fin 2 0, 0) ∧
    ∃ m1 buf, Arena.cJSON_Parse libc_c99 Mem.init (value_text JKind.object dup_members) =
        PResult.ok (m1, Mem.init.brk, buf) ∧
      Rep false m1 Mem.init.brk (JTree.node none JKind.object dup_members JTree.nil) ∧
      ∃ l, Children m1 Mem.init.brk l ∧ l.map (fun c => (m1.node c).string) = dup_members.keys ∧
        ∃ r, Arena.cJSON_GetObjectItem (l.length + 1) m1 Mem.init.brk str_a = some r ∧
          (∀ i : Nat, i < l.length → EqIgnoreCase (m1.node (l.getD i 0)).key str_a →
            (∀ j : Nat, j < i → ¬ EqIgnoreCase (m1.node (l.getD j 0)).key str_a) →
            r.item = l.getD i 0) ∧
          (r.item = 0 ↔ ∀ c ∈ l, ¬ EqIgnoreCase (m1.node c).key str_a) :=
  ⟨by decide, by decide, by decide,
    C5_duplicate_keys_kept libc_c99 Mem.init dup_members str_a (by decide) (by decide)
      (by decide)⟩

/-! ## Replacing a child in place -/

/-- C11: `cJSON_ReplaceItemInArray` splices in place. On a container with children `l`,
an index `i < n` and a new item `x` that is not among them, the children afterwards
are `l` with position `i` set to `x`: same size, same order, only position `i`
changed; the old child is unlinked and handed to `cJSON_Delete`, and no node changes
except in its links. For `i >= n` the store is unchanged. -/
theorem C11_replace_splices (m : Mem) (array x : Nat) (l : List Nat) (i : Nat)
    (hl : Children m array l) (hx0 : x ≠ 0) (hx : x ∉ l) :
    (i < l.length →
      ∃ m', cJSON_ReplaceItemInArray m array (i : Int) x = some (m', l.getD i 0) ∧
        Children m' array (l.set i x) ∧
        cJSON_GetArraySize (l.length + 1) m' array = some (l.length : Int) ∧
        cJSON_GetArrayItem m' array i = x ∧
        (∀ j : Nat, j ≠ i → cJSON_GetArrayItem m' array j = cJSON_GetArrayItem m array j) ∧
        (m'.node (l.getD i 0)).next = 0 ∧ (m'.node (l.getD i 0)).prev = 0 ∧
        (∀ q, (m'.node q).data = (m.node q).data) ∧
        (∀ q, q ≠ array → (m'.node q).child = (m.node q).child)) ∧
    (l.length ≤ i → cJSON_ReplaceItemInArray m array (i : Int) x = some (m, 0)) := by
  constructor
  · intro hi
    obtain ⟨l1, c, l2, rfl, rfl⟩ := exists_split_at l i hi
    obtain ⟨m', h1, h2, h3, h4, h5, h6⟩ := replace_spec m array c x l1 l2 hl hx0 hx
    rw [getD_split, set_split]
    refine ⟨m', h1, h2, ?_, ?_, ?_, h3, h4, h5, h6⟩
    · rw [h2.getArraySize _ (by simp)]
      simp
    · rw [h2.getArrayItem l1.length, getD_split]
    · intro j hj
      rw [h2.getArrayItem j, hl.getArrayItem j, ← set_split l1 c x l2,
        List.getD_eq_getElem?_getD, List.getD_eq_getElem?_getD, List.getElem?_set_ne (Ne.symm hj)]
  · intro hi
    have hw : walk_items m ((i : Int)).toNat (m.node array).child = 0 := by
      rw [Int.toNat_natCast, hl.1, walk_items_spec i hl.2]
      exact List.getD_eq_default _ _ hi
    simp only [cJSON_ReplaceItemInArray, hw, if_true]

/-- Witness of C11: replacing index 1 of the array 1 with children 2, 3 by the node 4. -/
theorem C11_replace_splices_witness :
    (1 < ([2, 3] : List Nat).length →
      ∃ m', cJSON_ReplaceItemInArray two_element_array 1 ((1 : Nat) : Int) 4 =
          some (m', ([2, 3] : List Nat).getD 1 0) ∧
        Children m' 1 (([2, 3] : List Nat).set 1 4) ∧
        cJSON_GetArraySize (([2, 3] : List Nat).length + 1) m' 1 =
          some (([2, 3] : List Nat).length : Int) ∧
        cJSON_GetArrayItem m' 1 (1 : Nat) = 4 ∧
        (∀ j : Nat, j ≠ 1 →
          cJSON_GetArrayItem m' 1 j = cJSON_GetArrayItem two_element_array 1 j) ∧
        (m'.node (([2, 3] : List Nat).getD 1 0)).next = 0 ∧
        (m'.node (([2, 3] : List Nat).getD 1 0)).prev = 0 ∧
        (∀ q, (m'.node q).data = (two_element_array.node q).data) ∧
        (∀ q, q ≠ 1 → (m'.node q).child = (two_element_array.node q).child)) ∧
    (([2, 3] : List Nat).length ≤ 1 →
      cJSON_ReplaceItemInArray two_element_array 1 ((1 : Nat) : Int) 4 =
        some (two_element_array, 0)) :=
  C11_replace_splices two_element_array 1 4 [2, 3] 1 (by decide) (by decide) (by decide)

/-! ## Error positions and unicode escapes -/

/-- C12: in the arena variant, wherever the parser expects a value (after `[` unless
the array is closed at once, after the `,` of an array, after the `:` of an object, in
containers nested to any depth) and the next byte after optional white space begins
no value, `cJSON_Parse` fails and the recorded error position is exactly that byte:
its offset is the length of the text before it. -/
theorem C12_error_offset_at_missing_value (libc : Libc) (m : Mem) (path : List Enclosing)
    (ws X : Bytes) (hm : 0 < m.brk) (hwf : ∀ f ∈ path, f.wf) (hws : IsSpace ws)
    (hX : BeginsNoValue X) (haw : awaits_value path X) :
    Arena.cJSON_Parse libc m (path_text path ++ (ws ++ X)) = PResult.fail (some X) ∧
    error_offset (path_text path ++ (ws ++ X)) X = (path_text path ++ ws).length := by
  have hsk : skip (ws ++ X) = X := by
    rw [skip_space_append ws X hws]; exact skip_not_space hX.1
  refine ⟨Arena.parse_fails_in_path libc m path (ws ++ X) X (some X) hm hwf hsk haw
    (Arena.fails_no_value X hX), ?_⟩
  simp only [error_offset, List.length_append]
  omega

/-- Witness of C12 on `{"a":}`, which fails at offset 5 (the `}`), and on `[1,2,`, which
fails at offset 5 (the end of the input). -/
theorem C12_error_offset_at_missing_value_witness :
    (path_text after_key_a ++ ([] ++ [125]) = text_member_without_value ∧
      (path_text after_key_a ++ ([] : Bytes)).length = 5 ∧
      Arena.cJSON_Parse libc_c99 Mem.init (path_text after_key_a ++ ([] ++ [125])) =
        PResult.fail (some [125]) ∧
      error_offset (path_text after_key_a ++ ([] ++ [125])) [125] =
        (path_text after_key_a ++ ([] : Bytes)).length) ∧
    (path_text after_two_elements ++ ([] ++ []) = text_array_cut_off ∧
      (path_text after_two_elements ++ ([] : Bytes)).length = 5 ∧
      Arena.cJSON_Parse libc_c99 Mem.init (path_text after_two_elements ++ ([] ++ [])) =
        PResult.fail (some []) ∧
      error_offset (path_text after_two_elements ++ ([] ++ [])) [] =
        (path_text after_two_elements ++ ([] : Bytes)).length) :=
  ⟨⟨by decide, by decide,
      C12_error_offset_at_missing_value libc_c99 Mem.init after_key_a [] [125] (by decide)
        (by decide) (by decide) (by decide) (by decide)⟩,
    ⟨by decide, by decide,
      C12_error_offset_at_missing_value libc_c99 Mem.init after_two_elements [] [] (by decide)
        (by decide) (by decide) (by decide) (by decide)⟩⟩

/-- C13 (code bug): in the arena variant a string literal in which the input ends right
after a backslash makes `cJSON_Parse` fail without recording an error position:
`parse_string` returns `0` in `case 0` without setting `ep`, which `cJSON_Parse` had
reset to null. This holds for such a literal at any place where a value is expected. -/
theorem C13_error_pointer_unset (libc : Libc) (m : Mem) (path : List Enclosing)
    (ws s : Bytes) (hm : 0 < m.brk) (hwf : ∀ f ∈ path, f.wf) (hws : IsSpace ws)
    (hp : path ≠ []) (hs : IsCStr s) :
    Arena.cJSON_Parse libc m (path_text path ++ (ws ++ 34 :: (escape s ++ [92]))) =
      PResult.fail none :=
  Arena.parse_fails_at_string libc m path ws (escape s ++ [92]) none hm hwf hws hp
    (fun st item => Arena.parse_string_bad st item s [92] false hs
      (fun fuel out => Arena.loop_backslash_end fuel out))

/-- Witness of C13 on the text `["\`: the parse fails and the error pointer is null,
while other failures of the same production, such as the lone surrogate in
`["\uD800"]`, record a position. -/
theorem C13_error_pointer_unset_witness :
    path_text [Enclosing.in_array JTree.nil] ++ ([] ++ 34 :: (escape [] ++ [92])) =
      text_backslash_at_end ∧
    (Arena.cJSON_Parse libc_c99 Mem.init text_backslash_at_end).is_ok = false ∧
    (Arena.cJSON_Parse libc_c99 Mem.init text_backslash_at_end).error = none ∧
    (Arena.cJSON_Parse libc_c99 Mem.init text_lone_high_surrogate).error =
      some (text_lone_high_surrogate.drop 1) ∧
    Arena.cJSON_Parse libc_c99 Mem.init
      (path_text [Enclosing.in_array JTree.nil] ++ ([] ++ 34 :: (escape [] ++ [92]))) =
      PResult.fail none :=
  ⟨by decide, by decide, by decide, by decide,
    C13_error_pointer_unset libc_c99 Mem.init [Enclosing.in_array JTree.nil] [] [] (by decide)
      (by decide) (by decide) (by decide) (by decide)⟩

/-- C14: in the arena variant the string production decodes a `\uXXXX` escape outside
the surrogate range to the UTF-8 encoding of its code unit, and a surrogate pair
`\uHHHH\uLLLL` to the four-byte encoding of the code point
`0x10000 + ((high - 0xD800) << 10) + (low - 0xDC00)`; the code unit 0 yields no byte
and the string goes on after it. The escape may stand anywhere between escaped
strings `s1` and `s2`. -/
theorem C14_unicode_escapes_decode (st : PState cJSON_Buf) (item : Nat)
    (s1 s2 rest hi lo : Bytes) (u v : Nat) (hs1 : IsCStr s1) (hs2 : IsCStr s2)
    (hu : hex4_value hi = some u) :
    ((u < 0xD800 ∨ 0xDFFF < u) →
      Arena.parse_string st item
          (34 :: (escape s1 ++ ((92 :: 117 :: hi) ++ (escape s2 ++ 34 :: rest)))) =
        PResult.ok (Arena.stored st item (s1 ++ (if u = 0 then [] else utf8_encode u) ++ s2),
          rest)) ∧
    ((0xD800 ≤ u ∧ u ≤ 0xDBFF) → hex4_value lo = some v → (0xDC00 ≤ v ∧ v ≤ 0xDFFF) →
      Arena.parse_string st item
          (34 :: (escape s1 ++ ((92 :: 117 :: (hi ++ 92 :: 117 :: lo)) ++
            (escape s2 ++ 34 :: rest)))) =
        PResult.ok (Arena.stored st item (s1 ++ utf8_encode (surrogate_code_point u v) ++ s2),
          rest)) := by
  have hlt := (parse_hex4_of_value hu []).2
  constructor
  · intro hns
    refine Arena.parse_string_piece st item s1 s2 rest _ _ hs1 hs2 ?_ ?_
    · by_cases h0 : u = 0
      · rw [if_pos h0]; intro b hb; simp at hb
      · rw [if_neg h0]; exact utf8_encode_cstr u h0 (by omega)
    · intro X fuel out
      rw [List.cons_append, List.cons_append]
      exact Arena.loop_unicode hi u hu hns X fuel out
  · intro hur hv hvr
    refine Arena.parse_string_piece st item s1 s2 rest _ _ hs1 hs2 ?_ ?_
    · exact utf8_encode_cstr _ (by unfold surrogate_code_point; omega)
        (by unfold surrogate_code_point; omega)
    · intro X fuel out
      have := Arena.loop_surrogate_pair hi lo u v hu hv hur hvr X fuel out
      simpa [List.append_assoc] using this

/-- Witness of C14: the literal `"\uD83D\uDE00"` decodes to the bytes `F0 9F 98 80`, and
`"\u0000"` to the empty string. -/
theorem C14_unicode_escapes_decode_witness :
    (surrogate_code_point 0xD83D 0xDE00 = 0x1F600 ∧
      utf8_encode (surrogate_code_point 0xD83D 0xDE00) = [0xF0, 0x9F, 0x98, 0x80] ∧
      Arena.parse_string arena_start 1
          (34 :: (escape [] ++ ((92 :: 117 :: (hex_D83D ++ 92 :: 117 :: hex_DE00)) ++
            (escape [] ++ 34 :: [])))) =
        PResult.ok (Arena.stored arena_start 1
          ([] ++ utf8_encode (surrogate_code_point 0xD83D 0xDE00) ++ []), [])) ∧
    Arena.parse_string arena_start 1
        (34 :: (escape [] ++ ((92 :: 117 :: [48, 48, 48, 48]) ++ (escape [] ++ 34 :: [])))) =
      PResult.ok (Arena.stored arena_start 1
        ([] ++ (if (0 : Nat) = 0 then [] else utf8_encode 0) ++ []), []) :=
  ⟨⟨by decide, by decide,
      (C14_unicode_escapes_decode arena_start 1 [] [] [] hex_D83D hex_DE00 0xD83D 0xDE00
        (by decide) (by decide) (by decide)).2 (by decide) (by decide) (by decide)⟩,
    (C14_unicode_escapes_decode arena_start 1 [] [] [] [48, 48, 48, 48] [] 0 0
      (by decide) (by decide) (by decide)).1 (by decide)⟩

/-- C15: in the arena variant a string literal at a place where a value is expected
makes `cJSON_Parse` fail when, after an escaped string, it has a `\uXXXX` escape of a
low surrogate, or a `\uXXXX` escape of a high surrogate that is not followed at once
by a `\uXXXX` escape of a low surrogate; the error position is the start of the
literal. -/
theorem C15_invalid_surrogates_rejected (libc : Libc) (m : Mem) (path : List Enclosing)
    (ws s1 hi X : Bytes) (u : Nat) (hm : 0 < m.brk) (hwf : ∀ f ∈ path, f.wf)
    (hws : IsSpace ws) (hp : path ≠ []) (hs1 : IsCStr s1) (hu : hex4_value hi = some u)
    (hbad : (0xDC00 ≤ u ∧ u ≤ 0xDFFF) ∨
      ((0xD800 ≤ u ∧ u ≤ 0xDBFF) ∧
        ∀ (lo : Bytes) (v : Nat) (rest : Bytes), hex4_value lo = some v →
          0xDC00 ≤ v ∧ v ≤ 0xDFFF → X ≠ 92 :: 117 :: (lo ++ rest))) :
    Arena.cJSON_Parse libc m
        (path_text path ++ (ws ++ 34 :: (escape s1 ++ 92 :: 117 :: (hi ++ X)))) =
      PResult.fail (some (34 :: (escape s1 ++ 92 :: 117 :: (hi ++ X)))) := by
  refine Arena.parse_fails_at_string libc m path ws _ _ hm hwf hws hp (fun st item => ?_)
  have := Arena.parse_string_bad st item s1 (92 :: 117 :: (hi ++ X)) true hs1
    (fun fuel out => by
      rcases hbad with h | ⟨h, hno⟩
      · exact Arena.loop_low_surrogate hi u hu h X fuel out
      · exact Arena.loop_high_surrogate hi u hu h X hno fuel out)
  simpa using this

/-- Witness of C15 on the text `["\uD800"]`: a lone high surrogate is a parse error. -/
theorem C15_invalid_surrogates_rejected_witness :
    path_text [Enclosing.in_array JTree.nil] ++
        ([] ++ 34 :: (escape [] ++ 92 :: 117 :: (hex_D800 ++ [34, 93]))) =
      text_lone_high_surrogate ∧
    Arena.cJSON_Parse libc_c99 Mem.init
        (path_text [Enclosing.in_array JTree.nil] ++
          ([] ++ 34 :: (escape [] ++ 92 :: 117 :: (hex_D800 ++ [34, 93])))) =
      PResult.fail (some (34 :: (escape [] ++ 92 :: 117 :: (hex_D800 ++ [34, 93])))) :=
  ⟨by decide,
    C15_invalid_surrogates_rejected libc_c99 Mem.init [Enclosing.in_array JTree.nil] [] []
      hex_D800 [34, 93] 0xD800 (by decide) (by decide) (by decide) (by decide) (by decide)
      (by decide) (Or.inr ⟨by decide, fun lo v rest _ _ h => by simp at h⟩)⟩

/-! ## Escapes, open strings and numbers -/

/-- C16 (counterexample): in the arena variant the text `["\q"]` parses; the element is
the string `q`. -/
theorem C16_unknown_escape_accepted :
    (Arena.cJSON_Parse libc_c99 Mem.init text_escape_q).is_ok = true ∧
    (Arena.cJSON_Parse libc_c99 Mem.init text_escape_q).value.map
      (fun r => ((r.1.node r.2.1).type, (r.1.node (r.1.node r.2.1).child).type,
        (r.1.node (r.1.node r.2.1).child).valuestring)) =
      some (cJSON_Array, cJSON_String, some [113]) := by
  refine ⟨by decide, by decide⟩

/-- C16 (amended): in the arena variant a backslash followed by any byte other than
`b`, `f`, `n`, `r`, `t`, `u` and the end of the input decodes to that byte itself (the
`default` case of the switch) and the string goes on; a literal in which the input ends
right after the backslash is rejected. -/
theorem C16_other_escapes_copy_the_byte (st : PState cJSON_Buf) (item : Nat)
    (s1 s2 rest : Bytes) (c : Nat) (hs1 : IsCStr s1) (hs2 : IsCStr s2)
    (hc : 0 < c ∧ c < 256)
    (hne : c ≠ 98 ∧ c ≠ 102 ∧ c ≠ 110 ∧ c ≠ 114 ∧ c ≠ 116 ∧ c ≠ 117) :
    Arena.parse_string st item (34 :: (escape s1 ++ ([92, c] ++ (escape s2 ++ 34 :: rest)))) =
      PResult.ok (Arena.stored st item (s1 ++ [c] ++ s2), rest) ∧
    (Arena.parse_string st item (34 :: (escape s1 ++ [92]))).is_ok = false := by
  constructor
  · refine Arena.parse_string_piece st item s1 s2 rest _ _ hs1 hs2 ?_ ?_
    · intro b hb; simp at hb; subst hb; exact hc
    · intro X fuel out
      exact Arena.loop_other_escape c ⟨by omega, hne⟩ X fuel out
  · rw [Arena.parse_string_bad st item s1 [92] false hs1
      (fun fuel out => Arena.loop_backslash_end fuel out)]
    rfl

/-- Witness of C16 on the literal `"\q"`. -/
theorem C16_other_escapes_copy_the_byte_witness :
    Arena.parse_string arena_start 1 (34 :: (escape [] ++ ([92, 113] ++ (escape [] ++ 34 :: [])))) =
      PResult.ok (Arena.stored arena_start 1 ([] ++ [113] ++ []), []) ∧
    (Arena.parse_string arena_start 1 (34 :: (escape [] ++ [92]))).is_ok = false :=
  C16_other_escapes_copy_the_byte arena_start 1 [] [] [] 113 (by decide) (by decide) (by decide)
    (by decide)

/-- C18: on a token of the JSON number grammar that is followed by a byte which
continues no number, `parse_number` of both variants consumes exactly the token and
stores, in exact arithmetic, `sign * mantissa * 10 ^ (scale + exponent * exponent_sign)`,
where `mantissa` is the integer formed by the integer and fractional digits and `scale`
is minus the number of fractional digits; without fraction and exponent the value is
the integer the digits denote. The exponent is assumed to fit the `int` that holds it. -/
theorem C18_number_value (t : NumberToken) (rest : Bytes) (m : Mem) (item : Nat)
    (ht : t.valid) (hr : NumStop rest) (_hexp : t.exponent ≤ INT_MAX) :
    PerValue.parse_number m item (t.text ++ rest) =
      (m.set item { m.node item with
        valuedouble := t.value, valueint := t.value.toInt, type := cJSON_Number }, rest) ∧
    Arena.parse_number m item (t.text ++ rest) =
      (m.set item { m.node item with valuedouble := t.value, type := cJSON_Number }, rest) ∧
    t.value = Double.fin (t.sign * digits_value (t.int_digits ++ t.frac_digits.getD []) 0)
      (-((t.frac_digits.getD []).length : Int) + t.exponent * t.exponent_sign) ∧
    (t.frac_digits = none → t.exp = none →
      t.value = Double.fin (t.sign * digits_value t.int_digits 0) 0) := by
  have h1 := scan_number_token false t rest (ht.scans hr)
  have h2 := scan_number_token true t rest (ht.scans hr)
  refine ⟨?_, ?_, rfl, ?_⟩
  · simp only [PerValue.parse_number, h1, Scanned.value, NumberToken.value]
  · simp only [Arena.parse_number, h2, Scanned.value, NumberToken.value]
  · intro hf he
    simp [NumberToken.value, NumberToken.mantissa, NumberToken.scale, NumberToken.exponent,
      NumberToken.exponent_sign, exp_value, exp_sign, hf, he]

/-- Witness of C18 on the token `-12.5e+3` followed by `]`: the value is
`-125 * 10 ^ (-1 + 3)`. -/
theorem C18_number_value_witness :
    (token_sample.text = [45, 49, 50, 46, 53, 101, 43, 51] ∧
      token_sample.value = Double.fin (-125) 2) ∧
    (PerValue.parse_number Mem.init 1 (token_sample.text ++ [93]) =
      (Mem.init.set 1 { Mem.init.node 1 with
        valuedouble := token_sample.value, valueint := token_sample.value.toInt,
        type := cJSON_Number }, [93]) ∧
    Arena.parse_number Mem.init 1 (token_sample.text ++ [93]) =
      (Mem.init.set 1 { Mem.init.node 1 with
        valuedouble := token_sample.value, type := cJSON_Number }, [93]) ∧
    token_sample.value =
      Double.fin (token_sample.sign *
          digits_value (token_sample.int_digits ++ token_sample.frac_digits.getD []) 0)
        (-((token_sample.frac_digits.getD []).length : Int) +
          token_sample.exponent * token_sample.exponent_sign) ∧
    (token_sample.frac_digits = none → token_sample.exp = none →
      token_sample.value =
        Double.fin (token_sample.sign * digits_value token_sample.int_digits 0) 0)) :=
  ⟨⟨by decide, by decide⟩,
    C18_number_value token_sample [93] Mem.init 1 (by decide) (by decide) (by decide)⟩

/-- C19 (counterexample): in the arena variant the texts `[-]`, `[01]` and `[1e]` parse,
to arrays that hold the numbers 0, 1 and 1. (A text such as `[00]` does fail, at the
second zero, because the array loop finds neither `,` nor `]` there.) -/
theorem C19_malformed_numbers_parse :
    (Arena.cJSON_Parse libc_c99 Mem.init text_array_minus).value.map
      (fun r => decide (SingleNumberArray r.1 r.2.1 (Double.fin 0 0))) = some true ∧
    (Arena.cJSON_Parse libc_c99 Mem.init text_array_01).value.map
      (fun r => decide (SingleNumberArray r.1 r.2.1 (Double.fin 1 0))) = some true ∧
    (Arena.cJSON_Parse libc_c99 Mem.init text_array_1e).value.map
      (fun r => decide (SingleNumberArray r.1 r.2.1 (Double.fin 1 0))) = some true ∧
    (Arena.cJSON_Parse libc_c99 Mem.init text_array_00).error = some [48, 93] := by
  refine ⟨by decide, by decide, by decide, by decide⟩

/-- C19 (amended): `parse_number` of the arena variant has no failure path, so the
number grammar is not enforced. An array text whose only element is a lone `-`
parses to an array holding 0; one whose element is a token with a `0` put before an
integer part that starts with `1`..`9` parses to an array holding the value of that
token; and one whose element is a token whose exponent mark is followed by no digits
parses to an array holding the value of the token with exponent 0. -/
theorem C19_number_grammar_not_enforced (libc : Libc) (m : Mem) (t : NumberToken)
    (hm : 0 < m.brk) (ht : t.scans [93]) :
    (∃ m1 buf, Arena.cJSON_Parse libc m [91, 45, 93] = PResult.ok (m1, m.brk, buf) ∧
      SingleNumberArray m1 m.brk (Double.fin 0 0)) ∧
    (49 ≤ peek t.int_digits →
      ∃ m1 buf, Arena.cJSON_Parse libc m (91 :: (t.zero_led_text ++ [93])) =
          PResult.ok (m1, m.brk, buf) ∧
        SingleNumberArray m1 m.brk t.value) ∧
    (∃ m1 buf, Arena.cJSON_Parse libc m (91 :: (t.text ++ [93])) =
        PResult.ok (m1, m.brk, buf) ∧
      SingleNumberArray m1 m.brk t.value) := by
  have hint : t.int_digits ≠ [] := by
    rcases ht.1 with h | h
    · rw [h]; simp
    · exact h.1.1
  have hhead : ∀ (pre R : Bytes), peek ((if t.minus then [45] else []) ++ pre ++ R) = 45 ∨
      peek ((if t.minus then [45] else []) ++ pre ++ R) = peek (pre ++ R) := by
    intro pre R
    cases t.minus with
    | true => left; rfl
    | false => right; simp
  have hdig : 48 ≤ peek t.int_digits ∧ peek t.int_digits ≤ 57 := by
    rcases ht.1 with h | h
    · rw [h]; simp [peek]
    · exact (is_digit_iff _).1 (h.1.peek_append []).2
  have hpk : ∀ R, peek (t.int_digits ++ R) = peek t.int_digits := by
    intro R
    cases hi : t.int_digits with
    | nil => exact absurd hi hint
    | cons d ds => rfl
  refine ⟨?_, ?_, ?_⟩
  · have hs := scan_number_minus_only true [93] (by decide)
    have := Arena.parse_number_element libc m [45] _ hm (by decide) hs rfl
    simpa [Scanned.value] using this
  · intro h49
    have hs := scan_number_zero_led true t [93] ht h49
    have hX : peek t.zero_led_text = 45 ∨ (48 ≤ peek t.zero_led_text ∧
        peek t.zero_led_text ≤ 57) := by
      unfold NumberToken.zero_led_text
      cases t.minus with
      | true => left; rfl
      | false => right; simp [peek]
    exact Arena.parse_number_element libc m t.zero_led_text _ hm hX hs rfl
  · have hs := scan_number_token true t [93] ht
    have hX : peek t.text = 45 ∨ (48 ≤ peek t.text ∧ peek t.text ≤ 57) := by
      unfold NumberToken.text
      cases t.minus with
      | true => left; rfl
      | false =>
        right
        simp only [Bool.false_eq_true, if_false, List.nil_append]
        rw [hpk]; exact hdig
    exact Arena.parse_number_element libc m t.text _ hm hX hs rfl

/-- Witness of C19 on the tokens `1` (for `[01]`) and `1e` (for `[1e]`). -/
theorem C19_number_grammar_not_enforced_witness :
    (91 :: (token_1.zero_led_text ++ [93]) = text_array_01 ∧
      91 :: (token_1e.text ++ [93]) = text_array_1e ∧
      token_1.value = Double.fin 1 0 ∧ token_1e.value = Double.fin 1 0) ∧
    (∃ m1 buf, Arena.cJSON_Parse libc_c99 Mem.init (91 :: (token_1.zero_led_text ++ [93])) =
        PResult.ok (m1, Mem.init.brk, buf) ∧
      SingleNumberArray m1 Mem.init.brk token_1.value) ∧
    (∃ m1 buf, Arena.cJSON_Parse libc_c99 Mem.init (91 :: (token_1e.text ++ [93])) =
        PResult.ok (m1, Mem.init.brk, buf) ∧
      SingleNumberArray m1 Mem.init.brk token_1e.value) :=
  ⟨⟨by decide, by decide, by decide, by decide⟩,
    (C19_number_grammar_not_enforced libc_c99 Mem.init token_1 (by decide) (by decide)).2.1
      (by decide),
    (C19_number_grammar_not_enforced libc_c99 Mem.init token_1e (by decide) (by decide)).2.2⟩

/-- C20: in `src/cJSON.c`, for every integer `n` of the `int` range, printing
`cJSON_CreateNumber(n)` with `cJSON_PrintUnformatted` or `cJSON_Print` yields exactly
the decimal representation of `n`: a `-` when `n` is negative, then the digits of the
absolute value, without leading zero, fraction or exponent. -/
theorem C20_integer_formatting (libc : Libc) (m : Mem) (n : Int) (padding estimate : Int)
    (fuel : Nat) (hm : 0 < m.brk) (h1 : INT_MIN ≤ n) (h2 : n ≤ INT_MAX) (hpad : 0 ≤ padding)
    (hfuel : 1 ≤ fuel) :
    ∃ ds, IsDigits ds ∧ digits_value ds 0 = n.natAbs ∧
      (if n = 0 then ds = [48] else 49 ≤ peek ds) ∧
      (∃ b, PerValue.cJSON_PrintUnformatted libc fuel
            (PerValue.cJSON_CreateNumber m (Double.fin n 0)).1
            (PerValue.cJSON_CreateNumber m (Double.fin n 0)).2 padding estimate = some b ∧
          b.text padding = (if n < 0 then [45] else []) ++ ds) ∧
      (∃ b, PerValue.cJSON_Print libc fuel
            (PerValue.cJSON_CreateNumber m (Double.fin n 0)).1
            (PerValue.cJSON_CreateNumber m (Double.fin n 0)).2 padding estimate = some b ∧
          b.text padding = (if n < 0 then [45] else []) ++ ds) := by
  obtain ⟨ds, e, hd, hv, hz⟩ := sprintf_d_decimal n
  have hroot : (PerValue.cJSON_CreateNumber m (Double.fin n 0)).2 ≠ 0 := by
    show m.brk ≠ 0; omega
  have hty : ((PerValue.cJSON_CreateNumber m (Double.fin n 0)).1.node
      (PerValue.cJSON_CreateNumber m (Double.fin n 0)).2).type % 256 = cJSON_Number := by
    simp [PerValue.cJSON_CreateNumber, cJSON_New_Item, Mem.set, cJSON_Number]
  have hvd : ((PerValue.cJSON_CreateNumber m (Double.fin n 0)).1.node
      (PerValue.cJSON_CreateNumber m (Double.fin n 0)).2).valuedouble = Double.fin n 0 := by
    simp [PerValue.cJSON_CreateNumber, cJSON_New_Item, Mem.set]
  have hvi : ((PerValue.cJSON_CreateNumber m (Double.fin n 0)).1.node
      (PerValue.cJSON_CreateNumber m (Double.fin n 0)).2).valueint = n := by
    have : ((PerValue.cJSON_CreateNumber m (Double.fin n 0)).1.node
        (PerValue.cJSON_CreateNumber m (Double.fin n 0)).2).valueint =
        (Double.fin n 0).toInt := by
      simp [PerValue.cJSON_CreateNumber, cJSON_New_Item, Mem.set]
    rw [this]; exact toInt_fin_zero n h1 h2
  have key : ∀ fmt, ∃ b, PerValue.print_json libc fuel
      (PerValue.cJSON_CreateNumber m (Double.fin n 0)).1
      (PerValue.cJSON_CreateNumber m (Double.fin n 0)).2 fmt padding estimate = some b ∧
      b.text padding = sprintf_d n := fun fmt =>
    print_json_integer libc _ _ n fmt padding estimate fuel hroot hty hvd hvi h1 h2 hpad hfuel
  refine ⟨ds, hd, hv, hz, ?_, ?_⟩
  · obtain ⟨b, hb, ht⟩ := key false
    exact ⟨b, hb, by rw [ht, e]⟩
  · obtain ⟨b, hb, ht⟩ := key true
    exact ⟨b, hb, by rw [ht, e]⟩

/-- Witness of C20: `cJSON_CreateNumber(3.0)` prints as `3`. -/
theorem C20_integer_formatting_witness :
    (PerValue.cJSON_PrintUnformatted libc_c99 2
        (PerValue.cJSON_CreateNumber Mem.init (Double.fin 3 0)).1
        (PerValue.cJSON_CreateNumber Mem.init (Double.fin 3 0)).2 0 0).map
      (fun b => b.text 0) = some [51] ∧
    ∃ ds, IsDigits ds ∧ digits_value ds 0 = (3 : Int).natAbs ∧
      (if (3 : Int) = 0 then ds = [48] else 49 ≤ peek ds) ∧
      (∃ b, PerValue.cJSON_PrintUnformatted libc_c99 2
            (PerValue.cJSON_CreateNumber Mem.init (Double.fin 3 0)).1
            (PerValue.cJSON_CreateNumber Mem.init (Double.fin 3 0)).2 0 0 = some b ∧
          b.text 0 = (if (3 : Int) < 0 then [45] else []) ++ ds) ∧
      (∃ b, PerValue.cJSON_Print libc_c99 2
            (PerValue.cJSON_CreateNumber Mem.init (Double.fin 3 0)).1
            (PerValue.cJSON_CreateNumber Mem.init (Double.fin 3 0)).2 0 0 = some b ∧
          b.text 0 = (if (3 : Int) < 0 then [45] else []) ++ ds) :=
  ⟨by decide,
    C20_integer_formatting libc_c99 Mem.init 3 0 0 2 (by decide) (by decide) (by decide)
      (by decide) (by decide)⟩

/-- C21 (code bug): in the arena variant a number node whose value is not finite does
not print as `null`. The `null` that `print_number` stores for such a value is
overwritten by the next statement, which is not in an `else` branch: NaN goes to the
`%f` conversion and the infinities go to the `%e` conversion of the C library, in both
modes. With the C99 conversions the printed texts are `nan`, `inf` and `-inf`. -/
theorem C21_nonfinite_numbers_do_not_print_null :
    (∀ (libc : Libc) (item : cJSON) (b : cJSON_Buf),
      Arena.print_number libc { item with valuedouble := Double.nan } b =
        cJSON_Buf_Copy_Str b (libc.sprintf_f Double.nan)) ∧
    (∀ (libc : Libc) (item : cJSON) (b : cJSON_Buf) (neg : Bool),
      Arena.print_number libc { item with valuedouble := Double.inf neg } b =
        cJSON_Buf_Copy_Str b (libc.sprintf_e (Double.inf neg))) ∧
    ((Arena.cJSON_PrintUnformatted libc_c99 2 (Arena.cJSON_CreateNumber Mem.init Double.nan).1
        (Arena.cJSON_CreateNumber Mem.init Double.nan).2).map (fun b => b.text 0) =
      some text_nan) ∧
    ((Arena.cJSON_Print libc_c99 2 (Arena.cJSON_CreateNumber Mem.init Double.nan).1
        (Arena.cJSON_CreateNumber Mem.init Double.nan).2).map (fun b => b.text 0) =
      some text_nan) ∧
    ((Arena.cJSON_PrintUnformatted libc_c99 2
        (Arena.cJSON_CreateNumber Mem.init (Double.inf false)).1
        (Arena.cJSON_CreateNumber Mem.init (Double.inf false)).2).map (fun b => b.text 0) =
      some text_inf) ∧
    ((Arena.cJSON_PrintUnformatted libc_c99 2
        (Arena.cJSON_CreateNumber Mem.init (Double.inf true)).1
        (Arena.cJSON_CreateNumber Mem.init (Double.inf true)).2).map (fun b => b.text 0) =
      some text_minus_inf) := by
  refine ⟨fun libc item b => rfl, fun libc item b neg => ?_, by decide, by decide, by decide,
    by decide⟩
  cases neg <;> rfl

/-- C22 (counterexample): the pretty text of the object `{"a":1}` in the arena variant
has a tab, not a space, after the colon, so the member line the specification
describes does not occur in it. -/
theorem C22_colon_is_followed_by_tab :
    (Arena.cJSON_Print libc_c99 4 arena_object_a1 1).map (fun b => b.text 0) =
      some pretty_object_a1 ∧
    member_as_specified 0 str_a text_1 true = [9, 34, 97, 34, 58, 32, 49, 10] ∧
    ¬ (member_as_specified 0 str_a text_1 true <:+: pretty_object_a1) := by
  refine ⟨by decide, by decide, by decide⟩

/-- C22 (amended): in the arena variant an object at nesting depth `depth` whose
members have keys and whose member values print as `vt` is printed as an opening
brace, in pretty mode a newline, and for each member: in pretty mode `depth + 1` tabs,
the quoted key, a colon, in pretty mode one tab, the value, a comma unless the member
is the last one, and in pretty mode a newline; then the closing brace. An array whose
elements print as `vt` is printed with its elements separated by `, ` in pretty mode
and by `,` in compact mode. -/
theorem C22_print_layout (libc : Libc) (m : Mem) (fmt : Bool) (F depth item : Nat)
    (l : List Nat) (vt : Nat → Bytes) (b : cJSON_Buf) (hitem : item ≠ 0)
    (hl : Siblings m (m.node item).child l) (hb : BufOK b) (hF : l.length + 1 ≤ F)
    (hpv : ∀ c ∈ l, ∀ b0, BufOK b0 →
      ∃ b1, Arena.print_value libc m fmt F c (depth + 1) b0 = some b1 ∧ Emits b0 (vt c) b1) :
    ((m.node item).type % 256 = cJSON_Object →
      (∀ c ∈ l, (m.node c).string.isSome = true) →
      ∃ b1, Arena.print_value libc m fmt (F + 1) item depth b = some b1 ∧
        Emits b (object_layout fmt depth (l.map fun c => ((m.node c).key, vt c))) b1) ∧
    ((m.node item).type % 256 = cJSON_Array →
      ∃ b1, Arena.print_value libc m fmt (F + 1) item depth b = some b1 ∧
        Emits b (array_layout fmt (l.map vt)) b1) := by
  constructor
  · intro hty hk
    obtain ⟨b1, h1, e1⟩ := Copy_Char_ok b 123 hb
    obtain ⟨b2, h2, e2⟩ := copy_char_if_emits fmt b1 10 e1.1
    obtain ⟨b3, h3, e3⟩ := print_object_loop_layout
      (fun c b0 => Arena.print_value libc m fmt F c (depth + 1) b0) m fmt (depth + 1) vt l
      (m.node item).child F b2 hl e2.1 hF hk hpv
    obtain ⟨b4, h4, e4⟩ := Copy_Char_ok b3 125 e3.1
    refine ⟨b4, ?_, ?_⟩
    · simp [Arena.print_value, hitem, hty, print_object, h1, h2, h3, h4, cJSON_NULL,
        cJSON_False, cJSON_True, cJSON_Number, cJSON_String, cJSON_Array, cJSON_Object]
    · have := ((e1.trans e2).trans e3).trans e4
      simpa [object_layout, List.append_assoc] using this
  · intro hty
    obtain ⟨b1, h1, e1⟩ := Copy_Char_ok b 91 hb
    obtain ⟨b2, h2, e2⟩ := print_array_loop_layout
      (fun c b0 => Arena.print_value libc m fmt F c (depth + 1) b0) m fmt vt l
      (m.node item).child F b1 hl e1.1 hF hpv
    obtain ⟨b3, h3, e3⟩ := Copy_Char_ok b2 93 e2.1
    refine ⟨b3, ?_, ?_⟩
    · simp [Arena.print_value, hitem, hty, print_array, h1, h2, h3, cJSON_NULL,
        cJSON_False, cJSON_True, cJSON_Number, cJSON_String, cJSON_Array]
    · have := (e1.trans e2).trans e3
      simpa [array_layout, List.append_assoc] using this

/-- Witness of C22 on the object `{"a":1}` in pretty mode at depth 0. -/
theorem C22_print_layout_witness :
    object_layout true 0 ([2].map fun c => ((arena_object_a1.node c).key, text_1)) =
      pretty_object_a1 ∧
    ∃ b1, Arena.print_value libc_c99 arena_object_a1 true (2 + 1) 1 0 small_buf = some b1 ∧
      Emits small_buf
        (object_layout true 0 ([2].map fun c => ((arena_object_a1.node c).key, text_1))) b1 :=
  ⟨by decide,
    (C22_print_layout libc_c99 arena_object_a1 true 2 0 1 [2] (fun _ => text_1) small_buf
      (by decide) (by decide) ⟨by decide, by decide⟩ (by decide)
      (fun c hc b0 hb0 => by
        have hc2 : c = 2 := by simpa using hc
        subst hc2
        exact Arena.print_value_integral libc_c99 arena_object_a1 true 1 2 1 1 b0 (by decide)
          hb0 (by decide) (by decide) (by decide))).1 (by decide) (by decide)⟩

/-- C23: in the arena variant, two texts that consist of the same tokens (structural
characters, string literals, numbers, literals, in any order, so the texts need not be
valid JSON) and differ only in the runs of bytes `0x01..0x20` before the first token
and between tokens are parsed alike by `cJSON_Parse`: either both parses succeed and
return the same tree (the same node store and root, and the same strings in the
arena), or both fail with the error position at the same token. -/
theorem C23_whitespace_insensitive (libc : Libc) (m : Mem) (L : List Spaced)
    (hw1 : spaced_wf true L) (hw2 : spaced_wf false L) :
    (∃ m1 b1 b2,
      Arena.cJSON_Parse libc m (spaced_text true L) = PResult.ok (m1, m.brk, b1) ∧
      Arena.cJSON_Parse libc m (spaced_text false L) = PResult.ok (m1, m.brk, b2) ∧
      b1.buf = b2.buf ∧ b1.offset = b2.offset) ∨
    (∃ l, l <:+ L ∧
      Arena.cJSON_Parse libc m (spaced_text true L) = PResult.fail (some (aligned_text true l)) ∧
      Arena.cJSON_Parse libc m (spaced_text false L) =
        PResult.fail (some (aligned_text false l))) := by
  rw [Arena.cJSON_Parse_eq, Arena.cJSON_Parse_eq, skip_spaced true L hw1,
    skip_spaced false L hw2]
  have hl1 := spaced_text_length true L hw1
  have hl2 := spaced_text_length false L hw2
  rcases sim_root L hw1 hw2 ((spaced_text true L).length + 1) ((spaced_text false L).length + 1)
      (by omega) (by omega)
      { mem := (cJSON_New_Item m).1,
        aux := Arena.cJSON_Buf_Init libc (strlen (spaced_text true L)) 0 }
      { mem := (cJSON_New_Item m).1,
        aux := Arena.cJSON_Buf_Init libc (strlen (spaced_text false L)) 0 }
      m.brk ⟨rfl, rfl, rfl⟩ with
    ⟨t1, t2, l', g1, g2, g3, g4, g5⟩ | ⟨l', g1, g2, g3⟩
  · rw [g4, g5]
    exact Or.inl ⟨t1.mem, t1.aux, t2.aux, rfl, by rw [g3.1], g3.2.1, g3.2.2⟩
  · rw [g2, g3]
    exact Or.inr ⟨l', g1, rfl, rfl⟩

/-- Witness of C23 on `{"a":[1,true]}` and `{ "a" : [ 1 ,` newline tab `true ] }`, which
both parse, and on `[1 1]` and `[1` tab `1]`, which both fail at the second `1`. -/
theorem C23_whitespace_insensitive_witness :
    (spaced_text true spaced_sample =
        [123, 34, 97, 34, 58, 91, 49, 44, 116, 114, 117, 101, 93, 125] ∧
      spaced_text false spaced_sample =
        [123, 32, 34, 97, 34, 32, 58, 32, 91, 32, 49, 32, 44, 10, 9, 116, 114, 117, 101, 32,
          93, 32, 125] ∧
      (Arena.cJSON_Parse libc_c99 Mem.init (spaced_text true spaced_sample)).is_ok = true ∧
      (Arena.cJSON_Parse libc_c99 Mem.init (spaced_text true spaced_malformed)).error =
        some [49, 93]) ∧
    ((∃ m1 b1 b2,
        Arena.cJSON_Parse libc_c99 Mem.init (spaced_text true spaced_sample) =
          PResult.ok (m1, Mem.init.brk, b1) ∧
        Arena.cJSON_Parse libc_c99 Mem.init (spaced_text false spaced_sample) =
          PResult.ok (m1, Mem.init.brk, b2) ∧
        b1.buf = b2.buf ∧ b1.offset = b2.offset) ∨
      (∃ l, l <:+ spaced_sample ∧
        Arena.cJSON_Parse libc_c99 Mem.init (spaced_text true spaced_sample) =
          PResult.fail (some (aligned_text true l)) ∧
        Arena.cJSON_Parse libc_c99 Mem.init (spaced_text false spaced_sample) =
          PResult.fail (some (aligned_text false l)))) ∧
    ((∃ m1 b1 b2,
        Arena.cJSON_Parse libc_c99 Mem.init (spaced_text true spaced_malformed) =
          PResult.ok (m1, Mem.init.brk, b1) ∧
        Arena.cJSON_Parse libc_c99 Mem.init (spaced_text false spaced_malformed) =
          PResult.ok (m1, Mem.init.brk, b2) ∧
        b1.buf = b2.buf ∧ b1.offset = b2.offset) ∨
      (∃ l, l <:+ spaced_malformed ∧
        Arena.cJSON_Parse libc_c99 Mem.init (spaced_text true spaced_malformed) =
          PResult.fail (some (aligned_text true l)) ∧
        Arena.cJSON_Parse libc_c99 Mem.init (spaced_text false spaced_malformed) =
          PResult.fail (some (aligned_text false l)))) :=
  ⟨⟨by decide, by decide, by decide, by decide⟩,
    C23_whitespace_insensitive libc_c99 Mem.init spaced_sample (by decide) (by decide),
    C23_whitespace_insensitive libc_c99 Mem.init spaced_malformed (by decide) (by decide)⟩

/-- C24: on a buffer with capacity at least 1, `cJSON_Buf_Check` succeeds, leaves the
cursor and the bytes unchanged and ends with `capacity' - cursor > additional`, where
`capacity'` is the old capacity if that already held, and else `capacity * 2 ^ k` for
the least `k >= 1` for which it holds. This needs neither `cursor <= capacity` nor
`additional >= 0`. -/
theorem C24_buffer_ensure (b : cJSON_Buf) (additional : Int) (hcap : 1 ≤ b.len) :
    ∃ b1, cJSON_Buf_Check b additional = some b1 ∧ b1.buf = b.buf ∧ b1.offset = b.offset ∧
      b1.len - b1.offset > additional ∧
      (b.len - b.offset > additional → b1.len = b.len) ∧
      (¬ b.len - b.offset > additional → ∃ k, 1 ≤ k ∧ b1.len = b.len * 2 ^ k ∧
        ∀ j, 1 ≤ j → j < k → b.len * 2 ^ j - b.offset ≤ additional) :=
  Buf_Check_grows b additional hcap

/-- Witness of C24: capacity 4, cursor 1, 9 more bytes: the capacity becomes 16. -/
theorem C24_buffer_ensure_witness :
    (cJSON_Buf_Check small_buf 9).map (fun b => (b.len, b.offset)) = some (16, 1) ∧
    ∃ b1, cJSON_Buf_Check small_buf 9 = some b1 ∧ b1.buf = small_buf.buf ∧
      b1.offset = small_buf.offset ∧ b1.len - b1.offset > 9 ∧
      (small_buf.len - small_buf.offset > 9 → b1.len = small_buf.len) ∧
      (¬ small_buf.len - small_buf.offset > 9 → ∃ k, 1 ≤ k ∧ b1.len = small_buf.len * 2 ^ k ∧
        ∀ j, 1 ≤ j → j < k → small_buf.len * 2 ^ j - small_buf.offset ≤ 9) :=
  ⟨by decide, C24_buffer_ensure small_buf 9 (by decide)⟩

/-- C25 (counterexample): `cJSON_Buf_Init` of the arena variant with capacity 0 and
reserved prefix 1 yields a buffer whose cursor exceeds its capacity; and on the buffer
that `cJSON_Buf_Init` of `src/cJSON.c` yields for capacity 0 and prefix 0 the doubling
loop of `cJSON_Buf_Check` never exits, whatever the fuel. -/
theorem C25_cursor_exceeds_capacity :
    (Arena.cJSON_Buf_Init libc_c99 0 1).len < (Arena.cJSON_Buf_Init libc_c99 0 1).offset ∧
    (PerValue.cJSON_Buf_Init libc_c99 0 0).len = 0 ∧
    ∀ fuel : Nat, cJSON_Buf_Check_fuel fuel (PerValue.cJSON_Buf_Init libc_c99 0 0) 1 = none := by
  refine ⟨by decide, by decide, fun fuel => ?_⟩
  have h : ∀ (fuel : Nat), grow_size 0 1 fuel 0 = none := by
    intro fuel
    induction fuel with
    | zero => rfl
    | succ k ih => rw [grow_size, if_pos (by decide)]; simpa using ih
  show (if (0 : Int) + 0 - 0 > 1 then _ else _) = none
  rw [if_neg (by decide)]
  show (match grow_size 0 1 fuel ((0 + 0) * 2) with
    | none => none
    | some new_size => some _) = none
  rw [show ((0 : Int) + 0) * 2 = 0 from rfl, h fuel]

/-- C25 (amended): on a buffer whose capacity is at least 1 and whose cursor lies
between 0 and the capacity, every sequence of appends succeeds and ends in a buffer
whose cursor does not exceed the capacity; and every further append succeeds, stores
at indices from the cursor up to an index below the capacity (the terminating NUL of
`strcpy` included), and leaves the cursor below the capacity. -/
theorem C25_capacity_invariant (b0 : cJSON_Buf) (ops : List BufOp) (hcap : 1 ≤ b0.len)
    (hcur : 0 ≤ b0.offset) (hle : b0.offset ≤ b0.len) :
    ∃ b, run_appends ops b0 = some b ∧ 0 ≤ b.offset ∧ b.offset ≤ b.len ∧
      ∀ op : BufOp, ∃ b1, op.apply b = some b1 ∧ b.offset ≤ op.last_index b ∧
        op.last_index b < b1.len ∧ b1.offset < b1.len := by
  obtain ⟨b, e, g1, g2, g3⟩ := run_appends_invariant ops b0 hcap hcur hle
  refine ⟨b, e, g2, g3, fun op => ?_⟩
  obtain ⟨b1, e1, _, _, k3, k4, k5⟩ := append_keeps_invariant op b g1 g2
  exact ⟨b1, e1, k4, k5, k3⟩

/-- Witness of C25 on the buffer `cJSON_Buf_Init(3, 1)` of `src/cJSON.c` and three
appended strings. -/
theorem C25_capacity_invariant_witness :
    (run_appends (three_strings.map BufOp.copy_str) small_buf).map
      (fun b => (b.len, b.offset)) = some (16, 10) ∧
    ∃ b, run_appends (three_strings.map BufOp.copy_str) small_buf = some b ∧ 0 ≤ b.offset ∧
      b.offset ≤ b.len ∧
      ∀ op : BufOp, ∃ b1, op.apply b = some b1 ∧ b.offset ≤ op.last_index b ∧
        op.last_index b < b1.len ∧ b1.offset < b1.len :=
  ⟨by decide,
    C25_capacity_invariant small_buf (three_strings.map BufOp.copy_str) (by decide) (by decide)
      (by decide)⟩

/-- C28: for every NUL-free byte string `s`, `print_string_ptr` emits the literal that
consists of a quote, the escaped form of every byte as the specification words it, and
a quote; and `parse_string` of the arena variant applied to that literal succeeds,
consumes exactly the literal and stores exactly `s`. -/
theorem C28_string_escape_round_trip (s rest : Bytes) (b : cJSON_Buf) (st : PState cJSON_Buf)
    (item : Nat) (hs : IsCStr s) (hb : BufOK b) :
    ∃ b1, print_string_ptr (some s) b = some b1 ∧
      b1.written = b.written ++ (34 :: (s.flatMap escape_as_specified ++ [34])) ∧
      Arena.parse_string st item ((34 :: (s.flatMap escape_as_specified ++ [34])) ++ rest) =
        PResult.ok (Arena.stored st item s, rest) ∧
      ((Arena.stored st item s).mem.node item).valuestring = some s := by
  obtain ⟨b1, h1, e1⟩ := print_string_ptr_spec s b hb
  have hq : quote s = 34 :: (s.flatMap escape_as_specified ++ [34]) := by
    rw [quote, escape_as_flatMap s hs]
  refine ⟨b1, h1, ?_, ?_, by simp [Arena.stored]⟩
  · rw [← hq]; exact e1.2
  · rw [← hq]; exact Arena.arena_string_quote st item s rest hs

/-- Witness of C28 on the string `a"`, tab, `0x01`, `0xC8`, which prints as
`"a\"\t\u0001` followed by the byte `0xC8` and the closing quote. -/
theorem C28_string_escape_round_trip_witness :
    34 :: (str_mixed.flatMap escape_as_specified ++ [34]) =
      [34, 97, 92, 34, 92, 116, 92, 117, 48, 48, 48, 49, 200, 34] ∧
    ∃ b1, print_string_ptr (some str_mixed) small_buf = some b1 ∧
      b1.written = small_buf.written ++ (34 :: (str_mixed.flatMap escape_as_specified ++ [34])) ∧
      Arena.parse_string arena_start 1
          ((34 :: (str_mixed.flatMap escape_as_specified ++ [34])) ++ [93]) =
        PResult.ok (Arena.stored arena_start 1 str_mixed, [93]) ∧
      ((Arena.stored arena_start 1 str_mixed).mem.node 1).valuestring = some str_mixed :=
  ⟨by decide,
    C28_string_escape_round_trip str_mixed [93] small_buf arena_start 1 (by decide)
      ⟨by decide, by decide⟩⟩

/-- C29 (code bug): the two `parse_number` differ on a point that is followed by no
digit. On `1.]` the one of `src/cJSON.c` enters the fraction loop, takes `]` for a
digit and consumes all three bytes with the value 5.5, while the one of the arena
variant, which looks at the byte after the point first, consumes `1` with the value 1.
On every text in which each point is followed by a digit the two consume the same
bytes and store the same value. -/
theorem C29_parse_number_differs_after_point :
    (PerValue.parse_number Mem.init 1 text_1_point_bracket).2 = [] ∧
    ((PerValue.parse_number Mem.init 1 text_1_point_bracket).1.node 1).valuedouble =
      Double.fin 55 (-1) ∧
    (Arena.parse_number Mem.init 1 text_1_point_bracket).2 = [46, 93] ∧
    ((Arena.parse_number Mem.init 1 text_1_point_bracket).1.node 1).valuedouble =
      Double.fin 1 0 ∧
    (∀ (m : Mem) (item : Nat) (num : Bytes), PointsBeforeDigits num →
      (PerValue.parse_number m item num).2 = (Arena.parse_number m item num).2 ∧
      ((PerValue.parse_number m item num).1.node item).valuedouble =
        ((Arena.parse_number m item num).1.node item).valuedouble) := by
  refine ⟨by decide, by decide, by decide, by decide, fun m item num hg => ?_⟩
  simp [PerValue.parse_number, Arena.parse_number, scan_number_agree num hg]

/-- C30: in the arena variant a text whose first byte after leading white space is
neither `{` nor `[` makes `cJSON_Parse` fail, and the error position is that byte:
its offset is the length of the leading white space. The end of the input counts as
such a byte. -/
theorem C30_root_must_be_container (libc : Libc) (m : Mem) (value : Bytes)
    (h1 : peek (skip value) ≠ 123) (h2 : peek (skip value) ≠ 91) :
    Arena.cJSON_Parse libc m value = PResult.fail (some (skip value)) ∧
    ∃ ws, IsSpace ws ∧ value = ws ++ skip value ∧
      error_offset value (skip value) = ws.length := by
  refine ⟨?_, ?_⟩
  · simp only [Arena.cJSON_Parse, Arena.cJSON_Parse_fuel, Arena.parse_root, cJSON_New_Item,
      if_neg h1, if_neg h2]
  · obtain ⟨ws, hws, e⟩ := skip_splits value
    refine ⟨ws, hws, e, ?_⟩
    have := congrArg List.length e
    rw [List.length_append] at this
    unfold error_offset
    omega

/-- Witness of C30 on the text ` true`: the parse fails at offset 1. -/
theorem C30_root_must_be_container_witness :
    skip text_space_true = [116, 114, 117, 101] ∧
    Arena.cJSON_Parse libc_c99 Mem.init text_space_true =
      PResult.fail (some (skip text_space_true)) ∧
    ∃ ws, IsSpace ws ∧ text_space_true = ws ++ skip text_space_true ∧
      error_offset text_space_true (skip text_space_true) = ws.length :=
  ⟨by decide,
    C30_root_must_be_container libc_c99 Mem.init text_space_true (by decide) (by decide)⟩

/-- C31: trailing text is ignored in the arena variant. For every text `t` on which
`cJSON_Parse` succeeds and every byte string `s`, `cJSON_Parse` succeeds on `t ++ s`
and returns the same tree: the same node store, the same root, and an arena with the
same bytes and the same cursor (the capacity of the arena is `strlen` of the text
parsed, so it may differ). Nothing behind the closing bracket of the root is read. -/
theorem C31_trailing_text_ignored (libc : Libc) (m : Mem) (t s : Bytes)
    (h : (Arena.cJSON_Parse libc m t).is_ok = true) :
    ∃ m1 root b b1, Arena.cJSON_Parse libc m t = PResult.ok (m1, root, b) ∧
      Arena.cJSON_Parse libc m (t ++ s) = PResult.ok (m1, root, b1) ∧
      b1.buf = b.buf ∧ b1.offset = b.offset ∧
      b.len = strlen t ∧ b1.len = strlen (t ++ s) := by
  cases hp : Arena.cJSON_Parse libc m t with
  | ok p =>
    obtain ⟨m1, root, b⟩ := p
    obtain ⟨b1, h1, h2, h3⟩ := Arena.cJSON_Parse_stable libc m t s m1 root b hp
    exact ⟨m1, root, b, b1, rfl, h1, h2, h3, (Arena.cJSON_Parse_cursor libc m t m1 root b hp).1,
      (Arena.cJSON_Parse_cursor libc m (t ++ s) m1 root b1 h1).1⟩
  | fail ep => rw [hp] at h; cases h
  | stuck => rw [hp] at h; cases h

/-- Witness of C31: the text `{"a":[1]}` parses, and so it does with `.5e3]`, a NUL
and one more byte after it, with the same tree; the arena has 9 bytes in the first run
and 14 in the second, the length of the text up to the NUL. -/
theorem C31_trailing_text_ignored_witness :
    (Arena.cJSON_Parse libc_c99 Mem.init text_object_a1).is_ok = true ∧
    (Arena.cJSON_Parse libc_c99 Mem.init text_object_a1).value.map
      (fun r => r.2.2.len) = some 9 ∧
    (Arena.cJSON_Parse libc_c99 Mem.init (text_object_a1 ++ text_trailing)).value.map
      (fun r => r.2.2.len) = some 14 ∧
    ∃ m1 root b b1, Arena.cJSON_Parse libc_c99 Mem.init text_object_a1 =
        PResult.ok (m1, root, b) ∧
      Arena.cJSON_Parse libc_c99 Mem.init (text_object_a1 ++ text_trailing) =
        PResult.ok (m1, root, b1) ∧
      b1.buf = b.buf ∧ b1.offset = b.offset ∧
      b.len = strlen text_object_a1 ∧ b1.len = strlen (text_object_a1 ++ text_trailing) :=
  ⟨by decide, by decide, by decide, C31_trailing_text_ignored libc_c99 Mem.init text_object_a1 text_trailing
    (by decide)⟩

/-- C32: in the arena variant every byte that `parse_string` stores during `cJSON_Parse`
lies inside the arena, whose capacity `L` is `strlen` of the text (the number of bytes
before its first NUL), and the cursor never leaves it. `cJSON_Parse_checked` is
`cJSON_Parse` with a bounds check at every call of `parse_string`, covering all bytes
the call stores (also those stored before it fails) and the cursor it leaves; it has no
outcome when the check fails. For every text it has the outcome of `cJSON_Parse`, which
is an outcome, so the check never fails; and after a successful parse the cursor lies
between 0 and `L`. -/
theorem C32_arena_writes_stay_in_bounds (libc : Libc) (m : Mem) (value : Bytes) :
    Arena.cJSON_Parse_checked libc m value = Arena.cJSON_Parse libc m value ∧
    Arena.cJSON_Parse libc m value ≠ PResult.stuck ∧
    ∀ m1 root b, Arena.cJSON_Parse libc m value = PResult.ok (m1, root, b) →
      b.len = strlen value ∧ 0 ≤ b.offset ∧ b.offset ≤ strlen value := by
  obtain ⟨e1, e2⟩ := Arena.cJSON_Parse_agree Arena.parse_string_checked
    (fun s i t h => Arena.parse_string_checked_eq s i t h) libc (value.length + 1) m value
    (Nat.le_refl _)
  exact ⟨e1, e2, fun m1 root b h => Arena.cJSON_Parse_cursor libc m value m1 root b h⟩

/-- Witness of C32 on the text `["\q"]` followed by a NUL and two more bytes, a C
string of length 6: the parse with the bounds check succeeds like the parse without it,
the arena has 6 bytes and the cursor ends at 2, behind the byte `q` and its NUL. -/
theorem C32_arena_writes_stay_in_bounds_witness :
    strlen text_escape_q_nul = 6 ∧
    (Arena.cJSON_Parse_checked libc_c99 Mem.init text_escape_q_nul).is_ok = true ∧
    (Arena.cJSON_Parse libc_c99 Mem.init text_escape_q_nul).value.map
      (fun r => (r.2.2.len, r.2.2.offset)) = some (6, 2) ∧
    (Arena.cJSON_Parse_checked libc_c99 Mem.init text_escape_q_nul =
        Arena.cJSON_Parse libc_c99 Mem.init text_escape_q_nul ∧
      Arena.cJSON_Parse libc_c99 Mem.init text_escape_q_nul ≠ PResult.stuck ∧
      ∀ m1 root b, Arena.cJSON_Parse libc_c99 Mem.init text_escape_q_nul =
          PResult.ok (m1, root, b) →
        b.len = strlen text_escape_q_nul ∧ 0 ≤ b.offset ∧
          b.offset ≤ strlen text_escape_q_nul) :=
  ⟨by decide, by decide, by decide,
    C32_arena_writes_stay_in_bounds libc_c99 Mem.init text_escape_q_nul⟩

/-- C33: in the arena variant `cJSON_Parse` has an outcome for every text, the same one
for every amount of fuel above the length of the text; `parse_value` has an outcome
whenever the fuel exceeds the length of its text, and `parse_string` always. Every
production that succeeds returns a position strictly behind the one it was called at,
reached over bytes none of which is the NUL, so never behind the terminating NUL:
`parse_value`, `parse_string`, `parse_number` (which `parse_value` calls on `-` or a
digit only), `parse_array` and `parse_object`. -/
theorem C33_parser_progress_and_termination (libc : Libc) (m : Mem) (value : Bytes) :
    (∀ fuel, value.length + 1 ≤ fuel →
      Arena.cJSON_Parse_fuel libc fuel m value = Arena.cJSON_Parse libc m value) ∧
    Arena.cJSON_Parse libc m value ≠ PResult.stuck ∧
    (∀ fuel s item text, text.length < fuel →
      Arena.parse_value fuel s item text ≠ PResult.stuck) ∧
    (∀ fuel s item text s1 rest,
      Arena.parse_value fuel s item text = PResult.ok (s1, rest) → Progress text rest) ∧
    (∀ s item text, Arena.parse_string s item text ≠ PResult.stuck) ∧
    (∀ s item text s1 rest,
      Arena.parse_string s item text = PResult.ok (s1, rest) → Progress text rest) ∧
    (∀ m1 item text, peek text = 45 ∨ (48 ≤ peek text ∧ peek text ≤ 57) →
      Progress text (Arena.parse_number m1 item text).2) ∧
    (∀ fuel s item text s1 rest,
      parse_array (Arena.parse_value fuel) fuel s item text = PResult.ok (s1, rest) →
      Progress text rest) ∧
    (∀ fuel s item text s1 rest,
      parse_object Arena.parse_string (Arena.parse_value fuel) fuel s item text =
        PResult.ok (s1, rest) → Progress text rest) := by
  have hadv : ∀ F s i t s1 r, Arena.parse_value F s i t = PResult.ok (s1, r) →
      Advances s t s1 r := fun F s i t s1 r h => (Arena.parse_value_advances F s i t s1 r h).1
  refine ⟨fun fuel hf => ?_, ?_, fun fuel s item text h => Arena.parse_value_total fuel s item text h,
    fun fuel s item text s1 rest h => ?_, Arena.parse_string_total,
    fun s item text s1 rest h => (Arena.parse_string_ok s item text s1 rest h).1,
    fun m1 item text h => ?_, fun fuel s item text s1 rest h => ?_,
    fun fuel s item text s1 rest h => ?_⟩
  · rw [← Arena.cJSON_Parse_with_self]
    exact (Arena.cJSON_Parse_agree Arena.parse_string (fun _ _ _ _ => rfl) libc fuel m value
      hf).1
  · exact (Arena.cJSON_Parse_agree Arena.parse_string (fun _ _ _ _ => rfl) libc
      (value.length + 1) m value (Nat.le_refl _)).2
  · obtain ⟨a, hl⟩ := Arena.parse_value_advances fuel s item text s1 rest h
    exact Progress.of_passes a.1 hl
  · exact Progress.of_passes (scan_number_passes text) (scan_number_progress text h)
  · obtain ⟨a, hl⟩ := parse_array_advances _ (hadv fuel) fuel s item text s1 rest h
    exact Progress.of_passes a.1 hl
  · obtain ⟨a, hl⟩ := parse_object_advances _ _ Arena.parse_string_advances (hadv fuel) fuel s
      item text s1 rest h
    exact Progress.of_passes a.1 hl

/-- Witness of C33 on the text `{"a":[1]}`: the parse has an outcome, with ten units
of fuel as with a hundred, and it is a success. -/
theorem C33_parser_progress_and_termination_witness :
    (Arena.cJSON_Parse libc_c99 Mem.init text_object_a1).is_ok = true ∧
    Arena.cJSON_Parse_fuel libc_c99 100 Mem.init text_object_a1 =
      Arena.cJSON_Parse libc_c99 Mem.init text_object_a1 ∧
    Arena.cJSON_Parse libc_c99 Mem.init text_object_a1 ≠ PResult.stuck :=
  ⟨by decide,
    (C33_parser_progress_and_termination libc_c99 Mem.init text_object_a1).1 100 (by decide),
    (C33_parser_progress_and_termination libc_c99 Mem.init text_object_a1).2.1⟩

/-- C34: on a buffer of capacity 0 with a cursor that is not negative, as
`cJSON_Buf_Init(buf, 0, 0)` makes it, the doubling loop of `cJSON_Buf_Check` does not
exit for any `additional >= 0`, whatever the number of rounds, since twice 0 is 0; on a
buffer of capacity at least 1 it exits. -/
theorem C34_ensure_diverges_on_empty_buffer (libc : Libc) (additional : Int)
    (hadd : 0 ≤ additional) :
    (∀ fuel, cJSON_Buf_Check_fuel fuel (Arena.cJSON_Buf_Init libc 0 0) additional = none) ∧
    (∀ (b : cJSON_Buf) (fuel : Nat), b.len = 0 → 0 ≤ b.offset →
      cJSON_Buf_Check_fuel fuel b additional = none) ∧
    (∀ b : cJSON_Buf, 1 ≤ b.len →
      ∃ fuel b1, cJSON_Buf_Check_fuel fuel b additional = some b1) := by
  have h2 : ∀ (b : cJSON_Buf) (fuel : Nat), b.len = 0 → 0 ≤ b.offset →
      cJSON_Buf_Check_fuel fuel b additional = none := by
    intro b fuel hl ho
    unfold cJSON_Buf_Check_fuel
    rw [if_neg (by omega), hl]
    simp [grow_size_zero b.offset additional ho hadd fuel]
  refine ⟨fun fuel => h2 _ fuel rfl (Int.le_refl _), h2, fun b hb => ?_⟩
  obtain ⟨b1, e, _⟩ := Buf_Check_grows b additional hb
  exact ⟨_, b1, e⟩

/-- Witness of C34 with `additional = 0`: a hundred rounds of the loop do not end it on
the empty buffer, and on a buffer of capacity 1 the check ends with capacity 2. -/
theorem C34_ensure_diverges_on_empty_buffer_witness :
    (cJSON_Buf_Check_fuel 100 (Arena.cJSON_Buf_Init libc_c99 0 0) 0).isNone = true ∧
    ((cJSON_Buf_Check_fuel 3 (Arena.cJSON_Buf_Init libc_c99 1 1) 0).map
      fun b => (b.len, b.offset)) = some (2, 1) ∧
    ((∀ fuel, cJSON_Buf_Check_fuel fuel (Arena.cJSON_Buf_Init libc_c99 0 0) 0 = none) ∧
      (∀ (b : cJSON_Buf) (fuel : Nat), b.len = 0 → 0 ≤ b.offset →
        cJSON_Buf_Check_fuel fuel b 0 = none) ∧
      (∀ b : cJSON_Buf, 1 ≤ b.len → ∃ fuel b1, cJSON_Buf_Check_fuel fuel b 0 = some b1)) :=
  ⟨by decide, by decide, C34_ensure_diverges_on_empty_buffer libc_c99 0 (by decide)⟩

end LibJson
